import Mathlib

/-!
# go-fragment: the selection-expression parser and the selection trees

A shallow embedding of `parseunstructured.go`, of `unstructured.go` and of
the typed selection tree of `struct.go`, `parsestruct.go` and
`unstructuredtostruct.go`, followed by the properties proved about them.

Conventions of the embedding.

* A `[]rune` is a `List Char`; a Go `string` is a `String`; the conversions
  `[]rune(s)` and `string(rs)` are `String.toList` and `String.mk`.
* A Go function either returns or panics: `Run`.  A Go result `(v, err)` is
  the pair `(v, none)` when `err == nil` and `(v, some msg)` otherwise, where
  `msg` is the text of `err.Error()`.
* A Go `map[string]Fragment` is a list of entries with pairwise different
  keys.  Go leaves the order in which `range` visits a map unspecified: the
  order of the list is the order of one such visit, and every permutation of
  the list stands for the same map.
* A `for` loop over indices is a recursive function whose first `Nat`
  argument is the number of iterations still to run.
* `ParseUnstructured` on a `string` comes first; its other cases are
  `ParseUnstructuredValue`.  The untyped trees are those whose children are
  nil or `Unstructured` values.
-/

namespace Fragment

/-- Outcome of running a Go function: it returns `val`, or it panics with
`msg`.  `outOfFuel` is not a Go behaviour: it is what the embedding of the
recursive `parseString` answers when the recursion bound it was given is used
up. -/
inductive Run (α : Type) where
  | ret (val : α)
  | panic (msg : String)
  | outOfFuel
  deriving DecidableEq, Repr

/-- Untyped selection tree, `Unstructured` of `unstructured.go`: the field
`fields map[string]Fragment` is `none` for the nil map and `some entries` for
a map.  A child of type `Fragment` is `none` for the nil interface value and
`some u` for an `Unstructured` value. -/
inductive Unstructured where
  | mk (fields : Option (List (String × Option Unstructured)))
  deriving Repr

/-- Entries of a Go map from field names to children, in visiting order. -/
abbrev FieldMap := List (String × Option Unstructured)

/-- Map read with the comma-ok form, `v, ok := m[k]`: `none` when the key is
absent. -/
def mapLookup : FieldMap → String → Option (Option Unstructured)
  | [], _ => none
  | (k, v) :: rest, key => if k = key then some v else mapLookup rest key

/-- Map write `m[key] = v`: replaces the value of an existing key, adds the
entry otherwise. -/
def mapSet : FieldMap → String → Option Unstructured → FieldMap
  | [], key, v => [(key, v)]
  | (k, w) :: rest, key, v =>
    if k = key then (k, v) :: rest else (k, w) :: mapSet rest key v

namespace Unstructured

/-- The field `f.fields`. -/
def fields : Unstructured → Option FieldMap
  | mk fs => fs

/-- Go `len(f.fields)`, which is 0 for the nil map. -/
def fieldsLen (f : Unstructured) : Nat :=
  match f.fields with
  | none => 0
  | some m => m.length

/-- Source `IsUndefined`: `f.fields == nil`. -/
def IsUndefined (f : Unstructured) : Bool :=
  f.fields.isNone

/-- Source `definedCopy`: a fresh map that receives every entry of
`f.fields`. -/
def definedCopy (f : Unstructured) : Unstructured :=
  let newFields : FieldMap := []
  match f.fields with
  | none => mk (some newFields)
  | some m => mk (some (m.foldl (fun acc e => mapSet acc e.1 e.2) newFields))

/-- Source `HasByName`: true for the undefined tree, key presence
otherwise. -/
def HasByName (f : Unstructured) (field : String) : Bool :=
  match f.fields with
  | none => true
  | some m => (mapLookup m field).isSome

/-- Source `Add(fields ...string)`. -/
def Add (f : Unstructured) (names : List String) : Unstructured :=
  let f := f.definedCopy
  if f.fieldsLen = 0 then
    mk (some (names.foldl (fun acc field => mapSet acc field none) []))
  else
    mk (some (names.foldl
      (fun acc field => if (mk (some acc)).HasByName field then acc else mapSet acc field none)
      (f.fields.getD [])))

/-- Source `Set(fieldName, fieldFragment)`: panics on the nil interface
value. -/
def Set (f : Unstructured) (fieldName : String) (fieldFragment : Option Unstructured) :
    Run Unstructured :=
  match fieldFragment with
  | none =>
    .panic ("The fragment for field \"" ++ fieldName ++ "\" was attempted to be set to nil")
  | some child =>
    let f := f.definedCopy
    .ret (mk (some (mapSet (f.fields.getD []) fieldName (some child))))

/-- Source `Field`: the child stored under `field`, the nil interface value
when the tree is undefined or the key is absent. -/
def Field (f : Unstructured) (field : String) : Option Unstructured :=
  match f.fields with
  | some m => (mapLookup m field).getD none
  | none => none

/-- Source `IsEmpty`. -/
def IsEmpty (f : Unstructured) : Bool :=
  !f.IsUndefined && f.fieldsLen == 0

/-- Source `FieldsLen`. -/
def FieldsLen (f : Unstructured) : Nat :=
  match f.fields with
  | none => 0
  | some m => m.length

mutual
/-- Source `Expr`.  The loop `for fieldName, fieldFragment := range f.fields`
is `exprLoop`, run in the order of the entry list. -/
def Expr : Unstructured → String
  | mk none => ""
  | mk (some m) =>
    let expr := exprLoop m ""
    if expr = "" then "\x7b\x7d" else "\x7b " ++ expr ++ " \x7d"
/-- Body of the `range` loop of `Expr`, with the accumulator `expr`. -/
def exprLoop : List (String × Option Unstructured) → String → String
  | [], expr => expr
  | (fieldName, none) :: rest, expr =>
    let expr := if expr ≠ "" then expr ++ ", " else expr
    exprLoop rest (expr ++ fieldName)
  | (fieldName, some fieldFragment) :: rest, expr =>
    let expr := if expr ≠ "" then expr ++ ", " else expr
    let fieldExpr := Expr fieldFragment
    if fieldExpr ≠ "" then exprLoop rest (expr ++ (fieldName ++ " " ++ fieldExpr))
    else exprLoop rest (expr ++ fieldName)
end

end Unstructured

/-- Source `NewUnstructured`: the undefined tree `Unstructured{}`. -/
def NewUnstructured : Unstructured := .mk none

/-- Source `NewEmptyUnstructured`: the tree with an empty, non-nil map. -/
def NewEmptyUnstructured : Unstructured := .mk (some [])

/-- Constant `leftBrace`. -/
def leftBrace : Char := Char.ofNat 123

/-- Constant `rightBrace`. -/
def rightBrace : Char := Char.ofNat 125

/-- Constant `comma`. -/
def comma : Char := Char.ofNat 44

/-- Go `unicode.IsSpace` (standard library): the Latin-1 spaces
`\t \n \v \f \r`, space, U+0085, U+00A0, and the code points with the
Unicode White_Space property. -/
def isSpace (r : Char) : Bool :=
  let n := r.toNat
  (9 ≤ n && n ≤ 13) || n == 32 || n == 133 || n == 160 || n == 5760 ||
  (8192 ≤ n && n ≤ 8202) || n == 8232 || n == 8233 || n == 8239 || n == 8287 || n == 12288

/-- Go slice expression `chars[lo:hi]` for `0 ≤ lo ≤ hi ≤ len(chars)`. -/
def slice (chars : List Char) (lo hi : Nat) : List Char :=
  (chars.take hi).drop lo

/-- Go slice expression `chars[lo:]` for `0 ≤ lo ≤ len(chars)`. -/
def sliceFrom (chars : List Char) (lo : Nat) : List Char :=
  chars.drop lo

/-- First loop of `trimFragmentChars`, `for i := 0; i < charsLen; i++`, run
from index `i` with `n = charsLen - i` iterations left; the result is the
value of `left` after the loop. -/
def trimLeftLoop (chars : List Char) : Nat → Nat → Run Int
  | 0, _ => .ret (-1)
  | n + 1, i =>
    match chars[i]? with
    | none => .panic ("runtime error: index out of range [" ++ toString i ++ "]")
    | some c => if isSpace c then trimLeftLoop chars n (i + 1) else .ret (i : Int)

/-- Second loop of `trimFragmentChars`, `for i := charsLen - 1; i >= left; i--`,
run from index `i` with `n = i - left + 1` iterations left; the result is the
value of `right` after the loop.  Reading `chars[i]` at a negative `i`
panics. -/
def trimRightLoop (chars : List Char) : Nat → Int → Run Int
  | 0, _ => .ret (-1)
  | n + 1, i =>
    if i < 0 then .panic ("runtime error: index out of range [" ++ toString i ++ "]")
    else
      match chars[i.toNat]? with
      | none => .panic ("runtime error: index out of range [" ++ toString i ++ "]")
      | some c => if isSpace c then trimRightLoop chars n (i - 1) else .ret i

/-- Source `trimFragmentChars`. -/
def trimFragmentChars (chars : List Char) : Run (List Char) :=
  let charsLen := chars.length
  if charsLen = 0 then .ret chars
  else
    match trimLeftLoop chars charsLen 0 with
    | .panic msg => .panic msg
    | .outOfFuel => .outOfFuel
    | .ret left =>
      match trimRightLoop chars ((charsLen : Int) - left).toNat ((charsLen : Int) - 1) with
      | .panic msg => .panic msg
      | .outOfFuel => .outOfFuel
      | .ret right =>
        if 0 ≤ left ∧ left ≤ right + 1 ∧ right + 1 ≤ (charsLen : Int) then
          .ret (slice chars left.toNat (right + 1).toNat)
        else .panic "runtime error: slice bounds out of range"

/-- Loop of `splitFragmentByComma`, `for i := 0; i < charsLen; i++`, run from
index `i` with `n = charsLen - i` iterations left and the current values of
`parts`, `partStart` and `braceDepth`; after the loop comes the final test on
`braceDepth`. -/
def splitFragmentByCommaLoop (chars : List Char) (maxIndex : Int) :
    Nat → Nat → List (List Char) → Nat → Nat → Run (List (List Char) × Option String)
  | 0, _, parts, _, braceDepth =>
    if braceDepth ≠ 0 then
      .ret (parts, some ("missing closing brace in \"" ++ String.mk chars ++ "\""))
    else .ret (parts, none)
  | n + 1, i, parts, partStart, braceDepth =>
    match chars[i]? with
    | none => .panic ("runtime error: index out of range [" ++ toString i ++ "]")
    | some char =>
      if char = rightBrace ∧ braceDepth = 0 then
        .ret (parts, some ("unexpected closing paranthesis at index " ++ toString i ++
          " in fragment \"" ++ String.mk chars ++ "\""))
      else
        let braceDepth :=
          if char = leftBrace then braceDepth + 1
          else if char = rightBrace then braceDepth - 1
          else braceDepth
        if (i : Int) = maxIndex then
          let partChars := sliceFrom chars partStart
          let parts := if partChars.length ≠ 0 then parts ++ [partChars] else parts
          splitFragmentByCommaLoop chars maxIndex n (i + 1) parts partStart braceDepth
        else if braceDepth = 0 ∧ char = comma then
          let partChars := slice chars partStart i
          let parts := if partChars.length ≠ 0 then parts ++ [partChars] else parts
          splitFragmentByCommaLoop chars maxIndex n (i + 1) parts (i + 1) braceDepth
        else
          splitFragmentByCommaLoop chars maxIndex n (i + 1) parts partStart braceDepth

/-- Source `splitFragmentByComma`. -/
def splitFragmentByComma (chars : List Char) (charsLen : Nat) :
    Run (List (List Char) × Option String) :=
  splitFragmentByCommaLoop chars ((charsLen : Int) - 1) charsLen 0 [] 0 0

/-- Loop of `splitFragment`, `for i := 0; i < charsLen; i++`, run from index
`i` with `n = charsLen - i` iterations left. -/
def splitFragmentLoop (chars : List Char) (charsLen : Nat) :
    Nat → Nat → List (List Char) → Nat → Nat → Run (List (List Char) × Option String)
  | 0, _, parts, _, braceDepth =>
    if braceDepth ≠ 0 then
      .ret (parts, some ("missing closing brace in \"" ++ String.mk chars ++ "\""))
    else .ret (parts, none)
  | n + 1, i, parts, partStart, braceDepth =>
    match chars[i]? with
    | none => .panic ("runtime error: index out of range [" ++ toString i ++ "]")
    | some char =>
      if char = leftBrace then
        if braceDepth = 0 then
          let partChars := slice chars partStart i
          let parts := if partChars.length ≠ 0 then parts ++ [partChars] else parts
          splitFragmentLoop chars charsLen n (i + 1) parts i (braceDepth + 1)
        else
          splitFragmentLoop chars charsLen n (i + 1) parts partStart (braceDepth + 1)
      else if char = rightBrace then
        if braceDepth = 0 then
          .ret (parts, some ("unexpected closing brace at index " ++ toString i ++
            " in \"" ++ String.mk chars ++ "\""))
        else if braceDepth - 1 = 0 then
          let partChars := slice chars partStart (i + 1)
          let parts := if partChars.length ≠ 0 then parts ++ [partChars] else parts
          splitFragmentLoop chars charsLen n (i + 1) parts (i + 1) (braceDepth - 1)
        else
          splitFragmentLoop chars charsLen n (i + 1) parts partStart (braceDepth - 1)
      else if (i : Int) = (charsLen : Int) - 1 then
        let partChars := sliceFrom chars partStart
        let parts := if partChars.length ≠ 0 then parts ++ [partChars] else parts
        splitFragmentLoop chars charsLen n (i + 1) parts partStart braceDepth
      else
        splitFragmentLoop chars charsLen n (i + 1) parts partStart braceDepth

/-- Source `splitFragment`. -/
def splitFragment (chars : List Char) (charsLen : Nat) :
    Run (List (List Char) × Option String) :=
  splitFragmentLoop chars charsLen charsLen 0 [] 0 0

/-- Go `fmt.Sprint` of a `[][]rune`: the code points in decimal, each slice
and the whole in square brackets, separated by spaces. -/
def sprintParts (parts : List (List Char)) : String :=
  "[" ++ " ".intercalate
    (parts.map (fun p => "[" ++ " ".intercalate (p.map (fun c => toString c.toNat)) ++ "]")) ++ "]"

/-- Loop `for _, fieldPartChars := range fieldParts` of `parseString`, with
the current value of `fragment`; `parseNested` is the recursive call of
`parseString`. -/
def parseFieldParts (parseNested : List Char → Run (Unstructured × Option String)) :
    List (List Char) → Unstructured → Run (Unstructured × Option String)
  | [], fragment => .ret (fragment, none)
  | fieldPartChars :: rest, fragment =>
    match trimFragmentChars fieldPartChars with
    | .panic msg => .panic msg
    | .outOfFuel => .outOfFuel
    | .ret fieldPartChars =>
      match splitFragment fieldPartChars fieldPartChars.length with
      | .panic msg => .panic msg
      | .outOfFuel => .outOfFuel
      | .ret (fieldPartSpaceParts, err) =>
        let fieldPartSpacePartsLen := fieldPartSpaceParts.length
        match err with
        | some e =>
          .ret (fragment, some ("failed parsing \"" ++ String.mk fieldPartChars ++ "\": " ++ e))
        | none =>
          if fieldPartSpacePartsLen > 2 then
            .ret (fragment, some ("failed parsing \"" ++ String.mk fieldPartChars ++
              "\": contains more than one space"))
          else
            match fieldPartSpaceParts[0]? with
            | none => .panic "runtime error: index out of range [0] with length 0"
            | some part0 =>
              match trimFragmentChars part0 with
              | .panic msg => .panic msg
              | .outOfFuel => .outOfFuel
              | .ret fieldName =>
                if fieldPartSpacePartsLen = 1 then
                  parseFieldParts parseNested rest (fragment.Add [String.mk fieldName])
                else if fieldPartSpacePartsLen = 2 then
                  match parseNested (fieldPartSpaceParts.getD 1 []) with
                  | .panic msg => .panic msg
                  | .outOfFuel => .outOfFuel
                  | .ret (_, some e) =>
                    .ret (fragment, some ("\"" ++ String.mk fieldName ++ "\": " ++ e))
                  | .ret (fieldFragment, none) =>
                    if fieldFragment.fields.isSome then
                      match fragment.Set (String.mk fieldName) (some fieldFragment) with
                      | .panic msg => .panic msg
                      | .outOfFuel => .outOfFuel
                      | .ret fragment => parseFieldParts parseNested rest fragment
                    else
                      parseFieldParts parseNested rest (fragment.Add [String.mk fieldName])
                else
                  .ret (fragment, some ("unexpected amount of parts " ++
                    sprintParts fieldPartSpaceParts))

/-- Source `parseString`; the first argument bounds the depth of the
recursion. -/
def parseString : Nat → List Char → Run (Unstructured × Option String)
  | 0, _ => .outOfFuel
  | fuel + 1, fragmentChars =>
    let fragmentCharsLen := fragmentChars.length
    let wrapped : Bool := decide (fragmentCharsLen > 1) &&
      fragmentChars[0]? == some leftBrace &&
      fragmentChars[fragmentCharsLen - 1]? == some rightBrace
    let emptyFragment : Bool := wrapped && !decide (fragmentCharsLen > 2)
    let fragmentChars :=
      if wrapped then
        if fragmentCharsLen > 2 then slice fragmentChars 1 (fragmentCharsLen - 1) else []
      else fragmentChars
    let fragmentCharsLen := fragmentChars.length
    if emptyFragment then .ret (NewEmptyUnstructured, none)
    else
      let fragment := NewUnstructured
      if fragmentCharsLen = 0 then .ret (fragment, none)
      else
        match splitFragmentByComma fragmentChars fragmentCharsLen with
        | .panic msg => .panic msg
        | .outOfFuel => .outOfFuel
        | .ret (_, some err) => .ret (fragment, some err)
        | .ret (fieldParts, none) => parseFieldParts (parseString fuel) fieldParts fragment

/-- Source `ParseUnstructured`, the case `v.(string)`:
`parseString(trimFragmentChars([]rune(expr)))`.  A call of `parseString` on
`chars` recurses only on proper sub-slices of `chars`, so `len(chars) + 1`
bounds the depth: `ParseUnstructured_ne_outOfFuel` below proves that the
answer is never `outOfFuel`. -/
def ParseUnstructured (expr : String) : Run (Unstructured × Option String) :=
  match trimFragmentChars expr.toList with
  | .panic msg => .panic msg
  | .outOfFuel => .outOfFuel
  | .ret chars => parseString (chars.length + 1) chars

/-! ## Auxiliary definitions used by the proofs -/

/-- The loop of `splitFragmentByComma` as a recursion on the runes not yet
visited: `cur` is `chars[partStart:i]`, and `i == maxIndex` is "no rune is
left after this one". -/
def commaScan (whole : List Char) :
    List Char → Nat → List (List Char) → List Char → Nat → Run (List (List Char) × Option String)
  | [], _, parts, _, braceDepth =>
    if braceDepth ≠ 0 then
      .ret (parts, some ("missing closing brace in \"" ++ String.mk whole ++ "\""))
    else .ret (parts, none)
  | char :: rest, i, parts, cur, braceDepth =>
    if char = rightBrace ∧ braceDepth = 0 then
      .ret (parts, some ("unexpected closing paranthesis at index " ++ toString i ++
        " in fragment \"" ++ String.mk whole ++ "\""))
    else
      let braceDepth :=
        if char = leftBrace then braceDepth + 1
        else if char = rightBrace then braceDepth - 1
        else braceDepth
      if rest = [] then
        commaScan whole rest (i + 1) (parts ++ [cur ++ [char]]) cur braceDepth
      else if braceDepth = 0 ∧ char = comma then
        commaScan whole rest (i + 1) (if cur.length ≠ 0 then parts ++ [cur] else parts) [] braceDepth
      else
        commaScan whole rest (i + 1) parts (cur ++ [char]) braceDepth

/-- The loop of `splitFragment` as a recursion on the runes not yet visited:
`cur` is `chars[partStart:i]`, and `i == charsLen - 1` is "no rune is left
after this one". -/
def braceScan (whole : List Char) :
    List Char → Nat → List (List Char) → List Char → Nat → Run (List (List Char) × Option String)
  | [], _, parts, _, braceDepth =>
    if braceDepth ≠ 0 then
      .ret (parts, some ("missing closing brace in \"" ++ String.mk whole ++ "\""))
    else .ret (parts, none)
  | char :: rest, i, parts, cur, braceDepth =>
    if char = leftBrace then
      if braceDepth = 0 then
        braceScan whole rest (i + 1) (if cur.length ≠ 0 then parts ++ [cur] else parts) [char]
          (braceDepth + 1)
      else
        braceScan whole rest (i + 1) parts (cur ++ [char]) (braceDepth + 1)
    else if char = rightBrace then
      if braceDepth = 0 then
        .ret (parts, some ("unexpected closing brace at index " ++ toString i ++
          " in \"" ++ String.mk whole ++ "\""))
      else if braceDepth - 1 = 0 then
        braceScan whole rest (i + 1) (parts ++ [cur ++ [char]]) [] (braceDepth - 1)
      else
        braceScan whole rest (i + 1) parts (cur ++ [char]) (braceDepth - 1)
    else if rest = [] then
      braceScan whole rest (i + 1) (parts ++ [cur ++ [char]]) cur braceDepth
    else
      braceScan whole rest (i + 1) parts (cur ++ [char]) braceDepth

/-- Brace depth reached after reading `chars` from depth `d`; `none` when a
closing brace is read at depth 0. -/
def scanDepth : Nat → List Char → Option Nat
  | d, [] => some d
  | d, c :: cs =>
    if c = leftBrace then scanDepth (d + 1) cs
    else if c = rightBrace then (if d = 0 then none else scanDepth (d - 1) cs)
    else scanDepth d cs

/-- The braces of `chars` do not balance: some prefix has more closing than
opening braces, or there are more opening than closing braces in all. -/
def Unbalanced (chars : List Char) : Prop :=
  (∃ k, (chars.take k).count leftBrace < (chars.take k).count rightBrace) ∨
    chars.count rightBrace < chars.count leftBrace

/-- What `parseString` does after the unwrapping step, on the runes
`fragmentChars` that are left and when `emptyFragment` is false. -/
def parseBody (fuel : Nat) (fragmentChars : List Char) : Run (Unstructured × Option String) :=
  if fragmentChars.length = 0 then .ret (NewUnstructured, none)
  else
    match splitFragmentByComma fragmentChars fragmentChars.length with
    | .panic msg => .panic msg
    | .outOfFuel => .outOfFuel
    | .ret (_, some err) => .ret (NewUnstructured, some err)
    | .ret (fieldParts, none) => parseFieldParts (parseString fuel) fieldParts NewUnstructured

/-- The runes start with `{`, end with `}` and are at least two: the test of
the unwrapping step of `parseString`. -/
def isWrapped (chars : List Char) : Bool :=
  decide (chars.length > 1) && chars[0]? == some leftBrace &&
    chars[chars.length - 1]? == some rightBrace

/-- The child is missing or undefined: a nil interface value or an
`Unstructured` with a nil map. -/
def childUndefined : Option Unstructured → Bool
  | none => true
  | some u => u.IsUndefined

mutual
/-- Structural equality of two trees: both undefined, or both defined with
the same keys, and under every key children that are both undefined or are
structurally equal.  The order of the entries does not count. -/
def structEq : Unstructured → Unstructured → Bool
  | .mk none, .mk none => true
  | .mk (some m1), .mk (some m2) => m1.length == m2.length && structEqEntries m1 m2
  | .mk none, .mk (some _) => false
  | .mk (some _), .mk none => false
/-- Every entry of the first map has its key in the second map, with a
structurally equal child. -/
def structEqEntries : List (String × Option Unstructured) → FieldMap → Bool
  | [], _ => true
  | (k, none) :: rest, m2 =>
    (match mapLookup m2 k with
      | some c2 => childUndefined c2
      | none => false) && structEqEntries rest m2
  | (k, some u) :: rest, m2 =>
    (match mapLookup m2 k with
      | some (some u2) => structEq u u2
      | some none => u.IsUndefined
      | none => false) && structEqEntries rest m2
end

/-- Text of one field in `Expr`: the name, followed by a blank and the
child's `Expr` when the child is not undefined. -/
def renderField (entry : String × Option Unstructured) : String :=
  match entry.2 with
  | none => entry.1
  | some child => if child.IsUndefined then entry.1 else entry.1 ++ " " ++ child.Expr

/-- Brace depth reached after reading one field part from depth `d`; `none`
when a closing brace is read at depth 0 or a comma is read at depth 0 (where
it would end the part). -/
def scanField : Nat → List Char → Option Nat
  | d, [] => some d
  | d, c :: cs =>
    if c = leftBrace then scanField (d + 1) cs
    else if c = rightBrace then (if d = 0 then none else scanField (d - 1) cs)
    else if d = 0 ∧ c = comma then none
    else scanField d cs

/-- Every non-empty comma-separated part of `cur ++ rest` has a non-space
rune, where `cur` holds no comma and so belongs to the first part. -/
def GoodParts (cur rest : List Char) : Prop :=
  ∀ p ∈ (rest.splitOn comma).modifyHead (fun h => cur ++ h),
    p ≠ [] → ∃ c ∈ p, isSpace c = false

/-- The slice `p'` is the non-empty slice `p` with white space before and
after it. -/
def Padded (p p' : List Char) : Prop :=
  p ≠ [] ∧ ∃ a b : List Char, (∀ c ∈ a, isSpace c = true) ∧ (∀ c ∈ b, isSpace c = true) ∧
    p' = a ++ p ++ b

/-- The field names of a tree, in the order of the entry list; none for the
undefined tree. -/
def keysOf (f : Unstructured) : List String :=
  match f.fields with
  | none => []
  | some m => m.map Prod.fst

/-- The text of one field of an expression: white space, a name, optionally
white space and a brace block, white space.  The block is given by the white
space `mid` before it and the runes `body` between its braces. -/
structure FieldText where
  pre : List Char
  name : List Char
  block : Option (List Char × List Char)
  post : List Char

/-- The brace block `{body}`. -/
def braceBlock (body : List Char) : List Char :=
  leftBrace :: (body ++ [rightBrace])

/-- The field without the white space around it. -/
def FieldText.core (f : FieldText) : List Char :=
  match f.block with
  | none => f.name
  | some (mid, body) => (f.name ++ mid) ++ braceBlock body

/-- The field as it stands in the expression. -/
def FieldText.text (f : FieldText) : List Char :=
  f.pre ++ f.core ++ f.post

/-- The parts joined by commas. -/
def joinComma : List (List Char) → List Char
  | [] => []
  | [p] => p
  | p :: q :: rest => p ++ comma :: joinComma (q :: rest)

/-- The field is well formed: its name is not empty, holds no brace and no
comma and starts and ends with a non-space rune; `pre`, `mid` and `post` are
white space; the braces of `body` balance, and the block by itself parses
without error. -/
def FieldText.WellFormed (f : FieldText) : Prop :=
  (∀ c ∈ f.pre, isSpace c = true) ∧ (∀ c ∈ f.post, isSpace c = true) ∧
  (∃ hn : f.name ≠ [], isSpace (f.name.head hn) = false ∧ isSpace (f.name.getLast hn) = false) ∧
  (∀ c ∈ f.name, c ≠ leftBrace ∧ c ≠ rightBrace ∧ c ≠ comma) ∧
  (∀ mid body, f.block = some (mid, body) →
    (∀ c ∈ mid, isSpace c = true) ∧ scanDepth 0 body = some 0 ∧
    ∃ child, ParseUnstructured (String.mk (braceBlock body)) = .ret (child, none))

/-! ## The algebra of the untyped tree: `Remove`, `Has`, `pick`, `omit`, `Assign`

These are the methods of `unstructured.go` that take their arguments as
`v ...interface{}`.  A Go value of type `interface{}` is a `Value`; the text
`typemeta.Get(v).String()`, which comes from the library `go-typemeta`
outside the repository, is the parameter `typeName`.  The recursive methods
take a bound on the depth of the recursion as their first `Nat` argument, as
`parseString` does. -/

/-- A Go value passed as `interface{}`: the untyped nil, an `Unstructured`, a
`string`, a `[]string`, a `[]interface{}` (which is what a method receives as
its variadic parameter `v ...interface{}`), or a value of another dynamic type
that `ParseUnstructured` has no case for, described by `tag`. -/
inductive Value where
  | nil
  | unstructured (u : Unstructured)
  | string (s : String)
  | strings (fields : List String)
  | slice (items : List Value)
  | other (tag : String)

/-- Conversion of a `Fragment` to `interface{}`: the nil interface value
stays nil. -/
def fragmentValue : Option Unstructured → Value
  | none => .nil
  | some u => .unstructured u

/-- Source `ParseUnstructured` on a value of any of the dynamic types of
`Value`: nil, `Unstructured`, `string` and `[]string` have a case, every
other value falls through to the final error. -/
def ParseUnstructuredValue (typeName : Value → String) :
    Value → Run (Unstructured × Option String)
  | .nil => .ret (.mk none, none)
  | .unstructured fv => .ret (fv, none)
  | .string expr => ParseUnstructured expr
  | .strings fields => .ret (NewUnstructured.Add fields, none)
  | .slice items =>
    .ret (.mk none, some ("cannot parse fragment value with type " ++ typeName (.slice items)))
  | .other tag =>
    .ret (.mk none, some ("cannot parse fragment value with type " ++ typeName (.other tag)))

/-- Go `delete(m, key)`. -/
def mapDelete (m : FieldMap) (key : String) : FieldMap :=
  m.filter (fun e => decide (e.1 ≠ key))

namespace Unstructured

/-- Source `Remove(fields ...string)`. -/
def Remove (f : Unstructured) (names : List String) : Unstructured :=
  if names.length = 0 then f
  else
    let f := f.definedCopy
    if f.fieldsLen = 0 then f
    else
      mk (some (names.foldl
        (fun acc field => if (mk (some acc)).HasByName field then mapDelete acc field else acc)
        (f.fields.getD [])))

/-- Source `IsUndefinedOrEmpty`. -/
def IsUndefinedOrEmpty (f : Unstructured) : Bool :=
  f.IsUndefined || f.fieldsLen == 0

/-- Loop of the source `FindField`, in the order of the entry list: the
child of the first entry on which `iteratee` returns true, nil when there is
none. -/
def findFieldLoop (iteratee : String → Option Unstructured → Run Bool) :
    FieldMap → Run (Option Unstructured)
  | [] => .ret none
  | (fieldName, fieldFragment) :: rest =>
    match iteratee fieldName fieldFragment with
    | .panic msg => .panic msg
    | .outOfFuel => .outOfFuel
    | .ret true => .ret fieldFragment
    | .ret false => findFieldLoop iteratee rest

/-- Source `FindField`. -/
def FindField (f : Unstructured) (iteratee : String → Option Unstructured → Run Bool) :
    Run (Option Unstructured) :=
  match f.fields with
  | some m => findFieldLoop iteratee m
  | none => .ret none

/-- Source `Has(v ...interface{})`.  The whole variadic slice `v` is passed
to `ParseUnstructured`.  A method call on a nil `Fragment` panics. -/
def Has (typeName : Value → String) : Nat → Unstructured → List Value → Run Bool
  | 0, _, _ => .outOfFuel
  | fuel + 1, f, v =>
    match ParseUnstructuredValue typeName (.slice v) with
    | .panic msg => .panic msg
    | .outOfFuel => .outOfFuel
    | .ret (hf, err) =>
      if f.fields.isNone then .ret true
      else if err.isSome then .ret false
      else if hf.IsUndefined then .ret false
      else
        match hf.FindField (fun fieldName fieldFragment =>
          match fieldFragment with
          | none => .panic "runtime error: invalid memory address or nil pointer dereference"
          | some ff =>
            if ff.IsUndefined then .ret (!f.HasByName fieldName)
            else if !f.HasByName fieldName then .ret true
            else
              match f.Field fieldName with
              | none => .ret false
              | some currentFieldFragment =>
                if currentFieldFragment.IsUndefined then .ret false
                else Has typeName fuel currentFieldFragment [fragmentValue (some ff)]) with
        | .panic msg => .panic msg
        | .outOfFuel => .outOfFuel
        | .ret missing => .ret missing.isNone

/-- Source `pickv(v ...interface{})` and `Pick(v ...interface{})`, with
`pickRec` for the call of `pick`: `panic(err)` when the parse fails. -/
def pickvWith (typeName : Value → String)
    (pickRec : Unstructured → Unstructured → Run Unstructured)
    (f : Unstructured) (v : List Value) : Run Unstructured :=
  match ParseUnstructuredValue typeName (.slice v) with
  | .panic msg => .panic msg
  | .outOfFuel => .outOfFuel
  | .ret (_, some err) => .panic err
  | .ret (pf, none) => pickRec f pf

/-- Body of the iteration `pf.IterateFields(...)` of the source `pick`, over
the entries of the map that `pf` had at the start, with the current values of
`pf` and `remove`. -/
def pickLoop (hasRec : Unstructured → List Value → Run Bool)
    (pickvRec : Unstructured → List Value → Run Unstructured) (f : Unstructured) :
    FieldMap → Unstructured → List String → Run (Unstructured × List String)
  | [], pf, remove => .ret (pf, remove)
  | (fieldName, pickFieldFragment) :: rest, pf, remove =>
    match hasRec f [.string fieldName] with
    | .panic msg => .panic msg
    | .outOfFuel => .outOfFuel
    | .ret false => pickLoop hasRec pickvRec f rest pf (remove ++ [fieldName])
    | .ret true =>
      let currentFieldFragment := f.Field fieldName
      if childUndefined pickFieldFragment then
        pickLoop hasRec pickvRec f rest pf remove
      else if childUndefined currentFieldFragment then
        match pf.Set fieldName pickFieldFragment with
        | .panic msg => .panic msg
        | .outOfFuel => .outOfFuel
        | .ret pf => pickLoop hasRec pickvRec f rest pf remove
      else
        match pickvRec (currentFieldFragment.getD (mk none)) [fragmentValue pickFieldFragment] with
        | .panic msg => .panic msg
        | .outOfFuel => .outOfFuel
        | .ret newFieldFragment =>
          if newFieldFragment.IsEmpty then
            pickLoop hasRec pickvRec f rest pf (remove ++ [fieldName])
          else
            match pf.Set fieldName (some newFieldFragment) with
            | .panic msg => .panic msg
            | .outOfFuel => .outOfFuel
            | .ret pf => pickLoop hasRec pickvRec f rest pf remove

/-- Source `pick(pf Unstructured)`. -/
def pick (typeName : Value → String) : Nat → Unstructured → Unstructured → Run Unstructured
  | 0, _, _ => .outOfFuel
  | fuel + 1, f, pf =>
    match pickLoop (Has typeName (fuel + 1)) (pickvWith typeName (pick typeName fuel)) f
        (pf.fields.getD []) pf [] with
    | .panic msg => .panic msg
    | .outOfFuel => .outOfFuel
    | .ret (pf, remove) => .ret (pf.Remove remove)

/-- Source `pickv(v ...interface{})`. -/
def pickv (typeName : Value → String) (fuel : Nat) (f : Unstructured) (v : List Value) :
    Run Unstructured :=
  pickvWith typeName (pick typeName fuel) f v

/-- Source `Pick(v ...interface{})`. -/
def Pick (typeName : Value → String) (fuel : Nat) (f : Unstructured) (v : List Value) :
    Run Unstructured :=
  pickvWith typeName (pick typeName fuel) f v

/-- Source `omitv(v ...interface{})` and `Omit(v ...interface{})`, with
`omitRec` for the call of `omit`: `panic(err)` when the parse fails. -/
def omitvWith (typeName : Value → String)
    (omitRec : Unstructured → Unstructured → Run Unstructured)
    (f : Unstructured) (v : List Value) : Run Unstructured :=
  match ParseUnstructuredValue typeName (.slice v) with
  | .panic msg => .panic msg
  | .outOfFuel => .outOfFuel
  | .ret (_, some err) => .panic err
  | .ret (ofr, none) => omitRec f ofr

/-- Body of the iteration `of.IterateFields(...)` of the source `omit`, with
the current values of `f` and `remove`; `ofr` is the argument `of`. -/
def omitLoop (omitvRec : Unstructured → List Value → Run Unstructured) (ofr : Unstructured) :
    FieldMap → Unstructured → List String → Run (Unstructured × List String)
  | [], f, remove => .ret (f, remove)
  | (fieldName, omitFieldFragment) :: rest, f, remove =>
    if childUndefined omitFieldFragment then
      omitLoop omitvRec ofr rest f (remove ++ [fieldName])
    else
      let currentFieldFragment := ofr.Field fieldName
      if childUndefined currentFieldFragment then
        omitLoop omitvRec ofr rest f (remove ++ [fieldName])
      else
        match omitvRec (currentFieldFragment.getD (mk none)) [fragmentValue omitFieldFragment] with
        | .panic msg => .panic msg
        | .outOfFuel => .outOfFuel
        | .ret newFieldFragment =>
          if newFieldFragment.IsEmpty then
            omitLoop omitvRec ofr rest f (remove ++ [fieldName])
          else
            match f.Set fieldName (some newFieldFragment) with
            | .panic msg => .panic msg
            | .outOfFuel => .outOfFuel
            | .ret f => omitLoop omitvRec ofr rest f remove

/-- Source `omit(of Unstructured)`; `omit` is a reserved word of Lean. -/
def omitTree (typeName : Value → String) : Nat → Unstructured → Unstructured → Run Unstructured
  | 0, _, _ => .outOfFuel
  | fuel + 1, f, ofr =>
    if ofr.IsUndefinedOrEmpty then .ret f
    else
      match omitLoop (omitvWith typeName (omitTree typeName fuel)) ofr (ofr.fields.getD []) f [] with
      | .panic msg => .panic msg
      | .outOfFuel => .outOfFuel
      | .ret (f, remove) => .ret (f.Remove remove)

/-- Source `omitv(v ...interface{})`. -/
def omitv (typeName : Value → String) (fuel : Nat) (f : Unstructured) (v : List Value) :
    Run Unstructured :=
  omitvWith typeName (omitTree typeName fuel) f v

/-- Source `Omit(v ...interface{})`. -/
def Omit (typeName : Value → String) (fuel : Nat) (f : Unstructured) (v : List Value) :
    Run Unstructured :=
  omitvWith typeName (omitTree typeName fuel) f v

/-- Inner loop `for fieldName, fieldFragment := range assign.fields` of the
source `assignv`, with the current value of `f`; `assignRec` is the call
`NewUnstructured().Assign(...)`.  The value returned is the tree that the
method returns. -/
def assignFields (assignRec : Unstructured → List Value → Run Unstructured) :
    FieldMap → Unstructured → Run Unstructured
  | [], f => .ret f
  | (fieldName, fieldFragment) :: rest, f =>
    match f.fields with
    | none => assignFields assignRec rest (mk (some [(fieldName, fieldFragment)]))
    | some m =>
      match (mapLookup m fieldName).getD none with
      | none => assignFields assignRec rest (mk (some (mapSet m fieldName fieldFragment)))
      | some current =>
        match assignRec NewUnstructured [fragmentValue (some current), fragmentValue fieldFragment] with
        | .panic msg => .panic msg
        | .outOfFuel => .outOfFuel
        | .ret merged => assignFields assignRec rest (mk (some (mapSet m fieldName (some merged))))

/-- Outer loop `for _, assignI := range fragments` of the source `assignv`. -/
def assignArgs (typeName : Value → String)
    (assignRec : Unstructured → List Value → Run Unstructured) :
    List Value → Unstructured → Run Unstructured
  | [], f => .ret f
  | assignI :: rest, f =>
    match ParseUnstructuredValue typeName assignI with
    | .panic msg => .panic msg
    | .outOfFuel => .outOfFuel
    | .ret (_, some err) => .panic ("Attempted to assign invalid fragment, " ++ err)
    | .ret (assign, none) =>
      match assign.fields with
      | none => assignArgs typeName assignRec rest f
      | some m =>
        match assignFields assignRec m f with
        | .panic msg => .panic msg
        | .outOfFuel => .outOfFuel
        | .ret f => assignArgs typeName assignRec rest f

/-- Source `Assign(fragments ...interface{})`, which is `assignv` with the
result converted back to `Unstructured`. -/
def Assign (typeName : Value → String) : Nat → Unstructured → List Value → Run Unstructured
  | 0, _, _ => .outOfFuel
  | fuel + 1, f, fragments => assignArgs typeName (Assign typeName fuel) fragments f

mutual
/-- The tree stands for a Go value: at every level the keys of the map are
pairwise different. -/
def valid : Unstructured → Bool
  | mk none => true
  | mk (some m) => validEntries m
/-- The entries have pairwise different keys and valid children. -/
def validEntries : List (String × Option Unstructured) → Bool
  | [] => true
  | (k, none) :: rest => (mapLookup rest k).isNone && validEntries rest
  | (k, some u) :: rest => (mapLookup rest k).isNone && valid u && validEntries rest
end

end Unstructured

/-- One step of the loop of `Add` on a map that is not empty, or whose
children are all nil: a name that is a key is passed over, another is
appended with a nil child. -/
def addStep (acc : FieldMap) (field : String) : FieldMap :=
  if (Unstructured.mk (some acc)).HasByName field then acc else mapSet acc field none

/-! ## Depth of a tree, the bound of the recursion of `Assign` -/

mutual
/-- Number of levels of maps in a tree: 0 for the undefined tree. -/
def height : Unstructured → Nat
  | .mk none => 0
  | .mk (some m) => heightEntries m + 1
/-- Largest `height` of a child among the entries. -/
def heightEntries : List (String × Option Unstructured) → Nat
  | [] => 0
  | (_, none) :: rest => heightEntries rest
  | (_, some u) :: rest => max (height u) (heightEntries rest)
end

/-- The `height` of a child: 0 for the nil interface value. -/
def heightChild : Option Unstructured → Nat
  | none => 0
  | some u => height u

/-- The field names of a child: none for the nil interface value. -/
def keysOfChild : Option Unstructured → List String
  | none => []
  | some u => keysOf u

/-- A child is nil or a tree with pairwise different keys at every level. -/
def validChild : Option Unstructured → Bool
  | none => true
  | some u => u.valid

/-! ## `assignv` on the maps as Go shares them

A Go map value is a reference: copying an `Unstructured` copies the reference,
and a write `f.fields[k] = v` is seen through every copy.  The embedding of
`assignv` below keeps the map objects in a store and passes the store along,
so that what a call leaves in the map of its receiver can be stated.  The
arguments are `Fragment` values (nil, or an `Unstructured`), for which
`ParseUnstructured` returns the value itself. -/

/-- An `Unstructured` value as Go holds it: the field `fields` is nil or a
reference to a map object, given by the position of the object in the
store. -/
structure Handle where
  fields : Option Nat
  deriving DecidableEq, Repr

/-- A map object `map[string]Fragment`: its entries in visiting order.  A
child is the nil interface value or an `Unstructured` value. -/
abbrev MapObject := List (String × Option Handle)

/-- The map objects allocated so far. -/
abbrev Store := List MapObject

/-- Map read with the comma-ok form on a map object. -/
def objectLookup : MapObject → String → Option (Option Handle)
  | [], _ => none
  | (k, v) :: rest, key => if k = key then some v else objectLookup rest key

/-- Map write `m[key] = v` on a map object. -/
def objectSet : MapObject → String → Option Handle → MapObject
  | [], key, v => [(key, v)]
  | (k, w) :: rest, key, v =>
    if k = key then (k, v) :: rest else (k, w) :: objectSet rest key v

/-- The map object behind a reference. -/
def Store.object (s : Store) (a : Nat) : MapObject :=
  s.getD a []

/-- The store after the write `m[key] = v` to the map object at `a`. -/
def Store.write (s : Store) (a : Nat) (key : String) (v : Option Handle) : Store :=
  s.set a (objectSet (s.object a) key v)

/-- Source `HasByName`, read through the store. -/
def HasByNameStore (s : Store) (f : Handle) (field : String) : Bool :=
  match f.fields with
  | none => true
  | some a => (objectLookup (s.object a) field).isSome

/-- Inner loop `for fieldName, fieldFragment := range assign.fields` of the
source `assignv`, over the entries the assigned map holds when the loop
starts, with the current store and the current value of `f`.  The first
branch allocates a map object, the other two write to the map object that
`f.fields` refers to. -/
def assignFieldsStore
    (assignRec : Store → Handle → List (Option Handle) → Run (Store × Handle)) :
    MapObject → Store → Handle → Run (Store × Handle)
  | [], s, f => .ret (s, f)
  | (fieldName, fieldFragment) :: rest, s, f =>
    match f.fields with
    | none =>
      assignFieldsStore assignRec rest (s ++ [[(fieldName, fieldFragment)]]) ⟨some s.length⟩
    | some a =>
      match (objectLookup (s.object a) fieldName).getD none with
      | none => assignFieldsStore assignRec rest (s.write a fieldName fieldFragment) f
      | some current =>
        match assignRec s ⟨none⟩ [some current, fieldFragment] with
        | .panic msg => .panic msg
        | .outOfFuel => .outOfFuel
        | .ret (s1, merged) =>
          assignFieldsStore assignRec rest (s1.write a fieldName (some merged)) f

/-- Outer loop `for _, assignI := range fragments` of the source `assignv`,
for arguments that are `Fragment` values. -/
def assignArgsStore
    (assignRec : Store → Handle → List (Option Handle) → Run (Store × Handle)) :
    List (Option Handle) → Store → Handle → Run (Store × Handle)
  | [], s, f => .ret (s, f)
  | none :: rest, s, f => assignArgsStore assignRec rest s f
  | some assign :: rest, s, f =>
    match assign.fields with
    | none => assignArgsStore assignRec rest s f
    | some b =>
      match assignFieldsStore assignRec (s.object b) s f with
      | .panic msg => .panic msg
      | .outOfFuel => .outOfFuel
      | .ret (s1, f1) => assignArgsStore assignRec rest s1 f1

/-- Source `assignv` on the store: the store after the call and the value
returned. -/
def assignvStore : Nat → Store → Handle → List (Option Handle) → Run (Store × Handle)
  | 0, _, _, _ => .outOfFuel
  | fuel + 1, s, f, fragments => assignArgsStore (assignvStore fuel) fragments s f

/-- The tree that a value stands for in a store, down to `fuel` levels. -/
def readTree : Nat → Store → Handle → Unstructured
  | 0, _, _ => .mk none
  | fuel + 1, s, f =>
    match f.fields with
    | none => .mk none
    | some a => .mk (some ((s.object a).map (fun e => (e.1, e.2.map (readTree fuel s)))))

/-! ## The typed selection tree

An embedding of `struct.go`, `parsestruct.go`, `unstructuredtostruct.go` and
of the constructors of `new.go`.  The struct types are described by the
library `go-typemeta`, which is outside the repository: what the library
reports is the parameter `lib : Library`.  A `*typemeta.Struct` that is not
nil is given by the identity of its type, so that a struct type may have a
field of its own type. -/

/-- Sequencing of two Go computations: the second runs when the first
returns. -/
def Run.bind {α β : Type} (x : Run α) (f : α → Run β) : Run β :=
  match x with
  | .ret a => f a
  | .panic msg => .panic msg
  | .outOfFuel => .outOfFuel

/-- Identity of a struct type, what `Type()` of a `*typemeta.Struct`
returns. -/
abbrev TypeRef := String

/-- A `typemeta.TypeMeta` as far as the repository reads it: the struct type
behind it (`typemeta.StructOf`, nil when there is none), its text `String()`
and the text of `typemeta.StructOrPrimitiveOf`. -/
structure TypeArg where
  structOf : Option TypeRef
  text : String
  kind : String
  deriving DecidableEq, Repr

/-- One field of a struct type as the library describes it: `Name`,
`JSONName`, the name of the tag `fragment` (`Tag("fragment")`, nil when the
field has no such tag), the text `String()` and `TypeMeta`. -/
structure FieldDecl where
  Name : String
  JSONName : String
  fragmentTag : Option String
  text : String
  TypeMeta : TypeArg
  deriving DecidableEq, Repr

/-- A struct type as the library describes it: `Name()`, `String()`, the
fields in the order of their indices, and the resolution of a field name to
the position of a field, which `FieldByName` uses. -/
structure StructDecl where
  name : String
  text : String
  fields : List FieldDecl
  resolve : String → Option Nat

/-- A value of type `typemeta.StructField`.  In the zero value `TypeMeta` is
nil. -/
structure FieldMeta where
  Index : Int
  Name : String
  JSONName : String
  fragmentTag : Option String
  text : String
  TypeMeta : Option TypeArg
  deriving DecidableEq, Repr

mutual
/-- Typed selection tree, `Struct` of `struct.go`: `typeMeta` is nil or a
struct type, `fields` is the nil map or a map from field indices to
fields. -/
inductive Struct where
  | mk (typeMeta : Option TypeRef) (fields : Option (List (Int × StructField)))
/-- A field of a typed tree, `StructField` of `struct.go`: the embedded
`typemeta.StructField` and the tree of the field. -/
inductive StructField where
  | mk (field : FieldMeta) (Fragment : Struct)
end

/-- Entries of a Go map from field indices to fields. -/
abbrev IndexMap := List (Int × StructField)

/-- A Go value passed as `interface{}` to `ParseStruct`: a `Struct`, or a
value that it hands to `ParseUnstructured`. -/
inductive Arg where
  | struct (s : Struct)
  | value (v : Value)

/-- What the library `go-typemeta` and `fmt` report: the struct type behind
an identity, what `typemeta.Get` makes of a nil `*typemeta.Struct`, the text
of `fmt.Sprint(f...)`, the text with which `EnsureField` and
`EnsureFieldByName` panic, and the text `typemeta.Get(v).String()`. -/
structure Library where
  decl : TypeRef → StructDecl
  ofNil : TypeArg
  sprint : List Arg → String
  ensurePanic : String
  typeName : Value → String

/-- The `typemeta.StructField` of the field declared at position `i`. -/
def fieldMetaOf (i : Int) (d : FieldDecl) : FieldMeta :=
  { Index := i, Name := d.Name, JSONName := d.JSONName, fragmentTag := d.fragmentTag,
    text := d.text, TypeMeta := some d.TypeMeta }

/-- The fields declared from position `i` on, with their indices. -/
def fieldMetasFrom : Nat → List FieldDecl → List FieldMeta
  | _, [] => []
  | i, d :: rest => fieldMetaOf i d :: fieldMetasFrom (i + 1) rest

namespace StructDecl

/-- Library `Field(i)`: the field with index `i`, nil when there is none. -/
def Field (d : StructDecl) (fieldIndex : Int) : Option FieldMeta :=
  if fieldIndex < 0 then none
  else (d.fields[fieldIndex.toNat]?).map (fieldMetaOf fieldIndex)

/-- Library `FieldByName(name)`: nil when the name does not resolve. -/
def FieldByName (d : StructDecl) (fieldName : String) : Option FieldMeta :=
  (d.resolve fieldName).bind (fun i => d.Field i)

/-- Library `FieldIndexByName(name)`: -1 when the name does not resolve. -/
def FieldIndexByName (d : StructDecl) (fieldName : String) : Int :=
  match d.FieldByName fieldName with
  | some sf => sf.Index
  | none => -1

/-- Library `EnsureField(i)`: panics when there is no such field. -/
def EnsureField (lib : Library) (d : StructDecl) (fieldIndex : Int) : Run FieldMeta :=
  match d.Field fieldIndex with
  | some sf => .ret sf
  | none => .panic lib.ensurePanic

/-- Library `EnsureFieldByName(name)`: panics when the name does not
resolve. -/
def EnsureFieldByName (lib : Library) (d : StructDecl) (fieldName : String) : Run FieldMeta :=
  match d.FieldByName fieldName with
  | some sf => .ret sf
  | none => .panic lib.ensurePanic

/-- The fields that the library `IterateFields` and `FindField` visit, in
order. -/
def allFields (d : StructDecl) : List FieldMeta :=
  fieldMetasFrom 0 d.fields

end StructDecl

/-- The `TypeArg` of a `*typemeta.Struct`. -/
def typeArgOfStruct (lib : Library) : Option TypeRef → TypeArg
  | none => lib.ofNil
  | some r => { structOf := some r, text := (lib.decl r).text, kind := (lib.decl r).text }

/-- The `TypeArg` of the `TypeMeta` of a field. -/
def typeArgOfField (lib : Library) : Option TypeArg → TypeArg
  | none => lib.ofNil
  | some t => t

/-- Library `typemeta.StructOf(structField.TypeMeta)`. -/
def structOfField (sf : FieldMeta) : Option TypeRef :=
  sf.TypeMeta.bind (fun t => t.structOf)

/-- Source `includeDefault`. -/
def includeDefault (structField : FieldMeta) : Bool :=
  match structField.fragmentTag with
  | none => false
  | some name => name == "includedefault"

/-- Source `typeHasIncludeDefaults`.  The source keeps the answer for every
type in a table; the answer is the one computed here. -/
def typeHasIncludeDefaults (lib : Library) (typeMeta : Option TypeRef) : Bool :=
  match typeMeta with
  | none => false
  | some r => ((lib.decl r).allFields.find? includeDefault).isSome

/-- Map read with the comma-ok form, `v, ok := m[i]`. -/
def fieldLookup : IndexMap → Int → Option StructField
  | [], _ => none
  | (k, v) :: rest, key => if k = key then some v else fieldLookup rest key

/-- Map write `m[i] = v`. -/
def fieldSet : IndexMap → Int → StructField → IndexMap
  | [], key, v => [(key, v)]
  | (k, w) :: rest, key, v =>
    if k = key then (k, v) :: rest else (k, w) :: fieldSet rest key v

/-- Go `delete(m, i)`. -/
def fieldDelete (m : IndexMap) (key : Int) : IndexMap :=
  m.filter (fun e => decide (e.1 ≠ key))

/-- The zero value of `typemeta.StructField`. -/
def FieldMeta.zero : FieldMeta :=
  { Index := 0, Name := "", JSONName := "", fragmentTag := none, text := "", TypeMeta := none }

namespace StructField

/-- The embedded `typemeta.StructField`. -/
def field : StructField → FieldMeta
  | mk sf _ => sf

/-- The field `Fragment`. -/
def Fragment : StructField → Struct
  | mk _ fragment => fragment

/-- The field `Index` of the embedded `typemeta.StructField`. -/
def Index (sf : StructField) : Int :=
  sf.field.Index

/-- The zero value `StructField{}`. -/
def zero : StructField :=
  mk FieldMeta.zero (Struct.mk none none)

end StructField

/-- Source `newStructField`. -/
def newStructField (structField : FieldMeta) : StructField :=
  .mk structField (.mk (structOfField structField) none)

namespace Struct

/-- The field `f.typeMeta`. -/
def typeMeta : Struct → Option TypeRef
  | mk t _ => t

/-- The field `f.fields`. -/
def fields : Struct → Option IndexMap
  | mk _ fs => fs

/-- Source `IsUndefined`. -/
def IsUndefined (f : Struct) : Bool :=
  f.fields.isNone || f.typeMeta.isNone

/-- Source `IsValid`. -/
def IsValid (f : Struct) : Bool :=
  f.typeMeta.isSome

/-- Go `len(f.fields)`. -/
def fieldsLen (f : Struct) : Nat :=
  match f.fields with
  | none => 0
  | some m => m.length

/-- Source `IsEmpty`. -/
def IsEmpty (f : Struct) : Bool :=
  !f.IsUndefined && f.fieldsLen == 0

/-- Source `IsUndefinedOrEmpty`. -/
def IsUndefinedOrEmpty (f : Struct) : Bool :=
  f.IsUndefined || f.fieldsLen == 0

/-- Source `HasByIndex`. -/
def HasByIndex (lib : Library) (f : Struct) (fieldIndex : Int) : Bool :=
  match f.typeMeta with
  | none => true
  | some r =>
    match (lib.decl r).Field fieldIndex with
    | none => false
    | some structField =>
      if f.IsUndefined then
        !typeHasIncludeDefaults lib f.typeMeta || includeDefault structField
      else (fieldLookup (f.fields.getD []) fieldIndex).isSome

/-- Source `HasByName`. -/
def HasByName (lib : Library) (f : Struct) (fieldName : String) : Bool :=
  match f.typeMeta with
  | none => true
  | some r =>
    let fieldIndex := (lib.decl r).FieldIndexByName fieldName
    if fieldIndex = -1 then false else f.HasByIndex lib fieldIndex

/-- Source `definedOrEmptyCopy`: a fresh map that receives every entry of
`f.fields`. -/
def definedOrEmptyCopy (f : Struct) : Struct :=
  let newFields : IndexMap := []
  match f.fields with
  | none => mk f.typeMeta (some newFields)
  | some m => mk f.typeMeta (some (m.foldl (fun acc e => fieldSet acc e.1 e.2) newFields))

/-- Source `fieldIndices`: the keys of the map, sorted. -/
def fieldIndices (f : Struct) : List Int :=
  match f.fields with
  | none => []
  | some m => (m.map Prod.fst).insertionSort (fun a b => a ≤ b)

/-- The fields that `IterateFields` (with `doNotOmitDefault` false) and
`IterateExplicitFields` (with `doNotOmitDefault` true) pass to the iteratee,
in order, which is what `findField` visits when the iteratee returns false:
none for a tree without type meta, the fields of the type that are included
by default for an undefined tree, and the fields of the map in the order of
their indices otherwise. -/
def iterated (lib : Library) (f : Struct) (doNotOmitDefault : Bool) : List StructField :=
  match f.typeMeta with
  | none => []
  | some r =>
    if f.IsUndefined then
      let hasIncludeDefaults := typeHasIncludeDefaults lib f.typeMeta
      ((lib.decl r).allFields.filter (fun structField =>
        !(!doNotOmitDefault && hasIncludeDefaults && !includeDefault structField))).map
        newStructField
    else
      f.fieldIndices.map (fun fieldIndex =>
        (fieldLookup (f.fields.getD []) fieldIndex).getD StructField.zero)

/-- Source `EnsureDefined`. -/
def EnsureDefined (lib : Library) (f : Struct) : Run Struct :=
  match f.typeMeta with
  | none => .panic "Attempted to ensure defined fragment with missing type meta"
  | some _ =>
    if f.IsUndefined then
      .ret (mk f.typeMeta (some ((f.iterated lib false).foldl
        (fun newFields field => fieldSet newFields field.Index field) [])))
    else .ret f

/-- Source `definedCopy`. -/
def definedCopy (lib : Library) (f : Struct) : Run Struct :=
  if f.IsUndefined then f.EnsureDefined lib
  else .ret (mk f.typeMeta (some ((f.fields.getD []).foldl
    (fun acc e => fieldSet acc e.1 e.2) [])))

/-- Source `Field`. -/
def Field (lib : Library) (f : Struct) (fieldIndex : Int) : Run StructField :=
  match f.typeMeta with
  | none => .ret StructField.zero
  | some r =>
    match fieldLookup (f.fields.getD []) fieldIndex with
    | some field => .ret field
    | none =>
      ((lib.decl r).EnsureField lib fieldIndex).bind (fun structField =>
        .ret (.mk structField (mk (structOfField structField) none)))

/-- Source `FieldFragment`. -/
def FieldFragment (lib : Library) (f : Struct) (fieldIndex : Int) : Run Struct :=
  (f.Field lib fieldIndex).bind (fun field => .ret field.Fragment)

/-- Loop of the source `Add`, on the map of the copy. -/
def addLoop (lib : Library) (d : StructDecl) : List Int → IndexMap → Run IndexMap
  | [], m => .ret m
  | fieldIndex :: rest, m =>
    match fieldLookup m fieldIndex with
    | some _ => addLoop lib d rest m
    | none =>
      (d.EnsureField lib fieldIndex).bind (fun structField =>
        addLoop lib d rest (fieldSet m fieldIndex (newStructField structField)))

/-- Source `Add(fieldIndices ...int)`. -/
def Add (lib : Library) (f : Struct) (fieldIndices : List Int) : Run Struct :=
  if fieldIndices.length = 0 then .ret f
  else
    match f.typeMeta with
    | none => .panic "Cannot add to invalid fragment"
    | some r =>
      let f := f.definedOrEmptyCopy
      (addLoop lib (lib.decl r) fieldIndices (f.fields.getD [])).bind (fun m =>
        .ret (mk f.typeMeta (some m)))

/-- Loop of the source `AddByName`, on the map of the copy. -/
def addByNameLoop (lib : Library) (d : StructDecl) : List String → IndexMap → Run IndexMap
  | [], m => .ret m
  | fieldName :: rest, m =>
    (d.EnsureFieldByName lib fieldName).bind (fun byName =>
      let fieldIndex := byName.Index
      match fieldLookup m fieldIndex with
      | some _ => addByNameLoop lib d rest m
      | none =>
        (d.EnsureField lib fieldIndex).bind (fun structField =>
          addByNameLoop lib d rest (fieldSet m fieldIndex (newStructField structField))))

/-- Source `AddByName(fieldNames ...string)`. -/
def AddByName (lib : Library) (f : Struct) (fieldNames : List String) : Run Struct :=
  if fieldNames.length = 0 then .ret f
  else
    match f.typeMeta with
    | none => .ret f
    | some r =>
      let f := f.definedOrEmptyCopy
      (addByNameLoop lib (lib.decl r) fieldNames (f.fields.getD [])).bind (fun m =>
        .ret (mk f.typeMeta (some m)))

/-- Loop of the source `AddExcluded`, with the current value of `f`. -/
def addExcludedLoop (lib : Library) (d : StructDecl) : List Int → Struct → Run Struct
  | [], f => .ret f
  | fieldIndex :: rest, f =>
    (d.EnsureField lib fieldIndex).bind (fun structField =>
      if f.HasByIndex lib structField.Index then addExcludedLoop lib d rest f
      else
        let f := f.definedOrEmptyCopy
        addExcludedLoop lib d rest
          (mk f.typeMeta (some (fieldSet (f.fields.getD []) structField.Index
            (newStructField structField)))))

/-- Source `AddExcluded(fieldIndices ...int)`. -/
def AddExcluded (lib : Library) (f : Struct) (fieldIndices : List Int) : Run Struct :=
  if fieldIndices.length = 0 then .ret f
  else
    match f.typeMeta with
    | none => .panic "Cannot add to invalid fragment"
    | some r => addExcludedLoop lib (lib.decl r) fieldIndices f

/-- Loop of the source `Remove`, with the current values of `f` and
`ensuredFields`. -/
def removeLoop (lib : Library) : List Int → Struct → Bool → Run Struct
  | [], f, _ => .ret f
  | fieldIndex :: rest, f, ensuredFields =>
    if f.HasByIndex lib fieldIndex then
      (if ensuredFields then .ret f else f.definedCopy lib).bind (fun f =>
        removeLoop lib rest (mk f.typeMeta (some (fieldDelete (f.fields.getD []) fieldIndex)))
          true)
    else removeLoop lib rest f ensuredFields

/-- Source `Remove(fieldIndices ...int)`. -/
def Remove (lib : Library) (f : Struct) (fieldIndices : List Int) : Run Struct :=
  if fieldIndices.length = 0 then .ret f
  else
    match f.typeMeta with
    | none => .panic "Cannot remove from invalid fragment"
    | some _ => removeLoop lib fieldIndices f false

end Struct

/-! ### Binding an untyped tree to a struct type, and the recursive operations -/

/-- Source `quotedStringInteraces`: every string that does not start with a
quote is put in quotes.  The slice expression `str[0:1]` panics on the empty
string. -/
def quotedStringInteraces : List String → Run (List String)
  | [] => .ret []
  | str :: rest =>
    match str.toList with
    | [] => .panic "runtime error: slice bounds out of range [:1] with length 0"
    | c :: _ =>
      (quotedStringInteraces rest).bind (fun interfaces =>
        .ret ((if c ≠ '"' then "\"" ++ str ++ "\"" else str) :: interfaces))

/-- Source `fmtListAnd("en", items...)` on strings: `fmtList` with the
separator `and` and a comma before it. -/
def fmtListAnd (items : List String) : String :=
  match items with
  | [] => ""
  | [item] => item
  | [item0, item1] => item0 ++ " " ++ "and" ++ " " ++ item1
  | item0 :: more =>
    let str := (more.dropLast).foldl (fun str commaItem => str ++ ", " ++ commaItem) item0
    str ++ "," ++ " " ++ "and" ++ " " ++ more.getLast?.getD ""

/-- First branch of the source `toStruct`, the loop over the fields of a tree
that has fields, with the current map of the result and the current list of
unrecognized names; `parseRec` is the call of `ParseStruct`.  An error ends
the loop. -/
def toStructLoop (lib : Library)
    (parseRec : TypeArg → List Arg → Run (Struct × Option String)) (typeMeta : TypeRef) :
    FieldMap → IndexMap → List String → Run ((IndexMap × List String) × Option String)
  | [], fields, unrecognizedFields => .ret ((fields, unrecognizedFields), none)
  | (fieldName, fieldFragment) :: rest, fields, unrecognizedFields =>
    match (lib.decl typeMeta).FieldByName fieldName with
    | none =>
      if fieldName ≠ "__typename" then
        toStructLoop lib parseRec typeMeta rest fields (unrecognizedFields ++ [fieldName])
      else toStructLoop lib parseRec typeMeta rest fields unrecognizedFields
    | some structField =>
      if childUndefined fieldFragment then
        toStructLoop lib parseRec typeMeta rest
          (fieldSet fields structField.Index (.mk structField (.mk none none)))
          unrecognizedFields
      else
        match structOfField structField with
        | none =>
          .ret ((fields, unrecognizedFields),
            some ("expected undefined fragment for non-fragmentable field \""
              ++ structField.text ++ "\""))
        | some structFieldStructTypeMeta =>
          (parseRec (typeArgOfStruct lib (some structFieldStructTypeMeta))
              [.value (fragmentValue fieldFragment)]).bind (fun parsed =>
            match parsed with
            | (_, some err) =>
              .ret ((fields, unrecognizedFields),
                some ("invalid fragment for field \"" ++ structField.text ++ "\": " ++ err))
            | (parsedFragment, none) =>
              toStructLoop lib parseRec typeMeta rest
                (fieldSet fields structField.Index (.mk structField parsedFragment))
                unrecognizedFields)

/-- Second branch of the source `toStruct`, the iteration over the fields of
the type for a tree that is defined and has no field, with the current map
of the result, the current `fieldErr` and the current table `circular`;
`toStructRec` is the call `NewUnstructured().toStruct(...)`. -/
def toStructDefaults (hasIncludeDefaults : Bool)
    (toStructRec : Unstructured → Option TypeRef → List TypeRef →
      Run ((Struct × Option String) × List TypeRef)) :
    List FieldMeta → IndexMap → Option String → List TypeRef →
      Run ((IndexMap × Option String) × List TypeRef)
  | [], fields, fieldErr, circular => .ret ((fields, fieldErr), circular)
  | structField :: rest, fields, fieldErr, circular =>
    if hasIncludeDefaults && !includeDefault structField then
      toStructDefaults hasIncludeDefaults toStructRec rest fields fieldErr circular
    else
      match structOfField structField with
      | some fieldStructTypeMeta =>
        (toStructRec NewUnstructured (some fieldStructTypeMeta) circular).bind (fun r =>
          match r with
          | ((fieldFragment, err), circular) =>
            let fieldErr :=
              match err with
              | some msg =>
                some ("invalid fragment for field \"" ++ structField.text ++ "\": " ++ msg)
              | none => fieldErr
            toStructDefaults hasIncludeDefaults toStructRec rest
              (fieldSet fields structField.Index (.mk structField fieldFragment))
              fieldErr circular)
      | none =>
        toStructDefaults hasIncludeDefaults toStructRec rest
          (fieldSet fields structField.Index (.mk structField (.mk none none)))
          fieldErr circular

/-- Body of the source `toStruct`; the table `circular` is passed in and
returned. -/
def toStructBody (lib : Library)
    (parseRec : TypeArg → List Arg → Run (Struct × Option String))
    (toStructRec : Unstructured → Option TypeRef → List TypeRef →
      Run ((Struct × Option String) × List TypeRef))
    (f : Unstructured) (typeMeta : Option TypeRef) (circular : List TypeRef) :
    Run ((Struct × Option String) × List TypeRef) :=
  match typeMeta with
  | none => .ret ((.mk none none, some "received nil type meta"), circular)
  | some r =>
    match f.fields with
    | none => .ret ((.mk typeMeta none, none), circular)
    | some m =>
      if m.length > 0 then
        (toStructLoop lib parseRec r m [] []).bind (fun looped =>
          match looped with
          | ((fields, _), some err) => .ret ((.mk typeMeta (some fields), some err), circular)
          | ((fields, unrecognizedFields), none) =>
            if unrecognizedFields.length > 0 then
              (quotedStringInteraces unrecognizedFields).bind (fun quoted =>
                .ret ((.mk typeMeta (some fields),
                  some ("unrecognized field(s): " ++ fmtListAnd quoted)), circular))
            else .ret ((.mk typeMeta (some fields), none), circular))
      else if circular.contains r then .ret ((.mk typeMeta none, none), circular)
      else
        (toStructDefaults (typeHasIncludeDefaults lib typeMeta) toStructRec
            (lib.decl r).allFields [] none (r :: circular)).bind (fun expanded =>
          match expanded with
          | ((fields, some fieldErr), circular) =>
            .ret ((.mk typeMeta (some fields), some fieldErr), circular)
          | ((fields, none), circular) => .ret ((.mk typeMeta (some fields), none), circular))

/-- Loop `for _, f := range f` of the source `ParseStruct`, with the current
value of `structf`; `assignRec` is the call of `assign`, `toStructRec` the
call of `toStruct` with a fresh table. -/
def parseStructLoop (lib : Library)
    (assignRec : Struct → Struct → Run Struct)
    (toStructRec : Unstructured → Option TypeRef → Run (Struct × Option String))
    (structTypeMeta : Option TypeRef) (noStructErr : Option String) (flen : Nat) :
    List Arg → Struct → Run (Struct × Option String)
  | [], structf => .ret (structf, none)
  | .value .nil :: rest, structf =>
    parseStructLoop lib assignRec toStructRec structTypeMeta noStructErr flen rest structf
  | .struct vf :: rest, structf =>
    if vf.IsUndefined then
      parseStructLoop lib assignRec toStructRec structTypeMeta noStructErr flen rest structf
    else if noStructErr.isSome then .ret (vf, noStructErr)
    else if vf.typeMeta ≠ structTypeMeta then
      .ret (vf, some ("type mismatch between passed struct fragment and struct type meta: "
        ++ (typeArgOfStruct lib vf.typeMeta).text ++ " vs. "
        ++ (typeArgOfStruct lib structTypeMeta).text))
    else if flen = 1 then .ret (vf, none)
    else
      (assignRec structf vf).bind (fun structf =>
        parseStructLoop lib assignRec toStructRec structTypeMeta noStructErr flen rest structf)
  | .value v :: rest, structf =>
    (ParseUnstructuredValue lib.typeName v).bind (fun parsed =>
      match parsed with
      | (_, some err) => .ret (structf, some err)
      | (fi, none) =>
        if fi.IsUndefined then
          parseStructLoop lib assignRec toStructRec structTypeMeta noStructErr flen rest structf
        else if noStructErr.isSome then .ret (structf, noStructErr)
        else
          (toStructRec fi structTypeMeta).bind (fun bound =>
            match bound with
            | (_, some err) => .ret (structf, some err)
            | (fis, none) =>
              if flen = 1 then
                parseStructLoop lib assignRec toStructRec structTypeMeta noStructErr flen rest
                  fis
              else
                (assignRec structf fis).bind (fun structf =>
                  parseStructLoop lib assignRec toStructRec structTypeMeta noStructErr flen
                    rest structf)))

/-- Body of the source `ParseStruct(t, f...)`; `t` is what the library makes
of the first argument. -/
def parseStructBody (lib : Library)
    (assignRec : Struct → Struct → Run Struct)
    (toStructRec : Unstructured → Option TypeRef → Run (Struct × Option String))
    (t : TypeArg) (f : List Arg) : Run (Struct × Option String) :=
  let structTypeMeta := t.structOf
  let structf := Struct.mk structTypeMeta none
  let noStructErr : Option String :=
    match structTypeMeta with
    | none =>
      some ("cannot fragment unfragmentable type " ++ t.kind ++ " (" ++ t.text ++ ", "
        ++ lib.sprint f ++ ")")
    | some _ => none
  if f.length = 0 then .ret (structf, none)
  else parseStructLoop lib assignRec toStructRec structTypeMeta noStructErr f.length f structf

/-- Body of the source `Set`; `parseRec` is the call of `ParseStruct`. -/
def setBody (lib : Library) (parseRec : TypeArg → List Arg → Run (Struct × Option String))
    (f : Struct) (fieldIndex : Int) (fieldFragment : Arg) : Run Struct :=
  match f.typeMeta with
  | none => .panic "Cannot set to invalid fragment"
  | some r =>
    ((lib.decl r).EnsureField lib fieldIndex).bind (fun structField =>
      (parseRec (typeArgOfField lib structField.TypeMeta) [fieldFragment]).bind (fun parsed =>
        match parsed with
        | (_, some err) =>
          .panic ("Invalid fragment for field \"" ++ (lib.decl r).name ++ "."
            ++ structField.text ++ "\": " ++ err)
        | (parsedFieldFragment, none) =>
          let f := f.definedOrEmptyCopy
          match fieldLookup (f.fields.getD []) fieldIndex with
          | none =>
            .ret (.mk f.typeMeta (some (fieldSet (f.fields.getD []) fieldIndex
              (.mk structField parsedFieldFragment))))
          | some field =>
            .ret (.mk f.typeMeta (some (fieldSet (f.fields.getD []) fieldIndex
              (.mk field.field parsedFieldFragment))))))

/-- Body of the source `AssignToField`; `parseRec` is the call of
`ParseStruct`, `assignRec` the call of `assign`. -/
def assignToFieldBody (lib : Library)
    (parseRec : TypeArg → List Arg → Run (Struct × Option String))
    (assignRec : Struct → Struct → Run Struct)
    (f : Struct) (fieldIndex : Int) (fieldFragment : Arg) : Run Struct :=
  match f.typeMeta with
  | none => .panic "Cannot assign to invalid fragment"
  | some r =>
    ((lib.decl r).EnsureField lib fieldIndex).bind (fun structField =>
      (parseRec (typeArgOfField lib structField.TypeMeta) [fieldFragment]).bind (fun parsed =>
        match parsed with
        | (_, some err) =>
          .panic ("Invalid fragment for field \"" ++ (lib.decl r).name ++ "."
            ++ structField.text ++ "\": " ++ err)
        | (parsedFieldFragment, none) =>
          let f := f.definedOrEmptyCopy
          match fieldLookup (f.fields.getD []) fieldIndex with
          | none =>
            .ret (.mk f.typeMeta (some (fieldSet (f.fields.getD []) fieldIndex
              (.mk structField parsedFieldFragment))))
          | some field =>
            if field.Fragment.IsUndefined then
              .ret (.mk f.typeMeta (some (fieldSet (f.fields.getD []) fieldIndex
                (.mk field.field parsedFieldFragment))))
            else
              (assignRec field.Fragment parsedFieldFragment).bind (fun assigned =>
                .ret (.mk f.typeMeta (some (fieldSet (f.fields.getD []) fieldIndex
                  (.mk field.field assigned)))))))

/-- Iteration `af.IterateFields(...)` of the source `assign`, with the
current values of `f` and `add`; `setRec` is the call of `Set`, `assignvRec`
the call of `assignv`. -/
def assignLoop (lib : Library) (setRec : Struct → Int → Arg → Run Struct)
    (assignvRec : Struct → List Arg → Run Struct) :
    List StructField → Struct → List Int → Run (Struct × List Int)
  | [], f, add => .ret (f, add)
  | field :: rest, f, add =>
    if field.Fragment.IsUndefined then
      assignLoop lib setRec assignvRec rest f (add ++ [field.Index])
    else if !f.HasByIndex lib field.Index then
      (setRec f field.Index (.struct field.Fragment)).bind (fun f =>
        assignLoop lib setRec assignvRec rest f add)
    else
      (f.Field lib field.Index).bind (fun currentField =>
        if currentField.Fragment.IsUndefined then
          (setRec f field.Index (.struct field.Fragment)).bind (fun f =>
            assignLoop lib setRec assignvRec rest f add)
        else
          (assignvRec currentField.Fragment [.struct field.Fragment]).bind (fun assigned =>
            (setRec f field.Index (.struct assigned)).bind (fun f =>
              assignLoop lib setRec assignvRec rest f add)))

/-- Body of the source `assign`. -/
def assignBody (lib : Library) (setRec : Struct → Int → Arg → Run Struct)
    (assignvRec : Struct → List Arg → Run Struct) (f af : Struct) : Run Struct :=
  (assignLoop lib setRec assignvRec (af.iterated lib false) f []).bind (fun r =>
    r.1.Add lib r.2)

/-- Body of the source `assignv` and `Assign`: `panic(err)` when the parse
fails. -/
def assignvBody (lib : Library)
    (parseRec : TypeArg → List Arg → Run (Struct × Option String))
    (assignRec : Struct → Struct → Run Struct) (f : Struct) (v : List Arg) : Run Struct :=
  (parseRec (typeArgOfStruct lib f.typeMeta) v).bind (fun parsed =>
    match parsed with
    | (_, some err) => .panic err
    | (af, none) => assignRec f af)

mutual
/-- Source `ParseStruct(t, f...)`, with a bound on the depth of the
recursion. -/
def ParseStruct (lib : Library) : Nat → TypeArg → List Arg → Run (Struct × Option String)
  | 0, _, _ => .outOfFuel
  | fuel + 1, t, f =>
    parseStructBody lib (Struct.assign lib fuel)
      (fun fi structTypeMeta =>
        (Unstructured.toStruct lib fuel fi structTypeMeta []).bind (fun r => .ret r.1))
      t f
/-- Source `toStruct(typeMeta, circular)`. -/
def Unstructured.toStruct (lib : Library) :
    Nat → Unstructured → Option TypeRef → List TypeRef →
      Run ((Struct × Option String) × List TypeRef)
  | 0, _, _, _ => .outOfFuel
  | fuel + 1, f, typeMeta, circular =>
    toStructBody lib (ParseStruct lib fuel) (Unstructured.toStruct lib fuel) f typeMeta circular
/-- Source `assign(af Struct)` of the typed tree. -/
def Struct.assign (lib : Library) : Nat → Struct → Struct → Run Struct
  | 0, _, _ => .outOfFuel
  | fuel + 1, f, af => assignBody lib (Struct.Set lib fuel) (Struct.assignv lib fuel) f af
/-- Source `Set(fieldIndex, fieldFragment)` of the typed tree. -/
def Struct.Set (lib : Library) : Nat → Struct → Int → Arg → Run Struct
  | 0, _, _, _ => .outOfFuel
  | fuel + 1, f, fieldIndex, fieldFragment =>
    setBody lib (ParseStruct lib fuel) f fieldIndex fieldFragment
/-- Source `assignv(v ...interface{})` of the typed tree. -/
def Struct.assignv (lib : Library) : Nat → Struct → List Arg → Run Struct
  | 0, _, _ => .outOfFuel
  | fuel + 1, f, v => assignvBody lib (ParseStruct lib fuel) (Struct.assign lib fuel) f v
end

/-- Source `Assign(v ...interface{})` of the typed tree. -/
def Struct.Assign (lib : Library) (fuel : Nat) (f : Struct) (v : List Arg) : Run Struct :=
  assignvBody lib (ParseStruct lib fuel) (Struct.assign lib fuel) f v

/-- Source `AssignToField(fieldIndex, fieldFragment)`. -/
def Struct.AssignToField (lib : Library) (fuel : Nat) (f : Struct) (fieldIndex : Int)
    (fieldFragment : Arg) : Run Struct :=
  assignToFieldBody lib (ParseStruct lib fuel) (Struct.assign lib fuel) f fieldIndex
    fieldFragment

/-- Source `ToStruct(typeMeta)`: `toStruct` with a fresh table. -/
def Unstructured.ToStruct (lib : Library) (fuel : Nat) (f : Unstructured)
    (typeMeta : Option TypeRef) : Run (Struct × Option String) :=
  (Unstructured.toStruct lib fuel f typeMeta []).bind (fun r => .ret r.1)

/-- Iteration `pf.IterateFields(...)` of the source `pick` of the typed tree,
with the current value of `remove`; `pickRec` is the recursive call, whose
result the source stores in a local variable only. -/
def Struct.pickLoop (lib : Library) (pickRec : Struct → Struct → Run Struct) (f : Struct) :
    List StructField → List Int → Run (List Int)
  | [], remove => .ret remove
  | field :: rest, remove =>
    if !f.HasByIndex lib field.Index then
      Struct.pickLoop lib pickRec f rest (remove ++ [field.Index])
    else
      (f.Field lib field.Index).bind (fun currentField =>
        if field.Fragment.IsUndefined then Struct.pickLoop lib pickRec f rest remove
        else if currentField.Fragment.IsUndefined then Struct.pickLoop lib pickRec f rest remove
        else
          (pickRec currentField.Fragment field.Fragment).bind (fun _ =>
            Struct.pickLoop lib pickRec f rest remove))

/-- Source `pick(pf Struct)` of the typed tree: the value of
`pf.Remove(remove...)` is not used, and `pf` is returned. -/
def Struct.pick (lib : Library) : Nat → Struct → Struct → Run Struct
  | 0, _, _ => .outOfFuel
  | fuel + 1, f, pf =>
    (f.EnsureDefined lib).bind (fun f =>
      (Struct.pickLoop lib (Struct.pick lib fuel) f (pf.iterated lib false) []).bind
        (fun remove => (pf.Remove lib remove).bind (fun _ => .ret pf)))

/-- The call `ParseStruct(t, nil)` of the constructors of `new.go`: on its
one nil argument `ParseStruct` calls neither `assign` nor `toStruct`. -/
def parseStructNil (lib : Library) (t : TypeArg) : Run (Struct × Option String) :=
  parseStructBody lib (fun _ _ => .outOfFuel) (fun _ _ => .outOfFuel) t [.value .nil]

/-- Source `NewStruct(t)`. -/
def NewStruct (lib : Library) (t : TypeArg) : Run Struct :=
  (parseStructNil lib t).bind (fun parsed =>
    match parsed with
    | (_, some err) => .panic err
    | (f, none) => .ret f)

/-- Source `NewEmptyStruct(t)`. -/
def NewEmptyStruct (lib : Library) (t : TypeArg) : Run Struct :=
  (parseStructNil lib t).bind (fun parsed =>
    match parsed with
    | (_, some err) => .panic err
    | (f, none) => .ret (.mk f.typeMeta (some [])))

/-! ### The struct types of the repository's tests -/

/-- A `TypeMeta` without a struct type behind it. -/
def plainType (text : String) : TypeArg :=
  { structOf := none, text := text, kind := text }

/-- The `TypeMeta` of the struct type with the given identity and text. -/
def structType (r : TypeRef) : TypeArg :=
  { structOf := some r, text := r, kind := r }

/-- The type `StructA` of `struct_test.go`: the fields `Name`, `Age` and
`Info`, none with a tag `fragment`. -/
def declStructA : StructDecl :=
  { name := "StructA", text := "StructA",
    fields := [
      { Name := "Name", JSONName := "name", fragmentTag := none, text := "Name",
        TypeMeta := plainType "string" },
      { Name := "Age", JSONName := "age", fragmentTag := none, text := "Age",
        TypeMeta := plainType "uint32" },
      { Name := "Info", JSONName := "info", fragmentTag := none, text := "Info",
        TypeMeta := plainType "map[string]interface \x7b\x7d" }],
    resolve := fun fieldName =>
      if fieldName = "Name" then some 0
      else if fieldName = "Age" then some 1
      else if fieldName = "Info" then some 2
      else none }

/-- The type `StructB` of `struct_test.go`: the field `StructA` of type
`StructA`, and the field `Date` with the tag `fragment:"includedefault"`. -/
def declStructB : StructDecl :=
  { name := "StructB", text := "StructB",
    fields := [
      { Name := "StructA", JSONName := "a", fragmentTag := none, text := "StructA",
        TypeMeta := structType "StructA" },
      { Name := "Date", JSONName := "time", fragmentTag := some "includedefault", text := "Date",
        TypeMeta := plainType "time.Time" }],
    resolve := fun fieldName =>
      if fieldName = "StructA" then some 0
      else if fieldName = "Date" then some 1
      else none }

/-- A library that knows the types `StructA` and `StructB`. -/
def testLibrary : Library :=
  { decl := fun r => if r = "StructA" then declStructA else declStructB,
    ofNil := plainType "<nil>",
    sprint := fun _ => "",
    ensurePanic := "field does not exist",
    typeName := fun _ => "[]interface \x7b\x7d" }

/-- The names that the source `toStruct` collects in `unrecognizedFields`:
those the type does not resolve, other than `__typename`, in the order of
the list. -/
def unrecognizedNames (d : StructDecl) (names : List String) : List String :=
  names.filter (fun fieldName => (d.FieldByName fieldName).isNone && fieldName != "__typename")

/-- The map of the tree has an entry under the index. -/
def Struct.hasKey (f : Struct) (fieldIndex : Int) : Bool :=
  (fieldLookup (f.fields.getD []) fieldIndex).isSome

/-- A selection over the struct type `r` without nested selections: the tree
is bound to `r`, and every entry of its map sits under the index of its
field, which is an index of a field of `r`, with an undefined tree.  The
undefined tree of `r` is one. -/
def FlatOver (lib : Library) (r : TypeRef) (f : Struct) : Prop :=
  f.typeMeta = some r ∧
  ∀ e ∈ f.fields.getD [],
    e.2.Index = e.1 ∧ ((lib.decl r).Field e.1).isSome = true ∧ e.2.Fragment.IsUndefined = true

/-! ## Errors with a field path (`error.go`) -/

/-- Go `append(s, elems...)` on slices of strings, where `none` is the nil
slice: appending nothing to the nil slice gives the nil slice. -/
def appendStrings : Option (List String) → Option (List String) → Option (List String)
  | none, none => none
  | none, some [] => none
  | none, some (x :: xs) => some (x :: xs)
  | some p, q => some (p ++ q.getD [])

/-- Source `Error`: the field `Path` (nil when no path is set) and the text
`Err.Error()` of the field `Err`. -/
structure Error where
  Path : Option (List String)
  Err : String
  deriving DecidableEq, Repr

/-- Source `Register(path ...string)`; `path` is the variadic slice, nil
when the call has no argument. -/
def Error.Register (e : Fragment.Error) (path : Option (List String)) : Fragment.Error :=
  match e.Path with
  | none => { e with Path := path }
  | some q => { e with Path := appendStrings path (some q) }

set_option linter.dupNamespace false in
/-- Source `Error()`: `strings.Join(e.Path, ".")` in parentheses after the
message, when a path is set. -/
def Error.Error (e : Fragment.Error) : String :=
  match e.Path with
  | none => e.Err
  | some path => e.Err ++ " (" ++ String.intercalate "." path ++ ")"

/-- A Go value passed to `NewError`: a fragment `Error`, another `error`
with its text, a `string`, or a value of another type with its text under
`fmt.Sprint`. -/
inductive ErrorArg where
  | fragmentError (e : Fragment.Error)
  | error (text : String)
  | string (text : String)
  | other (text : String)

/-- Source `NewError`. -/
def NewError : ErrorArg → Run Fragment.Error
  | .fragmentError vf => .ret vf
  | .error text => .ret { Path := none, Err := text }
  | .string text => .ret { Path := none, Err := text }
  | .other text => .panic ("unrecognized argument " ++ text)

/-- A struct type with a field of its own type and a field of a second
type, which in turn has a field of the first type. -/
def cyclicLibrary : Library :=
  { decl := fun r =>
      if r = "Node" then
        { name := "Node", text := "Node",
          fields := [
            { Name := "Next", JSONName := "next", fragmentTag := none, text := "Next",
              TypeMeta := structType "Node" },
            { Name := "Owner", JSONName := "owner", fragmentTag := none, text := "Owner",
              TypeMeta := structType "Owner" },
            { Name := "Label", JSONName := "label", fragmentTag := none, text := "Label",
              TypeMeta := plainType "string" }],
          resolve := fun fieldName =>
            if fieldName = "Next" then some 0
            else if fieldName = "Owner" then some 1
            else if fieldName = "Label" then some 2
            else none }
      else
        { name := "Owner", text := "Owner",
          fields := [
            { Name := "Root", JSONName := "root", fragmentTag := none, text := "Root",
              TypeMeta := structType "Node" }],
          resolve := fun fieldName => if fieldName = "Root" then some 0 else none },
    ofNil := plainType "<nil>",
    sprint := fun _ => "",
    ensurePanic := "field does not exist",
    typeName := fun _ => "[]interface \x7b\x7d" }

/-- A part returned by `splitFragment` is well formed: it is not empty, and
when it starts with an opening brace it is a brace block around runes whose
braces balance. -/
def GoodPart (p : List Char) : Prop :=
  p ≠ [] ∧ (p.head? = some leftBrace → ∃ body, p = braceBlock body ∧ scanDepth 0 body = some 0)

/-! ## Paths (`structpath.go`, `structpathfragment.go`, `unstructuredpath.go`,
`new.go`) and the expression of a typed tree -/

/-- Source `StructField.expr()`; `structExpr` is the call of `Struct.Expr`. -/
def StructField.exprWith (structExpr : Struct → Run String) (sf : StructField) : Run String :=
  if sf.Fragment.IsUndefined then .ret sf.field.Name
  else
    (structExpr sf.Fragment).bind (fun fragmentExpr =>
      if fragmentExpr ≠ "" then .ret (sf.field.Name ++ " " ++ fragmentExpr)
      else .ret sf.field.Name)

/-- Iteration `f.IterateFields(...)` of the source `Struct.expr()`, with the
current value of `expr`. -/
def Struct.exprLoop (fieldExpr : StructField → Run String) :
    List StructField → String → Run String
  | [], expr => .ret expr
  | field :: rest, expr =>
    (fieldExpr field).bind (fun fieldExpr' =>
      if expr ≠ "" then Struct.exprLoop fieldExpr rest (expr ++ (", " ++ fieldExpr'))
      else Struct.exprLoop fieldExpr rest (expr ++ fieldExpr'))

/-- Source `Struct.expr()`, with a bound on the depth of the recursion. -/
def Struct.expr (lib : Library) : Nat → Struct → Run String
  | 0, _ => .outOfFuel
  | fuel + 1, f =>
    (Struct.exprLoop (StructField.exprWith (Struct.expr lib fuel)) (f.iterated lib false) "").bind
      (fun expr => if expr = "" then .ret "" else .ret ("\x7b " ++ expr ++ " \x7d"))

/-- Source `Struct.Expr()`. -/
def Struct.Expr (lib : Library) (fuel : Nat) (f : Struct) : Run String :=
  Struct.expr lib fuel f

/-- Source `StructPath`; `fieldIndices` is `none` for the nil slice. -/
structure StructPath where
  typeMeta : Option TypeRef
  fieldIndices : Option (List Int)
  tailFragment : Struct

/-- Source `UnstructuredPath`; `fieldNames` is `none` for the nil slice,
`tailFragment` is `none` for the nil interface value.  Tail trees are the
untyped trees. -/
structure UnstructuredPath where
  fieldNames : Option (List String)
  tailFragment : Option Unstructured

/-- The panic of the Go runtime for a method called through a nil pointer. -/
def nilDereference : String :=
  "runtime error: invalid memory address or nil pointer dereference"

/-- Go `strings.Split(s, ".")` on the runes of `s`, with the runes of the
current piece. -/
def splitDotsLoop : List Char → List Char → List (List Char)
  | [], cur => [cur]
  | c :: rest, cur =>
    if c = '.' then cur :: splitDotsLoop rest [] else splitDotsLoop rest (cur ++ [c])

/-- Go `strings.Split(s, ".")`. -/
def splitDots (s : String) : List String :=
  (splitDotsLoop s.toList []).map String.mk

/-- Library `typemeta.EnsureStructFieldAt(typeMeta, indices)`: the field
reached from the type by the indices, one struct type after another. -/
def ensureStructFieldAt (lib : Library) : Option TypeRef → List Int → Run FieldMeta
  | _, [] => .panic lib.ensurePanic
  | none, _ :: _ => .panic nilDereference
  | some r, [fieldIndex] => (lib.decl r).EnsureField lib fieldIndex
  | some r, fieldIndex :: next :: rest =>
    ((lib.decl r).EnsureField lib fieldIndex).bind (fun field =>
      ensureStructFieldAt lib (structOfField field) (next :: rest))

namespace StructPath

/-- Source `FieldIndices`. -/
def FieldIndices (sp : StructPath) : Option (List Int) :=
  sp.fieldIndices

/-- Loop of the source `TailTypeMeta`. -/
def tailTypeMetaLoop (lib : Library) : List Int → Option TypeRef → Run (Option TypeRef)
  | [], tailTypeMeta => .ret tailTypeMeta
  | fieldIndex :: rest, tailTypeMeta =>
    match tailTypeMeta with
    | none => .panic nilDereference
    | some r =>
      ((lib.decl r).EnsureField lib fieldIndex).bind (fun field =>
        tailTypeMetaLoop lib rest (structOfField field))

/-- Source `TailTypeMeta`. -/
def TailTypeMeta (lib : Library) (sp : StructPath) : Run (Option TypeRef) :=
  tailTypeMetaLoop lib (sp.FieldIndices.getD []) sp.typeMeta

/-- Loop of the source `FieldNames`. -/
def fieldNamesLoop (lib : Library) : List Int → Option TypeRef → List String → Run (List String)
  | [], _, fieldNames => .ret fieldNames
  | fieldIndex :: rest, currentTypeMeta, fieldNames =>
    match currentTypeMeta with
    | none => .panic nilDereference
    | some r =>
      ((lib.decl r).EnsureField lib fieldIndex).bind (fun structField =>
        fieldNamesLoop lib rest (structOfField structField) (fieldNames ++ [structField.Name]))

/-- Source `FieldNames`; `none` is the nil slice. -/
def FieldNames (lib : Library) (sp : StructPath) : Run (Option (List String)) :=
  match sp.FieldIndices with
  | none => .ret none
  | some fieldIndices =>
    (fieldNamesLoop lib fieldIndices sp.typeMeta []).bind (fun fieldNames =>
      .ret (some fieldNames))

/-- Loop `for rangeEnd := fieldIndicesLen - 1; rangeEnd > 0; rangeEnd--` of
the source `ToStructFragment`, with the current value of `currentFragment`. -/
def toStructFragmentLoop (lib : Library) (fuel : Nat) (sp : StructPath) (fieldIndices : List Int) :
    Nat → Struct → Run Struct
  | 0, currentFragment => .ret currentFragment
  | rangeEnd + 1, currentFragment =>
    (ensureStructFieldAt lib sp.typeMeta (fieldIndices.take (rangeEnd + 1))).bind
      (fun currentField =>
        (NewStruct lib (typeArgOfField lib currentField.TypeMeta)).bind (fun newFragment =>
          if !newFragment.IsValid then
            .panic ("Cannot create fragment for field " ++ currentField.text)
          else
            match fieldIndices[rangeEnd + 1]? with
            | none => .panic "runtime error: index out of range"
            | some fieldIndex =>
              if currentFragment.IsUndefined then
                (newFragment.Add lib [fieldIndex]).bind (fun newFragment =>
                  toStructFragmentLoop lib fuel sp fieldIndices rangeEnd newFragment)
              else
                (newFragment.Set lib fuel fieldIndex (.struct currentFragment)).bind
                  (fun newFragment =>
                    toStructFragmentLoop lib fuel sp fieldIndices rangeEnd newFragment)))

/-- Source `ToStructFragment`; `fuel` bounds the depth of the calls of
`Set`. -/
def ToStructFragment (lib : Library) (fuel : Nat) (sp : StructPath) : Run Struct :=
  match sp.FieldIndices with
  | none => .ret (.mk sp.typeMeta (some []))
  | some fieldIndices =>
    (toStructFragmentLoop lib fuel sp fieldIndices (fieldIndices.length - 1)
        sp.tailFragment).bind (fun currentFragment =>
      (NewStruct lib (typeArgOfStruct lib sp.typeMeta)).bind (fun root =>
        match fieldIndices[0]? with
        | none => .panic "runtime error: index out of range [0] with length 0"
        | some fieldIndex => root.Set lib fuel fieldIndex (.struct currentFragment)))

/-- Loop of the source `FragmentAt`, on the variable `fragment`. -/
def fragmentAtLoop (lib : Library) : List Int → Struct → Run Struct
  | [], fragment => .ret fragment
  | fieldIndex :: rest, fragment =>
    (fragment.FieldFragment lib fieldIndex).bind (fun fragment =>
      fragmentAtLoop lib rest fragment)

/-- Source `FragmentAt`: the loop assigns to `fragment`, the result is
`currentFragment`. -/
def FragmentAt (lib : Library) (sp : StructPath) (fragment : Struct) : Run Struct :=
  let currentFragment := fragment
  (fragmentAtLoop lib (sp.FieldIndices.getD []) fragment).bind (fun _ =>
    .ret currentFragment)

end StructPath

namespace UnstructuredPath

/-- Source `FieldNames`. -/
def FieldNames (ip : UnstructuredPath) : Option (List String) :=
  match ip.fieldNames with
  | none => none
  | some fieldNames => some fieldNames

/-- Loop `for i, key := range fieldNames` of the source `ToFragment`, with
the index `i` and the current value of `current`; the result is the last
value of `current`. -/
def toFragmentLoop (ip : UnstructuredPath) (maxIndex : Int) :
    List String → Int → Unstructured → Run Unstructured
  | [], _, current => .ret current
  | key :: rest, i, current =>
    if i = maxIndex then
      match ip.tailFragment with
      | some tail =>
        if !tail.IsUndefined then
          (current.Set key (some tail)).bind (fun current =>
            toFragmentLoop ip maxIndex rest (i + 1) current)
        else toFragmentLoop ip maxIndex rest (i + 1) (current.Add [key])
      | none => toFragmentLoop ip maxIndex rest (i + 1) (current.Add [key])
    else
      (current.Set key (some (Unstructured.mk none))).bind (fun current =>
        match current.Field key with
        | none =>
          .panic "interface conversion: interface is nil, not fragment.Unstructured"
        | some current => toFragmentLoop ip maxIndex rest (i + 1) current)

/-- Source `ToFragment`: `none` is the nil interface value.  The loop works
on `current`; the result is `root`. -/
def ToFragment (ip : UnstructuredPath) : Run (Option Unstructured) :=
  match ip.FieldNames with
  | none => .ret none
  | some fieldNames =>
    let root := NewUnstructured
    let current := root
    let maxIndex : Int := (fieldNames.length : Int) - 1
    (toFragmentLoop ip maxIndex fieldNames 0 current).bind (fun _ => .ret (some root))

end UnstructuredPath

/-- An argument of `NewStructPath` after the receiving type: a string, an
int, a slice of strings or of ints, a struct path, an untyped path, a typed
or an untyped tree, or a value of another type with its text under
`fmt.Sprint`. -/
inductive StructPathArg where
  | string (vstr : String)
  | int (vint : Int)
  | strings (names : List String)
  | ints (indices : List Int)
  | structPath (sp : StructPath)
  | path (ip : UnstructuredPath)
  | structFragment (f : Struct)
  | unstructuredFragment (f : Unstructured)
  | other (text : String)

/-- An argument of `NewUnstructuedPath`: a string, a slice of strings, an
untyped path, an untyped tree, or a value of another type with its text
under `fmt.Sprint`. -/
inductive UnstructuredPathArg where
  | string (vstr : String)
  | strings (names : List String)
  | path (ip : UnstructuredPath)
  | fragment (f : Unstructured)
  | other (text : String)

/-- Loop `for _, fieldName := range v` of the source `NewStructPath`. -/
def structPathNames (lib : Library) :
    List String → List Int → Option TypeRef → Run (List Int × Option TypeRef)
  | [], fieldIndices, currentTypeMeta => .ret (fieldIndices, currentTypeMeta)
  | fieldName :: rest, fieldIndices, currentTypeMeta =>
    match currentTypeMeta with
    | none => .panic nilDereference
    | some r =>
      ((lib.decl r).EnsureFieldByName lib fieldName).bind (fun field =>
        structPathNames lib rest (fieldIndices ++ [field.Index]) (structOfField field))

/-- Loop `for _, fieldIndex := range v` of the source `NewStructPath`. -/
def structPathIndices (lib : Library) :
    List Int → List Int → Option TypeRef → Run (List Int × Option TypeRef)
  | [], fieldIndices, currentTypeMeta => .ret (fieldIndices, currentTypeMeta)
  | fieldIndex :: rest, fieldIndices, currentTypeMeta =>
    match currentTypeMeta with
    | none => .panic nilDereference
    | some r =>
      ((lib.decl r).EnsureField lib fieldIndex).bind (fun field =>
        structPathIndices lib rest (fieldIndices ++ [field.Index]) (structOfField field))

/-- The path with other field indices. -/
def StructPath.withIndices (path : StructPath) (fieldIndices : List Int) : StructPath :=
  StructPath.mk path.typeMeta (some fieldIndices) path.tailFragment

/-- Case `Fragment` of the source `NewStructPath`: the tree `v` is parsed
for the tail type and stored as the tail tree. -/
def structPathTail (lib : Library) (fuel : Nat) (path : StructPath) (v : Arg) : Run StructPath :=
  (path.TailTypeMeta lib).bind (fun tailTypeMeta =>
    (ParseStruct lib fuel (typeArgOfStruct lib tailTypeMeta) [v]).bind (fun parsed =>
      match parsed with
      | (_, some err) => .panic err
      | (tailFragment, none) => .ret (StructPath.mk path.typeMeta path.fieldIndices tailFragment)))

/-- Loop `for _, v := range v` of the source `NewStructPath`, with the
current values of `path` and `currentTypeMeta`. -/
def newStructPathLoop (lib : Library) (fuel : Nat) :
    List StructPathArg → StructPath → Option TypeRef → Run StructPath
  | [], path, _ => .ret path
  | .string vstr :: rest, path, currentTypeMeta =>
    (structPathNames lib (splitDots vstr) (path.fieldIndices.getD []) currentTypeMeta).bind
      (fun r => newStructPathLoop lib fuel rest (path.withIndices r.1) r.2)
  | .strings names :: rest, path, currentTypeMeta =>
    (structPathNames lib names (path.fieldIndices.getD []) currentTypeMeta).bind
      (fun r => newStructPathLoop lib fuel rest (path.withIndices r.1) r.2)
  | .int vint :: rest, path, currentTypeMeta =>
    (structPathIndices lib [vint] (path.fieldIndices.getD []) currentTypeMeta).bind
      (fun r => newStructPathLoop lib fuel rest (path.withIndices r.1) r.2)
  | .ints indices :: rest, path, currentTypeMeta =>
    (structPathIndices lib indices (path.fieldIndices.getD []) currentTypeMeta).bind
      (fun r => newStructPathLoop lib fuel rest (path.withIndices r.1) r.2)
  | .structPath sp :: rest, path, currentTypeMeta =>
    match sp.typeMeta, currentTypeMeta with
    | some t, some c =>
      if t ≠ c then
        .panic ("expected struct path for type " ++ (lib.decl c).text ++ " but received "
          ++ (lib.decl t).text)
      else
        (sp.TailTypeMeta lib).bind (fun tail =>
          newStructPathLoop lib fuel rest
            (path.withIndices ((path.fieldIndices.getD []) ++ (sp.fieldIndices.getD []))) tail)
    | _, _ => .panic nilDereference
  | .path ip :: rest, path, currentTypeMeta =>
    (structPathNames lib (ip.FieldNames.getD []) (path.fieldIndices.getD [])
        currentTypeMeta).bind
      (fun r => newStructPathLoop lib fuel rest (path.withIndices r.1) r.2)
  | .structFragment f :: rest, path, currentTypeMeta =>
    (structPathTail lib fuel path (.struct f)).bind (fun path =>
      newStructPathLoop lib fuel rest path currentTypeMeta)
  | .unstructuredFragment f :: rest, path, currentTypeMeta =>
    (structPathTail lib fuel path (.value (.unstructured f))).bind (fun path =>
      newStructPathLoop lib fuel rest path currentTypeMeta)
  | .other text :: _, _, _ => .panic ("unrecognized path argument " ++ text)

/-- Source `NewStructPath(t, v...)`; `t` is the `TypeMeta` of the first
argument, `fuel` bounds the depth of the calls of `ParseStruct`. -/
def NewStructPath (lib : Library) (fuel : Nat) (t : TypeArg) (v : List StructPathArg) :
    Run StructPath :=
  match t.structOf with
  | none => .panic ("cannot create struct path for non-struct type " ++ t.text)
  | some typeMeta =>
    (newStructPathLoop lib fuel v (StructPath.mk (some typeMeta) (some []) (.mk none none))
        (some typeMeta)).bind (fun path =>
      if (path.fieldIndices.getD []).length = 0 then
        .ret (StructPath.mk path.typeMeta none path.tailFragment)
      else .ret path)

/-- Loop `for _, v := range v` of the source `NewUnstructuedPath`. -/
def newUnstructuredPathLoop : List UnstructuredPathArg → UnstructuredPath → Run UnstructuredPath
  | [], path => .ret path
  | .string vstr :: rest, path =>
    newUnstructuredPathLoop rest
      (UnstructuredPath.mk (appendStrings path.fieldNames (some (splitDots vstr)))
        path.tailFragment)
  | .strings names :: rest, path =>
    newUnstructuredPathLoop rest
      (UnstructuredPath.mk (appendStrings path.fieldNames (some names)) path.tailFragment)
  | .path ip :: rest, path =>
    newUnstructuredPathLoop rest
      (UnstructuredPath.mk (appendStrings path.fieldNames ip.FieldNames) path.tailFragment)
  | .fragment f :: rest, path =>
    newUnstructuredPathLoop rest (UnstructuredPath.mk path.fieldNames (some f))
  | .other text :: _, _ => .panic ("unrecognized path argument " ++ text)

/-- Source `NewUnstructuedPath(v...)`. -/
def NewUnstructuedPath (v : List UnstructuredPathArg) : Run UnstructuredPath :=
  newUnstructuredPathLoop v (UnstructuredPath.mk (some []) none)

/-! ### The struct types of `structpath_test.go` -/

/-- The type `StructA` of `structpath_test.go`: the field `Name`. -/
def declPathStructA : StructDecl :=
  { name := "StructA", text := "StructA",
    fields := [
      { Name := "Name", JSONName := "Name", fragmentTag := none, text := "Name",
        TypeMeta := plainType "string" }],
    resolve := fun fieldName => if fieldName = "Name" then some 0 else none }

/-- The type `StructB` of `structpath_test.go`: the field `Age` and the
field `A`, a slice of `StructA`, whose struct type is `StructA`. -/
def declPathStructB : StructDecl :=
  { name := "StructB", text := "StructB",
    fields := [
      { Name := "Age", JSONName := "Age", fragmentTag := none, text := "Age",
        TypeMeta := plainType "int" },
      { Name := "A", JSONName := "A", fragmentTag := none, text := "A",
        TypeMeta := { structOf := some "StructA", text := "[]StructA", kind := "slice" } }],
    resolve := fun fieldName =>
      if fieldName = "Age" then some 0
      else if fieldName = "A" then some 1
      else none }

/-- The type `StructC` of `structpath_test.go`: the field `B` of type
`StructB`. -/
def declPathStructC : StructDecl :=
  { name := "StructC", text := "StructC",
    fields := [
      { Name := "B", JSONName := "B", fragmentTag := none, text := "B",
        TypeMeta := structType "StructB" }],
    resolve := fun fieldName => if fieldName = "B" then some 0 else none }

/-- A library that knows the three types of `structpath_test.go`. -/
def pathLibrary : Library :=
  { decl := fun r =>
      if r = "StructA" then declPathStructA
      else if r = "StructB" then declPathStructB
      else declPathStructC,
    ofNil := plainType "<nil>",
    sprint := fun _ => "",
    ensurePanic := "field does not exist",
    typeName := fun _ => "[]interface \x7b\x7d" }

/-! ### Paths that resolve, and the nested trees of a path -/

/-- The indices resolve one after another from the type: each is the index
of a field of the struct type reached so far, and the field of every index
but the last has a struct type. -/
def Resolves (lib : Library) : Option TypeRef → List Int → Prop
  | _, [] => True
  | none, _ :: _ => False
  | some r, fieldIndex :: rest =>
    ∃ sf, (lib.decl r).Field fieldIndex = some sf ∧ Resolves lib (structOfField sf) rest

/-- The names resolve one after another from the type, to the indices
`fieldIndices`. -/
def NamesResolve (lib : Library) : Option TypeRef → List String → List Int → Prop
  | _, [], fieldIndices => fieldIndices = []
  | none, _ :: _, _ => False
  | some r, fieldName :: names, fieldIndices =>
    ∃ sf rest, (lib.decl r).FieldByName fieldName = some sf ∧ fieldIndices = sf.Index :: rest ∧
      NamesResolve lib (structOfField sf) names rest

/-- The struct type reached from the type by the indices. -/
def walk (lib : Library) : Option TypeRef → List Int → Option TypeRef
  | t, [] => t
  | none, _ :: _ => none
  | some r, fieldIndex :: rest =>
    match (lib.decl r).Field fieldIndex with
    | none => none
    | some sf => walk lib (structOfField sf) rest

/-- The tree of the type with one level for every index: each level is a
defined tree with the one field of that index, and below the last index is
the undefined tree of the type of the last field. -/
def nest (lib : Library) : Option TypeRef → List Int → Struct
  | t, [] => .mk t none
  | none, _ :: _ => .mk none none
  | some r, fieldIndex :: rest =>
    match (lib.decl r).Field fieldIndex with
    | none => .mk (some r) none
    | some sf => .mk (some r) (some [(fieldIndex, .mk sf (nest lib (structOfField sf) rest))])

/-- The tree `f` of the type `t` has one level for every index: at each
level the map holds exactly one entry, under the index, that carries the
field of the type with this index and the tree of the levels below; below
the last index is the tree with the nil map. -/
def NestedLevels (lib : Library) : Option TypeRef → List Int → Struct → Prop
  | t, [], f => f = .mk t none
  | t, fieldIndex :: rest, f =>
    ∃ r sf child, t = some r ∧ (lib.decl r).Field fieldIndex = some sf ∧
      f = .mk (some r) (some [(fieldIndex, .mk sf child)]) ∧
      NestedLevels lib (structOfField sf) rest child

/-- The field `StructA` of the type `StructB` of `struct_test.go`. -/
def fieldStructA : FieldMeta :=
  (declStructB.Field 0).getD FieldMeta.zero

/-- The tree `{ Name }` of the type `StructA` of `struct_test.go`. -/
def treeName : Struct :=
  nest testLibrary (some "StructA") [0]

/-! ## Values (`nullundefined.go`, `pickjson.go`) -/

/-- A `reflect.Value` as far as the repository reads it, by kind: the zero
`Value`, a bool, a signed or an unsigned integer of any width, a float with
what `IsZero` says of it, a string, a struct with the identity of its type
and the values of its fields, a pointer (`none` when nil) with the value it
points to, a slice (`none` when nil), an array, a map (`none` when nil)
with the texts of its keys, an interface (`none` when nil) with its dynamic
value, a complex number with what `IsZero` says of it, and a channel,
function or unsafe pointer with whether it is nil. -/
inductive GoValue where
  | invalid
  | bool (b : Bool)
  | int (n : Int)
  | uint (n : Nat)
  | float (isZero : Bool)
  | string (s : String)
  | struct (type : TypeRef) (fields : List GoValue)
  | ptr (elem : Option GoValue)
  | slice (items : Option (List GoValue))
  | array (items : List GoValue)
  | map (entries : Option (List (String × GoValue)))
  | iface (dynamic : Option GoValue)
  | complex (isZero : Bool)
  | other (isNil : Bool)

namespace GoValue

/-- Text of `v.Kind().String()`, with the kinds of one constructor taken
together. -/
def kindText : GoValue → String
  | .invalid => "invalid"
  | .bool _ => "bool"
  | .int _ => "int"
  | .uint _ => "uint"
  | .float _ => "float64"
  | .string _ => "string"
  | .struct _ _ => "struct"
  | .ptr _ => "ptr"
  | .slice _ => "slice"
  | .array _ => "array"
  | .map _ => "map"
  | .iface _ => "interface"
  | .complex _ => "complex128"
  | .other _ => "chan"

/-- Go `reflect.Value.IsValid`. -/
def IsValid : GoValue → Bool
  | .invalid => false
  | _ => true

/-- Go `reflect.Value.IsNil`: defined for channels, functions, interfaces,
maps, pointers and slices, a panic for every other kind. -/
def IsNil : GoValue → Run Bool
  | .ptr elem => .ret elem.isNone
  | .slice items => .ret items.isNone
  | .map entries => .ret entries.isNone
  | .iface dynamic => .ret dynamic.isNone
  | .other isNil => .ret isNil
  | .invalid => .panic "reflect: call of reflect.Value.IsNil on zero Value"
  | v => .panic ("reflect: call of reflect.Value.IsNil on " ++ v.kindText ++ " Value")

mutual
/-- Go `reflect.Value.IsZero`. -/
def IsZero : GoValue → Run Bool
  | .invalid => .panic "reflect: call of reflect.Value.IsZero on zero Value"
  | .bool b => .ret (!b)
  | .int n => .ret (n == 0)
  | .uint n => .ret (n == 0)
  | .float isZero => .ret isZero
  | .string s => .ret (s == "")
  | .struct _ fields => allZero fields
  | .ptr elem => .ret elem.isNone
  | .slice items => .ret items.isNone
  | .array items => allZero items
  | .map entries => .ret entries.isNone
  | .iface dynamic => .ret dynamic.isNone
  | .complex isZero => .ret isZero
  | .other isNil => .ret isNil
/-- The loop of `IsZero` over the fields of a struct and over the elements
of an array: false at the first one that is not zero. -/
def allZero : List GoValue → Run Bool
  | [] => .ret true
  | v :: rest => (IsZero v).bind (fun zero => if !zero then .ret false else allZero rest)
end

/-- Go `reflect.Value.Interface`, the interface value as an optional dynamic
value: a panic for the zero `Value`. -/
def Interface : GoValue → Run (Option GoValue)
  | .invalid => .panic "reflect: call of reflect.Value.Interface on zero Value"
  | .iface dynamic => .ret dynamic
  | v => .ret (some v)

/-- Go `reflect.ValueOf(i)` of an interface value. -/
def ValueOf : Option GoValue → GoValue
  | none => .invalid
  | some v => v

end GoValue

/-- Source `isValueUndefined(v, elem)`. -/
def isValueUndefined : GoValue → Bool → Run Bool
  | .string s, elem => if elem then .ret false else (GoValue.string s).IsZero
  | .struct type fields, elem => if elem then .ret false else (GoValue.struct type fields).IsZero
  | .ptr none, _ => .ret true
  | .ptr (some v), _ => isValueUndefined v true
  | .bool b, elem => if elem then .ret false else (GoValue.bool b).IsZero
  | .int n, elem => if elem then .ret false else (GoValue.int n).IsZero
  | .uint n, elem => if elem then .ret false else (GoValue.uint n).IsZero
  | .float isZero, elem => if elem then .ret false else (GoValue.float isZero).IsZero
  | .invalid, _ => .ret true
  | .slice items, _ => (GoValue.slice items).IsZero
  | .array items, _ => (GoValue.array items).IsZero
  | .map entries, _ => (GoValue.map entries).IsZero
  | .iface dynamic, _ => (GoValue.iface dynamic).IsZero
  | .complex isZero, _ => (GoValue.complex isZero).IsZero
  | .other isNil, _ => (GoValue.other isNil).IsZero

/-- Source `IsValueUndefined`. -/
def IsValueUndefined (v : GoValue) : Run Bool :=
  isValueUndefined v false

mutual
/-- Source `IsValueJSONNull`. -/
def IsValueJSONNull : GoValue → Run Bool
  | .ptr none => .ret true
  | .ptr (some v) => IsValueJSONNull v
  | .invalid => .ret true
  | .slice items =>
    (GoValue.slice items).IsNil.bind (fun isNil =>
      if isNil then .ret true
      else
        match items with
        | none => .ret true
        | some items => allJSONNull items)
  | .array items =>
    (GoValue.array items).IsNil.bind (fun isNil =>
      if isNil then .ret true else allJSONNull items)
  | .map entries =>
    (GoValue.map entries).IsNil.bind (fun isNil =>
      if isNil then .ret true
      else
        match entries with
        | none => .ret true
        | some entries => allJSONNullEntries entries)
  | .bool _ => .ret false
  | .int _ => .ret false
  | .uint _ => .ret false
  | .float _ => .ret false
  | .string s => (GoValue.string s).IsZero
  | .struct type fields => (GoValue.struct type fields).IsZero
  | .iface dynamic => (GoValue.iface dynamic).IsZero
  | .complex isZero => (GoValue.complex isZero).IsZero
  | .other isNil => (GoValue.other isNil).IsZero
/-- Loop of `IsValueJSONNull` over the elements of a slice or array. -/
def allJSONNull : List GoValue → Run Bool
  | [] => .ret true
  | v :: rest =>
    (IsValueJSONNull v).bind (fun null => if !null then .ret false else allJSONNull rest)
/-- Loop of `IsValueJSONNull` over the keys of a map, in the order of the
entry list. -/
def allJSONNullEntries : List (String × GoValue) → Run Bool
  | [] => .ret true
  | (_, v) :: rest =>
    (IsValueJSONNull v).bind (fun null => if !null then .ret false else allJSONNullEntries rest)
end

/-- What the library `go-typemeta` and `reflect` report to `pickJSON`:
`Primitive()` of a struct type and of a field, whether
`typemeta.InterfaceOf` of the type of a field is not nil, the field
`JSONOmitEmpty` of a field, and the text `Type().String()` of a struct
type. -/
structure JSONLibrary where
  structPrimitive : TypeRef → Bool
  fieldPrimitive : FieldMeta → Bool
  interfaceOf : FieldMeta → Bool
  JSONOmitEmpty : FieldMeta → Bool
  typeText : TypeRef → String

/-- Source `IsFieldValueJSONNull(structField, v)`; `structField` is `none`
for the nil pointer. -/
def IsFieldValueJSONNull (jl : JSONLibrary) (structField : Option FieldMeta) (v : GoValue) :
    Run Bool :=
  match structField with
  | none => IsValueJSONNull v
  | some structField =>
    (IsValueJSONNull v).bind (fun null =>
      if null then .ret true
      else if jl.JSONOmitEmpty structField then IsValueUndefined v
      else .ret false)

/-- A value of the interface type `Fragment`: nil, a typed tree or an
untyped tree. -/
inductive FragmentArg where
  | nil
  | struct (f : Struct)
  | unstructured (f : Unstructured)

/-- Go `values[key] = v` on the entries of a map with string keys. -/
def valuesSet : List (String × GoValue) → String → GoValue → List (String × GoValue)
  | [], key, v => [(key, v)]
  | (k, w) :: rest, key, v =>
    if k = key then (k, v) :: rest else (k, w) :: valuesSet rest key v

/-- Loop over the elements of an array or slice of the source `pickJSON`,
with the current value of `jsonSlice`; `pickRec` is the recursive call with
the same tree. -/
def pickJSONSlice (pickRec : GoValue → Run (GoValue × Option ErrorArg)) :
    List GoValue → List GoValue → Run (GoValue × Option ErrorArg)
  | [], jsonSlice => .ret (.slice (some jsonSlice), none)
  | element :: rest, jsonSlice =>
    (pickRec element).bind (fun picked =>
      match picked with
      | (_, some err) => .ret (.invalid, some err)
      | (json, none) =>
        if !json.IsValid then pickJSONSlice pickRec rest (jsonSlice ++ [.iface none])
        else
          json.Interface.bind (fun boxed =>
            pickJSONSlice pickRec rest (jsonSlice ++ [.iface boxed])))

/-- Loop `for index := 0; index < NumField(); index++` of the source
`pickJSON`, over the values of the fields from `index` on, with the current
value of `values`; `pickRec` is the recursive call. -/
def pickJSONFields (lib : Library) (jl : JSONLibrary)
    (pickRec : Struct → GoValue → Run (GoValue × Option ErrorArg))
    (fragment : Struct) (structTypeMeta : TypeRef) :
    List GoValue → Int → List (String × GoValue) → Run (GoValue × Option ErrorArg)
  | [], _, values => .ret (.map (some values), none)
  | fieldOriginalValue :: rest, index, values =>
    if !fragment.HasByIndex lib index then
      pickJSONFields lib jl pickRec fragment structTypeMeta rest (index + 1) values
    else
      ((lib.decl structTypeMeta).EnsureField lib index).bind (fun structField =>
        if structField.JSONName = "" then
          pickJSONFields lib jl pickRec fragment structTypeMeta rest (index + 1) values
        else
          (fragment.Field lib index).bind (fun field =>
            (IsFieldValueJSONNull jl (some structField) fieldOriginalValue).bind (fun null =>
              if null then
                if !fragment.IsUndefined then
                  pickJSONFields lib jl pickRec fragment structTypeMeta rest (index + 1)
                    (valuesSet values field.field.JSONName (.iface none))
                else
                  pickJSONFields lib jl pickRec fragment structTypeMeta rest (index + 1) values
              else
                (if !jl.fieldPrimitive field.field && field.Fragment.IsUndefined then
                  (NewStruct lib (typeArgOfField lib structField.TypeMeta)).bind (fun created =>
                    .ret (StructField.mk structField created))
                else .ret field).bind (fun field =>
                  if (structOfField field.field).isSome || jl.interfaceOf field.field then
                    (pickRec field.Fragment fieldOriginalValue).bind (fun picked =>
                      match picked with
                      | (_, some err) =>
                        (NewError err).bind (fun e =>
                          .ret (.invalid,
                            some (.fragmentError (e.Register (some [structField.Name])))))
                      | (fieldValue, none) =>
                        (IsValueJSONNull fieldValue).bind (fun null =>
                          if null then
                            if !fragment.IsUndefined then
                              pickJSONFields lib jl pickRec fragment structTypeMeta rest
                                (index + 1)
                                (valuesSet values field.field.JSONName (.iface none))
                            else
                              pickJSONFields lib jl pickRec fragment structTypeMeta rest
                                (index + 1) values
                          else
                            fieldValue.Interface.bind (fun boxed =>
                              pickJSONFields lib jl pickRec fragment structTypeMeta rest
                                (index + 1)
                                (valuesSet values field.field.JSONName (.iface boxed)))))
                  else
                    fieldOriginalValue.Interface.bind (fun boxed =>
                      pickJSONFields lib jl pickRec fragment structTypeMeta rest (index + 1)
                        (valuesSet values field.field.JSONName (.iface boxed)))))))

/-- Step `reflectValue = reflect.ValueOf(reflectValue.Interface())` of the
source `pickJSON`, taken for a value of the kind interface. -/
def unwrapInterface : GoValue → GoValue
  | .iface dynamic => GoValue.ValueOf dynamic
  | v => v

/-- The variable `nonPtrReflectValue` of the source `pickJSON`, for a value
that is not the nil pointer: the pointee of a pointer, the value itself
otherwise. -/
def nonPtrValue : GoValue → GoValue
  | .ptr (some elem) => elem
  | v => v

/-- Branch of the source `pickJSON` for a typed tree and a value of the kind
struct; `pickRec` is the recursive call. -/
def pickJSONStruct (lib : Library) (jl : JSONLibrary)
    (pickRec : FragmentArg → GoValue → Run (GoValue × Option ErrorArg))
    (fragment : Struct) (reflectValue : GoValue) (type : TypeRef) (fields : List GoValue) :
    Run (GoValue × Option ErrorArg) :=
  match fragment.typeMeta with
  | none => .panic nilDereference
  | some structTypeMeta =>
    if jl.structPrimitive structTypeMeta then .ret (.struct type fields, none)
    else if type ≠ structTypeMeta then
      .ret (reflectValue,
        some (.error ("type of value and fragment do not match: " ++ jl.typeText type
          ++ " vs. " ++ (lib.decl structTypeMeta).text)))
    else
      pickJSONFields lib jl (fun f v => pickRec (.struct f) v) fragment structTypeMeta fields 0 []

/-- The branches of the source `pickJSON` after the pointer is followed, by
the kind of `nonPtrReflectValue` and the type of the tree. -/
def pickJSONValue (lib : Library) (jl : JSONLibrary)
    (pickRec : FragmentArg → GoValue → Run (GoValue × Option ErrorArg))
    (reflectValue : GoValue) :
    GoValue → FragmentArg → Run (GoValue × Option ErrorArg)
  | .array items, fragment => pickJSONSlice (pickRec fragment) items []
  | .slice items, fragment => pickJSONSlice (pickRec fragment) (items.getD []) []
  | .struct type fields, .struct fragment =>
    pickJSONStruct lib jl pickRec fragment reflectValue type fields
  | .struct type fields, _ =>
    .ret (.struct type fields,
      some (.error "not implemented picking structs using unstructured fragments"))
  | nonPtrReflectValue, _ => .ret (nonPtrReflectValue, none)

/-- Body of the source `pickJSON(fragment, reflectValue)`; `pickRec` is the
recursive call. -/
def pickJSONBody (lib : Library) (jl : JSONLibrary)
    (pickRec : FragmentArg → GoValue → Run (GoValue × Option ErrorArg))
    (fragment : FragmentArg) (reflectValue : GoValue) : Run (GoValue × Option ErrorArg) :=
  match fragment with
  | .nil => .ret (reflectValue, none)
  | fragment =>
    match unwrapInterface reflectValue with
    | .ptr none => .ret (.invalid, none)
    | reflectValue => pickJSONValue lib jl pickRec reflectValue (nonPtrValue reflectValue) fragment

/-- Source `pickJSON(fragment, reflectValue)`, with a bound on the depth of
the recursion. -/
def pickJSON (lib : Library) (jl : JSONLibrary) :
    Nat → FragmentArg → GoValue → Run (GoValue × Option ErrorArg)
  | 0, _, _ => .outOfFuel
  | fuel + 1, fragment, reflectValue =>
    pickJSONBody lib jl (pickJSON lib jl fuel) fragment reflectValue

/-- Source `PickJSON(fragment, value)`; an interface value is `none` when
nil. -/
def PickJSON (lib : Library) (jl : JSONLibrary) (fuel : Nat) (fragment : FragmentArg)
    (value : Option GoValue) : Run (Option GoValue × Option ErrorArg) :=
  match fragment with
  | .nil => .ret (value, none)
  | fragment =>
    (pickJSON lib jl fuel fragment (GoValue.ValueOf value)).bind (fun picked =>
      if !picked.1.IsValid then .ret (none, picked.2)
      else picked.1.Interface.bind (fun boxed => .ret (boxed, picked.2)))

/-- The entry that the loop over the elements of a list appends for a
projected element: the nil interface value for the zero `Value`, and the
value as an interface value otherwise. -/
def boxJSON : GoValue → GoValue
  | .invalid => .iface none
  | .iface dynamic => .iface dynamic
  | v => .iface (some v)

/-- Every field in the map of the tree carries, under its index, the field
of the type with this index. -/
def Struct.Keyed (lib : Library) (r : TypeRef) (f : Struct) : Prop :=
  ∀ e ∈ f.fields.getD [], (lib.decl r).Field e.1 = some e.2.field

/-- The string `k` is the serialized name, not empty, of a field of the type
that the tree has. -/
def SelectedName (lib : Library) (r : TypeRef) (f : Struct) (k : String) : Prop :=
  ∃ index sf, f.HasByIndex lib index = true ∧ (lib.decl r).Field index = some sf ∧
    sf.JSONName = k ∧ k ≠ ""

/-! ### A record type for the projection -/

/-- A struct type `Record` with three fields that are tagged `omitempty`:
`Tags [2]string`, `Count int` and `Name string`. -/
def declRecord : StructDecl :=
  { name := "Record", text := "Record",
    fields := [
      { Name := "Tags", JSONName := "tags", fragmentTag := none, text := "Tags",
        TypeMeta := plainType "[2]string" },
      { Name := "Count", JSONName := "count", fragmentTag := none, text := "Count",
        TypeMeta := plainType "int" },
      { Name := "Name", JSONName := "name", fragmentTag := none, text := "Name",
        TypeMeta := plainType "string" }],
    resolve := fun fieldName =>
      if fieldName = "Tags" then some 0
      else if fieldName = "Count" then some 1
      else if fieldName = "Name" then some 2
      else none }

/-- A struct type `Counter` with the one field `Count int`, tagged
`omitempty`. -/
def declCounter : StructDecl :=
  { name := "Counter", text := "Counter",
    fields := [
      { Name := "Count", JSONName := "count", fragmentTag := none, text := "Count",
        TypeMeta := plainType "int" }],
    resolve := fun fieldName => if fieldName = "Count" then some 0 else none }

/-- A library that knows the types `Record` and `Counter`. -/
def recordLibrary : Library :=
  { decl := fun r => if r = "Record" then declRecord else declCounter,
    ofNil := plainType "<nil>",
    sprint := fun _ => "",
    ensurePanic := "field does not exist",
    typeName := fun _ => "[]interface \x7b\x7d" }

/-- What the library reports of the fields of `Record` and `Counter`: no
primitive struct type, fields without a struct type are primitive, no
interface types, and every field is tagged `omitempty`. -/
def recordJSON : JSONLibrary :=
  { structPrimitive := fun _ => false,
    fieldPrimitive := fun sf => (structOfField sf).isNone,
    interfaceOf := fun _ => false,
    JSONOmitEmpty := fun _ => true,
    typeText := fun r => r }

/-- What the library reports of the fields of the types of `struct_test.go`:
no field is tagged `omitempty`. -/
def testJSON : JSONLibrary :=
  { structPrimitive := fun _ => false,
    fieldPrimitive := fun sf => (structOfField sf).isNone,
    interfaceOf := fun _ => false,
    JSONOmitEmpty := fun _ => false,
    typeText := fun r => r }

/-! ## Lemmas about the loops -/

theorem trimLeftLoop_spaces (w t : List Char) (hw : ∀ c ∈ w, isSpace c = true)
    (c0 : Char) (t' : List Char) (ht : t = c0 :: t') (h0 : isSpace c0 = false) :
    ∀ (k n : Nat), k ≤ w.length → n + k = (w ++ t).length →
      trimLeftLoop (w ++ t) n k = .ret (w.length : Int) := by
  intro k n
  induction n generalizing k with
  | zero =>
    intro hk hn
    simp [ht] at hn
    omega
  | succ n ih =>
    intro hk hn
    unfold trimLeftLoop
    by_cases hlt : k < w.length
    · have h1 : (w ++ t)[k]? = some (w[k]) := by
        rw [List.getElem?_append_left hlt]
        exact List.getElem?_eq_getElem hlt
      rw [h1]
      simp only [hw _ (List.getElem_mem hlt), if_true]
      exact ih (k + 1) (by omega) (by omega)
    · have hk' : k = w.length := by omega
      subst hk'
      have h1 : (w ++ t)[w.length]? = some c0 := by
        rw [List.getElem?_append_right (le_refl _)]
        simp [ht]
      rw [h1]
      simp [h0]

theorem trimRightLoop_spaces (p w : List Char) (c1 : Char) (hw : ∀ c ∈ w, isSpace c = true)
    (h1 : isSpace c1 = false) :
    ∀ (j n : Nat), j ≤ w.length → j < n →
      trimRightLoop (p ++ c1 :: w) n ((p.length : Int) + j) = .ret (p.length : Int) := by
  intro j
  induction j with
  | zero =>
    intro n _ hn
    obtain ⟨m, rfl⟩ : ∃ m, n = m + 1 := ⟨n - 1, by omega⟩
    unfold trimRightLoop
    have hnn : ¬ ((p.length : Int) + ((0 : Nat) : Int) < 0) := by omega
    rw [if_neg hnn]
    have hidx : ((p.length : Int) + ((0 : Nat) : Int)).toNat = p.length := by omega
    rw [hidx]
    have hget : (p ++ c1 :: w)[p.length]? = some c1 := by
      rw [List.getElem?_append_right (le_refl _)]
      simp
    rw [hget]
    simp [h1]
  | succ j ih =>
    intro n hj hn
    obtain ⟨m, rfl⟩ : ∃ m, n = m + 1 := ⟨n - 1, by omega⟩
    unfold trimRightLoop
    have hnn : ¬ ((p.length : Int) + ((j + 1 : Nat) : Int) < 0) := by omega
    rw [if_neg hnn]
    have hidx : ((p.length : Int) + ((j + 1 : Nat) : Int)).toNat = p.length + (j + 1) := by omega
    rw [hidx]
    have hjl : j < w.length := by omega
    have hget : (p ++ c1 :: w)[p.length + (j + 1)]? = some (w[j]) := by
      rw [List.getElem?_append_right (by omega)]
      have : p.length + (j + 1) - p.length = j + 1 := by omega
      rw [this]
      simp [List.getElem?_eq_getElem hjl]
    rw [hget]
    simp only [hw _ (List.getElem_mem hjl), if_true]
    have hstep : (p.length : Int) + ((j + 1 : Nat) : Int) - 1 = (p.length : Int) + (j : Int) := by
      push_cast; omega
    rw [hstep]
    exact ih m (by omega) (by omega)

/-- Trimming removes surrounding white space when a non-space rune exists. -/
theorem trimFragmentChars_append (w1 t w2 : List Char)
    (hw1 : ∀ c ∈ w1, isSpace c = true) (hw2 : ∀ c ∈ w2, isSpace c = true)
    (ht : t ≠ []) (h0 : isSpace (t.head ht) = false) (h1 : isSpace (t.getLast ht) = false) :
    trimFragmentChars (w1 ++ t ++ w2) = .ret t := by
  obtain ⟨c0, t', rfl⟩ : ∃ c0 t', t = c0 :: t' := List.exists_cons_of_ne_nil ht
  have hq : (c0 :: t').dropLast ++ [(c0 :: t').getLast ht] = c0 :: t' :=
    List.dropLast_append_getLast ht
  generalize hqd : (c0 :: t').dropLast = q at hq
  generalize hc1 : (c0 :: t').getLast ht = c1 at hq h1
  simp only [List.head_cons] at h0
  have hlen : (c0 :: t').length = q.length + 1 := by rw [← hq]; simp
  have hL := trimLeftLoop_spaces w1 (c0 :: t' ++ w2) hw1 c0 (t' ++ w2) rfl h0 0
    ((w1 ++ (c0 :: t' ++ w2)).length) (Nat.zero_le _) rfl
  have hR := trimRightLoop_spaces (w1 ++ q) w2 c1 hw2 h1 w2.length (q.length + 1 + w2.length)
    (le_refl _) (by omega)
  have hchars : w1 ++ (c0 :: t') ++ w2 = w1 ++ (c0 :: t' ++ w2) := by simp
  have hchars2 : w1 ++ (c0 :: t') ++ w2 = (w1 ++ q) ++ c1 :: w2 := by
    rw [← hq]; simp
  have hlen2 : (w1 ++ (c0 :: t') ++ w2).length = w1.length + (q.length + 1) + w2.length := by
    simp only [List.length_append, hlen]
  unfold trimFragmentChars
  simp only []
  rw [if_neg (by rw [hlen2]; omega)]
  rw [← hchars] at hL
  rw [hL]
  simp only []
  have hn : (((w1 ++ (c0 :: t') ++ w2).length : Int) - (w1.length : Int)).toNat
      = q.length + 1 + w2.length := by rw [hlen2]; push_cast; omega
  have hi : ((w1 ++ (c0 :: t') ++ w2).length : Int) - 1
      = ((w1 ++ q).length : Int) + (w2.length : Int) := by
    rw [hlen2]; simp only [List.length_append]; push_cast; omega
  rw [hn, hi]
  rw [← hchars2] at hR
  rw [hR]
  simp only []
  rw [if_pos (by rw [hlen2]; simp only [List.length_append]; push_cast; omega)]
  congr 1
  have e1 : ((w1.length : Int)).toNat = w1.length := by omega
  have e2 : (((w1 ++ q).length : Int) + 1).toNat = w1.length + (q.length + 1) := by
    simp only [List.length_append]; push_cast; omega
  rw [e1, e2]
  unfold slice
  rw [List.append_assoc, List.take_append_eq_append_take]
  rw [List.take_of_length_le (by omega)]
  have : w1.length + (q.length + 1) - w1.length = (c0 :: t').length := by omega
  rw [this, List.take_append_eq_append_take, List.take_length]
  simp

theorem getElem?_append_cons_length (pre : List Char) (c : Char) (rest : List Char) :
    (pre ++ c :: rest)[pre.length]? = some c := by
  rw [List.getElem?_append_right (le_refl _)]
  simp

theorem drop_append_singleton (pre : List Char) (c : Char) (k : Nat) (hk : k ≤ pre.length) :
    (pre ++ [c]).drop k = pre.drop k ++ [c] := by
  rw [List.drop_append_of_le_length hk]

theorem splitFragmentByCommaLoop_eq_commaScan (chars : List Char) :
    ∀ (rest pre : List Char) (parts : List (List Char)) (partStart braceDepth : Nat),
      chars = pre ++ rest → partStart ≤ pre.length →
      splitFragmentByCommaLoop chars ((chars.length : Int) - 1) rest.length pre.length parts
        partStart braceDepth
        = commaScan chars rest pre.length parts (pre.drop partStart) braceDepth := by
  intro rest
  induction rest with
  | nil =>
    intro pre parts partStart braceDepth _ _
    simp [splitFragmentByCommaLoop, commaScan]
  | cons c rest ih =>
    intro pre parts partStart braceDepth hch hps
    have hget : chars[pre.length]? = some c := by
      rw [hch]; exact getElem?_append_cons_length pre c rest
    have hch' : chars = (pre ++ [c]) ++ rest := by rw [hch]; simp
    have hlen' : (pre ++ [c]).length = pre.length + 1 := by simp
    have ih1 := ih (pre ++ [c]) 
    simp only [hlen'] at ih1
    unfold splitFragmentByCommaLoop commaScan
    simp only [List.length_cons, hget]
    by_cases herr : c = rightBrace ∧ braceDepth = 0
    · rw [if_pos herr, if_pos herr]
    · rw [if_neg herr, if_neg herr]
      by_cases hlast : rest = []
      · have hmax : ((pre.length : Nat) : Int) = (chars.length : Int) - 1 := by
          rw [hch, hlast]; simp
        rw [if_pos hmax, if_pos hlast]
        have hpart : sliceFrom chars partStart = pre.drop partStart ++ [c] := by
          unfold sliceFrom
          rw [hch, hlast]
          exact drop_append_singleton pre c partStart hps
        rw [hpart]
        have hne : (pre.drop partStart ++ [c]).length ≠ 0 := by simp
        rw [if_pos hne]
        subst hlast
        simp [splitFragmentByCommaLoop, commaScan]
      · have hmax : ¬ ((pre.length : Nat) : Int) = (chars.length : Int) - 1 := by
          rw [hch]
          have : 0 < rest.length := List.length_pos.mpr hlast
          simp only [List.length_append, List.length_cons]
          push_cast
          omega
        rw [if_neg hmax, if_neg hlast]
        have hslice : slice chars partStart pre.length = pre.drop partStart := by
          unfold slice
          rw [hch, List.take_left']
          rfl
        by_cases hcm : (if c = leftBrace then braceDepth + 1
            else if c = rightBrace then braceDepth - 1 else braceDepth) = 0 ∧ c = comma
        · rw [if_pos hcm, if_pos hcm, hslice]
          have := ih1 (if (pre.drop partStart).length ≠ 0 then parts ++ [pre.drop partStart] else parts)
            (pre.length + 1) (if c = leftBrace then braceDepth + 1
            else if c = rightBrace then braceDepth - 1 else braceDepth) hch' (by simp)
          rw [this]
          congr 1
          rw [List.drop_eq_nil_of_le (by simp)]
        · rw [if_neg hcm, if_neg hcm]
          have := ih1 parts partStart (if c = leftBrace then braceDepth + 1
            else if c = rightBrace then braceDepth - 1 else braceDepth) hch' (by omega)
          rw [this, drop_append_singleton pre c partStart hps]

theorem splitFragmentLoop_eq_braceScan (chars : List Char) :
    ∀ (rest pre : List Char) (parts : List (List Char)) (partStart braceDepth : Nat),
      chars = pre ++ rest → partStart ≤ pre.length →
      splitFragmentLoop chars chars.length rest.length pre.length parts partStart braceDepth
        = braceScan chars rest pre.length parts (pre.drop partStart) braceDepth := by
  intro rest
  induction rest with
  | nil =>
    intro pre parts partStart braceDepth _ _
    simp [splitFragmentLoop, braceScan]
  | cons c rest ih =>
    intro pre parts partStart braceDepth hch hps
    have hget : chars[pre.length]? = some c := by
      rw [hch]; exact getElem?_append_cons_length pre c rest
    have hch' : chars = (pre ++ [c]) ++ rest := by rw [hch]; simp
    have hlen' : (pre ++ [c]).length = pre.length + 1 := by simp
    have ih1 := ih (pre ++ [c])
    simp only [hlen'] at ih1
    have hslice : slice chars partStart pre.length = pre.drop partStart := by
      unfold slice
      rw [hch, List.take_left']
      rfl
    have hslice1 : slice chars partStart (pre.length + 1) = pre.drop partStart ++ [c] := by
      unfold slice
      rw [hch', ← hlen', List.take_left' rfl]
      exact drop_append_singleton pre c partStart hps
    have hdropc : (pre ++ [c]).drop pre.length = [c] := by
      rw [List.drop_left']
      rfl
    unfold splitFragmentLoop braceScan
    simp only [List.length_cons, hget]
    by_cases hl : c = leftBrace
    · rw [if_pos hl, if_pos hl]
      by_cases hd : braceDepth = 0
      · rw [if_pos hd, if_pos hd, hslice]
        rw [ih1 _ pre.length _ hch' (by omega), hdropc]
      · rw [if_neg hd, if_neg hd]
        rw [ih1 _ partStart _ hch' (by omega), drop_append_singleton pre c partStart hps]
    · rw [if_neg hl, if_neg hl]
      by_cases hr : c = rightBrace
      · rw [if_pos hr, if_pos hr]
        by_cases hd : braceDepth = 0
        · rw [if_pos hd, if_pos hd]
        · rw [if_neg hd, if_neg hd]
          by_cases hd1 : braceDepth - 1 = 0
          · rw [if_pos hd1, if_pos hd1, hslice1]
            have hne : (pre.drop partStart ++ [c]).length ≠ 0 := by simp
            rw [if_pos hne]
            rw [ih1 _ (pre.length + 1) _ hch' (by omega)]
            congr 1
            rw [List.drop_eq_nil_of_le (by simp)]
          · rw [if_neg hd1, if_neg hd1]
            rw [ih1 _ partStart _ hch' (by omega), drop_append_singleton pre c partStart hps]
      · rw [if_neg hr, if_neg hr]
        by_cases hlast : rest = []
        · have hmax : ((pre.length : Nat) : Int) = (chars.length : Int) - 1 := by
            rw [hch, hlast]; simp
          rw [if_pos hmax, if_pos hlast]
          have hpart : sliceFrom chars partStart = pre.drop partStart ++ [c] := by
            unfold sliceFrom
            rw [hch, hlast]
            exact drop_append_singleton pre c partStart hps
          rw [hpart]
          have hne : (pre.drop partStart ++ [c]).length ≠ 0 := by simp
          rw [if_pos hne]
          subst hlast
          simp [splitFragmentLoop, braceScan]
        · have hmax : ¬ ((pre.length : Nat) : Int) = (chars.length : Int) - 1 := by
            rw [hch]
            have : 0 < rest.length := List.length_pos.mpr hlast
            simp only [List.length_append, List.length_cons]
            push_cast
            omega
          rw [if_neg hmax, if_neg hlast]
          rw [ih1 _ partStart _ hch' (by omega), drop_append_singleton pre c partStart hps]

/-- The source `splitFragmentByComma`, called with the length of its input,
is the scan over the input. -/
theorem splitFragmentByComma_eq (chars : List Char) :
    splitFragmentByComma chars chars.length = commaScan chars chars 0 [] [] 0 := by
  have := splitFragmentByCommaLoop_eq_commaScan chars chars [] [] 0 0 rfl (le_refl _)
  simpa [splitFragmentByComma] using this

/-- The source `splitFragment`, called with the length of its input, is the
scan over the input. -/
theorem splitFragment_eq (chars : List Char) :
    splitFragment chars chars.length = braceScan chars chars 0 [] [] 0 := by
  have := splitFragmentLoop_eq_braceScan chars chars [] [] 0 0 rfl (le_refl _)
  simpa [splitFragment] using this

theorem isSpace_ne_leftBrace (c : Char) (h : isSpace c = true) : c ≠ leftBrace := by
  intro hc; subst hc; revert h; decide

theorem isSpace_ne_rightBrace (c : Char) (h : isSpace c = true) : c ≠ rightBrace := by
  intro hc; subst hc; revert h; decide

theorem isSpace_ne_comma (c : Char) (h : isSpace c = true) : c ≠ comma := by
  intro hc; subst hc; revert h; decide

theorem leftBrace_ne_rightBrace : leftBrace ≠ rightBrace := by decide

theorem scanDepth_append (a b : List Char) :
    ∀ d, scanDepth d (a ++ b) = (scanDepth d a).bind (fun d' => scanDepth d' b) := by
  induction a with
  | nil => intro d; simp [scanDepth]
  | cons c a ih =>
    intro d
    simp only [List.cons_append, scanDepth]
    by_cases hl : c = leftBrace
    · simp only [if_pos hl]; exact ih _
    · simp only [if_neg hl]
      by_cases hr : c = rightBrace
      · simp only [if_pos hr]
        by_cases hd : d = 0
        · simp [hd]
        · simp only [if_neg hd]; exact ih _
      · simp only [if_neg hr]; exact ih _

theorem scanDepth_of_no_brace (w : List Char)
    (hw : ∀ c ∈ w, c ≠ leftBrace ∧ c ≠ rightBrace) : ∀ d, scanDepth d w = some d := by
  induction w with
  | nil => intro d; rfl
  | cons c w ih =>
    intro d
    have hc := hw c (List.mem_cons_self _ _)
    simp only [scanDepth, if_neg hc.1, if_neg hc.2]
    exact ih (fun x hx => hw x (List.mem_cons_of_mem _ hx)) d

theorem scanDepth_spaces (w : List Char) (hw : ∀ c ∈ w, isSpace c = true) (d : Nat) :
    scanDepth d w = some d :=
  scanDepth_of_no_brace w
    (fun c hc => ⟨isSpace_ne_leftBrace c (hw c hc), isSpace_ne_rightBrace c (hw c hc)⟩) d

theorem scanDepth_shift (chars : List Char) :
    ∀ d d' k, scanDepth d chars = some d' → scanDepth (d + k) chars = some (d' + k) := by
  induction chars with
  | nil => intro d d' k h; simp only [scanDepth, Option.some.injEq] at h ⊢; omega
  | cons c cs ih =>
    intro d d' k h
    simp only [scanDepth] at h ⊢
    by_cases hl : c = leftBrace
    · simp only [if_pos hl] at h ⊢
      have := ih (d + 1) d' k h
      rwa [show d + 1 + k = d + k + 1 by omega] at this
    · simp only [if_neg hl] at h ⊢
      by_cases hr : c = rightBrace
      · simp only [if_pos hr] at h ⊢
        by_cases hd : d = 0
        · simp [hd] at h
        · simp only [if_neg hd] at h
          have hdk : ¬ d + k = 0 := by omega
          simp only [if_neg hdk]
          have := ih (d - 1) d' k h
          rwa [show d - 1 + k = d + k - 1 by omega] at this
      · simp only [if_neg hr] at h ⊢
        exact ih d d' k h

/-- Wrapping a balanced run of runes in one pair of braces keeps it
balanced. -/
theorem scanDepth_wrap (body : List Char) (h : scanDepth 0 body = some 0) :
    scanDepth 0 (leftBrace :: (body ++ [rightBrace])) = some 0 := by
  have h1 := scanDepth_shift body 0 0 1 h
  simp only [scanDepth, if_true]
  rw [scanDepth_append]
  simp only [Nat.zero_add] at h1
  rw [h1]
  simp [scanDepth, leftBrace_ne_rightBrace.symm]

theorem scanDepth_counts (chars : List Char) :
    ∀ d d', scanDepth d chars = some d' →
      (∀ k, (chars.take k).count rightBrace ≤ d + (chars.take k).count leftBrace) ∧
        d + chars.count leftBrace = d' + chars.count rightBrace := by
  induction chars with
  | nil =>
    intro d d' h
    simp only [scanDepth, Option.some.injEq] at h
    simp [h]
  | cons c cs ih =>
    intro d d' h
    simp only [scanDepth] at h
    by_cases hl : c = leftBrace
    · simp only [if_pos hl] at h
      obtain ⟨h1, h2⟩ := ih (d + 1) d' h
      subst hl
      constructor
      · intro k
        cases k with
        | zero => simp
        | succ k =>
          have := h1 k
          simp only [List.take_succ_cons, List.count_cons_self,
            List.count_cons_of_ne leftBrace_ne_rightBrace.symm]
          omega
      · simp only [List.count_cons_self, List.count_cons_of_ne leftBrace_ne_rightBrace.symm]
        omega
    · simp only [if_neg hl] at h
      by_cases hr : c = rightBrace
      · simp only [if_pos hr] at h
        by_cases hd : d = 0
        · simp [hd] at h
        · simp only [if_neg hd] at h
          obtain ⟨h1, h2⟩ := ih (d - 1) d' h
          subst hr
          constructor
          · intro k
            cases k with
            | zero => simp
            | succ k =>
              have := h1 k
              simp only [List.take_succ_cons, List.count_cons_self,
                List.count_cons_of_ne leftBrace_ne_rightBrace]
              omega
          · simp only [List.count_cons_self, List.count_cons_of_ne leftBrace_ne_rightBrace]
            omega
      · simp only [if_neg hr] at h
        obtain ⟨h1, h2⟩ := ih d d' h
        constructor
        · intro k
          cases k with
          | zero => simp
          | succ k =>
            have := h1 k
            simp only [List.take_succ_cons, List.count_cons_of_ne (Ne.symm hl),
              List.count_cons_of_ne (Ne.symm hr)]
            omega
        · simp only [List.count_cons_of_ne (Ne.symm hl), List.count_cons_of_ne (Ne.symm hr)]
          omega

theorem scanDepth_ne_of_unbalanced (chars : List Char) (h : Unbalanced chars) :
    scanDepth 0 chars ≠ some 0 := by
  intro hs
  obtain ⟨h1, h2⟩ := scanDepth_counts chars 0 0 hs
  rcases h with ⟨k, hk⟩ | h
  · have := h1 k; omega
  · omega

/-- The comma scan reports an error whenever the braces of what is left do
not bring the depth back to 0. -/
theorem commaScan_error (whole : List Char) :
    ∀ (rest : List Char) (i : Nat) (parts : List (List Char)) (cur : List Char) (d : Nat),
      scanDepth d rest ≠ some 0 →
      ∃ parts' msg, commaScan whole rest i parts cur d = .ret (parts', some msg) := by
  intro rest
  induction rest with
  | nil =>
    intro i parts cur d h
    simp only [scanDepth, ne_eq, Option.some.injEq] at h
    unfold commaScan
    rw [if_pos h]
    exact ⟨parts, _, rfl⟩
  | cons c rest ih =>
    intro i parts cur d h
    simp only [scanDepth] at h
    unfold commaScan
    by_cases herr : c = rightBrace ∧ d = 0
    · rw [if_pos herr]; exact ⟨parts, _, rfl⟩
    · rw [if_neg herr]
      have hd : scanDepth (if c = leftBrace then d + 1
          else if c = rightBrace then d - 1 else d) rest ≠ some 0 := by
        by_cases hl : c = leftBrace
        · simpa [hl] using h
        · by_cases hr : c = rightBrace
          · have hd0 : d ≠ 0 := fun h0 => herr ⟨hr, h0⟩
            simp only [if_neg hl, if_pos hr, if_neg hd0] at h
            simpa [hl, hr] using h
          · simpa [hl, hr] using h
      simp only []
      generalize (if c = leftBrace then d + 1 else if c = rightBrace then d - 1 else d) = d2
        at hd ⊢
      by_cases hlast : rest = []
      · rw [if_pos hlast]; exact ih _ _ _ _ hd
      · rw [if_neg hlast]
        by_cases hcm : d2 = 0 ∧ c = comma
        · rw [if_pos hcm]; exact ih _ _ _ _ hd
        · rw [if_neg hcm]; exact ih _ _ _ _ hd

theorem exists_first_nonspace (l : List Char) (h : ∃ c ∈ l, isSpace c = false) :
    ∃ w c0 r, l = w ++ c0 :: r ∧ (∀ c ∈ w, isSpace c = true) ∧ isSpace c0 = false := by
  induction l with
  | nil => obtain ⟨c, hc, _⟩ := h; cases hc
  | cons a l ih =>
    by_cases ha : isSpace a = true
    · have h' : ∃ c ∈ l, isSpace c = false := by
        obtain ⟨c, hc, hs⟩ := h
        rcases List.mem_cons.mp hc with rfl | hc
        · rw [ha] at hs; cases hs
        · exact ⟨c, hc, hs⟩
      obtain ⟨w, c0, r, hl, hw, h0⟩ := ih h'
      refine ⟨a :: w, c0, r, by rw [hl]; rfl, ?_, h0⟩
      intro c hc
      rcases List.mem_cons.mp hc with rfl | hc
      · exact ha
      · exact hw c hc
    · exact ⟨[], a, l, rfl, by simp, by simpa using ha⟩

theorem exists_last_nonspace (l : List Char) (h : ∃ c ∈ l, isSpace c = false) :
    ∃ q c1 w, l = q ++ c1 :: w ∧ (∀ c ∈ w, isSpace c = true) ∧ isSpace c1 = false := by
  have h' : ∃ c ∈ l.reverse, isSpace c = false := by
    obtain ⟨c, hc, hs⟩ := h
    exact ⟨c, List.mem_reverse.mpr hc, hs⟩
  obtain ⟨w, c1, r, hl, hw, h1⟩ := exists_first_nonspace l.reverse h'
  refine ⟨r.reverse, c1, w.reverse, ?_, ?_, h1⟩
  · have := congrArg List.reverse hl
    simpa using this
  · intro c hc
    exact hw c (List.mem_reverse.mp hc)

/-- A rune slice with a non-space rune is white space, then a part that
starts and ends with a non-space rune, then white space; trimming returns the
middle part. -/
theorem trimFragmentChars_of_nonspace (chars : List Char)
    (h : ∃ c ∈ chars, isSpace c = false) :
    ∃ (w1 t w2 : List Char) (ht : t ≠ []), chars = w1 ++ t ++ w2 ∧
      (∀ c ∈ w1, isSpace c = true) ∧ (∀ c ∈ w2, isSpace c = true) ∧
      isSpace (t.head ht) = false ∧ isSpace (t.getLast ht) = false ∧
      trimFragmentChars chars = .ret t := by
  obtain ⟨w1, c0, r, hl, hw1, h0⟩ := exists_first_nonspace chars h
  obtain ⟨q, c1, w2, hq, hw2, h1⟩ :=
    exists_last_nonspace (c0 :: r) ⟨c0, List.mem_cons_self _ _, h0⟩
  have ht : q ++ [c1] ≠ [] := by simp
  have hhead : (q ++ [c1]).head ht = c0 := by
    cases q with
    | nil =>
      simp only [List.nil_append, List.cons.injEq] at hq
      simp [hq.1]
    | cons a q =>
      simp only [List.cons_append, List.cons.injEq] at hq
      simp [hq.1]
  have hlast : (q ++ [c1]).getLast ht = c1 := by simp
  have hchars : chars = w1 ++ (q ++ [c1]) ++ w2 := by
    rw [hl, hq]; simp
  refine ⟨w1, q ++ [c1], w2, ht, hchars, hw1, hw2, by rw [hhead]; exact h0,
    by rw [hlast]; exact h1, ?_⟩
  rw [hchars]
  exact trimFragmentChars_append w1 (q ++ [c1]) w2 hw1 hw2 ht (by rw [hhead]; exact h0)
    (by rw [hlast]; exact h1)

theorem isWrapped_iff (chars : List Char) :
    isWrapped chars = true ↔ ∃ body, chars = leftBrace :: (body ++ [rightBrace]) := by
  constructor
  · intro h
    simp only [isWrapped, Bool.and_eq_true, decide_eq_true_eq, beq_iff_eq] at h
    obtain ⟨⟨hlen, h0⟩, h1⟩ := h
    cases chars with
    | nil => simp at hlen
    | cons a t =>
      simp only [List.getElem?_cons_zero, Option.some.injEq] at h0
      subst h0
      have htne : t ≠ [] := by
        intro ht; subst ht; simp at hlen
      refine ⟨t.dropLast, ?_⟩
      have hd := List.dropLast_append_getLast htne
      have hl : t.getLast htne = rightBrace := by
        have : (leftBrace :: t)[(leftBrace :: t).length - 1]? = some (t.getLast htne) := by
          have hlt : t.length - 1 < t.length := by
            have := List.length_pos.mpr htne; omega
          rw [List.getLast_eq_getElem]
          simp only [List.length_cons, Nat.add_sub_cancel]
          obtain ⟨m, hm⟩ : ∃ m, t.length = m + 1 :=
            ⟨t.length - 1, by have := List.length_pos.mpr htne; omega⟩
          simp only [hm, List.getElem?_cons_succ, Nat.add_sub_cancel]
          exact List.getElem?_eq_getElem (by omega)
        rw [this] at h1
        exact Option.some.inj h1
      rw [← hl, hd]
  · rintro ⟨body, rfl⟩
    simp only [isWrapped, Bool.and_eq_true, decide_eq_true_eq, beq_iff_eq]
    refine ⟨⟨by simp, by simp⟩, ?_⟩
    have : (leftBrace :: (body ++ [rightBrace])).length - 1 = body.length + 1 := by simp
    rw [this, List.getElem?_cons_succ, List.getElem?_append_right (le_refl _)]
    simp

theorem slice_wrapped (body : List Char) (a b : Char) :
    slice (a :: (body ++ [b])) 1 ((a :: (body ++ [b])).length - 1) = body := by
  have : (a :: (body ++ [b])).length - 1 = body.length + 1 := by simp
  rw [this]
  unfold slice
  simp [List.take_append_eq_append_take]

/-- Unfolding of `parseString` on an input wrapped in braces. -/
theorem parseString_wrapped (fuel : Nat) (body : List Char) :
    parseString (fuel + 1) (leftBrace :: (body ++ [rightBrace])) =
      if body = [] then .ret (NewEmptyUnstructured, none) else parseBody fuel body := by
  have hw : isWrapped (leftBrace :: (body ++ [rightBrace])) = true :=
    (isWrapped_iff _).mpr ⟨body, rfl⟩
  unfold isWrapped at hw
  unfold parseString
  simp only [hw, Bool.true_and, if_true]
  by_cases hb : body = []
  · subst hb
    simp
  · have hlen : (leftBrace :: (body ++ [rightBrace])).length > 2 := by
      have := List.length_pos.mpr hb
      simp only [List.length_cons, List.length_append, List.length_singleton]
      omega
    have hs := slice_wrapped body leftBrace rightBrace
    simp only [hlen, if_true, hs, decide_True, Bool.not_true, if_neg hb]
    simp only [Bool.false_eq_true, if_false]
    unfold parseBody
    have hbl : body.length ≠ 0 := by
      have := List.length_pos.mpr hb; omega
    simp only [if_neg hbl]

/-- Unfolding of `parseString` on an input that is not wrapped in braces. -/
theorem parseString_plain (fuel : Nat) (chars : List Char) (h : isWrapped chars = false) :
    parseString (fuel + 1) chars = parseBody fuel chars := by
  unfold isWrapped at h
  unfold parseString
  simp only [h, Bool.false_and, Bool.false_eq_true, if_false]
  unfold parseBody
  rfl

theorem trimLeftLoop_allSpace (chars : List Char) (hsp : ∀ c ∈ chars, isSpace c = true) :
    ∀ (n k : Nat), n + k = chars.length → trimLeftLoop chars n k = .ret (-1) := by
  intro n
  induction n with
  | zero => intro k _; rfl
  | succ n ih =>
    intro k hk
    have hlt : k < chars.length := by omega
    unfold trimLeftLoop
    rw [List.getElem?_eq_getElem hlt]
    simp only [hsp _ (List.getElem_mem hlt), if_true]
    exact ih (k + 1) (by omega)

theorem trimRightLoop_allSpace (chars : List Char) (hsp : ∀ c ∈ chars, isSpace c = true) :
    ∀ (k n : Nat), k ≤ chars.length → k < n →
      trimRightLoop chars n ((k : Int) - 1) = .panic "runtime error: index out of range [-1]" := by
  intro k
  induction k with
  | zero =>
    intro n _ hn
    obtain ⟨m, rfl⟩ : ∃ m, n = m + 1 := ⟨n - 1, by omega⟩
    unfold trimRightLoop
    rfl
  | succ k ih =>
    intro n hk hn
    obtain ⟨m, rfl⟩ : ∃ m, n = m + 1 := ⟨n - 1, by omega⟩
    unfold trimRightLoop
    have hnn : ¬ (((k + 1 : Nat) : Int) - 1 < 0) := by omega
    rw [if_neg hnn]
    have hidx : (((k + 1 : Nat) : Int) - 1).toNat = k := by omega
    have hlt : k < chars.length := by omega
    rw [hidx, List.getElem?_eq_getElem hlt]
    simp only [hsp _ (List.getElem_mem hlt), if_true]
    have hstep : ((k + 1 : Nat) : Int) - 1 - 1 = (k : Int) - 1 := by push_cast; omega
    rw [hstep]
    exact ih m (by omega) (by omega)

/-- Trimming a non-empty run of white space panics: the second loop reads
`chars[-1]`. -/
theorem trimFragmentChars_allSpace (chars : List Char) (hne : chars ≠ [])
    (hsp : ∀ c ∈ chars, isSpace c = true) :
    trimFragmentChars chars = .panic "runtime error: index out of range [-1]" := by
  have hl : chars.length ≠ 0 := by
    have := List.length_pos.mpr hne; omega
  unfold trimFragmentChars
  simp only [if_neg hl]
  rw [trimLeftLoop_allSpace chars hsp chars.length 0 rfl]
  simp only []
  have hn : ((chars.length : Int) - (-1)).toNat = chars.length + 1 := by omega
  rw [hn]
  rw [trimRightLoop_allSpace chars hsp chars.length (chars.length + 1) (le_refl _) (by omega)]

/-! ## The brace scan of `splitFragment` on runs of runes -/

/-- A run without braces is passed over by the brace scan, at any depth, as
long as more runes follow. -/
theorem braceScan_no_brace (whole rest : List Char) (hrest : rest ≠ []) :
    ∀ (seg : List Char), (∀ c ∈ seg, c ≠ leftBrace ∧ c ≠ rightBrace) →
    ∀ (i : Nat) (parts : List (List Char)) (cur : List Char) (d : Nat),
      braceScan whole (seg ++ rest) i parts cur d
        = braceScan whole rest (i + seg.length) parts (cur ++ seg) d := by
  intro seg
  induction seg with
  | nil => intro _ i parts cur d; simp
  | cons c seg ih =>
    intro hseg i parts cur d
    have hc := hseg c (List.mem_cons_self _ _)
    have hne : seg ++ rest ≠ [] := by simp [hrest]
    simp only [List.cons_append]
    rw [braceScan]
    rw [if_neg hc.1, if_neg hc.2, if_neg hne]
    rw [ih (fun x hx => hseg x (List.mem_cons_of_mem _ hx))]
    simp only [List.length_cons, List.append_assoc, List.singleton_append]
    congr 1
    omega

/-- Inside a brace block (depth at least 1) a run whose braces never bring
the depth back to 0 is passed over by the brace scan. -/
theorem braceScan_inner (whole rest : List Char) (hrest : rest ≠ []) :
    ∀ (seg : List Char) (k k' : Nat), scanDepth k seg = some k' →
    ∀ (i : Nat) (parts : List (List Char)) (cur : List Char),
      braceScan whole (seg ++ rest) i parts cur (k + 1)
        = braceScan whole rest (i + seg.length) parts (cur ++ seg) (k' + 1) := by
  intro seg
  induction seg with
  | nil =>
    intro k k' h i parts cur
    simp only [scanDepth, Option.some.injEq] at h
    simp [h]
  | cons c seg ih =>
    intro k k' h i parts cur
    have hne : seg ++ rest ≠ [] := by simp [hrest]
    simp only [scanDepth] at h
    simp only [List.cons_append]
    rw [braceScan]
    have hlen : i + 1 + seg.length = i + (c :: seg).length := by
      simp only [List.length_cons]; omega
    have happ : cur ++ [c] ++ seg = cur ++ c :: seg := by simp
    by_cases hl : c = leftBrace
    · simp only [if_pos hl] at h
      rw [if_pos hl, if_neg (Nat.succ_ne_zero k)]
      rw [ih (k + 1) k' h, hlen, happ]
    · simp only [if_neg hl] at h
      rw [if_neg hl]
      by_cases hr : c = rightBrace
      · simp only [if_pos hr] at h
        rw [if_pos hr, if_neg (Nat.succ_ne_zero k)]
        by_cases hk : k = 0
        · simp [hk] at h
        · simp only [if_neg hk] at h
          have hk1 : ¬ (k + 1 - 1 = 0) := by omega
          rw [if_neg hk1]
          have := ih (k - 1) k' h (i + 1) parts (cur ++ [c])
          rw [show k - 1 + 1 = k + 1 - 1 by omega] at this
          rw [this, hlen, happ]
      · simp only [if_neg hr] at h
        rw [if_neg hr, if_neg hne]
        rw [ih k k' h, hlen, happ]

/-- A balanced brace block met at depth 0 closes the current part, if any,
and becomes a part of its own. -/
theorem braceScan_block (whole body rest : List Char) (hbody : scanDepth 0 body = some 0)
    (i : Nat) (parts : List (List Char)) (cur : List Char) :
    braceScan whole (leftBrace :: (body ++ rightBrace :: rest)) i parts cur 0
      = braceScan whole rest (i + (body.length + 2))
          ((if cur.length ≠ 0 then parts ++ [cur] else parts) ++
            [leftBrace :: (body ++ [rightBrace])]) [] 0 := by
  rw [braceScan]
  simp only [if_true]
  rw [braceScan_inner whole (rightBrace :: rest) (by simp) body 0 0 hbody]
  rw [braceScan]
  rw [if_neg leftBrace_ne_rightBrace.symm]
  simp only [if_true, Nat.zero_add, one_ne_zero, if_false, Nat.sub_self]
  congr 1
  omega

/-- A non-empty run without braces that ends the input, met at depth 0,
becomes the last part together with the current part. -/
theorem braceScan_last (whole : List Char) (seg : List Char) (hne : seg ≠ [])
    (hseg : ∀ c ∈ seg, c ≠ leftBrace ∧ c ≠ rightBrace)
    (i : Nat) (parts : List (List Char)) (cur : List Char) :
    braceScan whole seg i parts cur 0 = .ret (parts ++ [cur ++ seg], none) := by
  have hd := List.dropLast_append_getLast hne
  generalize seg.dropLast = g at hd
  generalize seg.getLast hne = c at hd
  subst hd
  have hg : ∀ x ∈ g, x ≠ leftBrace ∧ x ≠ rightBrace :=
    fun x hx => hseg x (List.mem_append_left _ hx)
  have hc := hseg c (List.mem_append_right _ (List.mem_singleton_self c))
  rw [braceScan_no_brace whole [c] (by simp) g hg]
  rw [braceScan]
  rw [if_neg hc.1, if_neg hc.2]
  simp only [if_true]
  rw [braceScan]
  simp

/-- The source `splitFragment` on a non-empty input without braces returns
the input as the only part. -/
theorem splitFragment_no_brace (chars : List Char) (hne : chars ≠ [])
    (h : ∀ c ∈ chars, c ≠ leftBrace ∧ c ≠ rightBrace) :
    splitFragment chars chars.length = .ret ([chars], none) := by
  rw [splitFragment_eq, braceScan_last chars chars hne h]
  simp

/-- The source `splitFragment` on a brace-free text followed by one balanced
brace block returns the two as parts. -/
theorem splitFragment_name_block (pre body : List Char) (hne : pre ≠ [])
    (hpre : ∀ c ∈ pre, c ≠ leftBrace ∧ c ≠ rightBrace) (hbody : scanDepth 0 body = some 0) :
    splitFragment (pre ++ leftBrace :: (body ++ [rightBrace]))
        (pre ++ leftBrace :: (body ++ [rightBrace])).length
      = .ret ([pre, leftBrace :: (body ++ [rightBrace])], none) := by
  rw [splitFragment_eq]
  rw [braceScan_no_brace _ _ (by simp) pre hpre]
  rw [braceScan_block _ body [] hbody]
  have hl : pre.length ≠ 0 := by
    have := List.length_pos.mpr hne; omega
  simp [braceScan, hl]

/-- The source `splitFragment` on a brace-free text, one balanced brace block
and a further brace-free text returns the three as parts. -/
theorem splitFragment_name_block_more (pre body post : List Char) (hne : pre ≠ [])
    (hpost : post ≠ [])
    (hpre : ∀ c ∈ pre, c ≠ leftBrace ∧ c ≠ rightBrace)
    (hpo : ∀ c ∈ post, c ≠ leftBrace ∧ c ≠ rightBrace) (hbody : scanDepth 0 body = some 0) :
    splitFragment (pre ++ leftBrace :: (body ++ rightBrace :: post))
        (pre ++ leftBrace :: (body ++ rightBrace :: post)).length
      = .ret ([pre, leftBrace :: (body ++ [rightBrace]), post], none) := by
  rw [splitFragment_eq]
  rw [braceScan_no_brace _ _ (by simp) pre hpre]
  rw [braceScan_block _ body post hbody]
  rw [braceScan_last _ post hpost hpo]
  have hl : pre.length ≠ 0 := by
    have := List.length_pos.mpr hne; omega
  simp [hl]

/-! ## The comma scan of `splitFragmentByComma` on runs of runes -/

theorem comma_ne_leftBrace : comma ≠ leftBrace := by decide

theorem comma_ne_rightBrace : comma ≠ rightBrace := by decide

theorem scanField_append (a b : List Char) :
    ∀ d, scanField d (a ++ b) = (scanField d a).bind (fun d' => scanField d' b) := by
  induction a with
  | nil => intro d; simp [scanField]
  | cons c a ih =>
    intro d
    simp only [List.cons_append, scanField]
    by_cases hl : c = leftBrace
    · simp only [if_pos hl]; exact ih _
    · simp only [if_neg hl]
      by_cases hr : c = rightBrace
      · simp only [if_pos hr]
        by_cases hd : d = 0
        · simp [hd]
        · simp only [if_neg hd]; exact ih _
      · simp only [if_neg hr]
        by_cases hcm : d = 0 ∧ c = comma
        · simp [hcm]
        · simp only [if_neg hcm]; exact ih _

/-- Without braces and commas the depth does not change. -/
theorem scanField_plain (seg : List Char)
    (h : ∀ c ∈ seg, c ≠ leftBrace ∧ c ≠ rightBrace ∧ c ≠ comma) :
    ∀ d, scanField d seg = some d := by
  induction seg with
  | nil => intro d; rfl
  | cons c seg ih =>
    intro d
    have hc := h c (List.mem_cons_self _ _)
    simp only [scanField, if_neg hc.1, if_neg hc.2.1, hc.2.2, and_false, if_false]
    exact ih (fun x hx => h x (List.mem_cons_of_mem _ hx)) d

/-- Inside braces commas do not end the part. -/
theorem scanField_inner (seg : List Char) :
    ∀ k k', scanDepth k seg = some k' → scanField (k + 1) seg = some (k' + 1) := by
  induction seg with
  | nil => intro k k' h; simp only [scanDepth, Option.some.injEq] at h; simp [scanField, h]
  | cons c seg ih =>
    intro k k' h
    simp only [scanDepth] at h
    simp only [scanField]
    by_cases hl : c = leftBrace
    · simp only [if_pos hl] at h ⊢
      exact ih _ _ h
    · simp only [if_neg hl] at h ⊢
      by_cases hr : c = rightBrace
      · simp only [if_pos hr] at h ⊢
        by_cases hk : k = 0
        · simp [hk] at h
        · simp only [if_neg hk] at h
          simp only [Nat.succ_ne_zero, if_false]
          have := ih (k - 1) k' h
          rwa [show k - 1 + 1 = k + 1 - 1 by omega] at this
      · simp only [if_neg hr] at h ⊢
        simp only [Nat.succ_ne_zero, false_and, if_false]
        exact ih _ _ h

/-- A balanced brace block is passed at depth 0 without ending the part. -/
theorem scanField_block (body : List Char) (h : scanDepth 0 body = some 0) :
    scanField 0 (leftBrace :: (body ++ [rightBrace])) = some 0 := by
  simp only [scanField, if_true]
  rw [scanField_append, scanField_inner body 0 0 h]
  simp [scanField, leftBrace_ne_rightBrace.symm]

theorem scanDepth_of_scanField (seg : List Char) :
    ∀ d d', scanField d seg = some d' → scanDepth d seg = some d' := by
  induction seg with
  | nil => intro d d' h; simpa [scanField, scanDepth] using h
  | cons c seg ih =>
    intro d d' h
    simp only [scanField] at h
    simp only [scanDepth]
    by_cases hl : c = leftBrace
    · simp only [if_pos hl] at h ⊢; exact ih _ _ h
    · simp only [if_neg hl] at h ⊢
      by_cases hr : c = rightBrace
      · simp only [if_pos hr] at h ⊢
        by_cases hd : d = 0
        · simp [hd] at h
        · simp only [if_neg hd] at h ⊢; exact ih _ _ h
      · simp only [if_neg hr] at h ⊢
        by_cases hcm : d = 0 ∧ c = comma
        · simp [hcm] at h
        · simp only [if_neg hcm] at h; exact ih _ _ h

/-- A run that is one field part so far is passed over by the comma scan, as
long as more runes follow. -/
theorem commaScan_field (whole rest : List Char) (hrest : rest ≠ []) :
    ∀ (seg : List Char) (d d' : Nat), scanField d seg = some d' →
    ∀ (i : Nat) (parts : List (List Char)) (cur : List Char),
      commaScan whole (seg ++ rest) i parts cur d
        = commaScan whole rest (i + seg.length) parts (cur ++ seg) d' := by
  intro seg
  induction seg with
  | nil =>
    intro d d' h i parts cur
    simp only [scanField, Option.some.injEq] at h
    simp [h]
  | cons c seg ih =>
    intro d d' h i parts cur
    have hne : seg ++ rest ≠ [] := by simp [hrest]
    simp only [scanField] at h
    simp only [List.cons_append]
    rw [commaScan]
    have hlen : i + 1 + seg.length = i + (c :: seg).length := by
      simp only [List.length_cons]; omega
    have happ : cur ++ [c] ++ seg = cur ++ c :: seg := by simp
    by_cases hl : c = leftBrace
    · simp only [if_pos hl] at h
      have hnr : ¬ (c = rightBrace ∧ d = 0) := by
        rw [hl]; exact fun hh => leftBrace_ne_rightBrace hh.1
      have hncm : ¬ (d + 1 = 0 ∧ c = comma) := by omega
      simp only [if_neg hnr, if_pos hl, if_neg hne, if_neg hncm]
      rw [ih (d + 1) d' h, hlen, happ]
    · simp only [if_neg hl] at h
      by_cases hr : c = rightBrace
      · simp only [if_pos hr] at h
        by_cases hd : d = 0
        · simp [hd] at h
        · simp only [if_neg hd] at h
          have hnr : ¬ (c = rightBrace ∧ d = 0) := fun hh => hd hh.2
          have hncm : ¬ (d - 1 = 0 ∧ c = comma) := by
            rw [hr]; exact fun hh => comma_ne_rightBrace hh.2.symm
          simp only [if_neg hnr, if_neg hl, if_pos hr, if_neg hne, if_neg hncm]
          rw [ih (d - 1) d' h, hlen, happ]
      · simp only [if_neg hr] at h
        by_cases hcm : d = 0 ∧ c = comma
        · simp [hcm] at h
        · simp only [if_neg hcm] at h
          have hnr : ¬ (c = rightBrace ∧ d = 0) := fun hh => hr hh.1
          simp only [if_neg hnr, if_neg hl, if_neg hr, if_neg hne, if_neg hcm]
          rw [ih d d' h, hlen, happ]

/-- One rune that ends the input and brings the depth to 0 closes the last
part. -/
theorem commaScan_single (whole : List Char) (c : Char) (d : Nat)
    (hc : scanField d [c] = some 0 ∨ (c = comma ∧ d = 0))
    (i : Nat) (parts : List (List Char)) (cur : List Char) :
    commaScan whole [c] i parts cur d = .ret (parts ++ [cur ++ [c]], none) := by
  rw [commaScan]
  rcases hc with hc | ⟨hcm, hd⟩
  · simp only [scanField] at hc
    by_cases hl : c = leftBrace
    · simp [hl] at hc
    · simp only [if_neg hl] at hc
      by_cases hr : c = rightBrace
      · simp only [if_pos hr] at hc
        by_cases hd0 : d = 0
        · simp [hd0] at hc
        · simp only [if_neg hd0, Option.some.injEq] at hc
          have hnr : ¬ (c = rightBrace ∧ d = 0) := fun hh => hd0 hh.2
          simp only [if_neg hnr, if_neg hl, if_pos hr, if_true]
          rw [commaScan]
          simp [hc]
      · simp only [if_neg hr] at hc
        by_cases hcm : d = 0 ∧ c = comma
        · simp [hcm] at hc
        · simp only [if_neg hcm, Option.some.injEq] at hc
          have hnr : ¬ (c = rightBrace ∧ d = 0) := fun hh => hr hh.1
          simp only [if_neg hnr, if_neg hl, if_neg hr, if_true]
          rw [commaScan]
          simp [hc]
  · subst hcm hd
    have hnr : ¬ (comma = rightBrace ∧ 0 = 0) := fun hh => comma_ne_rightBrace hh.1
    rw [if_neg hnr]
    simp only [if_neg comma_ne_leftBrace, if_neg comma_ne_rightBrace, if_true]
    rw [commaScan]
    simp

/-- A run that completes a field part and ends the input closes the last
part. -/
theorem commaScan_last (whole seg : List Char) (hne : seg ≠ []) (d : Nat)
    (hseg : scanField d seg = some 0)
    (i : Nat) (parts : List (List Char)) (cur : List Char) :
    commaScan whole seg i parts cur d = .ret (parts ++ [cur ++ seg], none) := by
  have hd := List.dropLast_append_getLast hne
  generalize seg.dropLast = g at hd
  generalize seg.getLast hne = c at hd
  subst hd
  rw [scanField_append] at hseg
  cases hg : scanField d g with
  | none => rw [hg] at hseg; simp at hseg
  | some d1 =>
    rw [hg, Option.some_bind] at hseg
    rw [commaScan_field whole [c] (by simp) g d d1 hg]
    rw [commaScan_single whole c d1 (Or.inl hseg)]
    simp

/-- A field part that ends the input becomes the last part. -/
theorem commaScan_last_field (whole seg : List Char) (hne : seg ≠ [])
    (hseg : scanField 0 seg = some 0)
    (i : Nat) (parts : List (List Char)) :
    commaScan whole seg i parts [] 0 = .ret (parts ++ [seg], none) := by
  rw [commaScan_last whole seg hne 0 hseg]
  simp

/-- A field part followed by a comma and more runes becomes a part, and the
scan goes on after the comma. -/
theorem commaScan_field_comma (whole seg rest : List Char) (hne : seg ≠ []) (hrest : rest ≠ [])
    (hseg : scanField 0 seg = some 0)
    (i : Nat) (parts : List (List Char)) :
    commaScan whole (seg ++ comma :: rest) i parts [] 0
      = commaScan whole rest (i + seg.length + 1) (parts ++ [seg]) [] 0 := by
  rw [commaScan_field whole (comma :: rest) (by simp) seg 0 0 hseg]
  rw [commaScan]
  have hnr : ¬ (comma = rightBrace ∧ 0 = 0) := fun hh => comma_ne_rightBrace hh.1
  have hl : seg.length ≠ 0 := by
    have := List.length_pos.mpr hne; omega
  rw [if_neg hnr]
  simp only [if_neg comma_ne_leftBrace, if_neg comma_ne_rightBrace, if_neg hrest,
    and_self, if_true, List.nil_append]
  simp [hl]

/-- Trimming leaves alone a rune slice that starts and ends with a non-space
rune. -/
theorem trimFragmentChars_id (t : List Char) (ht : t ≠ [])
    (h0 : isSpace (t.head ht) = false) (h1 : isSpace (t.getLast ht) = false) :
    trimFragmentChars t = .ret t := by
  have := trimFragmentChars_append [] t [] (by simp) (by simp) ht h0 h1
  simpa using this

/-- Trimming removes the white space around a slice that starts and ends
with a non-space rune. -/
theorem trimFragmentChars_append_of_head? (w1 t w2 : List Char)
    (hw1 : ∀ c ∈ w1, isSpace c = true) (hw2 : ∀ c ∈ w2, isSpace c = true) (c0 c1 : Char)
    (h0 : t.head? = some c0) (h1 : t.getLast? = some c1)
    (hc0 : isSpace c0 = false) (hc1 : isSpace c1 = false) :
    trimFragmentChars (w1 ++ t ++ w2) = .ret t := by
  have ht : t ≠ [] := by
    intro h; subst h; simp at h0
  apply trimFragmentChars_append w1 t w2 hw1 hw2 ht
  · rw [List.head?_eq_head ht] at h0
    rw [Option.some.inj h0]; exact hc0
  · rw [List.getLast?_eq_getLast _ ht] at h1
    rw [Option.some.inj h1]; exact hc1

theorem isWrapped_false_of_getLast (chars : List Char) (hne : chars ≠ [])
    (h : chars.getLast hne ≠ rightBrace) : isWrapped chars = false := by
  cases hw : isWrapped chars with
  | false => rfl
  | true =>
    exfalso
    obtain ⟨body, hb⟩ := (isWrapped_iff chars).mp hw
    apply h
    subst hb
    rw [List.getLast_cons (by simp)]
    simp

theorem isWrapped_false_of_head (chars : List Char) (hne : chars ≠ [])
    (h : chars.head hne ≠ leftBrace) : isWrapped chars = false := by
  cases hw : isWrapped chars with
  | false => rfl
  | true =>
    exfalso
    obtain ⟨body, hb⟩ := (isWrapped_iff chars).mp hw
    apply h
    subst hb
    rfl

/-- Unfolding of the loop of `parseString` on a part that `splitFragment`
cuts into more than two pieces. -/
theorem parseFieldParts_more_than_two (parseNested : List Char → Run (Unstructured × Option String))
    (part trimmed : List Char) (rest pieces : List (List Char)) (fragment : Unstructured)
    (htrim : trimFragmentChars part = .ret trimmed)
    (hsplit : splitFragment trimmed trimmed.length = .ret (pieces, none))
    (hlen : pieces.length > 2) :
    parseFieldParts parseNested (part :: rest) fragment =
      .ret (fragment, some ("failed parsing \"" ++ String.mk trimmed ++
        "\": contains more than one space")) := by
  rw [parseFieldParts, htrim]
  simp only [hsplit, hlen, if_true]

/-! ## Inputs without braces -/

theorem splitOn_comma_cons_comma (y : List Char) :
    (comma :: y).splitOn comma = [] :: y.splitOn comma := by
  simp [List.splitOn, List.splitOnP_cons]

theorem splitOn_comma_cons_other (c : Char) (y : List Char) (hc : c ≠ comma) :
    (c :: y).splitOn comma = (y.splitOn comma).modifyHead (List.cons c) := by
  simp [List.splitOn, List.splitOnP_cons, hc]

theorem splitOn_comma_exists (y : List Char) : ∃ h tl, y.splitOn comma = h :: tl := by
  cases hs : y.splitOn comma with
  | nil => exact absurd hs (List.splitOnP_ne_nil _ _)
  | cons h tl => exact ⟨h, tl, rfl⟩

theorem goodParts_comma (cur y : List Char) :
    GoodParts cur (comma :: y) ↔
      ((cur ≠ [] → ∃ c ∈ cur, isSpace c = false) ∧ GoodParts [] y) := by
  obtain ⟨h, tl, hs⟩ := splitOn_comma_exists y
  unfold GoodParts
  rw [splitOn_comma_cons_comma, hs]
  simp only [List.modifyHead_cons, List.append_nil, List.nil_append, List.mem_cons,
    forall_eq_or_imp]

theorem goodParts_other (cur y : List Char) (c : Char) (hc : c ≠ comma) :
    GoodParts cur (c :: y) ↔ GoodParts (cur ++ [c]) y := by
  obtain ⟨h, tl, hs⟩ := splitOn_comma_exists y
  unfold GoodParts
  rw [splitOn_comma_cons_other c y hc, hs]
  simp only [List.modifyHead_cons, List.append_assoc, List.singleton_append]

theorem goodParts_nil (cur : List Char) :
    GoodParts cur [] ↔ (cur ≠ [] → ∃ c ∈ cur, isSpace c = false) := by
  unfold GoodParts
  simp [List.splitOn, List.splitOnP_nil]

theorem goodParts_leading (w : List Char) (hw : ∀ c ∈ w, isSpace c = true) :
    ∀ cur y, GoodParts cur (w ++ y) → GoodParts (cur ++ w) y := by
  induction w with
  | nil => intro cur y h; simpa using h
  | cons a w ih =>
    intro cur y h
    have ha : a ≠ comma := isSpace_ne_comma a (hw a (List.mem_cons_self _ _))
    have h2 := (goodParts_other cur (w ++ y) a ha).mp h
    have h3 := ih (fun c hc => hw c (List.mem_cons_of_mem _ hc)) (cur ++ [a]) y h2
    simpa using h3

theorem nonspace_of_append_spaces_left (w p : List Char) (hw : ∀ c ∈ w, isSpace c = true)
    (h : ∃ c ∈ w ++ p, isSpace c = false) : ∃ c ∈ p, isSpace c = false := by
  obtain ⟨c, hc, hs⟩ := h
  rcases List.mem_append.mp hc with hc | hc
  · rw [hw c hc] at hs; cases hs
  · exact ⟨c, hc, hs⟩

theorem nonspace_of_append_spaces_right (p w : List Char) (hw : ∀ c ∈ w, isSpace c = true)
    (h : ∃ c ∈ p ++ w, isSpace c = false) : ∃ c ∈ p, isSpace c = false := by
  obtain ⟨c, hc, hs⟩ := h
  rcases List.mem_append.mp hc with hc | hc
  · exact ⟨c, hc, hs⟩
  · rw [hw c hc] at hs; cases hs

theorem goodParts_drop_cur (w y : List Char) (hw : ∀ c ∈ w, isSpace c = true)
    (h : GoodParts w y) : GoodParts [] y := by
  obtain ⟨hd, tl, hs⟩ := splitOn_comma_exists y
  unfold GoodParts at h ⊢
  rw [hs] at h ⊢
  simp only [List.modifyHead_cons, List.nil_append, List.mem_cons, forall_eq_or_imp] at h ⊢
  refine ⟨?_, h.2⟩
  intro hne
  exact nonspace_of_append_spaces_left w hd hw (h.1 (by simp [hne]))

theorem goodParts_trailing (w : List Char) (hw : ∀ c ∈ w, isSpace c = true) :
    ∀ x cur, GoodParts cur (x ++ w) → GoodParts cur x := by
  intro x
  induction x with
  | nil =>
    intro cur h
    rw [goodParts_nil]
    intro hne
    have h2 := goodParts_leading w hw cur [] (by simpa using h)
    rw [goodParts_nil] at h2
    exact nonspace_of_append_spaces_right cur w hw (h2 (by simp [hne]))
  | cons a x ih =>
    intro cur h
    by_cases ha : a = comma
    · subst ha
      rw [List.cons_append, goodParts_comma] at h
      rw [goodParts_comma]
      exact ⟨h.1, ih [] h.2⟩
    · rw [List.cons_append, goodParts_other _ _ _ ha] at h
      rw [goodParts_other _ _ _ ha]
      exact ih _ h

/-- On an input without braces whose comma-separated parts are empty or have
a non-space rune, the comma scan returns without error parts that are free of
braces and have a non-space rune. -/
theorem commaScan_plain (whole : List Char) :
    ∀ (rest : List Char) (i : Nat) (parts : List (List Char)) (cur : List Char),
      (∀ c ∈ rest, c ≠ leftBrace ∧ c ≠ rightBrace) →
      (∀ c ∈ cur, c ≠ leftBrace ∧ c ≠ rightBrace) →
      (∀ p ∈ parts, (∃ c ∈ p, isSpace c = false) ∧ ∀ c ∈ p, c ≠ leftBrace ∧ c ≠ rightBrace) →
      GoodParts cur rest →
      ∃ parts', commaScan whole rest i parts cur 0 = .ret (parts', none) ∧
        ∀ p ∈ parts', (∃ c ∈ p, isSpace c = false) ∧ ∀ c ∈ p, c ≠ leftBrace ∧ c ≠ rightBrace := by
  intro rest
  induction rest with
  | nil =>
    intro i parts cur _ _ hparts _
    exact ⟨parts, by simp [commaScan], hparts⟩
  | cons c r ih =>
    intro i parts cur hrest hcur hparts hgood
    have hc := hrest c (List.mem_cons_self _ _)
    have hr : ∀ x ∈ r, x ≠ leftBrace ∧ x ≠ rightBrace :=
      fun x hx => hrest x (List.mem_cons_of_mem _ hx)
    have hcur' : ∀ x ∈ cur ++ [c], x ≠ leftBrace ∧ x ≠ rightBrace := by
      intro x hx
      rcases List.mem_append.mp hx with hx | hx
      · exact hcur x hx
      · rw [List.mem_singleton.mp hx]; exact hc
    rw [commaScan]
    have hnr : ¬ (c = rightBrace ∧ 0 = 0) := fun hh => hc.2 hh.1
    rw [if_neg hnr]
    simp only [if_neg hc.1, if_neg hc.2, true_and]
    by_cases hlast : r = []
    · subst hlast
      rw [if_pos rfl]
      refine ⟨parts ++ [cur ++ [c]], by simp [commaScan], ?_⟩
      intro p hp
      rcases List.mem_append.mp hp with hp | hp
      · exact hparts p hp
      · rw [List.mem_singleton.mp hp]
        refine ⟨?_, hcur'⟩
        by_cases hcm : c = comma
        · exact ⟨c, by simp, by rw [hcm]; decide⟩
        · have := (goodParts_other cur [] c hcm).mp hgood
          rw [goodParts_nil] at this
          exact this (by simp)
    · rw [if_neg hlast]
      by_cases hcm : c = comma
      · rw [if_pos hcm]
        subst hcm
        rw [goodParts_comma] at hgood
        apply ih _ _ _ hr (by simp) _ hgood.2
        intro p hp
        by_cases hcl : cur.length ≠ 0
        · rw [if_pos hcl] at hp
          rcases List.mem_append.mp hp with hp | hp
          · exact hparts p hp
          · rw [List.mem_singleton.mp hp]
            exact ⟨hgood.1 (by intro h0; apply hcl; rw [h0]; rfl), hcur⟩
        · rw [if_neg hcl] at hp
          exact hparts p hp
      · rw [if_neg hcm]
        exact ih _ _ _ hr hcur' hparts ((goodParts_other cur r c hcm).mp hgood)

/-- The loop of `parseString` succeeds on parts that are free of braces and
have a non-space rune: each becomes one bare field. -/
theorem parseFieldParts_plain (parseNested : List Char → Run (Unstructured × Option String)) :
    ∀ (parts : List (List Char)) (fragment : Unstructured),
      (∀ p ∈ parts, (∃ c ∈ p, isSpace c = false) ∧ ∀ c ∈ p, c ≠ leftBrace ∧ c ≠ rightBrace) →
      ∃ t, parseFieldParts parseNested parts fragment = .ret (t, none) := by
  intro parts
  induction parts with
  | nil => intro fragment _; exact ⟨fragment, by simp [parseFieldParts]⟩
  | cons p parts ih =>
    intro fragment h
    obtain ⟨hns, hnb⟩ := h p (List.mem_cons_self _ _)
    obtain ⟨w1, t, w2, ht, hp, _, _, h0, h1, htrim⟩ := trimFragmentChars_of_nonspace p hns
    have htb : ∀ c ∈ t, c ≠ leftBrace ∧ c ≠ rightBrace := by
      intro c hc
      apply hnb
      rw [hp]
      exact List.mem_append_left _ (List.mem_append_right _ hc)
    rw [parseFieldParts, htrim]
    simp only [splitFragment_no_brace t ht htb, List.length_singleton]
    simp only [show ¬ (1 > 2) by omega, if_false, List.getElem?_cons_zero,
      trimFragmentChars_id t ht h0 h1, if_true]
    exact ih _ (fun q hq => h q (List.mem_cons_of_mem _ hq))

/-! ## The recursion bound of `parseString` -/

/-- The loop of `parseString` does not depend on the nested parser beyond the
results the nested parser returns. -/
theorem parseFieldParts_mono (f g : List Char → Run (Unstructured × Option String))
    (hfg : ∀ y, f y ≠ .outOfFuel → g y = f y) :
    ∀ (parts : List (List Char)) (fragment : Unstructured),
      parseFieldParts f parts fragment ≠ .outOfFuel →
      parseFieldParts g parts fragment = parseFieldParts f parts fragment := by
  intro parts
  induction parts with
  | nil => intro fragment _; simp [parseFieldParts]
  | cons p parts ih =>
    intro fragment h
    simp only [parseFieldParts] at h ⊢
    cases ht : trimFragmentChars p with
    | panic m => simp only [ht]
    | outOfFuel => simp only [ht]
    | ret tp =>
      simp only [ht] at h ⊢
      cases hs : splitFragment tp tp.length with
      | panic m => simp only [hs]
      | outOfFuel => simp only [hs]
      | ret res =>
        obtain ⟨pieces, err⟩ := res
        simp only [hs] at h ⊢
        cases err with
        | some e => rfl
        | none =>
          simp only [] at h ⊢
          by_cases h2 : pieces.length > 2
          · simp only [h2, if_true]
          · simp only [h2, if_false] at h ⊢
            cases h0 : pieces[0]? with
            | none => simp only [h0]
            | some part0 =>
              simp only [h0] at h ⊢
              cases hn : trimFragmentChars part0 with
              | panic m => simp only [hn]
              | outOfFuel => simp only [hn]
              | ret fieldName =>
                simp only [hn] at h ⊢
                by_cases h1 : pieces.length = 1
                · simp only [h1, if_true] at h ⊢
                  exact ih _ h
                · simp only [h1, if_false] at h ⊢
                  by_cases h22 : pieces.length = 2
                  · simp only [h22, if_true] at h ⊢
                    cases hf : f (pieces.getD 1 []) with
                    | panic m =>
                      rw [hfg _ (by rw [hf]; exact fun hh => by cases hh), hf]
                    | outOfFuel =>
                      rw [hf] at h
                      exact absurd rfl h
                    | ret res2 =>
                      rw [hfg _ (by rw [hf]; exact fun hh => by cases hh), hf]
                      rw [hf] at h
                      obtain ⟨fieldFragment, err2⟩ := res2
                      cases err2 with
                      | some e => rfl
                      | none =>
                        simp only [] at h ⊢
                        by_cases hd : fieldFragment.fields.isSome = true
                        · simp only [hd, if_true] at h ⊢
                          cases hset : fragment.Set (String.mk fieldName) (some fieldFragment) with
                          | panic m => simp only [hset]
                          | outOfFuel => simp only [hset]
                          | ret fr =>
                            simp only [hset] at h ⊢
                            exact ih _ h
                        · simp only [hd, if_false] at h ⊢
                          exact ih _ h
                  · simp only [h22, if_false]

/-- A result of `parseString` other than `outOfFuel` stays the same when the
recursion bound grows by one. -/
theorem parseString_succ (n : Nat) :
    ∀ chars, parseString n chars ≠ .outOfFuel → parseString (n + 1) chars = parseString n chars := by
  induction n with
  | zero => intro chars h; exact absurd rfl h
  | succ n ih =>
    intro chars h
    have key : ∀ body, parseBody n body ≠ .outOfFuel → parseBody (n + 1) body = parseBody n body := by
      intro body hb
      unfold parseBody at hb ⊢
      by_cases hl : body.length = 0
      · simp only [hl, if_true]
      · simp only [hl, if_false] at hb ⊢
        cases hs : splitFragmentByComma body body.length with
        | panic m => simp only [hs]
        | outOfFuel => simp only [hs]
        | ret res =>
          obtain ⟨parts, err⟩ := res
          cases err with
          | some e => simp only [hs]
          | none =>
            simp only [hs] at hb ⊢
            exact parseFieldParts_mono _ _ ih parts _ hb
    cases hw : isWrapped chars with
    | true =>
      obtain ⟨body, rfl⟩ := (isWrapped_iff chars).mp hw
      rw [parseString_wrapped] at h ⊢
      rw [parseString_wrapped]
      by_cases hb : body = []
      · simp only [hb, if_true]
      · simp only [hb, if_false] at h ⊢
        exact key body h
    | false =>
      rw [parseString_plain _ _ hw] at h ⊢
      rw [parseString_plain _ _ hw]
      exact key chars h

/-- A result of `parseString` other than `outOfFuel` is the result for every
larger recursion bound. -/
theorem parseString_mono (n m : Nat) (hnm : n ≤ m) (chars : List Char)
    (h : parseString n chars ≠ .outOfFuel) : parseString m chars = parseString n chars := by
  induction m with
  | zero =>
    have : n = 0 := by omega
    subst this; rfl
  | succ m ih =>
    by_cases hn : n = m + 1
    · subst hn; rfl
    · have h1 := ih (by omega)
      rw [← h1] at h ⊢
      exact parseString_succ m chars h

/-! ## White space around the parts of an expression -/

/-- Trimming a non-empty slice and trimming the same slice with white space
around it give the same result. -/
theorem trimFragmentChars_padded (p p' : List Char) (h : Padded p p') :
    trimFragmentChars p' = trimFragmentChars p := by
  obtain ⟨hne, a, b, ha, hb, rfl⟩ := h
  by_cases hns : ∃ c ∈ p, isSpace c = false
  · obtain ⟨w1, t, w2, ht, hp, hw1, hw2, h0, h1, htrim⟩ := trimFragmentChars_of_nonspace p hns
    rw [htrim]
    have e : a ++ p ++ b = (a ++ w1) ++ t ++ (w2 ++ b) := by rw [hp]; simp
    rw [e]
    apply trimFragmentChars_append _ _ _ _ _ ht h0 h1
    · intro c hc
      rcases List.mem_append.mp hc with hc | hc
      · exact ha c hc
      · exact hw1 c hc
    · intro c hc
      rcases List.mem_append.mp hc with hc | hc
      · exact hw2 c hc
      · exact hb c hc
  · have hall : ∀ c ∈ p, isSpace c = true := by
      intro c hc
      by_contra hcs
      exact hns ⟨c, hc, by simpa using hcs⟩
    rw [trimFragmentChars_allSpace p hne hall]
    apply trimFragmentChars_allSpace
    · simp [hne]
    · intro c hc
      rcases List.mem_append.mp hc with hc | hc
      · rcases List.mem_append.mp hc with hc | hc
        · exact ha c hc
        · exact hall c hc
      · exact hb c hc

/-- The loop of `parseString` gives the same result on parts that differ by
white space around them. -/
theorem parseFieldParts_padded (f : List Char → Run (Unstructured × Option String))
    (ps ps' : List (List Char)) (h : List.Forall₂ Padded ps ps') :
    ∀ fragment, parseFieldParts f ps' fragment = parseFieldParts f ps fragment := by
  induction h with
  | nil => intro fragment; rfl
  | cons hp _ ih =>
    intro fragment
    have hfun := funext ih
    rw [parseFieldParts, parseFieldParts, trimFragmentChars_padded _ _ hp, hfun]

theorem commaScan_single_inv (whole : List Char) (c : Char) (d i : Nat)
    (parts out : List (List Char)) (cur : List Char) (hc : c ≠ comma)
    (h : commaScan whole [c] i parts cur d = .ret (out, none)) :
    scanField d [c] = some 0 ∧ out = parts ++ [cur ++ [c]] := by
  have hs : scanField d [c] = some 0 := by
    rw [commaScan] at h
    simp only [scanField]
    by_cases hl : c = leftBrace
    · have hnr : ¬ (c = rightBrace ∧ d = 0) := by
        rw [hl]; exact fun hh => leftBrace_ne_rightBrace hh.1
      rw [if_neg hnr] at h
      simp only [if_pos hl, if_true] at h
      rw [commaScan] at h
      simp at h
    · rw [if_neg hl]
      by_cases hr : c = rightBrace
      · rw [if_pos hr]
        by_cases hd : d = 0
        · rw [if_pos ⟨hr, hd⟩] at h
          simp at h
        · rw [if_neg hd]
          have hnr : ¬ (c = rightBrace ∧ d = 0) := fun hh => hd hh.2
          rw [if_neg hnr] at h
          simp only [if_neg hl, if_pos hr, if_true] at h
          rw [commaScan] at h
          by_cases hd1 : d - 1 = 0
          · rw [hd1]
          · simp [hd1] at h
      · rw [if_neg hr]
        have hncm : ¬ (d = 0 ∧ c = comma) := fun hh => hc hh.2
        rw [if_neg hncm]
        have hnr : ¬ (c = rightBrace ∧ d = 0) := fun hh => hr hh.1
        rw [if_neg hnr] at h
        simp only [if_neg hl, if_neg hr, if_true] at h
        rw [commaScan] at h
        by_cases hd : d = 0
        · rw [hd]
        · simp [hd] at h
  refine ⟨hs, ?_⟩
  rw [commaScan_single whole c d (Or.inl hs)] at h
  simp only [Run.ret.injEq, Prod.mk.injEq, and_true] at h
  exact h.symm

/-- When the comma scan succeeds on `rest`, it also succeeds on `rest`
followed by white space, with white space before the current part, and
returns the same parts up to white space around them. -/
theorem commaScan_padded (whole whole' w2 : List Char) (hw2 : ∀ c ∈ w2, isSpace c = true) :
    ∀ (rest : List Char), rest ≠ [] → rest.getLast? ≠ some comma →
    ∀ (i i' : Nat) (parts parts' : List (List Char)) (cur a : List Char) (d : Nat)
      (out : List (List Char)),
      List.Forall₂ Padded parts parts' →
      (∀ c ∈ a, isSpace c = true) →
      (cur = [] → a = [] ∨ rest.head? ≠ some comma) →
      commaScan whole rest i parts cur d = .ret (out, none) →
      ∃ out', commaScan whole' (rest ++ w2) i' parts' (a ++ cur) d = .ret (out', none) ∧
        List.Forall₂ Padded out out' := by
  intro rest
  induction rest with
  | nil => intro h; exact absurd rfl h
  | cons c r ih =>
    intro _ hlast i i' parts parts' cur a d out hparts ha hinv h
    by_cases hr : r = []
    · subst hr
      have hc : c ≠ comma := by
        intro hcc; apply hlast; simp [hcc]
      obtain ⟨hs, hout⟩ := commaScan_single_inv whole c d i parts out cur hc h
      have hseg : scanField d ([c] ++ w2) = some 0 := by
        rw [scanField_append, hs, Option.some_bind]
        exact scanField_plain w2 (fun x hx => ⟨isSpace_ne_leftBrace x (hw2 x hx),
          isSpace_ne_rightBrace x (hw2 x hx), isSpace_ne_comma x (hw2 x hx)⟩) 0
      refine ⟨parts' ++ [(a ++ cur) ++ ([c] ++ w2)], ?_, ?_⟩
      · exact commaScan_last whole' ([c] ++ w2) (by simp) d hseg i' parts' (a ++ cur)
      · rw [hout]
        apply List.rel_append hparts
        refine List.Forall₂.cons ⟨by simp, a, w2, ha, hw2, by simp⟩ List.Forall₂.nil
    · have hlast' : r.getLast? ≠ some comma := by
        obtain ⟨x, r', rfl⟩ := List.exists_cons_of_ne_nil hr
        simpa [List.getLast?_cons_cons] using hlast
      have hne2 : r ++ w2 ≠ [] := by simp [hr]
      rw [commaScan] at h
      simp only [List.cons_append]
      rw [commaScan]
      by_cases herr : c = rightBrace ∧ d = 0
      · rw [if_pos herr] at h
        simp at h
      · rw [if_neg herr] at h ⊢
        simp only [] at h ⊢
        generalize (if c = leftBrace then d + 1 else if c = rightBrace then d - 1 else d) = d2
          at h ⊢
        rw [if_neg hr] at h
        rw [if_neg hne2]
        by_cases hcm : d2 = 0 ∧ c = comma
        · rw [if_pos hcm] at h ⊢
          have hpp : List.Forall₂ Padded (if cur.length ≠ 0 then parts ++ [cur] else parts)
              (if (a ++ cur).length ≠ 0 then parts' ++ [a ++ cur] else parts') := by
            by_cases hcur : cur = []
            · have ha0 : a = [] := by
                rcases hinv hcur with h1 | h1
                · exact h1
                · exact absurd (by simp [hcm.2]) h1
              subst hcur ha0
              simpa using hparts
            · have h1 : cur.length ≠ 0 := by
                have := List.length_pos.mpr hcur; omega
              have h2 : (a ++ cur).length ≠ 0 := by
                simp only [List.length_append]; omega
              rw [if_pos h1, if_pos h2]
              apply List.rel_append hparts
              exact List.Forall₂.cons ⟨hcur, a, [], ha, by simp, by simp⟩ List.Forall₂.nil
          exact ih hr hlast' (i + 1) (i' + 1) _ _ [] [] d2 out hpp (by simp)
            (fun _ => Or.inl rfl) h
        · rw [if_neg hcm] at h ⊢
          have hih := ih hr hlast' (i + 1) (i' + 1) parts parts' (cur ++ [c]) a d2 out hparts ha
            (fun h0 => absurd h0 (by simp)) h
          simpa using hih

/-! ## Field names of the tree built by `Add` and `Set` -/

theorem mapSet_of_not_mem (m : FieldMap) (k : String) (v : Option Unstructured)
    (h : k ∉ m.map Prod.fst) : mapSet m k v = m ++ [(k, v)] := by
  induction m with
  | nil => rfl
  | cons e m ih =>
    obtain ⟨k', w⟩ := e
    simp only [List.map_cons, List.mem_cons, not_or] at h
    have hk : ¬ k' = k := fun hh => h.1 hh.symm
    simp only [mapSet, if_neg hk, List.cons_append, ih h.2]

theorem mapLookup_isSome_iff (m : FieldMap) (k : String) :
    (mapLookup m k).isSome = true ↔ k ∈ m.map Prod.fst := by
  induction m with
  | nil => simp [mapLookup]
  | cons e m ih =>
    obtain ⟨k', w⟩ := e
    simp only [mapLookup, List.map_cons, List.mem_cons]
    by_cases hk : k' = k
    · simp [hk]
    · simp only [if_neg hk, ih]
      constructor
      · exact Or.inr
      · rintro (h | h)
        · exact absurd h.symm hk
        · exact h

theorem foldl_mapSet_of_nodup (m : FieldMap) :
    ∀ acc : FieldMap, (acc.map Prod.fst ++ m.map Prod.fst).Nodup →
      m.foldl (fun acc e => mapSet acc e.1 e.2) acc = acc ++ m := by
  induction m with
  | nil => intro acc _; simp
  | cons e m ih =>
    intro acc h
    have hk : e.1 ∉ acc.map Prod.fst := by
      intro hmem
      have := (List.nodup_append.mp h).2.2
      exact this hmem (by simp)
    simp only [List.foldl_cons, mapSet_of_not_mem acc e.1 e.2 hk]
    rw [ih]
    · simp
    · simpa [List.map_append, List.append_assoc] using h

/-- The copy made by `definedCopy` of a map with pairwise different keys has
the same entries. -/
theorem definedCopy_of_nodup (m : FieldMap) (h : (m.map Prod.fst).Nodup) :
    (Unstructured.mk (some m)).definedCopy = .mk (some m) := by
  simp only [Unstructured.definedCopy, Unstructured.fields]
  rw [foldl_mapSet_of_nodup m [] (by simpa using h)]
  simp

/-- Adding one name that is not a key appends it to the keys. -/
theorem keysOf_Add_single (f : Unstructured) (k : String) (hnd : (keysOf f).Nodup)
    (hk : k ∉ keysOf f) : keysOf (f.Add [k]) = keysOf f ++ [k] := by
  cases f with
  | mk fs =>
    cases fs with
    | none => rfl
    | some m =>
      simp only [keysOf, Unstructured.fields] at hnd hk ⊢
      unfold Unstructured.Add
      rw [definedCopy_of_nodup m hnd]
      simp only [Unstructured.fieldsLen, Unstructured.fields]
      by_cases hm : m.length = 0
      · have : m = [] := List.length_eq_zero.mp hm
        subst this
        rfl
      · simp only [if_neg hm, List.foldl_cons, List.foldl_nil, Unstructured.HasByName,
          Unstructured.fields, Option.getD_some]
        have hl : ¬ (mapLookup m k).isSome = true := fun hh =>
          hk ((mapLookup_isSome_iff m k).mp hh)
        simp only [hl, if_false, Bool.false_eq_true]
        rw [mapSet_of_not_mem m k none hk]
        simp

/-- Setting a child under a name that is not a key appends the name to the
keys. -/
theorem keysOf_Set (f : Unstructured) (k : String) (child : Unstructured)
    (hnd : (keysOf f).Nodup) (hk : k ∉ keysOf f) :
    ∃ f', f.Set k (some child) = .ret f' ∧ keysOf f' = keysOf f ++ [k] := by
  cases f with
  | mk fs =>
    cases fs with
    | none => exact ⟨_, rfl, rfl⟩
    | some m =>
      simp only [keysOf, Unstructured.fields] at hnd hk ⊢
      refine ⟨_, rfl, ?_⟩
      rw [definedCopy_of_nodup m hnd]
      simp only [Unstructured.fields, Option.getD_some]
      rw [mapSet_of_not_mem m k (some child) hk]
      simp

theorem FieldsLen_eq_keysOf_length (f : Unstructured) : f.FieldsLen = (keysOf f).length := by
  cases f with
  | mk fs =>
    cases fs with
    | none => rfl
    | some m => simp [Unstructured.FieldsLen, keysOf, Unstructured.fields]

/-! ## Lemmas about `Expr` -/

theorem string_append_ne_empty_left (s t : String) (h : s ≠ "") : s ++ t ≠ "" := by
  intro hst
  apply h
  have := congrArg String.data hst
  rw [String.data_append] at this
  have hs : s.data = [] := (List.append_eq_nil.mp this).1
  exact String.ext hs

theorem string_append_ne_empty_right (s t : String) (h : t ≠ "") : s ++ t ≠ "" := by
  intro hst
  apply h
  have := congrArg String.data hst
  rw [String.data_append] at this
  have ht : t.data = [] := (List.append_eq_nil.mp this).2
  exact String.ext ht

theorem Expr_defined_ne_empty (m : FieldMap) : (Unstructured.mk (some m)).Expr ≠ "" := by
  unfold Unstructured.Expr
  simp only []
  split
  · decide
  · exact string_append_ne_empty_right _ _ (by decide)

theorem Expr_eq_empty_iff (u : Unstructured) : u.Expr = "" ↔ u.IsUndefined = true := by
  cases u with
  | mk fs =>
    cases fs with
    | none => simp [Unstructured.Expr, Unstructured.IsUndefined, Unstructured.fields]
    | some m =>
      simp only [Unstructured.IsUndefined, Unstructured.fields, Option.isNone_some,
        Bool.false_eq_true, iff_false]
      exact Expr_defined_ne_empty m

theorem intercalate_go_ne_empty (sep : String) (l : List String) :
    ∀ acc : String, acc ≠ "" → String.intercalate.go acc sep l ≠ "" := by
  induction l with
  | nil => intro acc h; simpa [String.intercalate.go] using h
  | cons a l ih =>
    intro acc h
    simp only [String.intercalate.go]
    exact ih _ (string_append_ne_empty_left _ _ (string_append_ne_empty_left _ _ h))

/-- The loop of `Expr`, started with a non-empty text, appends every further
field after a comma and a blank. -/
theorem exprLoop_eq_go (m : FieldMap) :
    ∀ acc : String, acc ≠ "" →
      Unstructured.exprLoop m acc = String.intercalate.go acc ", " (m.map renderField) := by
  induction m with
  | nil => intro acc _; simp [Unstructured.exprLoop, String.intercalate.go]
  | cons e m ih =>
    intro acc h
    obtain ⟨name, child⟩ := e
    have hacc : ∀ x : String, acc ++ ", " ++ x ≠ "" := fun x =>
      string_append_ne_empty_left _ _ (string_append_ne_empty_left _ _ h)
    cases child with
    | none =>
      simp only [Unstructured.exprLoop, ne_eq, h, not_false_eq_true, if_true, List.map_cons,
        String.intercalate.go, renderField]
      exact ih _ (hacc _)
    | some u =>
      simp only [Unstructured.exprLoop, ne_eq, h, not_false_eq_true, if_true, List.map_cons,
        String.intercalate.go, renderField]
      by_cases hu : u.IsUndefined = true
      · have he : u.Expr = "" := (Expr_eq_empty_iff u).mpr hu
        simp only [he, not_true_eq_false, if_false, hu, if_true]
        exact ih _ (hacc _)
      · have he : ¬ u.Expr = "" := fun h0 => hu ((Expr_eq_empty_iff u).mp h0)
        simp only [he, not_false_eq_true, if_true, hu, Bool.false_eq_true, if_false]
        exact ih _ (hacc _)

theorem exprLoop_cons_empty (e : String × Option Unstructured) (m : FieldMap) :
    Unstructured.exprLoop (e :: m) "" = Unstructured.exprLoop m (renderField e) := by
  obtain ⟨name, child⟩ := e
  cases child with
  | none => simp [Unstructured.exprLoop, renderField]
  | some u =>
    by_cases hu : u.IsUndefined = true
    · have he : u.Expr = "" := (Expr_eq_empty_iff u).mpr hu
      simp [Unstructured.exprLoop, renderField, he, hu]
    · have he : ¬ u.Expr = "" := fun h0 => hu ((Expr_eq_empty_iff u).mp h0)
      simp [Unstructured.exprLoop, renderField, he, hu]

theorem renderField_ne_empty (e : String × Option Unstructured) (h : e.1 ≠ "") :
    renderField e ≠ "" := by
  obtain ⟨name, child⟩ := e
  cases child with
  | none => simpa [renderField] using h
  | some u =>
    simp only [renderField]
    split
    · exact h
    · exact string_append_ne_empty_left _ _ (string_append_ne_empty_left _ _ h)

/-- Closed form of `Expr` on a defined tree whose first visited field has a
non-empty name. -/
theorem Expr_defined_eq (m : FieldMap) (h : ∀ e, m.head? = some e → e.1 ≠ "") :
    (Unstructured.mk (some m)).Expr =
      if m.length = 0 then "\x7b\x7d" else "\x7b " ++ ", ".intercalate (m.map renderField) ++ " \x7d" := by
  cases m with
  | nil => simp [Unstructured.Expr, Unstructured.exprLoop]
  | cons e m =>
    have hr : renderField e ≠ "" := renderField_ne_empty e (h e rfl)
    simp only [Unstructured.Expr, exprLoop_cons_empty, exprLoop_eq_go m _ hr,
      intercalate_go_ne_empty ", " _ _ hr, if_false, List.map_cons,
      String.intercalate, List.length_cons, Nat.add_one_ne_zero]

theorem perm_pair_cases {α : Type} (a b : α) (l : List α) (h : l.Perm [a, b]) :
    l = [a, b] ∨ l = [b, a] := by
  have hlen := h.length_eq
  match l, hlen with
  | [x, y], _ =>
    have hx : x ∈ [a, b] := h.subset (List.mem_cons_self _ _)
    simp only [List.mem_cons, List.mem_singleton, List.not_mem_nil, or_false] at hx
    rcases hx with rfl | rfl
    · have := List.perm_singleton.mp h.cons_inv
      left
      simp only [List.cons.injEq] at this
      rw [this.1]
    · have h2 : [x, y].Perm [x, a] := h.trans (List.Perm.swap x a [])
      have := List.perm_singleton.mp h2.cons_inv
      right
      simp only [List.cons.injEq] at this
      rw [this.1]

/-! ## Expressions given as a list of fields -/

theorem spaces_plain (w : List Char) (hw : ∀ c ∈ w, isSpace c = true) :
    ∀ c ∈ w, c ≠ leftBrace ∧ c ≠ rightBrace ∧ c ≠ comma :=
  fun c hc => ⟨isSpace_ne_leftBrace c (hw c hc), isSpace_ne_rightBrace c (hw c hc),
    isSpace_ne_comma c (hw c hc)⟩

theorem braceBlock_ne_nil (body : List Char) : braceBlock body ≠ [] := by
  simp [braceBlock]

theorem braceBlock_getLast (body : List Char) :
    (braceBlock body).getLast (braceBlock_ne_nil body) = rightBrace := by
  unfold braceBlock
  rw [List.getLast_cons (by simp)]
  simp

theorem FieldText.core_ne_nil (f : FieldText) (h : f.WellFormed) : f.core ≠ [] := by
  obtain ⟨_, _, ⟨hn, _, _⟩, _, _⟩ := h
  unfold FieldText.core
  cases hb : f.block with
  | none => simpa using hn
  | some mb => obtain ⟨mid, body⟩ := mb; simp [braceBlock]

theorem FieldText.core_head? (f : FieldText) (h : f.WellFormed) :
    ∃ c, f.core.head? = some c ∧ isSpace c = false ∧ c ≠ leftBrace := by
  obtain ⟨_, _, ⟨hn, h0, _⟩, hname, _⟩ := h
  refine ⟨f.name.head hn, ?_, h0, (hname _ (List.head_mem hn)).1⟩
  rw [← List.head?_eq_head hn]
  unfold FieldText.core
  cases hb : f.block with
  | none => rfl
  | some mb =>
    obtain ⟨mid, body⟩ := mb
    simp only [List.append_assoc]
    rw [List.head?_append_of_ne_nil _ hn]

theorem FieldText.core_getLast? (f : FieldText) (h : f.WellFormed) :
    ∃ c, f.core.getLast? = some c ∧ isSpace c = false := by
  obtain ⟨_, _, ⟨hn, _, h1⟩, _, _⟩ := h
  unfold FieldText.core
  cases hb : f.block with
  | none => exact ⟨f.name.getLast hn, List.getLast?_eq_getLast _ hn, h1⟩
  | some mb =>
    obtain ⟨mid, body⟩ := mb
    refine ⟨rightBrace, ?_, by decide⟩
    simp only []
    rw [List.getLast?_eq_getLast _ (by simp [braceBlock]),
      List.getLast_append_of_ne_nil (braceBlock_ne_nil body), braceBlock_getLast]

/-- Trimming the text of a field gives the field without the white space
around it. -/
theorem FieldText.trim_text (f : FieldText) (h : f.WellFormed) :
    trimFragmentChars f.text = .ret f.core := by
  obtain ⟨c0, h0, hc0, _⟩ := f.core_head? h
  obtain ⟨c1, h1, hc1⟩ := f.core_getLast? h
  exact trimFragmentChars_append_of_head? f.pre f.core f.post h.1 h.2.1 c0 c1 h0 h1 hc0 hc1

theorem FieldText.text_ne_nil (f : FieldText) (h : f.WellFormed) : f.text ≠ [] := by
  have := f.core_ne_nil h
  simp [FieldText.text, this]

/-- The text of a field is one field part for the comma scan. -/
theorem FieldText.scanField_text (f : FieldText) (h : f.WellFormed) :
    scanField 0 f.text = some 0 := by
  obtain ⟨hpre, hpost, _, hname, hblock⟩ := h
  unfold FieldText.text
  rw [scanField_append, scanField_append, scanField_plain f.pre (spaces_plain _ hpre),
    Option.some_bind]
  have hcore : scanField 0 f.core = some 0 := by
    unfold FieldText.core
    cases hb : f.block with
    | none => exact scanField_plain f.name hname 0
    | some mb =>
      obtain ⟨mid, body⟩ := mb
      obtain ⟨hmid, hbody, _⟩ := hblock mid body hb
      simp only []
      rw [scanField_append, scanField_append, scanField_plain f.name hname, Option.some_bind,
        scanField_plain mid (spaces_plain _ hmid), Option.some_bind]
      exact scanField_block body hbody
  rw [hcore, Option.some_bind]
  exact scanField_plain f.post (spaces_plain _ hpost) 0

/-- The comma scan cuts the joined texts of fields back into the texts. -/
theorem commaScan_joinComma (whole : List Char) :
    ∀ (texts : List (List Char)), texts ≠ [] →
      (∀ t ∈ texts, t ≠ [] ∧ scanField 0 t = some 0) →
      ∀ (i : Nat) (parts : List (List Char)),
        commaScan whole (joinComma texts) i parts [] 0 = .ret (parts ++ texts, none) := by
  intro texts
  induction texts with
  | nil => intro h; exact absurd rfl h
  | cons t rest ih =>
    intro _ h i parts
    obtain ⟨htne, hts⟩ := h t (List.mem_cons_self _ _)
    cases rest with
    | nil =>
      simp only [joinComma]
      exact commaScan_last_field whole t htne hts i parts
    | cons q rest =>
      have hq := h q (List.mem_cons_of_mem _ (List.mem_cons_self _ _))
      have hjoin : joinComma (q :: rest) ≠ [] := by
        cases rest with
        | nil => simpa [joinComma] using hq.1
        | cons r rest => simp [joinComma, hq.1]
      simp only [joinComma]
      rw [commaScan_field_comma whole t _ htne hjoin hts]
      rw [ih (by simp) (fun x hx => h x (List.mem_cons_of_mem _ hx))]
      simp

theorem length_le_joinComma (texts : List (List Char)) :
    ∀ t ∈ texts, t.length ≤ (joinComma texts).length := by
  induction texts with
  | nil => intro t ht; cases ht
  | cons p rest ih =>
    intro t ht
    cases rest with
    | nil =>
      simp only [List.mem_singleton] at ht
      subst ht
      simp [joinComma]
    | cons q rest =>
      simp only [joinComma, List.length_append, List.length_cons]
      rcases List.mem_cons.mp ht with rfl | ht
      · omega
      · have := ih t ht
        omega

/-- A brace block parses under every recursion bound above its length as it
does by itself. -/
theorem parseString_braceBlock (body : List Char) (child : Unstructured) (fuel : Nat)
    (hfuel : (braceBlock body).length + 1 ≤ fuel)
    (h : ParseUnstructured (String.mk (braceBlock body)) = .ret (child, none)) :
    parseString fuel (braceBlock body) = .ret (child, none) := by
  have htrim : trimFragmentChars (braceBlock body) = .ret (braceBlock body) := by
    apply trimFragmentChars_id _ (braceBlock_ne_nil body)
    · rfl
    · rw [braceBlock_getLast]; rfl
  unfold ParseUnstructured at h
  simp only [String.toList] at h
  rw [htrim] at h
  simp only [] at h
  rw [parseString_mono _ fuel hfuel _ (by rw [h]; exact fun hh => by cases hh)]
  exact h

/-- The loop of `parseString` on the texts of well-formed fields with new,
pairwise different names adds one key for each field, in order. -/
theorem parseFieldParts_fields (fuel : Nat) :
    ∀ (fields : List FieldText) (fragment : Unstructured),
      (∀ f ∈ fields, f.WellFormed) →
      (∀ f ∈ fields, ∀ mid body, f.block = some (mid, body) →
        (braceBlock body).length + 1 ≤ fuel) →
      (keysOf fragment ++ fields.map (fun f => String.mk f.name)).Nodup →
      ∃ tree, parseFieldParts (parseString fuel) (fields.map FieldText.text) fragment
          = .ret (tree, none) ∧
        keysOf tree = keysOf fragment ++ fields.map (fun f => String.mk f.name) := by
  intro fields
  induction fields with
  | nil => intro fragment _ _ _; exact ⟨fragment, by simp [parseFieldParts], by simp⟩
  | cons f rest ih =>
    intro fragment hwf hfuel hnd
    have hf := hwf f (List.mem_cons_self _ _)
    have hrest : ∀ g ∈ rest, g.WellFormed := fun g hg => hwf g (List.mem_cons_of_mem _ hg)
    have hfuelrest : ∀ g ∈ rest, ∀ mid body, g.block = some (mid, body) →
        (braceBlock body).length + 1 ≤ fuel :=
      fun g hg => hfuel g (List.mem_cons_of_mem _ hg)
    have hkeys : (keysOf fragment).Nodup := (List.nodup_append.mp hnd).1
    have hk : String.mk f.name ∉ keysOf fragment := by
      intro hmem
      exact (List.nodup_append.mp hnd).2.2 hmem (by simp)
    have hnd' : ∀ fr : Unstructured, keysOf fr = keysOf fragment ++ [String.mk f.name] →
        (keysOf fr ++ rest.map (fun f => String.mk f.name)).Nodup := by
      intro fr hfr
      rw [hfr]
      simpa [List.append_assoc] using hnd
    have hfinish : ∀ fr : Unstructured, keysOf fr = keysOf fragment ++ [String.mk f.name] →
        ∃ tree, parseFieldParts (parseString fuel) (rest.map FieldText.text) fr
            = .ret (tree, none) ∧
          keysOf tree = keysOf fragment ++ (f :: rest).map (fun f => String.mk f.name) := by
      intro fr hfr
      obtain ⟨tree, ht, hkt⟩ := ih fr hrest hfuelrest (hnd' fr hfr)
      exact ⟨tree, ht, by rw [hkt, hfr]; simp⟩
    obtain ⟨hpre, hpost, ⟨hn, h0, h1⟩, hname, hblock⟩ := hf
    have hnb : ∀ c ∈ f.name, c ≠ leftBrace ∧ c ≠ rightBrace :=
      fun c hc => ⟨(hname c hc).1, (hname c hc).2.1⟩
    rw [List.map_cons, parseFieldParts, f.trim_text (hwf f (List.mem_cons_self _ _))]
    simp only []
    cases hb : f.block with
    | none =>
      have hcore : f.core = f.name := by unfold FieldText.core; rw [hb]
      rw [hcore, splitFragment_no_brace f.name hn hnb]
      simp only [List.length_singleton, show ¬ (1 > 2) by omega, if_false,
        List.getElem?_cons_zero, trimFragmentChars_id f.name hn h0 h1, if_true]
      exact hfinish _ (keysOf_Add_single fragment _ hkeys hk)
    | some mb =>
      obtain ⟨mid, body⟩ := mb
      obtain ⟨hmid, hbody, child, hchild⟩ := hblock mid body hb
      have hcore : f.core = (f.name ++ mid) ++ braceBlock body := by
        unfold FieldText.core; rw [hb]
      have hsplit := splitFragment_name_block (f.name ++ mid) body (by simp [hn])
        (by
          intro c hc
          rcases List.mem_append.mp hc with hc | hc
          · exact hnb c hc
          · exact ⟨isSpace_ne_leftBrace c (hmid c hc), isSpace_ne_rightBrace c (hmid c hc)⟩)
        hbody
      have htrimname : trimFragmentChars (f.name ++ mid) = .ret f.name := by
        have := trimFragmentChars_append [] f.name mid (by simp) hmid hn h0 h1
        simpa using this
      have hnested := parseString_braceBlock body child fuel
        (hfuel f (List.mem_cons_self _ _) mid body hb) hchild
      rw [hcore]
      unfold braceBlock at hsplit hnested ⊢
      rw [hsplit]
      simp only [List.length_cons, List.length_nil, show ¬ (0 + 1 + 1 > 2) by omega, if_false,
        List.getElem?_cons_zero, htrimname, show ¬ (0 + 1 + 1 = 1) by omega, if_true,
        List.getD_cons_succ, List.getD_cons_zero, hnested]
      by_cases hdef : child.fields.isSome = true
      · simp only [hdef, if_true]
        obtain ⟨fr, hset, hfr⟩ := keysOf_Set fragment (String.mk f.name) child hkeys hk
        rw [hset]
        exact hfinish fr hfr
      · simp only [hdef, if_false, Bool.false_eq_true]
        exact hfinish _ (keysOf_Add_single fragment _ hkeys hk)

theorem joinComma_head? (t : List Char) (rest : List (List Char)) (ht : t ≠ []) :
    (joinComma (t :: rest)).head? = t.head? := by
  cases rest with
  | nil => rfl
  | cons q rest =>
    simp only [joinComma]
    rw [List.head?_append_of_ne_nil _ ht]

theorem joinComma_getLast? :
    ∀ (texts : List (List Char)) (hne : texts ≠ []), texts.getLast hne ≠ [] →
      (joinComma texts).getLast? = (texts.getLast hne).getLast? := by
  intro texts
  induction texts with
  | nil => intro h; exact absurd rfl h
  | cons t rest ih =>
    intro hne hl
    cases rest with
    | nil => rfl
    | cons q rest =>
      simp only [joinComma]
      have hl' : (q :: rest).getLast (by simp) ≠ [] := by
        simpa [List.getLast_cons] using hl
      have hq := ih (by simp) hl'
      have hjne : joinComma (q :: rest) ≠ [] := by
        intro h0
        rw [h0] at hq
        simp only [List.getLast?_nil] at hq
        have := List.getLast?_eq_getLast _ hl'
        rw [this] at hq
        cases hq
      rw [List.getLast?_append_of_ne_nil _ (by simp)]
      obtain ⟨x, xs, hx⟩ := List.exists_cons_of_ne_nil hjne
      rw [hx, List.getLast?_cons_cons, ← hx, hq]
      simp [List.getLast_cons]

/-! ## The recursion bound given by `ParseUnstructured` is never used up -/

theorem trimLeftLoop_ne_outOfFuel (chars : List Char) :
    ∀ n i, trimLeftLoop chars n i ≠ .outOfFuel := by
  intro n
  induction n with
  | zero => intro i h; cases h
  | succ n ih =>
    intro i
    rw [trimLeftLoop]
    cases chars[i]? with
    | none => exact (fun h => by cases h)
    | some c =>
      simp only []
      split
      · exact ih _
      · exact (fun h => by cases h)

theorem trimRightLoop_ne_outOfFuel (chars : List Char) :
    ∀ n i, trimRightLoop chars n i ≠ .outOfFuel := by
  intro n
  induction n with
  | zero => intro i h; cases h
  | succ n ih =>
    intro i
    rw [trimRightLoop]
    split
    · exact (fun h => by cases h)
    · cases chars[i.toNat]? with
      | none => exact (fun h => by cases h)
      | some c =>
        simp only []
        split
        · exact ih _
        · exact (fun h => by cases h)

theorem slice_length_le (chars : List Char) (lo hi : Nat) :
    (slice chars lo hi).length ≤ chars.length := by
  unfold slice
  simp only [List.length_drop, List.length_take]
  omega

/-- The source `trimFragmentChars` returns a slice that is not longer than
its input, or panics. -/
theorem trimFragmentChars_length (chars : List Char) :
    trimFragmentChars chars ≠ .outOfFuel ∧
      ∀ t, trimFragmentChars chars = .ret t → t.length ≤ chars.length := by
  unfold trimFragmentChars
  simp only []
  by_cases hl : chars.length = 0
  · simp only [hl, if_true]
    refine ⟨(fun h => by cases h), ?_⟩
    intro t ht
    cases ht
    omega
  · simp only [hl, if_false]
    cases h1 : trimLeftLoop chars chars.length 0 with
    | panic m => exact ⟨(fun h => by cases h), (fun t ht => by cases ht)⟩
    | outOfFuel => exact absurd h1 (trimLeftLoop_ne_outOfFuel chars _ _)
    | ret left =>
      simp only []
      cases h2 : trimRightLoop chars ((chars.length : Int) - left).toNat
          ((chars.length : Int) - 1) with
      | panic m => exact ⟨(fun h => by cases h), (fun t ht => by cases ht)⟩
      | outOfFuel => exact absurd h2 (trimRightLoop_ne_outOfFuel chars _ _)
      | ret right =>
        simp only []
        split
        · refine ⟨(fun h => by cases h), ?_⟩
          intro t ht
          cases ht
          exact slice_length_le _ _ _
        · exact ⟨(fun h => by cases h), (fun t ht => by cases ht)⟩

/-- The comma scan returns, and no returned part is longer than the runes
it was given. -/
theorem commaScan_length (whole : List Char) (N : Nat) :
    ∀ (rest : List Char) (i : Nat) (parts : List (List Char)) (cur : List Char) (d : Nat),
      (∀ p ∈ parts, p.length ≤ N) → cur.length + rest.length ≤ N →
      ∃ out err, commaScan whole rest i parts cur d = .ret (out, err) ∧
        ∀ p ∈ out, p.length ≤ N := by
  intro rest
  induction rest with
  | nil =>
    intro i parts cur d hparts _
    rw [commaScan]
    split
    · exact ⟨parts, _, rfl, hparts⟩
    · exact ⟨parts, _, rfl, hparts⟩
  | cons c r ih =>
    intro i parts cur d hparts hlen
    simp only [List.length_cons] at hlen
    rw [commaScan]
    by_cases herr : c = rightBrace ∧ d = 0
    · rw [if_pos herr]
      exact ⟨parts, _, rfl, hparts⟩
    · rw [if_neg herr]
      simp only []
      generalize (if c = leftBrace then d + 1 else if c = rightBrace then d - 1 else d) = d2
      have hsnoc : ∀ p ∈ parts ++ [cur ++ [c]], p.length ≤ N := by
        intro p hp
        rcases List.mem_append.mp hp with hp | hp
        · exact hparts p hp
        · rw [List.mem_singleton.mp hp]
          simp only [List.length_append, List.length_singleton]; omega
      by_cases hlast : r = []
      · rw [if_pos hlast]
        exact ih _ _ _ _ hsnoc (by subst hlast; simp; omega)
      · rw [if_neg hlast]
        by_cases hcm : d2 = 0 ∧ c = comma
        · rw [if_pos hcm]
          apply ih _ _ _ _ _ (by simp; omega)
          intro p hp
          split at hp
          · rcases List.mem_append.mp hp with hp | hp
            · exact hparts p hp
            · rw [List.mem_singleton.mp hp]; omega
          · exact hparts p hp
        · rw [if_neg hcm]
          exact ih _ _ _ _ hparts (by simp only [List.length_append, List.length_singleton]; omega)

/-- Sum of the lengths of the parts. -/
theorem sum_length_append (parts : List (List Char)) (p : List Char) :
    ((parts ++ [p]).map List.length).sum = (parts.map List.length).sum + p.length := by
  simp

/-- The brace scan returns, the returned parts are not empty, and together
they are not longer than the runes it was given. -/
theorem braceScan_length (whole : List Char) (N : Nat) :
    ∀ (rest : List Char) (i : Nat) (parts : List (List Char)) (cur : List Char) (d : Nat),
      (∀ p ∈ parts, p ≠ []) →
      (parts.map List.length).sum + cur.length + rest.length ≤ N →
      ∃ out err, braceScan whole rest i parts cur d = .ret (out, err) ∧
        (∀ p ∈ out, p ≠ []) ∧ (out.map List.length).sum ≤ N := by
  intro rest
  induction rest with
  | nil =>
    intro i parts cur d hparts hlen
    rw [braceScan]
    split
    · exact ⟨parts, _, rfl, hparts, by omega⟩
    · exact ⟨parts, _, rfl, hparts, by omega⟩
  | cons c r ih =>
    intro i parts cur d hparts hlen
    simp only [List.length_cons] at hlen
    have hsnoc : ∀ p ∈ parts ++ [cur ++ [c]], p ≠ [] := by
      intro p hp
      rcases List.mem_append.mp hp with hp | hp
      · exact hparts p hp
      · rw [List.mem_singleton.mp hp]; simp
    have hflush : (∀ p ∈ (if cur.length ≠ 0 then parts ++ [cur] else parts), p ≠ []) ∧
        ((if cur.length ≠ 0 then parts ++ [cur] else parts).map List.length).sum
          = (parts.map List.length).sum + cur.length := by
      by_cases hc : cur.length ≠ 0
      · rw [if_pos hc]
        refine ⟨?_, sum_length_append parts cur⟩
        intro p hp
        rcases List.mem_append.mp hp with hp | hp
        · exact hparts p hp
        · rw [List.mem_singleton.mp hp]
          intro h0; apply hc; rw [h0]; rfl
      · rw [if_neg hc]
        exact ⟨hparts, by omega⟩
    rw [braceScan]
    by_cases hl : c = leftBrace
    · rw [if_pos hl]
      by_cases hd : d = 0
      · rw [if_pos hd]
        exact ih _ _ _ _ hflush.1 (by rw [hflush.2]; simp only [List.length_singleton]; omega)
      · rw [if_neg hd]
        exact ih _ _ _ _ hparts (by simp only [List.length_append, List.length_singleton]; omega)
    · rw [if_neg hl]
      by_cases hr : c = rightBrace
      · rw [if_pos hr]
        by_cases hd : d = 0
        · rw [if_pos hd]
          exact ⟨parts, _, rfl, hparts, by omega⟩
        · rw [if_neg hd]
          by_cases hd1 : d - 1 = 0
          · rw [if_pos hd1]
            exact ih _ _ _ _ hsnoc (by
              rw [sum_length_append]
              simp only [List.length_append, List.length_singleton, List.length_nil]; omega)
          · rw [if_neg hd1]
            exact ih _ _ _ _ hparts
              (by simp only [List.length_append, List.length_singleton]; omega)
      · rw [if_neg hr]
        by_cases hlast : r = []
        · rw [if_pos hlast]
          subst hlast
          rw [braceScan]
          have hsum : ((parts ++ [cur ++ [c]]).map List.length).sum ≤ N := by
            rw [sum_length_append]
            simp only [List.length_append, List.length_singleton, List.length_nil] at hlen ⊢
            omega
          split
          · exact ⟨_, _, rfl, hsnoc, hsum⟩
          · exact ⟨_, _, rfl, hsnoc, hsum⟩
        · rw [if_neg hlast]
          exact ih _ _ _ _ hparts (by simp only [List.length_append, List.length_singleton]; omega)

/-- The loop of `parseString` does not use up the recursion bound when the
nested parser does not on shorter inputs. -/
theorem parseFieldParts_ne_outOfFuel (f : List Char → Run (Unstructured × Option String))
    (N : Nat) (hf : ∀ y : List Char, y.length < N → f y ≠ .outOfFuel) :
    ∀ (parts : List (List Char)) (fragment : Unstructured),
      (∀ p ∈ parts, p.length ≤ N) → parseFieldParts f parts fragment ≠ .outOfFuel := by
  intro parts
  induction parts with
  | nil => intro fragment _ h; simp [parseFieldParts] at h
  | cons p parts ih =>
    intro fragment hparts
    have hrest : ∀ q ∈ parts, q.length ≤ N := fun q hq => hparts q (List.mem_cons_of_mem _ hq)
    have hp := hparts p (List.mem_cons_self _ _)
    rw [parseFieldParts]
    obtain ⟨hto, htl⟩ := trimFragmentChars_length p
    cases ht : trimFragmentChars p with
    | panic m => exact (fun h => by cases h)
    | outOfFuel => exact absurd ht hto
    | ret tp =>
      have htp := htl tp ht
      simp only []
      obtain ⟨pieces, err, hs, hne, hsum⟩ := braceScan_length tp tp.length tp 0 [] [] 0
        (by simp) (by simp)
      rw [splitFragment_eq, hs]
      cases err with
      | some e => exact (fun h => by cases h)
      | none =>
        simp only []
        by_cases h2 : pieces.length > 2
        · simp only [h2, if_true]; exact (fun h => by cases h)
        · simp only [h2, if_false]
          cases h0 : pieces[0]? with
          | none => exact (fun h => by cases h)
          | some part0 =>
            simp only []
            obtain ⟨hto0, _⟩ := trimFragmentChars_length part0
            cases hn : trimFragmentChars part0 with
            | panic m => exact (fun h => by cases h)
            | outOfFuel => exact absurd hn hto0
            | ret fieldName =>
              simp only []
              by_cases h1 : pieces.length = 1
              · simp only [h1, if_true]
                exact ih _ hrest
              · simp only [h1, if_false]
                by_cases h22 : pieces.length = 2
                · simp only [h22, if_true]
                  have hshort : (pieces.getD 1 []).length < N := by
                    match pieces, h22, hne, hsum with
                    | [a, b], _, hne, hsum =>
                      have ha : a ≠ [] := hne a (by simp)
                      have hal := List.length_pos.mpr ha
                      simp only [List.map_cons, List.map_nil, List.sum_cons, List.sum_nil,
                        Nat.add_zero] at hsum
                      simp only [List.getD_cons_succ, List.getD_cons_zero]
                      omega
                  cases hfy : f (pieces.getD 1 []) with
                  | panic m => exact (fun h => by cases h)
                  | outOfFuel => exact absurd hfy (hf _ hshort)
                  | ret res2 =>
                    obtain ⟨fieldFragment, err2⟩ := res2
                    cases err2 with
                    | some e => exact (fun h => by cases h)
                    | none =>
                      simp only []
                      by_cases hd : fieldFragment.fields.isSome = true
                      · simp only [hd, if_true]
                        cases hset : fragment.Set (String.mk fieldName) (some fieldFragment) with
                        | panic m => exact (fun h => by cases h)
                        | outOfFuel => simp [Unstructured.Set] at hset
                        | ret fr => exact ih _ hrest
                      · simp only [hd, if_false, Bool.false_eq_true]
                        exact ih _ hrest
                · simp only [h22, if_false]
                  exact (fun h => by cases h)

/-- The source `parseString` returns or panics under every recursion bound
above the length of its input. -/
theorem parseString_ne_outOfFuel :
    ∀ (n : Nat) (chars : List Char), chars.length < n → parseString n chars ≠ .outOfFuel := by
  intro n
  induction n with
  | zero => intro chars h; omega
  | succ n ih =>
    intro chars hlen
    have key : ∀ body : List Char, body.length ≤ n → parseBody n body ≠ .outOfFuel := by
      intro body hb
      unfold parseBody
      by_cases hl : body.length = 0
      · simp only [hl, if_true]; exact (fun h => by cases h)
      · simp only [hl, if_false]
        obtain ⟨parts, err, hs, hparts⟩ := commaScan_length body body.length body 0 [] [] 0
          (by simp) (by simp)
        rw [splitFragmentByComma_eq, hs]
        cases err with
        | some e => exact (fun h => by cases h)
        | none =>
          simp only []
          apply parseFieldParts_ne_outOfFuel (parseString n) n _ parts
          · intro p hp; exact le_trans (hparts p hp) hb
          · intro y hy; exact ih y hy
    cases hw : isWrapped chars with
    | true =>
      obtain ⟨body, rfl⟩ := (isWrapped_iff chars).mp hw
      rw [parseString_wrapped]
      split
      · exact (fun h => by cases h)
      · apply key
        simp only [List.length_cons, List.length_append, List.length_singleton] at hlen
        omega
    | false =>
      rw [parseString_plain _ _ hw]
      exact key chars (by omega)

/-- The embedding of `ParseUnstructured` always answers with what the Go
function does: it returns a tree and possibly an error, or it panics. -/
theorem ParseUnstructured_ne_outOfFuel (expr : String) :
    ParseUnstructured expr ≠ .outOfFuel := by
  unfold ParseUnstructured
  obtain ⟨hto, _⟩ := trimFragmentChars_length expr.toList
  cases ht : trimFragmentChars expr.toList with
  | panic m => exact (fun h => by cases h)
  | outOfFuel => exact absurd ht hto
  | ret chars => exact parseString_ne_outOfFuel _ chars (by omega)

/-! ## Lemmas about `Has`, `Remove`, `pick` and `omit` -/

/-- The source `Has` answers true on the undefined tree, whatever it is
asked. -/
theorem Has_undefined (typeName : Value → String) (fuel : Nat) (v : List Value) :
    Unstructured.Has typeName (fuel + 1) (.mk none) v = .ret true := by
  simp [Unstructured.Has, ParseUnstructuredValue, Unstructured.fields]

/-- The source `Has` answers false on every defined tree: the parse of the
variadic slice fails. -/
theorem Has_defined (typeName : Value → String) (fuel : Nat) (m : FieldMap) (v : List Value) :
    Unstructured.Has typeName (fuel + 1) (.mk (some m)) v = .ret false := by
  simp [Unstructured.Has, ParseUnstructuredValue, Unstructured.fields]

theorem mapLookup_isNone_iff (m : FieldMap) (k : String) :
    (mapLookup m k).isNone = true ↔ k ∉ m.map Prod.fst := by
  rw [← mapLookup_isSome_iff]
  cases mapLookup m k <;> simp

theorem mapDelete_of_not_mem (m : FieldMap) (k : String) (h : k ∉ m.map Prod.fst) :
    mapDelete m k = m := by
  unfold mapDelete
  apply List.filter_eq_self.mpr
  intro e he
  simp only [decide_eq_true_eq]
  intro hek
  exact h (List.mem_map.mpr ⟨e, he, hek⟩)

theorem removeStep_eq (acc : FieldMap) (n : String) :
    (if (Unstructured.mk (some acc)).HasByName n then mapDelete acc n else acc)
      = mapDelete acc n := by
  by_cases h : (Unstructured.mk (some acc)).HasByName n = true
  · rw [if_pos h]
  · rw [if_neg h]
    simp only [Unstructured.HasByName, Unstructured.fields] at h
    exact (mapDelete_of_not_mem acc n (fun hm => h ((mapLookup_isSome_iff acc n).mpr hm))).symm

theorem removeFold_eq (names : List String) :
    ∀ acc : FieldMap,
      names.foldl (fun acc field =>
        if (Unstructured.mk (some acc)).HasByName field then mapDelete acc field else acc) acc
        = acc.filter (fun e => decide (e.1 ∉ names)) := by
  induction names with
  | nil => intro acc; simp
  | cons n names ih =>
    intro acc
    rw [List.foldl_cons, removeStep_eq, ih]
    unfold mapDelete
    rw [List.filter_filter]
    congr 1
    funext e
    simp only [List.mem_cons, not_or, ne_eq, Bool.decide_and, Bool.and_comm]

/-- Closed form of the source `Remove` on a non-empty list of names: the
entries of the copy whose key is not among the names. -/
theorem Remove_eq (f : Unstructured) (names : List String) (hne : names ≠ []) :
    f.Remove names = .mk (some ((f.definedCopy.fields.getD []).filter
      (fun e => decide (e.1 ∉ names)))) := by
  have hl : names.length ≠ 0 := by
    have := List.length_pos.mpr hne; omega
  unfold Unstructured.Remove
  rw [if_neg hl]
  simp only []
  have hdef : ∃ m, f.definedCopy = .mk (some m) := by
    cases f with
    | mk fs => cases fs <;> exact ⟨_, rfl⟩
  obtain ⟨m, hm⟩ := hdef
  rw [hm]
  simp only [Unstructured.fieldsLen, Unstructured.fields, Option.getD_some]
  by_cases h0 : m.length = 0
  · rw [if_pos h0]
    have : m = [] := List.length_eq_zero.mp h0
    subst this
    rfl
  · rw [if_neg h0, removeFold_eq]

theorem mapLookup_filter_key (m : FieldMap) (q : String → Bool) (k : String) :
    mapLookup (m.filter (fun e => q e.1)) k = if q k then mapLookup m k else none := by
  induction m with
  | nil => simp [mapLookup]
  | cons e m ih =>
    obtain ⟨k', c⟩ := e
    by_cases hq : q k' = true
    · simp only [List.filter_cons, hq, if_true, mapLookup]
      by_cases hk : k' = k
      · subst hk; simp [hq]
      · simp only [if_neg hk, ih]
    · simp only [Bool.not_eq_true] at hq
      simp only [List.filter_cons, hq, Bool.false_eq_true, if_false, mapLookup, ih]
      by_cases hk : k' = k
      · subst hk; simp [hq]
      · simp only [if_neg hk]

theorem keysOf_filter_all (m : FieldMap) :
    (m.filter (fun e => decide (e.1 ∉ m.map Prod.fst))) = [] := by
  apply List.filter_eq_nil_iff.mpr
  intro e he
  simp only [decide_eq_true_eq, not_not]
  exact List.mem_map.mpr ⟨e, he, rfl⟩

/-! ### Trees that stand for Go values -/

theorem validEntries_tail (e : String × Option Unstructured) (rest : FieldMap)
    (h : Unstructured.validEntries (e :: rest) = true) :
    Unstructured.validEntries rest = true := by
  obtain ⟨k, c⟩ := e
  cases c with
  | none =>
    simp only [Unstructured.validEntries, Bool.and_eq_true] at h
    exact h.2
  | some u =>
    simp only [Unstructured.validEntries, Bool.and_eq_true] at h
    exact h.2

theorem validEntries_head (e : String × Option Unstructured) (rest : FieldMap)
    (h : Unstructured.validEntries (e :: rest) = true) :
    e.1 ∉ rest.map Prod.fst := by
  obtain ⟨k, c⟩ := e
  rw [← mapLookup_isNone_iff]
  cases c with
  | none =>
    simp only [Unstructured.validEntries, Bool.and_eq_true] at h
    exact h.1
  | some u =>
    simp only [Unstructured.validEntries, Bool.and_eq_true] at h
    exact h.1.1

theorem validEntries_child (k : String) (u : Unstructured) (rest : FieldMap)
    (h : Unstructured.validEntries ((k, some u) :: rest) = true) : u.valid = true := by
  simp only [Unstructured.validEntries, Bool.and_eq_true] at h
  exact h.1.2

/-- The keys of valid entries are pairwise different. -/
theorem validEntries_nodup (m : FieldMap) (h : Unstructured.validEntries m = true) :
    (m.map Prod.fst).Nodup := by
  induction m with
  | nil => simp
  | cons e m ih =>
    rw [List.map_cons, List.nodup_cons]
    exact ⟨validEntries_head e m h, ih (validEntries_tail e m h)⟩

theorem valid_keysOf_nodup (f : Unstructured) (h : f.valid = true) : (keysOf f).Nodup := by
  cases f with
  | mk fs =>
    cases fs with
    | none => simp [keysOf, Unstructured.fields]
    | some m =>
      simp only [Unstructured.valid] at h
      simpa [keysOf, Unstructured.fields] using validEntries_nodup m h

/-- In valid entries every entry is the one found under its key. -/
theorem mapLookup_of_mem (m : FieldMap) (h : (m.map Prod.fst).Nodup) :
    ∀ e ∈ m, mapLookup m e.1 = some e.2 := by
  induction m with
  | nil => intro e he; cases he
  | cons a m ih =>
    intro e he
    obtain ⟨k, c⟩ := a
    rw [List.map_cons, List.nodup_cons] at h
    rcases List.mem_cons.mp he with rfl | he
    · simp [mapLookup]
    · have hk : ¬ k = e.1 := by
        intro hk
        exact h.1 (hk ▸ List.mem_map.mpr ⟨e, he, rfl⟩)
      simp only [mapLookup, if_neg hk]
      exact ih h.2 e he

theorem validEntries_of_children (m : FieldMap) (h : Unstructured.validEntries m = true) :
    ∀ k u, (k, some u) ∈ m → u.valid = true := by
  induction m with
  | nil => intro k u hm; cases hm
  | cons a m ih =>
    intro k u hm
    rcases List.mem_cons.mp hm with rfl | hm
    · exact validEntries_child k u m h
    · exact ih (validEntries_tail a m h) k u hm

/-- Entries with pairwise different keys and valid children are valid. -/
theorem validEntries_of_nodup (m : FieldMap) (hn : (m.map Prod.fst).Nodup)
    (hc : ∀ k u, (k, some u) ∈ m → u.valid = true) : Unstructured.validEntries m = true := by
  induction m with
  | nil => rfl
  | cons a m ih =>
    obtain ⟨k, c⟩ := a
    rw [List.map_cons, List.nodup_cons] at hn
    have hrest := ih hn.2 (fun k' u' h' => hc k' u' (List.mem_cons_of_mem _ h'))
    have hk : (mapLookup m k).isNone = true := (mapLookup_isNone_iff m k).mpr hn.1
    cases c with
    | none => simp [Unstructured.validEntries, hk, hrest]
    | some u =>
      have hu := hc k u (List.mem_cons_self _ _)
      simp [Unstructured.validEntries, hk, hrest, hu]

mutual
/-- A valid tree is structurally equal to itself. -/
theorem structEq_refl : ∀ (u : Unstructured), u.valid = true → structEq u u = true
  | .mk none, _ => rfl
  | .mk (some m), h => by
    simp only [Unstructured.valid] at h
    simp only [structEq, beq_self_eq_true, Bool.true_and]
    exact structEqEntries_refl m m h (mapLookup_of_mem m (validEntries_nodup m h))
/-- Valid entries that are all found in a map are structurally included in
it. -/
theorem structEqEntries_refl : ∀ (l : List (String × Option Unstructured)) (m : FieldMap),
    Unstructured.validEntries l = true → (∀ e ∈ l, mapLookup m e.1 = some e.2) →
    structEqEntries l m = true
  | [], _, _, _ => rfl
  | (k, none) :: rest, m, hv, hl => by
    have h1 := hl (k, none) (List.mem_cons_self _ _)
    simp only at h1
    simp only [structEqEntries, h1, childUndefined, Bool.true_and]
    exact structEqEntries_refl rest m (validEntries_tail _ _ hv)
      (fun e he => hl e (List.mem_cons_of_mem _ he))
  | (k, some u) :: rest, m, hv, hl => by
    have h1 := hl (k, some u) (List.mem_cons_self _ _)
    simp only at h1
    simp only [structEqEntries, h1, Bool.and_eq_true]
    exact ⟨structEq_refl u (validEntries_child k u rest hv),
      structEqEntries_refl rest m (validEntries_tail _ _ hv)
        (fun e he => hl e (List.mem_cons_of_mem _ he))⟩
end

/-! ### `Add` -/

theorem mapLookup_append_of_mem (m : FieldMap) (e : String × Option Unstructured) (k : String)
    (c : Option Unstructured) (h : mapLookup m k = some c) :
    mapLookup (m ++ [e]) k = some c := by
  induction m with
  | nil => simp [mapLookup] at h
  | cons a m ih =>
    obtain ⟨k', w⟩ := a
    simp only [List.cons_append, mapLookup] at h ⊢
    by_cases hk : k' = k
    · simpa [hk] using h
    · simp only [if_neg hk] at h ⊢
      exact ih h

theorem mapLookup_append_of_not_mem (m : FieldMap) (k : String) (v : Option Unstructured)
    (h : k ∉ m.map Prod.fst) : mapLookup (m ++ [(k, v)]) k = some v := by
  induction m with
  | nil => simp [mapLookup]
  | cons a m ih =>
    obtain ⟨k', w⟩ := a
    simp only [List.map_cons, List.mem_cons, not_or] at h
    have hk : ¬ k' = k := fun hh => h.1 hh.symm
    simp only [List.cons_append, mapLookup, if_neg hk]
    exact ih h.2

theorem addStep_of_mem (acc : FieldMap) (n : String) (h : n ∈ acc.map Prod.fst) :
    addStep acc n = acc := by
  unfold addStep
  rw [if_pos]
  simp only [Unstructured.HasByName, Unstructured.fields]
  exact (mapLookup_isSome_iff acc n).mpr h

theorem addStep_of_not_mem (acc : FieldMap) (n : String) (h : n ∉ acc.map Prod.fst) :
    addStep acc n = acc ++ [(n, none)] := by
  unfold addStep
  rw [if_neg, mapSet_of_not_mem acc n none h]
  simp only [Unstructured.HasByName, Unstructured.fields]
  exact fun hh => h ((mapLookup_isSome_iff acc n).mp hh)

theorem addStep_lookup_old (acc : FieldMap) (n k : String) (c : Option Unstructured)
    (h : mapLookup acc k = some c) : mapLookup (addStep acc n) k = some c := by
  by_cases hn : n ∈ acc.map Prod.fst
  · rw [addStep_of_mem acc n hn]; exact h
  · rw [addStep_of_not_mem acc n hn]; exact mapLookup_append_of_mem acc _ k c h

theorem addStep_has (acc : FieldMap) (n : String) : n ∈ (addStep acc n).map Prod.fst := by
  by_cases hn : n ∈ acc.map Prod.fst
  · rw [addStep_of_mem acc n hn]; exact hn
  · rw [addStep_of_not_mem acc n hn]; simp

theorem addFold_lookup_old (names : List String) :
    ∀ (acc : FieldMap) (k : String) (c : Option Unstructured), mapLookup acc k = some c →
      mapLookup (names.foldl addStep acc) k = some c := by
  induction names with
  | nil => intro acc k c h; exact h
  | cons n names ih =>
    intro acc k c h
    exact ih _ k c (addStep_lookup_old acc n k c h)

theorem addFold_lookup_new (names : List String) :
    ∀ (acc : FieldMap) (n : String), n ∈ names → n ∉ acc.map Prod.fst →
      mapLookup (names.foldl addStep acc) n = some none := by
  induction names with
  | nil => intro acc n h; cases h
  | cons x names ih =>
    intro acc n hn hacc
    rw [List.foldl_cons]
    by_cases hx : n = x
    · subst hx
      apply addFold_lookup_old
      rw [addStep_of_not_mem acc n hacc]
      exact mapLookup_append_of_not_mem acc n none hacc
    · have hn' : n ∈ names := by
        rcases List.mem_cons.mp hn with h | h
        · exact absurd h hx
        · exact h
      apply ih _ n hn'
      by_cases hxa : x ∈ acc.map Prod.fst
      · rw [addStep_of_mem acc x hxa]; exact hacc
      · rw [addStep_of_not_mem acc x hxa]
        simp only [List.map_append, List.map_cons, List.map_nil, List.mem_append,
          List.mem_singleton, not_or]
        exact ⟨hacc, hx⟩

theorem addFold_has (names : List String) :
    ∀ (acc : FieldMap) (n : String), n ∈ names ∨ n ∈ acc.map Prod.fst →
      n ∈ (names.foldl addStep acc).map Prod.fst := by
  induction names with
  | nil =>
    intro acc n h
    rcases h with h | h
    · cases h
    · exact h
  | cons x names ih =>
    intro acc n h
    rw [List.foldl_cons]
    apply ih
    rcases h with h | h
    · rcases List.mem_cons.mp h with rfl | h
      · exact Or.inr (addStep_has acc n)
      · exact Or.inl h
    · right
      obtain ⟨c, hc⟩ := Option.isSome_iff_exists.mp ((mapLookup_isSome_iff acc n).mpr h)
      exact (mapLookup_isSome_iff _ n).mp (by rw [addStep_lookup_old acc x n c hc]; rfl)

theorem addFold_of_all_mem (names : List String) :
    ∀ (acc : FieldMap), (∀ n ∈ names, n ∈ acc.map Prod.fst) → names.foldl addStep acc = acc := by
  induction names with
  | nil => intro acc _; rfl
  | cons x names ih =>
    intro acc h
    rw [List.foldl_cons, addStep_of_mem acc x (h x (List.mem_cons_self _ _))]
    exact ih acc (fun n hn => h n (List.mem_cons_of_mem _ hn))

theorem addStep_valid (acc : FieldMap) (n : String)
    (h : Unstructured.validEntries acc = true) :
    Unstructured.validEntries (addStep acc n) = true := by
  by_cases hn : n ∈ acc.map Prod.fst
  · rw [addStep_of_mem acc n hn]; exact h
  · rw [addStep_of_not_mem acc n hn]
    apply validEntries_of_nodup
    · rw [List.map_append]
      apply List.nodup_append.mpr
      refine ⟨validEntries_nodup acc h, by simp, ?_⟩
      intro a ha hb
      simp only [List.map_cons, List.map_nil, List.mem_singleton] at hb
      exact hn (hb ▸ ha)
    · intro k u hm
      rcases List.mem_append.mp hm with hm | hm
      · exact validEntries_of_children acc h k u hm
      · simp at hm

theorem addFold_valid (names : List String) :
    ∀ (acc : FieldMap), Unstructured.validEntries acc = true →
      Unstructured.validEntries (names.foldl addStep acc) = true := by
  induction names with
  | nil => intro acc h; exact h
  | cons x names ih => intro acc h; exact ih _ (addStep_valid acc x h)

theorem mapSet_none_fold_eq (names : List String) :
    ∀ (acc : FieldMap), (∀ e ∈ acc, e.2 = none) →
      names.foldl (fun acc field => mapSet acc field none) acc = names.foldl addStep acc := by
  induction names with
  | nil => intro acc _; rfl
  | cons x names ih =>
    intro acc h
    rw [List.foldl_cons, List.foldl_cons]
    have hstep : mapSet acc x none = addStep acc x := by
      by_cases hx : x ∈ acc.map Prod.fst
      · rw [addStep_of_mem acc x hx]
        clear ih
        induction acc with
        | nil => simp at hx
        | cons a acc iha =>
          obtain ⟨k, w⟩ := a
          have hw : w = none := h (k, w) (List.mem_cons_self _ _)
          subst hw
          by_cases hk : k = x
          · simp [mapSet, hk]
          · simp only [mapSet, if_neg hk, List.cons.injEq, true_and]
            apply iha (fun e he => h e (List.mem_cons_of_mem _ he))
            simp only [List.map_cons, List.mem_cons] at hx
            rcases hx with hx | hx
            · exact absurd hx.symm hk
            · exact hx
      · rw [addStep_of_not_mem acc x hx, mapSet_of_not_mem acc x none hx]
    rw [hstep]
    apply ih
    intro e he
    by_cases hx : x ∈ acc.map Prod.fst
    · rw [addStep_of_mem acc x hx] at he; exact h e he
    · rw [addStep_of_not_mem acc x hx] at he
      rcases List.mem_append.mp he with he | he
      · exact h e he
      · rw [List.mem_singleton.mp he]

/-- Closed form of the source `Add` on a valid tree: the names are added to
the entries one after another, each that is not yet a key with a nil
child. -/
theorem Add_eq (f : Unstructured) (names : List String) (h : f.valid = true) :
    f.Add names = .mk (some (names.foldl addStep (f.fields.getD []))) := by
  cases f with
  | mk fs =>
    cases fs with
    | none =>
      simp only [Unstructured.Add, Unstructured.definedCopy, Unstructured.fields,
        Unstructured.fieldsLen, List.length_nil, if_true, Option.getD_none]
      rw [mapSet_none_fold_eq names [] (by simp)]
    | some m =>
      simp only [Unstructured.valid] at h
      unfold Unstructured.Add
      rw [definedCopy_of_nodup m (validEntries_nodup m h)]
      simp only [Unstructured.fieldsLen, Unstructured.fields, Option.getD_some]
      by_cases hm : m.length = 0
      · have : m = [] := List.length_eq_zero.mp hm
        subst this
        simp only [List.length_nil, if_true]
        rw [mapSet_none_fold_eq names [] (by simp)]
      · rw [if_neg hm]
        rfl

theorem Add_valid (f : Unstructured) (names : List String) (h : f.valid = true) :
    (f.Add names).valid = true := by
  rw [Add_eq f names h]
  simp only [Unstructured.valid]
  apply addFold_valid
  cases f with
  | mk fs =>
    cases fs with
    | none => rfl
    | some m => simpa [Unstructured.valid, Unstructured.fields] using h

/-! ### `Remove` on valid trees -/

theorem definedCopy_of_valid (f : Unstructured) (h : f.valid = true) :
    f.definedCopy = .mk (some (f.fields.getD [])) := by
  cases f with
  | mk fs =>
    cases fs with
    | none => rfl
    | some m =>
      simp only [Unstructured.valid] at h
      rw [definedCopy_of_nodup m (validEntries_nodup m h)]
      rfl

/-- Closed form of the source `Remove` on a valid tree and a non-empty list
of names. -/
theorem Remove_eq_of_valid (f : Unstructured) (names : List String) (hne : names ≠ [])
    (h : f.valid = true) :
    f.Remove names = .mk (some ((f.fields.getD []).filter (fun e => decide (e.1 ∉ names)))) := by
  rw [Remove_eq f names hne, definedCopy_of_valid f h]
  rfl

/-- Removing all its keys from a tree leaves no key. -/
theorem keysOf_Remove_all (f : Unstructured) (h : f.valid = true) :
    keysOf (f.Remove (keysOf f)) = [] := by
  by_cases hk : keysOf f = []
  · rw [hk]
    simp only [Unstructured.Remove, List.length_nil, if_true]
    exact hk
  · rw [Remove_eq_of_valid f _ hk h]
    cases f with
    | mk fs =>
      cases fs with
      | none => simp [keysOf, Unstructured.fields] at hk
      | some m =>
        simp only [keysOf, Unstructured.fields, Option.getD_some]
        rw [keysOf_filter_all m]
        rfl

/-! ### `pick` and `omit` -/

/-- When `Has` answers false for every name, the loop of `pick` puts every
field of the query on the list `remove` and leaves `pf` as it is. -/
theorem pickLoop_of_has_false (hasRec : Unstructured → List Value → Run Bool)
    (pickvRec : Unstructured → List Value → Run Unstructured) (f : Unstructured)
    (hhas : ∀ v, hasRec f v = .ret false) :
    ∀ (m : FieldMap) (pf : Unstructured) (remove : List String),
      Unstructured.pickLoop hasRec pickvRec f m pf remove
        = .ret (pf, remove ++ m.map Prod.fst) := by
  intro m
  induction m with
  | nil => intro pf remove; simp [Unstructured.pickLoop]
  | cons e m ih =>
    intro pf remove
    obtain ⟨k, c⟩ := e
    rw [Unstructured.pickLoop, hhas]
    simp only []
    rw [ih]
    simp

/-- On a defined receiver the source `pick` returns the query with all its
keys removed. -/
theorem pick_defined (typeName : Value → String) (fuel : Nat) (m : FieldMap)
    (pf : Unstructured) :
    Unstructured.pick typeName (fuel + 1) (.mk (some m)) pf = .ret (pf.Remove (keysOf pf)) := by
  rw [Unstructured.pick]
  rw [pickLoop_of_has_false _ _ _ (fun v => Has_defined typeName fuel m v)]
  simp only [List.nil_append]
  cases pf with
  | mk fs => cases fs <;> rfl

/-- When `Has` answers true and no child of the query is defined, the loop
of `pick` changes nothing. -/
theorem pickLoop_flat_of_has_true (hasRec : Unstructured → List Value → Run Bool)
    (pickvRec : Unstructured → List Value → Run Unstructured) (f : Unstructured)
    (hhas : ∀ v, hasRec f v = .ret true) :
    ∀ (m : FieldMap) (pf : Unstructured) (remove : List String),
      (∀ e ∈ m, childUndefined e.2 = true) →
      Unstructured.pickLoop hasRec pickvRec f m pf remove = .ret (pf, remove) := by
  intro m
  induction m with
  | nil => intro pf remove _; simp [Unstructured.pickLoop]
  | cons e m ih =>
    intro pf remove hflat
    obtain ⟨k, c⟩ := e
    have hc : childUndefined c = true := hflat (k, c) (List.mem_cons_self _ _)
    rw [Unstructured.pickLoop, hhas]
    simp only [hc, if_true]
    exact ih pf remove (fun e he => hflat e (List.mem_cons_of_mem _ he))

/-- On the undefined receiver the source `pick` returns a query without
defined children as it is. -/
theorem pick_undefined_flat (typeName : Value → String) (fuel : Nat) (pf : Unstructured)
    (hflat : ∀ e ∈ pf.fields.getD [], childUndefined e.2 = true) :
    Unstructured.pick typeName (fuel + 1) (.mk none) pf = .ret pf := by
  rw [Unstructured.pick]
  rw [pickLoop_flat_of_has_true _ _ _ (fun v => Has_undefined typeName fuel v) _ _ _ hflat]
  simp [Unstructured.Remove]

/-- The source `omitv` always panics: the parse of the variadic slice
fails. -/
theorem omitvWith_panics (typeName : Value → String)
    (omitRec : Unstructured → Unstructured → Run Unstructured) (f : Unstructured)
    (v : List Value) :
    Unstructured.omitvWith typeName omitRec f v
      = .panic ("cannot parse fragment value with type " ++ typeName (.slice v)) := by
  simp [Unstructured.omitvWith, ParseUnstructuredValue]

/-- The source `pickv` and `Pick` always panic: the parse of the variadic
slice fails. -/
theorem pickvWith_panics (typeName : Value → String)
    (pickRec : Unstructured → Unstructured → Run Unstructured) (f : Unstructured)
    (v : List Value) :
    Unstructured.pickvWith typeName pickRec f v
      = .panic ("cannot parse fragment value with type " ++ typeName (.slice v)) := by
  simp [Unstructured.pickvWith, ParseUnstructuredValue]

/-- When no child of the query is defined, the loop of `omit` puts every
field of the query on the list `remove`. -/
theorem omitLoop_flat (omitvRec : Unstructured → List Value → Run Unstructured)
    (ofr : Unstructured) :
    ∀ (m : FieldMap) (f : Unstructured) (remove : List String),
      (∀ e ∈ m, childUndefined e.2 = true) →
      Unstructured.omitLoop omitvRec ofr m f remove = .ret (f, remove ++ m.map Prod.fst) := by
  intro m
  induction m with
  | nil => intro f remove _; simp [Unstructured.omitLoop]
  | cons e m ih =>
    intro f remove hflat
    obtain ⟨k, c⟩ := e
    have hc : childUndefined c = true := hflat (k, c) (List.mem_cons_self _ _)
    rw [Unstructured.omitLoop]
    simp only [hc, if_true]
    rw [ih f _ (fun e he => hflat e (List.mem_cons_of_mem _ he))]
    simp

/-- On a query with fields none of which has a defined child, the source
`omit` removes the keys of the query from the receiver. -/
theorem omit_flat (typeName : Value → String) (fuel : Nat) (f : Unstructured) (q : FieldMap)
    (hq : q ≠ []) (hflat : ∀ e ∈ q, childUndefined e.2 = true) :
    Unstructured.omitTree typeName (fuel + 1) f (.mk (some q))
      = .ret (f.Remove (q.map Prod.fst)) := by
  have hl : q.length ≠ 0 := by
    have := List.length_pos.mpr hq; omega
  rw [Unstructured.omitTree]
  simp only [Unstructured.IsUndefinedOrEmpty, Unstructured.IsUndefined, Unstructured.fields,
    Unstructured.fieldsLen, Option.isNone_some, Bool.false_or, beq_iff_eq, hl, if_false,
    Option.getD_some]
  rw [omitLoop_flat _ _ q f [] hflat]
  simp

/-- When the query is valid and one of its fields has a defined child, the
loop of `omit` panics at the first such field. -/
theorem omitLoop_nested_panics (typeName : Value → String)
    (omitRec : Unstructured → Unstructured → Run Unstructured) (q : FieldMap)
    (hq : (q.map Prod.fst).Nodup) :
    ∀ (m : FieldMap) (f : Unstructured) (remove : List String),
      (∀ e ∈ m, e ∈ q) → (∃ e ∈ m, childUndefined e.2 = false) →
      ∃ msg, Unstructured.omitLoop (Unstructured.omitvWith typeName omitRec) (.mk (some q)) m f
        remove = .panic msg := by
  intro m
  induction m with
  | nil => intro f remove _ h; obtain ⟨e, he, _⟩ := h; cases he
  | cons a m ih =>
    intro f remove hsub hex
    obtain ⟨k, c⟩ := a
    rw [Unstructured.omitLoop]
    by_cases hc : childUndefined c = true
    · simp only [hc, if_true]
      apply ih _ _ (fun e he => hsub e (List.mem_cons_of_mem _ he))
      obtain ⟨e, he, hce⟩ := hex
      rcases List.mem_cons.mp he with rfl | he
      · rw [hc] at hce; cases hce
      · exact ⟨e, he, hce⟩
    · have hfield : (Unstructured.mk (some q)).Field k = c := by
        have := mapLookup_of_mem q hq (k, c) (hsub _ (List.mem_cons_self _ _))
        simp only at this
        simp [Unstructured.Field, Unstructured.fields, this]
      simp only [hc, Bool.false_eq_true, if_false, hfield, omitvWith_panics]
      exact ⟨_, rfl⟩

/-! ### `Assign` -/

/-- The inner loop of `Assign` returns a defined tree when it starts from
one or has an entry to assign. -/
theorem assignFields_defined (assignRec : Unstructured → List Value → Run Unstructured) :
    ∀ (m : FieldMap) (f r : Unstructured),
      Unstructured.assignFields assignRec m f = .ret r →
      (f.IsUndefined = false ∨ m ≠ []) → r.IsUndefined = false := by
  intro m
  induction m with
  | nil =>
    intro f r h hd
    simp only [Unstructured.assignFields, Run.ret.injEq] at h
    rcases hd with hd | hd
    · rw [← h]; exact hd
    · exact absurd rfl hd
  | cons e m ih =>
    intro f r h _
    obtain ⟨k, c⟩ := e
    rw [Unstructured.assignFields] at h
    cases hf : f.fields with
    | none =>
      rw [hf] at h
      exact ih _ r h (Or.inl rfl)
    | some fm =>
      rw [hf] at h
      simp only [] at h
      cases hl : (mapLookup fm k).getD none with
      | none =>
        rw [hl] at h
        exact ih _ r h (Or.inl rfl)
      | some cur =>
        rw [hl] at h
        simp only [] at h
        cases hrec : assignRec NewUnstructured
            [fragmentValue (some cur), fragmentValue c] with
        | panic msg => rw [hrec] at h; cases h
        | outOfFuel => rw [hrec] at h; cases h
        | ret merged =>
          rw [hrec] at h
          exact ih _ r h (Or.inl rfl)

/-- Assigning a tree that has a field returns a defined tree. -/
theorem Assign_defined (typeName : Value → String) (fuel : Nat) (t q r : Unstructured)
    (m : FieldMap) (hq : q.fields = some m) (hm : m ≠ [])
    (h : Unstructured.Assign typeName fuel t [.unstructured q] = .ret r) :
    r.IsUndefined = false := by
  cases fuel with
  | zero => simp [Unstructured.Assign] at h
  | succ fuel =>
    simp only [Unstructured.Assign, Unstructured.assignArgs, ParseUnstructuredValue, hq] at h
    cases hf : Unstructured.assignFields (Unstructured.Assign typeName fuel) m t with
    | panic msg => rw [hf] at h; cases h
    | outOfFuel => rw [hf] at h; cases h
    | ret f' =>
      rw [hf] at h
      simp only [Run.ret.injEq] at h
      rw [← h]
      exact assignFields_defined _ m t f' hf (Or.inr hm)

/-- On a defined receiver the source `pick` returns a tree without keys. -/
theorem pick_defined_keys (typeName : Value → String) (fuel : Nat)
    (t q : Unstructured) (ht : t.IsUndefined = false) (hq : q.valid = true) :
    ∃ r, t.pick typeName (fuel + 1) q = .ret r ∧ keysOf r = [] := by
  cases t with
  | mk fs =>
    cases fs with
    | none => simp [Unstructured.IsUndefined, Unstructured.fields] at ht
    | some m => exact ⟨_, pick_defined typeName fuel m q, keysOf_Remove_all q hq⟩

/-! ### `Assign` on trees: the loop over the fields of the assigned tree -/

theorem mapLookup_mapSet (m : FieldMap) (k : String) (v : Option Unstructured) (k' : String) :
    mapLookup (mapSet m k v) k' = if k = k' then some v else mapLookup m k' := by
  induction m with
  | nil => simp [mapSet, mapLookup]
  | cons e m ih =>
    obtain ⟨k0, w⟩ := e
    by_cases h0 : k0 = k
    · subst h0
      simp only [mapSet, if_true, mapLookup]
      by_cases h1 : k0 = k' <;> simp [h1]
    · simp only [mapSet, if_neg h0, mapLookup, ih]
      by_cases h1 : k0 = k'
      · have h2 : ¬ k = k' := fun h => h0 (h1.trans h.symm)
        simp [h1, h2]
      · simp [h1]

theorem mem_of_mapLookup (m : FieldMap) (k : String) (c : Option Unstructured)
    (h : mapLookup m k = some c) : (k, c) ∈ m := by
  induction m with
  | nil => simp [mapLookup] at h
  | cons e m ih =>
    obtain ⟨k0, w⟩ := e
    by_cases h0 : k0 = k
    · simp only [mapLookup, if_pos h0, Option.some.injEq] at h
      subst h0; subst h
      exact List.mem_cons_self _ _
    · simp only [mapLookup, if_neg h0] at h
      exact List.mem_cons_of_mem _ (ih h)

/-- The source `Field` reads the map with a nil default. -/
theorem Field_eq (f : Unstructured) (k : String) :
    f.Field k = (mapLookup (f.fields.getD []) k).getD none := by
  cases f with
  | mk fs => cases fs <;> rfl

/-- One round of the loop of `assignv` when the receiver has no child under
the name: the child of the assigned tree is stored. -/
theorem assignFields_cons_none (assignRec : Unstructured → List Value → Run Unstructured)
    (k : String) (c : Option Unstructured) (rest : FieldMap) (f : Unstructured)
    (h : f.Field k = none) :
    Unstructured.assignFields assignRec ((k, c) :: rest) f
      = Unstructured.assignFields assignRec rest
          (.mk (some (mapSet (f.fields.getD []) k c))) := by
  cases f with
  | mk fs =>
    cases fs with
    | none => rfl
    | some m =>
      simp only [Unstructured.Field, Unstructured.fields] at h
      simp only [Unstructured.assignFields, Unstructured.fields, h, Option.getD_some]

/-- One round of the loop of `assignv` when the receiver has a child under
the name: the two children are merged by the recursive call. -/
theorem assignFields_cons_some (assignRec : Unstructured → List Value → Run Unstructured)
    (k : String) (c : Option Unstructured) (rest : FieldMap) (f cur merged : Unstructured)
    (h : f.Field k = some cur)
    (hrec : assignRec NewUnstructured [fragmentValue (some cur), fragmentValue c] = .ret merged) :
    Unstructured.assignFields assignRec ((k, c) :: rest) f
      = Unstructured.assignFields assignRec rest
          (.mk (some (mapSet (f.fields.getD []) k (some merged)))) := by
  cases f with
  | mk fs =>
    cases fs with
    | none => simp [Unstructured.Field, Unstructured.fields] at h
    | some m =>
      simp only [Unstructured.Field, Unstructured.fields] at h
      simp only [Unstructured.assignFields, Unstructured.fields, h, hrec, Option.getD_some]

/-- The loop of `assignv` over a map with pairwise different keys, when the
recursive call returns for every child it is called on: the loop returns;
names outside the assigned map keep their entry, a name without a child in the
receiver gets the child of the assigned tree, and a name with a child in the
receiver gets the result of the recursive call. -/
theorem assignFields_spec (assignRec : Unstructured → List Value → Run Unstructured)
    (m : FieldMap) (hnd : (m.map Prod.fst).Nodup) :
    ∀ f : Unstructured,
      (∀ k c cur, (k, c) ∈ m → f.Field k = some cur →
        ∃ r, assignRec NewUnstructured [fragmentValue (some cur), fragmentValue c] = .ret r) →
      ∃ R, Unstructured.assignFields assignRec m f = .ret R ∧
        (∀ k, k ∉ m.map Prod.fst →
          mapLookup (R.fields.getD []) k = mapLookup (f.fields.getD []) k) ∧
        (∀ k c, (k, c) ∈ m → f.Field k = none → mapLookup (R.fields.getD []) k = some c) ∧
        (∀ k c cur, (k, c) ∈ m → f.Field k = some cur →
          ∃ r, assignRec NewUnstructured [fragmentValue (some cur), fragmentValue c] = .ret r ∧
            mapLookup (R.fields.getD []) k = some (some r)) := by
  induction m with
  | nil =>
    intro f _
    exact ⟨f, rfl, fun _ _ => rfl, fun _ _ h => absurd h (List.not_mem_nil _),
      fun _ _ _ h => absurd h (List.not_mem_nil _)⟩
  | cons e rest ih =>
    obtain ⟨k0, c0⟩ := e
    rw [List.map_cons, List.nodup_cons] at hnd
    intro f H
    -- the tree after the first round, and the child stored under `k0`
    have key : ∃ v : Option Unstructured,
        Unstructured.assignFields assignRec ((k0, c0) :: rest) f
          = Unstructured.assignFields assignRec rest
              (.mk (some (mapSet (f.fields.getD []) k0 v))) ∧
        (f.Field k0 = none → v = c0) ∧
        (∀ cur, f.Field k0 = some cur →
          ∃ r, assignRec NewUnstructured [fragmentValue (some cur), fragmentValue c0] = .ret r ∧
            v = some r) := by
      cases hcur : f.Field k0 with
      | none =>
        exact ⟨c0, assignFields_cons_none assignRec k0 c0 rest f hcur, fun _ => rfl,
          (fun cur h => by cases h)⟩
      | some cur =>
        obtain ⟨r, hr⟩ := H k0 c0 cur (List.mem_cons_self _ _) hcur
        refine ⟨some r, assignFields_cons_some assignRec k0 c0 rest f cur r hcur hr,
          (fun h => by cases h), ?_⟩
        intro cur' h
        simp only [Option.some.injEq] at h
        subst h
        exact ⟨r, hr, rfl⟩
    obtain ⟨v, hstep, hvnone, hvsome⟩ := key
    have hother : ∀ k, k ≠ k0 →
        mapLookup ((Unstructured.mk (some (mapSet (f.fields.getD []) k0 v))).fields.getD []) k
          = mapLookup (f.fields.getD []) k := by
      intro k hk
      show mapLookup (mapSet (f.fields.getD []) k0 v) k = _
      rw [mapLookup_mapSet, if_neg (fun h => hk h.symm)]
    have hne : ∀ k c, (k, c) ∈ rest → k ≠ k0 := by
      intro k c hmem hk
      exact hnd.1 (hk ▸ List.mem_map.mpr ⟨(k, c), hmem, rfl⟩)
    have hfield : ∀ k, k ≠ k0 →
        (Unstructured.mk (some (mapSet (f.fields.getD []) k0 v))).Field k = f.Field k := by
      intro k hk
      rw [Field_eq, Field_eq, hother k hk]
    obtain ⟨R, hR, h1, h2, h3⟩ := ih hnd.2 (.mk (some (mapSet (f.fields.getD []) k0 v)))
      (fun k c cur hmem hcur => H k c cur (List.mem_cons_of_mem _ hmem)
        (by rw [← hfield k (hne k c hmem)]; exact hcur))
    have hk0 : mapLookup (R.fields.getD []) k0 = some v := by
      rw [h1 k0 hnd.1]
      show mapLookup (mapSet (f.fields.getD []) k0 v) k0 = _
      rw [mapLookup_mapSet, if_pos rfl]
    refine ⟨R, hstep.trans hR, ?_, ?_, ?_⟩
    · intro k hk
      rw [List.map_cons, List.mem_cons, not_or] at hk
      rw [h1 k hk.2, hother k hk.1]
    · intro k c hmem hcur
      rcases List.mem_cons.mp hmem with heq | hmem
      · simp only [Prod.mk.injEq] at heq
        obtain ⟨rfl, rfl⟩ := heq
        rw [hk0, hvnone hcur]
      · exact h2 k c hmem (by rw [hfield k (hne k c hmem)]; exact hcur)
    · intro k c cur hmem hcur
      rcases List.mem_cons.mp hmem with heq | hmem
      · simp only [Prod.mk.injEq] at heq
        obtain ⟨rfl, rfl⟩ := heq
        obtain ⟨r, hr, hv⟩ := hvsome cur hcur
        exact ⟨r, hr, by rw [hk0, hv]⟩
      · exact h3 k c cur hmem (by rw [hfield k (hne k c hmem)]; exact hcur)

theorem mem_keysOf_iff (f : Unstructured) (j : String) :
    j ∈ keysOf f ↔ (mapLookup (f.fields.getD []) j).isSome = true := by
  rw [mapLookup_isSome_iff]
  cases f with
  | mk fs => cases fs <;> simp [keysOf, Unstructured.fields]

theorem heightChild_le_heightEntries (m : FieldMap) :
    ∀ k c, (k, c) ∈ m → heightChild c ≤ heightEntries m := by
  induction m with
  | nil => intro k c h; cases h
  | cons e rest ih =>
    intro k c h
    obtain ⟨k0, c0⟩ := e
    rcases List.mem_cons.mp h with heq | h
    · simp only [Prod.mk.injEq] at heq
      obtain ⟨rfl, rfl⟩ := heq
      cases c with
      | none => simp [heightChild]
      | some u => simp [heightChild, heightEntries]
    · have := ih k c h
      cases c0 with
      | none => simpa [heightEntries] using this
      | some u => simp only [heightEntries]; omega

/-- A child found in a valid tree is a valid tree. -/
theorem valid_of_Field (f cur : Unstructured) (k : String) (hf : f.valid = true)
    (h : f.Field k = some cur) : cur.valid = true := by
  cases f with
  | mk fs =>
    cases fs with
    | none => simp [Unstructured.Field, Unstructured.fields] at h
    | some m =>
      simp only [Unstructured.valid] at hf
      simp only [Unstructured.Field, Unstructured.fields] at h
      cases hl : mapLookup m k with
      | none => rw [hl] at h; cases h
      | some c =>
        rw [hl] at h
        simp only [Option.getD_some] at h
        subst h
        exact validEntries_of_children m hf k cur (mem_of_mapLookup m k _ hl)

theorem validChild_of_mem (m : FieldMap) (hm : Unstructured.validEntries m = true)
    (k : String) (c : Option Unstructured) (h : (k, c) ∈ m) : validChild c = true := by
  cases c with
  | none => rfl
  | some u => exact validEntries_of_children m hm k u h

/-- Assigning a valid tree to the undefined tree: the loop returns a tree
with the entries of the assigned tree. -/
theorem assignFields_into_undefined (assignRec : Unstructured → List Value → Run Unstructured)
    (m : FieldMap) (hm : Unstructured.validEntries m = true) :
    ∃ f1, Unstructured.assignFields assignRec m NewUnstructured = .ret f1 ∧
      ∀ k, mapLookup (f1.fields.getD []) k = mapLookup m k := by
  obtain ⟨f1, hf1, h1, h2, _⟩ := assignFields_spec assignRec m (validEntries_nodup m hm)
    NewUnstructured (fun k c cur _ h => by cases h)
  refine ⟨f1, hf1, ?_⟩
  intro k
  cases hl : mapLookup m k with
  | none =>
    rw [h1 k ((mapLookup_isNone_iff m k).mp (by rw [hl]; rfl))]
    rfl
  | some c => exact h2 k c (mem_of_mapLookup m k c hl) rfl

/-- The loop of `assignv` over a valid tree, when the recursive call returns:
the keys of the result are those of the receiver and of the assigned tree. -/
theorem assignFields_keys (assignRec : Unstructured → List Value → Run Unstructured)
    (m : FieldMap) (hm : Unstructured.validEntries m = true) (f : Unstructured)
    (H : ∀ k c cur, (k, c) ∈ m → f.Field k = some cur →
      ∃ r, assignRec NewUnstructured [fragmentValue (some cur), fragmentValue c] = .ret r) :
    ∃ R, Unstructured.assignFields assignRec m f = .ret R ∧
      (∀ j, j ∈ keysOf R ↔ j ∈ keysOf f ∨ j ∈ m.map Prod.fst) ∧
      (∀ k c, (k, c) ∈ m → f.Field k = none → mapLookup (R.fields.getD []) k = some c) ∧
      (∀ k c cur, (k, c) ∈ m → f.Field k = some cur →
        ∃ r, assignRec NewUnstructured [fragmentValue (some cur), fragmentValue c] = .ret r ∧
          mapLookup (R.fields.getD []) k = some (some r)) := by
  obtain ⟨R, hR, h1, h2, h3⟩ := assignFields_spec assignRec m (validEntries_nodup m hm) f H
  refine ⟨R, hR, ?_, h2, h3⟩
  intro j
  rw [mem_keysOf_iff, mem_keysOf_iff]
  by_cases hj : j ∈ m.map Prod.fst
  · obtain ⟨e, he, hej⟩ := List.mem_map.mp hj
    obtain ⟨k, c⟩ := e
    simp only at hej
    subst hej
    have : (mapLookup (R.fields.getD []) k).isSome = true := by
      cases hcur : f.Field k with
      | none => rw [h2 k c he hcur]; rfl
      | some cur =>
        obtain ⟨r, _, hr⟩ := h3 k c cur he hcur
        rw [hr]; rfl
    simp [this, hj]
  · rw [h1 j hj]
    simp [hj]

/-- Body of `NewUnstructured().Assign(current, fieldFragment)`: with a
recursive call that returns on the children of the second argument, the call
returns a tree with the keys of both arguments. -/
theorem assignArgs_pair (typeName : Value → String)
    (assignRec : Unstructured → List Value → Run Unstructured)
    (ct : Unstructured) (c : Option Unstructured)
    (hct : ct.valid = true) (hc : validChild c = true)
    (Hrec : ∀ m2, c = some (.mk (some m2)) → ∀ k c2 cur2, (k, c2) ∈ m2 → cur2.valid = true →
      ∃ r, assignRec NewUnstructured [fragmentValue (some cur2), fragmentValue c2] = .ret r) :
    ∃ M, Unstructured.assignArgs typeName assignRec
        [fragmentValue (some ct), fragmentValue c] NewUnstructured = .ret M ∧
      (∀ j, j ∈ keysOf M ↔ j ∈ keysOf ct ∨ j ∈ keysOfChild c) := by
  -- the first argument
  have first : ∃ f1, Unstructured.assignArgs typeName assignRec
        [fragmentValue (some ct), fragmentValue c] NewUnstructured
        = Unstructured.assignArgs typeName assignRec [fragmentValue c] f1 ∧
      (∀ k, mapLookup (f1.fields.getD []) k = mapLookup (ct.fields.getD []) k) := by
    cases ct with
    | mk fs =>
      cases fs with
      | none => exact ⟨NewUnstructured, rfl, fun _ => rfl⟩
      | some m1 =>
        simp only [Unstructured.valid] at hct
        obtain ⟨f1, hf1, hl⟩ := assignFields_into_undefined assignRec m1 hct
        refine ⟨f1, ?_, hl⟩
        simp only [fragmentValue, Unstructured.assignArgs, ParseUnstructuredValue,
          Unstructured.fields, hf1]
  obtain ⟨f1, hfirst, hl1⟩ := first
  have hkeys1 : ∀ j, j ∈ keysOf f1 ↔ j ∈ keysOf ct := by
    intro j
    rw [mem_keysOf_iff, mem_keysOf_iff, hl1]
  have hfield1 : ∀ k, f1.Field k = ct.Field k := by
    intro k
    rw [Field_eq, Field_eq, hl1]
  rw [hfirst]
  -- the second argument
  cases c with
  | none =>
    refine ⟨f1, rfl, fun j => ?_⟩
    rw [hkeys1 j]
    show _ ↔ _ ∨ j ∈ ([] : List String)
    simp
  | some cq =>
    cases cq with
    | mk fs =>
      cases fs with
      | none =>
        refine ⟨f1, rfl, fun j => ?_⟩
        rw [hkeys1 j]
        show _ ↔ _ ∨ j ∈ ([] : List String)
        simp
      | some m2 =>
        simp only [validChild, Unstructured.valid] at hc
        obtain ⟨M, hM, hk, _, _⟩ := assignFields_keys assignRec m2 hc f1
          (fun k c2 cur2 hmem hcur =>
            Hrec m2 rfl k c2 cur2 hmem
              (valid_of_Field ct cur2 k hct (by rw [← hfield1]; exact hcur)))
        refine ⟨M, ?_, ?_⟩
        · simp only [fragmentValue, Unstructured.assignArgs, ParseUnstructuredValue,
            Unstructured.fields, hM]
        · intro j
          rw [hk j, hkeys1]
          exact Iff.rfl

/-- The recursive call of `assignv` returns when the bound on the recursion
exceeds the height of the second child, with the keys of both children. -/
theorem Assign_children (typeName : Value → String) :
    ∀ (n : Nat) (ct : Unstructured) (c : Option Unstructured),
      ct.valid = true → validChild c = true → heightChild c ≤ n →
      ∃ M, Unstructured.Assign typeName (n + 1) NewUnstructured
          [fragmentValue (some ct), fragmentValue c] = .ret M ∧
        (∀ j, j ∈ keysOf M ↔ j ∈ keysOf ct ∨ j ∈ keysOfChild c) := by
  intro n
  induction n with
  | zero =>
    intro ct c hct hc hh
    rw [Unstructured.Assign]
    apply assignArgs_pair typeName _ ct c hct hc
    intro m2 hm2
    subst hm2
    simp [heightChild, height] at hh
  | succ n ih =>
    intro ct c hct hc hh
    rw [Unstructured.Assign]
    apply assignArgs_pair typeName _ ct c hct hc
    intro m2 hm2 k c2 cur2 hmem hcur2
    subst hm2
    simp only [heightChild, height] at hh
    simp only [validChild, Unstructured.valid] at hc
    obtain ⟨r, hr, _⟩ := ih cur2 c2 hcur2 (validChild_of_mem m2 hc k c2 hmem)
      (by have := heightChild_le_heightEntries m2 k c2 hmem; omega)
    exact ⟨r, hr⟩

/-- The source `Assign` of one tree: it returns when the bound on the
recursion exceeds the height of the assigned tree; the keys of the result are
those of the receiver and of the assigned tree, a name without a child in the
receiver gets the child of the assigned tree, and a name with a child in the
receiver gets the recursive `Assign` of the two children. -/
theorem Assign_tree (typeName : Value → String) (n : Nat) (t q : Unstructured) (m : FieldMap)
    (hq : q.fields = some m) (ht : t.valid = true) (hqv : q.valid = true)
    (hh : heightEntries m ≤ n) :
    ∃ R, Unstructured.Assign typeName (n + 2) t [.unstructured q] = .ret R ∧
      (∀ j, j ∈ keysOf R ↔ j ∈ keysOf t ∨ j ∈ keysOf q) ∧
      (∀ k c, (k, c) ∈ m → t.Field k = none → mapLookup (R.fields.getD []) k = some c) ∧
      (∀ k c cur, (k, c) ∈ m → t.Field k = some cur →
        ∃ M, Unstructured.Assign typeName (n + 1) NewUnstructured
            [fragmentValue (some cur), fragmentValue c] = .ret M ∧
          mapLookup (R.fields.getD []) k = some (some M) ∧
          (∀ j, j ∈ keysOf M ↔ j ∈ keysOf cur ∨ j ∈ keysOfChild c)) := by
  have hqmk : q = .mk (some m) := by
    cases q with
    | mk fs => simp only [Unstructured.fields] at hq; rw [hq]
  subst hqmk
  simp only [Unstructured.valid] at hqv
  have Hrec : ∀ k c cur, (k, c) ∈ m → t.Field k = some cur →
      ∃ M, Unstructured.Assign typeName (n + 1) NewUnstructured
          [fragmentValue (some cur), fragmentValue c] = .ret M ∧
        (∀ j, j ∈ keysOf M ↔ j ∈ keysOf cur ∨ j ∈ keysOfChild c) := by
    intro k c cur hmem hcur
    exact Assign_children typeName n cur c (valid_of_Field t cur k ht hcur)
      (validChild_of_mem m hqv k c hmem)
      (by have := heightChild_le_heightEntries m k c hmem; omega)
  obtain ⟨R, hR, hk, h2, h3⟩ := assignFields_keys (Unstructured.Assign typeName (n + 1)) m hqv t
    (fun k c cur hmem hcur => by
      obtain ⟨M, hM, _⟩ := Hrec k c cur hmem hcur
      exact ⟨M, hM⟩)
  refine ⟨R, ?_, ?_, h2, ?_⟩
  · rw [Unstructured.Assign]
    simp only [Unstructured.assignArgs, ParseUnstructuredValue, Unstructured.fields, hR]
  · intro j
    rw [hk j]
    exact Iff.rfl
  · intro k c cur hmem hcur
    obtain ⟨r, hr, hl⟩ := h3 k c cur hmem hcur
    obtain ⟨M, hM, hkeys⟩ := Hrec k c cur hmem hcur
    have : r = M := by
      rw [hr] at hM
      simpa using hM
    subst this
    exact ⟨r, hr, hl, hkeys⟩

/-! ### `assignv` on the store: the map of the receiver after the call -/

theorem objectLookup_objectSet (m : MapObject) (k : String) (v : Option Handle) (k' : String) :
    objectLookup (objectSet m k v) k' = if k = k' then some v else objectLookup m k' := by
  induction m with
  | nil => simp [objectSet, objectLookup]
  | cons e m ih =>
    obtain ⟨k0, w⟩ := e
    by_cases h0 : k0 = k
    · subst h0
      simp only [objectSet, if_true, objectLookup]
      by_cases h1 : k0 = k' <;> simp [h1]
    · simp only [objectSet, if_neg h0, objectLookup, ih]
      by_cases h1 : k0 = k'
      · have h2 : ¬ k = k' := fun h => h0 (h1.trans h.symm)
        simp [h1, h2]
      · simp [h1]

theorem Store.object_write (s : Store) (a : Nat) (key : String) (v : Option Handle)
    (ha : a < s.length) : (s.write a key v).object a = objectSet (s.object a) key v := by
  simp [Store.write, Store.object, List.getD_eq_getElem?_getD, ha]

theorem Store.length_write (s : Store) (a : Nat) (key : String) (v : Option Handle) :
    (s.write a key v).length = s.length := by
  simp [Store.write]

/-- The loop of `assignv` on a defined receiver, over entries with pairwise
different names under which the receiver has no child: every round writes to
the map object of the receiver, which in the end has every name of the
entries and every name it had. -/
theorem assignFieldsStore_writes
    (assignRec : Store → Handle → List (Option Handle) → Run (Store × Handle)) (a : Nat)
    (m : MapObject) (hnd : (m.map Prod.fst).Nodup) :
    ∀ s : Store, a < s.length →
      (∀ e ∈ m, (objectLookup (s.object a) e.1).getD none = none) →
      ∃ s1, assignFieldsStore assignRec m s ⟨some a⟩ = .ret (s1, ⟨some a⟩) ∧
        s1.length = s.length ∧
        (∀ k, k ∈ m.map Prod.fst → (objectLookup (s1.object a) k).isSome = true) ∧
        (∀ k, (objectLookup (s.object a) k).isSome = true →
          (objectLookup (s1.object a) k).isSome = true) := by
  induction m with
  | nil =>
    intro s _ _
    exact ⟨s, rfl, rfl, fun k hk => absurd hk (List.not_mem_nil _), fun _ h => h⟩
  | cons e rest ih =>
    obtain ⟨k0, c0⟩ := e
    rw [List.map_cons, List.nodup_cons] at hnd
    intro s ha hno
    have h0 := hno (k0, c0) (List.mem_cons_self _ _)
    have hlen : a < (s.write a k0 c0).length := by rw [Store.length_write]; exact ha
    have hobj := Store.object_write s a k0 c0 ha
    obtain ⟨s1, hs1, hl, h1, h2⟩ := ih hnd.2 (s.write a k0 c0) hlen (by
      intro e he
      have hne : ¬ k0 = e.1 := fun h => hnd.1 (h ▸ List.mem_map.mpr ⟨e, he, rfl⟩)
      rw [hobj, objectLookup_objectSet, if_neg hne]
      exact hno e (List.mem_cons_of_mem _ he))
    refine ⟨s1, ?_, ?_, ?_, ?_⟩
    · simp only [assignFieldsStore, h0]
      exact hs1
    · rw [hl, Store.length_write]
    · intro k hk
      rcases List.mem_cons.mp hk with rfl | hk
      · apply h2
        rw [hobj, objectLookup_objectSet, if_pos rfl]
        rfl
      · exact h1 k hk
    · intro k hk
      apply h2
      rw [hobj, objectLookup_objectSet]
      by_cases h : k0 = k
      · rw [if_pos h]; rfl
      · rw [if_neg h]; exact hk

/-! ### The typed tree: fields of the type and default inclusion -/

theorem StructDecl.Field_index (d : StructDecl) (i : Int) (sf : FieldMeta)
    (h : d.Field i = some sf) : sf.Index = i ∧ 0 ≤ i := by
  unfold StructDecl.Field at h
  by_cases hi : i < 0
  · rw [if_pos hi] at h; cases h
  · rw [if_neg hi] at h
    cases hg : d.fields[i.toNat]? with
    | none => rw [hg] at h; cases h
    | some fd =>
      rw [hg] at h
      simp only [Option.map_some', Option.some.injEq] at h
      subst h
      exact ⟨rfl, by omega⟩

theorem StructDecl.FieldByName_field (d : StructDecl) (n : String) (sf : FieldMeta)
    (h : d.FieldByName n = some sf) : d.Field sf.Index = some sf := by
  unfold StructDecl.FieldByName at h
  cases hr : d.resolve n with
  | none => rw [hr] at h; cases h
  | some i =>
    rw [hr] at h
    simp only [Option.some_bind] at h
    rw [(StructDecl.Field_index d _ sf h).1]
    exact h

theorem StructDecl.FieldIndexByName_some (d : StructDecl) (n : String) (sf : FieldMeta)
    (h : d.FieldByName n = some sf) :
    d.FieldIndexByName n = sf.Index ∧ sf.Index ≠ -1 := by
  have hf := StructDecl.FieldByName_field d n sf h
  have := (StructDecl.Field_index d _ sf hf).2
  refine ⟨by simp [StructDecl.FieldIndexByName, h], by omega⟩

theorem StructDecl.FieldIndexByName_none (d : StructDecl) (n : String)
    (h : d.FieldByName n = none) : d.FieldIndexByName n = -1 := by
  simp [StructDecl.FieldIndexByName, h]

/-- A type has include-defaults exactly when one of its fields carries the
marker. -/
theorem typeHasIncludeDefaults_iff (lib : Library) (r : TypeRef) :
    typeHasIncludeDefaults lib (some r) = true ↔
      ∃ sf ∈ (lib.decl r).allFields, includeDefault sf = true := by
  simp only [typeHasIncludeDefaults, List.find?_isSome]

theorem typeHasIncludeDefaults_eq_false (lib : Library) (r : TypeRef)
    (h : ∀ sf ∈ (lib.decl r).allFields, includeDefault sf = false) :
    typeHasIncludeDefaults lib (some r) = false := by
  rw [← Bool.not_eq_true, typeHasIncludeDefaults_iff]
  rintro ⟨sf, hsf, hd⟩
  rw [h sf hsf] at hd
  cases hd

theorem fieldMetasFrom_mem (l : List FieldDecl) :
    ∀ (k : Nat) (sf : FieldMeta), sf ∈ fieldMetasFrom k l ↔
      ∃ j, ∃ fd, l[j]? = some fd ∧ sf = fieldMetaOf ((k + j : Nat) : Int) fd := by
  induction l with
  | nil => intro k sf; simp [fieldMetasFrom]
  | cons d rest ih =>
    intro k sf
    simp only [fieldMetasFrom, List.mem_cons, ih]
    constructor
    · rintro (h | ⟨j, fd, hj, hsf⟩)
      · exact ⟨0, d, by simp, by simpa using h⟩
      · refine ⟨j + 1, fd, by simpa using hj, ?_⟩
        rw [hsf]
        congr 2
        omega
    · rintro ⟨j, fd, hj, hsf⟩
      cases j with
      | zero =>
        simp only [List.getElem?_cons_zero, Option.some.injEq] at hj
        subst hj
        left
        simpa using hsf
      | succ j =>
        right
        refine ⟨j, fd, by simpa using hj, ?_⟩
        rw [hsf]
        congr 2
        omega

/-- The fields that the library iterates are the fields that `Field`
finds. -/
theorem StructDecl.mem_allFields_iff (d : StructDecl) (sf : FieldMeta) :
    sf ∈ d.allFields ↔ ∃ i, d.Field i = some sf := by
  unfold StructDecl.allFields
  rw [fieldMetasFrom_mem]
  constructor
  · rintro ⟨j, fd, hj, hsf⟩
    refine ⟨(j : Int), ?_⟩
    simp only [StructDecl.Field]
    rw [if_neg (by omega)]
    simp only [Int.toNat_ofNat, hj, Option.map_some', Option.some.injEq]
    rw [hsf]
    congr 2
    omega
  · rintro ⟨i, hi⟩
    have h0 := (StructDecl.Field_index d i sf hi).2
    simp only [StructDecl.Field] at hi
    rw [if_neg (by omega)] at hi
    cases hg : d.fields[i.toNat]? with
    | none => rw [hg] at hi; cases hi
    | some fd =>
      rw [hg] at hi
      simp only [Option.map_some', Option.some.injEq] at hi
      refine ⟨i.toNat, fd, hg, ?_⟩
      rw [← hi]
      congr 1
      omega

/-- A tree with type meta that is undefined has the nil map. -/
theorem Struct.eq_of_undefined (f : Struct) (r : TypeRef) (ht : f.typeMeta = some r)
    (hu : f.IsUndefined = true) : f = .mk (some r) none := by
  cases f with
  | mk t fs =>
    simp only [Struct.typeMeta] at ht
    subst ht
    cases fs with
    | none => rfl
    | some m => simp [Struct.IsUndefined, Struct.fields, Struct.typeMeta] at hu

theorem Struct.HasByIndex_undefined (lib : Library) (r : TypeRef) (i : Int) :
    (Struct.mk (some r) none).HasByIndex lib i
      = match (lib.decl r).Field i with
        | none => false
        | some sf => (!typeHasIncludeDefaults lib (some r) || includeDefault sf) := by
  simp only [Struct.HasByIndex, Struct.typeMeta]
  cases (lib.decl r).Field i <;> rfl

theorem Struct.HasByName_eq (lib : Library) (r : TypeRef) (fs : Option IndexMap) (n : String) :
    (Struct.mk (some r) fs).HasByName lib n
      = match (lib.decl r).FieldByName n with
        | none => false
        | some sf => (Struct.mk (some r) fs).HasByIndex lib sf.Index := by
  simp only [Struct.HasByName, Struct.typeMeta]
  cases h : (lib.decl r).FieldByName n with
  | none => simp [StructDecl.FieldIndexByName_none _ _ h]
  | some sf =>
    obtain ⟨h1, h2⟩ := StructDecl.FieldIndexByName_some _ _ sf h
    simp [h1, h2]

/-! ### The typed tree: `AddByName` and `AddExcluded` -/

theorem Run.bind_ret {α β : Type} (a : α) (f : α → Run β) : (Run.ret a).bind f = f a := rfl

theorem Run.bind_panic {α β : Type} (msg : String) (f : α → Run β) :
    (Run.panic msg : Run α).bind f = .panic msg := rfl

theorem fieldLookup_fieldSet (m : IndexMap) (k : Int) (v : StructField) (k' : Int) :
    fieldLookup (fieldSet m k v) k' = if k = k' then some v else fieldLookup m k' := by
  induction m with
  | nil => simp [fieldSet, fieldLookup]
  | cons e m ih =>
    obtain ⟨k0, w⟩ := e
    by_cases h0 : k0 = k
    · subst h0
      simp only [fieldSet, if_true, fieldLookup]
      by_cases h1 : k0 = k' <;> simp [h1]
    · simp only [fieldSet, if_neg h0, fieldLookup, ih]
      by_cases h1 : k0 = k'
      · have h2 : ¬ k = k' := fun h => h0 (h1.trans h.symm)
        simp [h1, h2]
      · simp [h1]

theorem Struct.HasByIndex_defined (lib : Library) (r : TypeRef) (m : IndexMap) (j : Int) :
    (Struct.mk (some r) (some m)).HasByIndex lib j
      = (((lib.decl r).Field j).isSome && (fieldLookup m j).isSome) := by
  simp only [Struct.HasByIndex, Struct.typeMeta]
  cases (lib.decl r).Field j <;> rfl

/-- A tree with type meta that is undefined or empty is copied to the
empty tree. -/
theorem Struct.definedOrEmptyCopy_of_undefinedOrEmpty (f : Struct) (r : TypeRef)
    (ht : f.typeMeta = some r) (hu : f.IsUndefinedOrEmpty = true) :
    f.definedOrEmptyCopy = .mk (some r) (some []) := by
  cases f with
  | mk t fs =>
    simp only [Struct.typeMeta] at ht
    subst ht
    cases fs with
    | none => rfl
    | some m =>
      cases m with
      | nil => rfl
      | cons e m =>
        simp [Struct.IsUndefinedOrEmpty, Struct.IsUndefined, Struct.fields, Struct.typeMeta,
          Struct.fieldsLen] at hu

/-- The loop of `AddByName` over names of the type returns; the indices of
the map it returns are the ones of the map it started from and the indices
of the names. -/
theorem Struct.addByNameLoop_spec (lib : Library) (d : StructDecl) (names : List String)
    (hn : ∀ n ∈ names, (d.FieldByName n).isSome = true) :
    ∀ m : IndexMap, ∃ m', Struct.addByNameLoop lib d names m = .ret m' ∧
      ∀ j, (fieldLookup m' j).isSome = true ↔
        (fieldLookup m j).isSome = true ∨ ∃ n ∈ names, d.FieldIndexByName n = j := by
  induction names with
  | nil => intro m; exact ⟨m, rfl, by simp⟩
  | cons n rest ih =>
    intro m
    have hrest := ih (fun n' h' => hn n' (List.mem_cons_of_mem _ h'))
    cases hf : d.FieldByName n with
    | none =>
      have := hn n (List.mem_cons_self _ _)
      rw [hf] at this
      cases this
    | some byName =>
      have hidx := (StructDecl.FieldIndexByName_some d n byName hf).1
      have hfield := StructDecl.FieldByName_field d n byName hf
      cases hl : fieldLookup m byName.Index with
      | some old =>
        obtain ⟨m', hm', hj⟩ := hrest m
        refine ⟨m', ?_, ?_⟩
        · simp only [Struct.addByNameLoop, StructDecl.EnsureFieldByName, hf, Run.bind_ret, hl]
          exact hm'
        · intro j
          rw [hj j]
          constructor
          · rintro (h | ⟨n', hn', h⟩)
            · exact Or.inl h
            · exact Or.inr ⟨n', List.mem_cons_of_mem _ hn', h⟩
          · rintro (h | ⟨n', hn', h⟩)
            · exact Or.inl h
            · rcases List.mem_cons.mp hn' with rfl | hn'
              · left
                rw [← h, hidx, hl]
                rfl
              · exact Or.inr ⟨n', hn', h⟩
      | none =>
        obtain ⟨m', hm', hj⟩ := hrest (fieldSet m byName.Index (newStructField byName))
        refine ⟨m', ?_, ?_⟩
        · simp only [Struct.addByNameLoop, StructDecl.EnsureFieldByName, hf, Run.bind_ret, hl,
            StructDecl.EnsureField, hfield]
          exact hm'
        · intro j
          rw [hj j, fieldLookup_fieldSet]
          constructor
          · rintro (h | ⟨n', hn', h⟩)
            · by_cases hk : byName.Index = j
              · exact Or.inr ⟨n, List.mem_cons_self _ _, hidx.trans hk⟩
              · rw [if_neg hk] at h
                exact Or.inl h
            · exact Or.inr ⟨n', List.mem_cons_of_mem _ hn', h⟩
          · rintro (h | ⟨n', hn', h⟩)
            · by_cases hk : byName.Index = j
              · left; rw [if_pos hk]; rfl
              · left; rw [if_neg hk]; exact h
            · rcases List.mem_cons.mp hn' with rfl | hn'
              · left
                rw [if_pos (hidx.symm.trans h)]
                rfl
              · exact Or.inr ⟨n', hn', h⟩

/-- On an undefined or empty tree `AddByName` of a non-empty list of names of
the type returns a tree whose indices are those of the names. -/
theorem Struct.AddByName_spec (lib : Library) (f : Struct) (r : TypeRef) (ns : List String)
    (ht : f.typeMeta = some r) (hu : f.IsUndefinedOrEmpty = true) (hns : ns ≠ [])
    (hdecl : ∀ n ∈ ns, ((lib.decl r).FieldByName n).isSome = true) :
    ∃ m, f.AddByName lib ns = .ret (.mk (some r) (some m)) ∧
      ∀ j, (fieldLookup m j).isSome = true ↔ ∃ n ∈ ns, (lib.decl r).FieldIndexByName n = j := by
  obtain ⟨m, hm, hj⟩ := Struct.addByNameLoop_spec lib (lib.decl r) ns hdecl []
  refine ⟨m, ?_, ?_⟩
  · have hl : ¬ ns.length = 0 := by
      have := List.length_pos.mpr hns; omega
    have hcopy := Struct.definedOrEmptyCopy_of_undefinedOrEmpty f r ht hu
    cases f with
    | mk t fs =>
      simp only [Struct.typeMeta] at ht
      subst ht
      simp only [Struct.AddByName, if_neg hl, hcopy, Struct.fields, Option.getD_some,
        hm, Run.bind_ret, Struct.typeMeta]
  · intro j
    rw [hj j]
    simp [fieldLookup]

/-! ### The typed tree: `pick` -/

theorem Struct.EnsureDefined_returns (lib : Library) (f : Struct) (r : TypeRef)
    (ht : f.typeMeta = some r) :
    ∃ g, f.EnsureDefined lib = .ret g ∧ g.typeMeta = some r := by
  cases f with
  | mk t fs =>
    simp only [Struct.typeMeta] at ht
    subst ht
    simp only [Struct.EnsureDefined, Struct.typeMeta]
    split
    · exact ⟨_, rfl, rfl⟩
    · exact ⟨_, rfl, rfl⟩

theorem Struct.definedCopy_returns (lib : Library) (f : Struct) (r : TypeRef)
    (ht : f.typeMeta = some r) :
    ∃ g, f.definedCopy lib = .ret g ∧ g.typeMeta = some r := by
  unfold Struct.definedCopy
  split
  · exact Struct.EnsureDefined_returns lib f r ht
  · exact ⟨_, rfl, ht⟩

/-- The loop of `Remove` returns on a tree with type meta. -/
theorem Struct.removeLoop_returns (lib : Library) (r : TypeRef) (is : List Int) :
    ∀ (f : Struct) (ensured : Bool), f.typeMeta = some r →
      ∃ R, Struct.removeLoop lib is f ensured = .ret R := by
  induction is with
  | nil => intro f e _; exact ⟨f, rfl⟩
  | cons i rest ih =>
    intro f e ht
    simp only [Struct.removeLoop]
    split
    · cases e with
      | true =>
        simp only [if_true, Run.bind_ret]
        exact ih _ true ht
      | false =>
        obtain ⟨g, hg, hgt⟩ := Struct.definedCopy_returns lib f r ht
        simp only [Bool.false_eq_true, if_false, hg, Run.bind_ret]
        exact ih _ true hgt
    · exact ih f e ht

theorem Struct.Remove_returns (lib : Library) (f : Struct) (r : TypeRef) (is : List Int)
    (ht : f.typeMeta = some r) : ∃ R, f.Remove lib is = .ret R := by
  unfold Struct.Remove
  split
  · exact ⟨f, rfl⟩
  · rw [ht]
    exact Struct.removeLoop_returns lib r is f false ht

/-- The source `Field` returns for a field that the tree has. -/
theorem Struct.Field_returns (lib : Library) (f : Struct) (r : TypeRef) (i : Int)
    (ht : f.typeMeta = some r) (hh : f.HasByIndex lib i = true) :
    ∃ cf, f.Field lib i = .ret cf := by
  cases f with
  | mk t fs =>
    simp only [Struct.typeMeta] at ht
    subst ht
    simp only [Struct.HasByIndex, Struct.typeMeta] at hh
    simp only [Struct.Field, Struct.typeMeta]
    cases hl : fieldLookup ((Struct.mk (some r) fs).fields.getD []) i with
    | some cf => exact ⟨cf, rfl⟩
    | none =>
      cases hf : (lib.decl r).Field i with
      | none => rw [hf] at hh; cases hh
      | some sf =>
        simp only [StructDecl.EnsureField, hf, Run.bind_ret]
        exact ⟨_, rfl⟩

/-- The iteration of `pick` over fields without a defined tree returns. -/
theorem Struct.pickLoop_flat (lib : Library) (pickRec : Struct → Struct → Run Struct)
    (f : Struct) (r : TypeRef) (ht : f.typeMeta = some r) (fields : List StructField)
    (hflat : ∀ field ∈ fields, field.Fragment.IsUndefined = true) :
    ∀ remove, ∃ remove', Struct.pickLoop lib pickRec f fields remove = .ret remove' := by
  induction fields with
  | nil => intro remove; exact ⟨remove, rfl⟩
  | cons field rest ih =>
    intro remove
    have hrest := ih (fun x hx => hflat x (List.mem_cons_of_mem _ hx))
    simp only [Struct.pickLoop]
    cases hh : f.HasByIndex lib field.Index with
    | false => simpa using hrest _
    | true =>
      obtain ⟨cf, hcf⟩ := Struct.Field_returns lib f r field.Index ht hh
      simp only [Bool.not_true, Bool.false_eq_true, if_false, hcf, Run.bind_ret,
        hflat field (List.mem_cons_self _ _), if_true]
      exact hrest remove

/-- The source `pick` returns the tree it is given as the query, when the
fields of the query have no defined tree. -/
theorem Struct.pick_flat (lib : Library) (fuel : Nat) (f pf : Struct) (r : TypeRef)
    (hf : f.typeMeta = some r) (hpf : pf.typeMeta = some r)
    (hflat : ∀ field ∈ pf.iterated lib false, field.Fragment.IsUndefined = true) :
    f.pick lib (fuel + 1) pf = .ret pf := by
  obtain ⟨g, hg, hgt⟩ := Struct.EnsureDefined_returns lib f r hf
  obtain ⟨remove, hrm⟩ := Struct.pickLoop_flat lib (Struct.pick lib fuel) g r hgt
    (pf.iterated lib false) hflat []
  obtain ⟨R, hR⟩ := Struct.Remove_returns lib pf r remove hpf
  simp only [Struct.pick, hg, Run.bind_ret, hrm, hR]

/-! ### The typed tree: `Set` and `AssignToField` on a tree of another type -/

/-- `ParseStruct` of one defined typed tree whose type is not the struct
type asked for returns the type-mismatch error. -/
theorem ParseStruct_type_mismatch (lib : Library) (fuel : Nat) (t : TypeArg) (s s' : TypeRef)
    (child : Struct) (ht : t.structOf = some s) (hc : child.IsUndefined = false)
    (hct : child.typeMeta = some s') (hne : s' ≠ s) :
    ParseStruct lib (fuel + 1) t [.struct child]
      = .ret (child, some ("type mismatch between passed struct fragment and struct type meta: "
          ++ (lib.decl s').text ++ " vs. " ++ (lib.decl s).text)) := by
  have hne' : child.typeMeta ≠ some s := by
    rw [hct]
    exact fun h => hne (Option.some.inj h)
  simp only [ParseStruct, parseStructBody, ht, List.length_singleton, parseStructLoop, hc,
    Option.isSome_none, hct, typeArgOfStruct]
  simp [hne]

/-! ### Binding an untyped tree to a struct type -/

theorem String.eq_empty_of_toList (s : String) (h : s.toList = []) : s = "" := by
  cases s with
  | mk data =>
    simp only [String.toList] at h
    subst h
    rfl

/-- The source `quotedStringInteraces` panics when one of the strings is
empty. -/
theorem quotedStringInteraces_panics (l : List String) (h : "" ∈ l) :
    quotedStringInteraces l
      = .panic "runtime error: slice bounds out of range [:1] with length 0" := by
  induction l with
  | nil => cases h
  | cons s rest ih =>
    cases hs : s.toList with
    | nil => simp only [quotedStringInteraces, hs]
    | cons c cs =>
      have hne : s ≠ "" := by
        intro h0
        rw [h0] at hs
        cases hs
      rcases List.mem_cons.mp h with h0 | h0
      · exact absurd h0.symm hne
      · simp only [quotedStringInteraces, hs, ih h0, Run.bind_panic]

/-- The source `quotedStringInteraces` returns when no string is empty. -/
theorem quotedStringInteraces_returns (l : List String) (h : ∀ s ∈ l, s ≠ "") :
    ∃ q, quotedStringInteraces l = .ret q := by
  induction l with
  | nil => exact ⟨[], rfl⟩
  | cons s rest ih =>
    obtain ⟨q, hq⟩ := ih (fun x hx => h x (List.mem_cons_of_mem _ hx))
    cases hs : s.toList with
    | nil => exact absurd (String.eq_empty_of_toList s hs) (h s (List.mem_cons_self _ _))
    | cons c cs =>
      simp only [quotedStringInteraces, hs, hq, Run.bind_ret]
      exact ⟨_, rfl⟩

/-- The loop of `toStruct` over fields without a defined child: it returns
without error, with the unrecognized names collected and with the indices of
the names that the type resolves added to the map. -/
theorem toStructLoop_flat (lib : Library)
    (parseRec : TypeArg → List Arg → Run (Struct × Option String)) (r : TypeRef)
    (m : FieldMap) (hflat : ∀ e ∈ m, childUndefined e.2 = true) :
    ∀ (fields : IndexMap) (unrec : List String),
      ∃ fields', toStructLoop lib parseRec r m fields unrec
          = .ret ((fields', unrec ++ unrecognizedNames (lib.decl r) (m.map Prod.fst)), none) ∧
        ∀ j, (fieldLookup fields' j).isSome = true ↔
          (fieldLookup fields j).isSome = true ∨
          ∃ n ∈ m.map Prod.fst, ∃ sf, (lib.decl r).FieldByName n = some sf ∧ sf.Index = j := by
  induction m with
  | nil =>
    intro fields unrec
    exact ⟨fields, by simp [toStructLoop, unrecognizedNames], by simp⟩
  | cons e rest ih =>
    obtain ⟨k, c⟩ := e
    intro fields unrec
    have hrest := ih (fun x hx => hflat x (List.mem_cons_of_mem _ hx))
    have hc : childUndefined c = true := hflat (k, c) (List.mem_cons_self _ _)
    cases hf : (lib.decl r).FieldByName k with
    | none =>
      by_cases hk : k = "__typename"
      · obtain ⟨fields', h1, h2⟩ := hrest fields unrec
        subst hk
        refine ⟨fields', ?_, ?_⟩
        · simp only [toStructLoop, hf, ne_eq, not_true_eq_false, if_false]
          rw [h1]
          simp [unrecognizedNames, List.filter_cons]
        · intro j
          rw [h2 j]
          simp only [List.map_cons, List.mem_cons]
          constructor
          · rintro (h | ⟨n, hn, sf, hsf, hj⟩)
            · exact Or.inl h
            · exact Or.inr ⟨n, Or.inr hn, sf, hsf, hj⟩
          · rintro (h | ⟨n, hn | hn, sf, hsf, hj⟩)
            · exact Or.inl h
            · rw [hn, hf] at hsf; cases hsf
            · exact Or.inr ⟨n, hn, sf, hsf, hj⟩
      · obtain ⟨fields', h1, h2⟩ := hrest fields (unrec ++ [k])
        refine ⟨fields', ?_, ?_⟩
        · simp only [toStructLoop, hf, ne_eq, hk, not_false_eq_true, if_true]
          rw [h1]
          simp [unrecognizedNames, List.filter_cons, hk, hf]
        · intro j
          rw [h2 j]
          simp only [List.map_cons, List.mem_cons]
          constructor
          · rintro (h | ⟨n, hn, sf, hsf, hj⟩)
            · exact Or.inl h
            · exact Or.inr ⟨n, Or.inr hn, sf, hsf, hj⟩
          · rintro (h | ⟨n, hn | hn, sf, hsf, hj⟩)
            · exact Or.inl h
            · rw [hn, hf] at hsf; cases hsf
            · exact Or.inr ⟨n, hn, sf, hsf, hj⟩
    | some structField =>
      obtain ⟨fields', h1, h2⟩ := hrest
        (fieldSet fields structField.Index (.mk structField (.mk none none))) unrec
      refine ⟨fields', ?_, ?_⟩
      · simp only [toStructLoop, hf, hc, if_true]
        rw [h1]
        simp [unrecognizedNames, List.filter_cons, hf]
      · intro j
        rw [h2 j, fieldLookup_fieldSet]
        simp only [List.map_cons, List.mem_cons]
        constructor
        · rintro (h | ⟨n, hn, sf, hsf, hj⟩)
          · by_cases hk : structField.Index = j
            · exact Or.inr ⟨k, Or.inl rfl, structField, hf, hk⟩
            · rw [if_neg hk] at h
              exact Or.inl h
          · exact Or.inr ⟨n, Or.inr hn, sf, hsf, hj⟩
        · rintro (h | ⟨n, hn | hn, sf, hsf, hj⟩)
          · by_cases hk : structField.Index = j
            · left; rw [if_pos hk]; rfl
            · left; rw [if_neg hk]; exact h
          · left
            rw [hn, hf] at hsf
            simp only [Option.some.injEq] at hsf
            rw [if_pos (by rw [hsf]; exact hj)]
            rfl
          · exact Or.inr ⟨n, hn, sf, hsf, hj⟩

/-- `ToStruct` of a tree with fields, none with a defined child, in terms of
the names that the type does not resolve. -/
theorem ToStruct_flat (lib : Library) (fuel : Nat) (r : TypeRef) (m : FieldMap)
    (hm : m ≠ []) (hflat : ∀ e ∈ m, childUndefined e.2 = true) :
    ∃ fields,
      (∀ j, (fieldLookup fields j).isSome = true ↔
        ∃ n ∈ m.map Prod.fst, ∃ sf, (lib.decl r).FieldByName n = some sf ∧ sf.Index = j) ∧
      (Unstructured.mk (some m)).ToStruct lib (fuel + 1) (some r)
        = if (unrecognizedNames (lib.decl r) (m.map Prod.fst)).length > 0 then
            (quotedStringInteraces (unrecognizedNames (lib.decl r) (m.map Prod.fst))).bind
              (fun quoted => .ret (.mk (some r) (some fields),
                some ("unrecognized field(s): " ++ fmtListAnd quoted)))
          else .ret (.mk (some r) (some fields), none) := by
  obtain ⟨fields, h1, h2⟩ := toStructLoop_flat lib (ParseStruct lib fuel) r m hflat [] []
  refine ⟨fields, ?_, ?_⟩
  · intro j
    rw [h2 j]
    simp [fieldLookup]
  · have hl : m.length > 0 := List.length_pos.mpr hm
    simp only [Unstructured.ToStruct, Unstructured.toStruct, toStructBody, Unstructured.fields,
      hl, if_true, h1, Run.bind_ret, List.nil_append]
    split
    · cases hq : quotedStringInteraces (unrecognizedNames (lib.decl r) (m.map Prod.fst)) <;> rfl
    · rfl

/-- `ParseStruct` of one defined untyped tree is `ToStruct` of the tree. -/
theorem ParseStruct_tree (lib : Library) (fuel : Nat) (t : TypeArg) (r : TypeRef)
    (m : FieldMap) (ht : t.structOf = some r) :
    ParseStruct lib (fuel + 1) t [.value (.unstructured (.mk (some m)))]
      = ((Unstructured.mk (some m)).ToStruct lib fuel (some r)).bind (fun bound =>
          match bound with
          | (_, some err) => .ret (.mk (some r) none, some err)
          | (fis, none) => .ret (fis, none)) := by
  simp only [ParseStruct, parseStructBody, ht, List.length_singleton, parseStructLoop,
    ParseUnstructuredValue, Run.bind_ret, Unstructured.IsUndefined, Unstructured.fields,
    Option.isNone_some, Option.isSome_none, Unstructured.ToStruct]
  simp only [Bool.false_eq_true, if_false, if_true]
  cases h : Unstructured.toStruct lib fuel (.mk (some m)) (some r) [] with
  | panic msg => rfl
  | outOfFuel => rfl
  | ret v =>
    obtain ⟨⟨fis, err⟩, circ⟩ := v
    cases err <;> rfl

theorem unrecognizedNames_eq_nil_iff (d : StructDecl) (names : List String) :
    unrecognizedNames d names = [] ↔
      ∀ n ∈ names, (d.FieldByName n).isSome = true ∨ n = "__typename" := by
  simp only [unrecognizedNames, List.filter_eq_nil_iff, Bool.and_eq_true, bne_iff_ne, ne_eq,
    not_and, not_not]
  constructor
  · intro h n hn
    cases hf : d.FieldByName n with
    | none => exact Or.inr (h n hn (by rw [hf]; rfl))
    | some sf => exact Or.inl rfl
  · intro h n hn hnone
    rcases h n hn with h1 | h1
    · cases hf : d.FieldByName n with
      | none => rw [hf] at h1; cases h1
      | some sf => rw [hf] at hnone; cases hnone
    · exact h1

/-- Binding a tree with fields, none with a defined child, whose names are
all field names of the type or `__typename`: `ToStruct` returns without
error a typed tree whose indices are the indices of the names. -/
theorem ToStruct_flat_recognized (lib : Library) (fuel : Nat) (r : TypeRef) (m : FieldMap)
    (hm : m ≠ []) (hflat : ∀ e ∈ m, childUndefined e.2 = true)
    (hall : ∀ n ∈ m.map Prod.fst, ((lib.decl r).FieldByName n).isSome = true ∨
      n = "__typename") :
    ∃ fields, (Unstructured.mk (some m)).ToStruct lib (fuel + 1) (some r)
        = .ret (.mk (some r) (some fields), none) ∧
      ∀ j, (fieldLookup fields j).isSome = true ↔
        ∃ n ∈ m.map Prod.fst, ∃ sf, (lib.decl r).FieldByName n = some sf ∧ sf.Index = j := by
  obtain ⟨fields, h1, h2⟩ := ToStruct_flat lib fuel r m hm hflat
  refine ⟨fields, ?_, h1⟩
  rw [h2, (unrecognizedNames_eq_nil_iff _ _).mpr hall]
  rfl

/-- Binding a tree with fields, none with a defined child, that has a name
which is neither a field name of the type nor `__typename`, when no such
name is empty: `ToStruct` returns an error. -/
theorem ToStruct_flat_unrecognized (lib : Library) (fuel : Nat) (r : TypeRef) (m : FieldMap)
    (hm : m ≠ []) (hflat : ∀ e ∈ m, childUndefined e.2 = true)
    (hsome : ∃ n ∈ m.map Prod.fst, (lib.decl r).FieldByName n = none ∧ n ≠ "__typename")
    (hne : ∀ n ∈ m.map Prod.fst, (lib.decl r).FieldByName n = none → n ≠ "") :
    ∃ R msg, (Unstructured.mk (some m)).ToStruct lib (fuel + 1) (some r)
        = .ret (R, some msg) := by
  obtain ⟨fields, _, h2⟩ := ToStruct_flat lib fuel r m hm hflat
  have hpos : (unrecognizedNames (lib.decl r) (m.map Prod.fst)).length > 0 := by
    obtain ⟨n, hn, hnone, hnt⟩ := hsome
    apply List.length_pos_of_mem (a := n)
    simp [unrecognizedNames, List.mem_filter, hn, hnone, hnt]
  obtain ⟨q, hq⟩ := quotedStringInteraces_returns
    (unrecognizedNames (lib.decl r) (m.map Prod.fst)) (by
      intro s hs
      simp only [unrecognizedNames, List.mem_filter, Bool.and_eq_true, Option.isNone_iff_eq_none]
        at hs
      exact hne s hs.1 hs.2.1)
  rw [h2, if_pos hpos, hq]
  exact ⟨_, _, rfl⟩

/-- Binding a tree with one field that has a defined child, when the field of
the type has no struct type behind it: `ToStruct` returns the error for a
non-fragmentable field. -/
theorem ToStruct_nonfragmentable (lib : Library) (fuel : Nat) (r : TypeRef) (k : String)
    (child : Unstructured) (sf : FieldMeta) (hc : child.IsUndefined = false)
    (hf : (lib.decl r).FieldByName k = some sf) (hs : structOfField sf = none) :
    (Unstructured.mk (some [(k, some child)])).ToStruct lib (fuel + 1) (some r)
      = .ret (.mk (some r) (some []),
          some ("expected undefined fragment for non-fragmentable field \"" ++ sf.text
            ++ "\"")) := by
  simp only [Unstructured.ToStruct, Unstructured.toStruct, toStructBody, Unstructured.fields,
    List.length_singleton, toStructLoop, hf, childUndefined, hc, hs, Run.bind_ret]
  rfl

/-! ### The typed tree: `Add` and `assign` of selections without nested selections -/

theorem fieldLookup_mem (m : IndexMap) (j : Int) (sf : StructField)
    (h : fieldLookup m j = some sf) : (j, sf) ∈ m := by
  induction m with
  | nil => simp [fieldLookup] at h
  | cons e m ih =>
    obtain ⟨k0, w⟩ := e
    by_cases h0 : k0 = j
    · simp only [fieldLookup, if_pos h0, Option.some.injEq] at h
      subst h0; subst h
      exact List.mem_cons_self _ _
    · simp only [fieldLookup, if_neg h0] at h
      exact List.mem_cons_of_mem _ (ih h)

theorem fieldLookup_isSome_iff (m : IndexMap) (j : Int) :
    (fieldLookup m j).isSome = true ↔ j ∈ m.map Prod.fst := by
  induction m with
  | nil => simp [fieldLookup]
  | cons e m ih =>
    obtain ⟨k0, w⟩ := e
    simp only [fieldLookup, List.map_cons, List.mem_cons]
    by_cases hk : k0 = j
    · simp [hk]
    · simp only [if_neg hk, ih]
      constructor
      · exact fun h => Or.inr h
      · rintro (h | h)
        · exact absurd h.symm hk
        · exact h

theorem mem_fieldSet (m : IndexMap) (k : Int) (v : StructField) :
    ∀ e ∈ fieldSet m k v, e ∈ m ∨ e = (k, v) := by
  induction m with
  | nil => intro e he; simpa [fieldSet] using he
  | cons a m ih =>
    obtain ⟨k0, w⟩ := a
    intro e he
    by_cases h0 : k0 = k
    · simp only [fieldSet, if_pos h0, List.mem_cons] at he
      rcases he with he | he
      · right; rw [he, h0]
      · left; exact List.mem_cons_of_mem _ he
    · simp only [fieldSet, if_neg h0, List.mem_cons] at he
      rcases he with he | he
      · left; rw [he]; exact List.mem_cons_self _ _
      · rcases ih e he with h | h
        · left; exact List.mem_cons_of_mem _ h
        · right; exact h

/-- Copying a map entry by entry keeps the indices and brings no new
entry. -/
theorem copyFold_spec (m : IndexMap) :
    ∀ acc : IndexMap,
      (∀ j, (fieldLookup (m.foldl (fun acc e => fieldSet acc e.1 e.2) acc) j).isSome = true ↔
        (fieldLookup acc j).isSome = true ∨ (fieldLookup m j).isSome = true) ∧
      (∀ e ∈ m.foldl (fun acc e => fieldSet acc e.1 e.2) acc, e ∈ acc ∨ e ∈ m) := by
  induction m with
  | nil => intro acc; simp [fieldLookup]
  | cons a m ih =>
    intro acc
    obtain ⟨h1, h2⟩ := ih (fieldSet acc a.1 a.2)
    simp only [List.foldl_cons]
    constructor
    · intro j
      rw [h1 j, fieldLookup_fieldSet]
      obtain ⟨k0, w⟩ := a
      simp only [fieldLookup]
      by_cases hk : k0 = j
      · simp [hk]
      · simp [hk]
    · intro e he
      rcases h2 e he with h | h
      · rcases mem_fieldSet acc a.1 a.2 e h with h | h
        · exact Or.inl h
        · right; rw [h]; exact List.mem_cons_self _ _
      · exact Or.inr (List.mem_cons_of_mem _ h)

/-- The source `definedOrEmptyCopy` keeps the type meta, the indices and
brings no new entry. -/
theorem Struct.definedOrEmptyCopy_spec (f : Struct) :
    ∃ m, f.definedOrEmptyCopy = .mk f.typeMeta (some m) ∧
      (∀ j, (fieldLookup m j).isSome = f.hasKey j) ∧
      (∀ e ∈ m, e ∈ f.fields.getD []) := by
  cases f with
  | mk t fs =>
    cases fs with
    | none => exact ⟨[], rfl, fun j => rfl, fun e he => by cases he⟩
    | some m =>
      obtain ⟨h1, h2⟩ := copyFold_spec m []
      refine ⟨_, rfl, ?_, ?_⟩
      · intro j
        rw [Bool.eq_iff_iff, h1 j]
        simp [Struct.hasKey, Struct.fields, fieldLookup]
      · intro e he
        rcases h2 e he with h | h
        · cases h
        · exact h

/-- The loop of `Add` over indices of fields of the type returns; the map it
returns has the indices it started from and the added ones, and its new
entries are fields made by `newStructField`. -/
theorem Struct.addLoop_spec (lib : Library) (d : StructDecl) (is : List Int)
    (his : ∀ i ∈ is, (d.Field i).isSome = true) :
    ∀ m : IndexMap, ∃ m', Struct.addLoop lib d is m = .ret m' ∧
      (∀ j, (fieldLookup m' j).isSome = true ↔ (fieldLookup m j).isSome = true ∨ j ∈ is) ∧
      (∀ e ∈ m', e ∈ m ∨ ∃ sf, d.Field e.1 = some sf ∧ e.2 = newStructField sf) := by
  induction is with
  | nil => intro m; exact ⟨m, rfl, by simp, fun e he => Or.inl he⟩
  | cons i rest ih =>
    intro m
    have hrest := ih (fun x hx => his x (List.mem_cons_of_mem _ hx))
    cases hl : fieldLookup m i with
    | some old =>
      obtain ⟨m', hm', h1, h2⟩ := hrest m
      refine ⟨m', by simp only [Struct.addLoop, hl]; exact hm', ?_, h2⟩
      intro j
      rw [h1 j, List.mem_cons]
      constructor
      · rintro (h | h)
        · exact Or.inl h
        · exact Or.inr (Or.inr h)
      · rintro (h | h | h)
        · exact Or.inl h
        · left; rw [h, hl]; rfl
        · exact Or.inr h
    | none =>
      cases hf : d.Field i with
      | none =>
        have := his i (List.mem_cons_self _ _)
        rw [hf] at this
        cases this
      | some sf =>
        obtain ⟨m', hm', h1, h2⟩ := hrest (fieldSet m i (newStructField sf))
        refine ⟨m', ?_, ?_, ?_⟩
        · simp only [Struct.addLoop, hl, StructDecl.EnsureField, hf, Run.bind_ret]
          exact hm'
        · intro j
          rw [h1 j, fieldLookup_fieldSet, List.mem_cons]
          by_cases hk : i = j
          · simp [hk]
          · simp only [if_neg hk]
            constructor
            · rintro (h | h)
              · exact Or.inl h
              · exact Or.inr (Or.inr h)
            · rintro (h | h | h)
              · exact Or.inl h
              · exact absurd h.symm hk
              · exact Or.inr h
        · intro e he
          rcases h2 e he with h | h
          · rcases mem_fieldSet m i _ e h with h | h
            · exact Or.inl h
            · right
              rw [h]
              exact ⟨sf, hf, rfl⟩
          · exact Or.inr h

theorem newStructField_flat (lib : Library) (r : TypeRef) (i : Int) (sf : FieldMeta)
    (h : (lib.decl r).Field i = some sf) :
    (newStructField sf).Index = i ∧ ((lib.decl r).Field i).isSome = true ∧
      (newStructField sf).Fragment.IsUndefined = true := by
  refine ⟨(StructDecl.Field_index _ i sf h).1, by rw [h]; rfl, rfl⟩

/-- The source `Add` on a selection without nested selections, with indices
of fields of the type: it returns such a selection, with the indices of the
receiver and the added ones; without indices it returns the receiver. -/
theorem Struct.Add_spec (lib : Library) (r : TypeRef) (g : Struct) (is : List Int)
    (hg : FlatOver lib r g) (his : ∀ i ∈ is, ((lib.decl r).Field i).isSome = true) :
    ∃ R, g.Add lib is = .ret R ∧ FlatOver lib r R ∧
      (∀ j, R.hasKey j = true ↔ g.hasKey j = true ∨ j ∈ is) ∧
      (is ≠ [] → R.fields.isSome = true) ∧ (is = [] → R = g) := by
  by_cases hnil : is = []
  · subst hnil
    exact ⟨g, rfl, hg, by simp, fun h => absurd rfl h, fun _ => rfl⟩
  · have hl : ¬ is.length = 0 := by
      have := List.length_pos.mpr hnil; omega
    obtain ⟨mc, hcopy, hc1, hc2⟩ := Struct.definedOrEmptyCopy_spec g
    obtain ⟨m', hm', h1, h2⟩ := Struct.addLoop_spec lib (lib.decl r) is his mc
    refine ⟨.mk (some r) (some m'), ?_, ⟨rfl, ?_⟩, ?_, fun _ => rfl, fun h => absurd h hnil⟩
    · have hcopy' : g.definedOrEmptyCopy = .mk (some r) (some mc) := by rw [hcopy, hg.1]
      unfold Struct.Add
      rw [if_neg hl, hg.1]
      simp only [hcopy', Struct.fields, Option.getD_some, hm', Run.bind_ret, Struct.typeMeta]
    · intro e he
      rcases h2 e he with h | ⟨sf, hsf, hnew⟩
      · exact hg.2 e (hc2 e h)
      · rw [hnew]
        exact newStructField_flat lib r e.1 sf hsf
    · intro j
      show (fieldLookup m' j).isSome = true ↔ _
      rw [h1 j, hc1 j]

theorem Struct.mem_fieldIndices (f : Struct) (j : Int) :
    j ∈ f.fieldIndices ↔ f.hasKey j = true := by
  cases f with
  | mk t fs =>
    cases fs with
    | none => simp [Struct.fieldIndices, Struct.hasKey, Struct.fields, fieldLookup]
    | some m =>
      simp only [Struct.fieldIndices, Struct.fields, Struct.hasKey, Option.getD_some]
      rw [(List.perm_insertionSort _ _).mem_iff, fieldLookup_isSome_iff]

/-- The iteration of `assign` over fields without a defined tree: every
index is put on the list `add`. -/
theorem assignLoop_flat (lib : Library) (setRec : Struct → Int → Arg → Run Struct)
    (assignvRec : Struct → List Arg → Run Struct) (fields : List StructField)
    (hflat : ∀ field ∈ fields, field.Fragment.IsUndefined = true) :
    ∀ (f : Struct) (add : List Int),
      assignLoop lib setRec assignvRec fields f add
        = .ret (f, add ++ fields.map StructField.Index) := by
  induction fields with
  | nil => intro f add; simp [assignLoop]
  | cons field rest ih =>
    intro f add
    simp only [assignLoop, hflat field (List.mem_cons_self _ _), if_true]
    rw [ih (fun x hx => hflat x (List.mem_cons_of_mem _ hx))]
    simp

/-- The fields that `IterateFields` visits in a defined selection without
nested selections: none has a defined tree, and their indices are the sorted
indices of the map. -/
theorem FlatOver.iterated (lib : Library) (r : TypeRef) (af : Struct) (m : IndexMap)
    (haf : FlatOver lib r af) (hm : af.fields = some m) :
    (∀ field ∈ af.iterated lib false, field.Fragment.IsUndefined = true) ∧
    (af.iterated lib false).map StructField.Index = af.fieldIndices := by
  have hdef : af.IsUndefined = false := by
    simp [Struct.IsUndefined, hm, haf.1]
  have hiter : af.iterated lib false = af.fieldIndices.map (fun fieldIndex =>
      (fieldLookup (af.fields.getD []) fieldIndex).getD StructField.zero) := by
    simp only [Struct.iterated, haf.1, hdef, Bool.false_eq_true, if_false]
  have hentry : ∀ i ∈ af.fieldIndices,
      ((fieldLookup (af.fields.getD []) i).getD StructField.zero).Index = i ∧
      ((fieldLookup (af.fields.getD []) i).getD StructField.zero).Fragment.IsUndefined
        = true := by
    intro i hi
    have hk := (Struct.mem_fieldIndices af i).mp hi
    unfold Struct.hasKey at hk
    cases hl : fieldLookup (af.fields.getD []) i with
    | none => rw [hl] at hk; cases hk
    | some sf =>
      have := haf.2 (i, sf) (fieldLookup_mem _ i sf hl)
      exact ⟨this.1, this.2.2⟩
  rw [hiter]
  constructor
  · intro field hfield
    obtain ⟨i, hi, rfl⟩ := List.mem_map.mp hfield
    exact (hentry i hi).2
  · rw [List.map_map]
    conv_rhs => rw [← List.map_id af.fieldIndices]
    apply List.map_congr_left
    intro i hi
    exact (hentry i hi).1

/-- The source `assign` of a defined selection without nested selections
adds the indices of the selection. -/
theorem Struct.assign_flat (lib : Library) (fuel : Nat) (r : TypeRef) (g af : Struct)
    (m : IndexMap) (haf : FlatOver lib r af) (hm : af.fields = some m) :
    g.assign lib (fuel + 1) af = g.Add lib af.fieldIndices := by
  obtain ⟨h1, h2⟩ := FlatOver.iterated lib r af m haf hm
  simp only [Struct.assign, assignBody, assignLoop_flat lib _ _ _ h1, Run.bind_ret,
    List.nil_append, h2]

theorem FlatOver.field_of_hasKey (lib : Library) (r : TypeRef) (f : Struct) (j : Int)
    (hf : FlatOver lib r f) (h : f.hasKey j = true) :
    ((lib.decl r).Field j).isSome = true := by
  unfold Struct.hasKey at h
  cases hl : fieldLookup (f.fields.getD []) j with
  | none => rw [hl] at h; cases h
  | some sf => exact (hf.2 (j, sf) (fieldLookup_mem _ j sf hl)).2.1

/-- Assigning a selection without nested selections to one: the result is
such a selection, with the indices of both. -/
theorem Struct.assign_flat_spec (lib : Library) (fuel : Nat) (r : TypeRef) (g af : Struct)
    (hg : FlatOver lib r g) (haf : FlatOver lib r af) (hdef : af.fields.isSome = true) :
    ∃ R, g.assign lib (fuel + 1) af = .ret R ∧ FlatOver lib r R ∧
      (∀ j, R.hasKey j = true ↔ g.hasKey j = true ∨ af.hasKey j = true) ∧
      ((∃ j, af.hasKey j = true) → R.fields.isSome = true) ∧
      ((∀ j, af.hasKey j = false) → R = g) := by
  obtain ⟨m, hm⟩ := Option.isSome_iff_exists.mp hdef
  rw [Struct.assign_flat lib fuel r g af m haf hm]
  obtain ⟨R, hR, hflat, hkeys, hsome, hsame⟩ := Struct.Add_spec lib r g af.fieldIndices hg
    (fun i hi => FlatOver.field_of_hasKey lib r af i haf ((Struct.mem_fieldIndices af i).mp hi))
  refine ⟨R, hR, hflat, ?_, ?_, ?_⟩
  · intro j
    rw [hkeys j, Struct.mem_fieldIndices]
  · rintro ⟨j, hj⟩
    apply hsome
    intro h
    have := (Struct.mem_fieldIndices af j).mpr hj
    rw [h] at this
    cases this
  · intro hnone
    apply hsame
    apply List.eq_nil_iff_forall_not_mem.mpr
    intro j hj
    have := (Struct.mem_fieldIndices af j).mp hj
    rw [hnone j] at this
    cases this

theorem Struct.hasKey_of_undefined (f : Struct) (r : TypeRef) (ht : f.typeMeta = some r)
    (hu : f.IsUndefined = true) (j : Int) : f.hasKey j = false := by
  rw [Struct.eq_of_undefined f r ht hu]
  rfl

theorem Struct.fields_isSome_of_defined (f : Struct) (hu : f.IsUndefined = false) :
    f.fields.isSome = true := by
  cases f with
  | mk t fs =>
    cases fs with
    | none => simp [Struct.IsUndefined, Struct.fields] at hu
    | some m => rfl

/-- The loop of `ParseStruct` over several selections without nested
selections: it returns such a selection, with the indices of the tree it
started from and of the selections. -/
theorem parseStructLoop_flat (lib : Library) (fuel : Nat) (r : TypeRef)
    (toStructRec : Unstructured → Option TypeRef → Run (Struct × Option String))
    (flen : Nat) (hflen : flen ≠ 1) (Qs : List Struct) (hQs : ∀ Q ∈ Qs, FlatOver lib r Q) :
    ∀ structf, FlatOver lib r structf →
      ∃ af, parseStructLoop lib (Struct.assign lib (fuel + 1)) toStructRec (some r) none flen
          (Qs.map Arg.struct) structf = .ret (af, none) ∧
        FlatOver lib r af ∧
        (∀ j, af.hasKey j = true ↔ structf.hasKey j = true ∨ ∃ Q ∈ Qs, Q.hasKey j = true) := by
  induction Qs with
  | nil => intro structf hs; exact ⟨structf, rfl, hs, by simp⟩
  | cons vf rest ih =>
    intro structf hs
    have hvf := hQs vf (List.mem_cons_self _ _)
    have hrest := ih (fun Q hQ => hQs Q (List.mem_cons_of_mem _ hQ))
    cases hu : vf.IsUndefined with
    | true =>
      obtain ⟨af, haf, hflat, hkeys⟩ := hrest structf hs
      refine ⟨af, ?_, hflat, ?_⟩
      · simp only [List.map_cons, parseStructLoop, hu, if_true]
        exact haf
      · intro j
        rw [hkeys j]
        simp only [List.mem_cons, exists_eq_or_imp,
          Struct.hasKey_of_undefined vf r hvf.1 hu j, Bool.false_eq_true, false_or]
    | false =>
      obtain ⟨R, hR, hRflat, hRkeys, _, _⟩ := Struct.assign_flat_spec lib fuel r structf vf hs hvf
        (Struct.fields_isSome_of_defined vf hu)
      obtain ⟨af, haf, hflat, hkeys⟩ := hrest R hRflat
      refine ⟨af, ?_, hflat, ?_⟩
      · simp only [List.map_cons, parseStructLoop, hu, Bool.false_eq_true, if_false,
          Option.isSome_none, hvf.1, ne_eq, not_true_eq_false, hflen, hR, Run.bind_ret]
        exact haf
      · intro j
        rw [hkeys j, hRkeys j]
        simp only [List.mem_cons, exists_eq_or_imp, or_assoc]

/-- The source `Assign` of selections without nested selections, one of which
names a field, to an undefined or empty tree: the result has exactly the
indices that the selections name. -/
theorem Struct.Assign_of_flat_selections (lib : Library) (fuel : Nat) (r : TypeRef) (T : Struct)
    (Qs : List Struct) (hT : T.typeMeta = some r) (hTu : T.IsUndefinedOrEmpty = true)
    (hQs : ∀ Q ∈ Qs, FlatOver lib r Q) (hpop : ∃ Q ∈ Qs, ∃ j, Q.hasKey j = true) :
    ∃ R, T.Assign lib (fuel + 2) (Qs.map Arg.struct) = .ret R ∧ FlatOver lib r R ∧
      R.fields.isSome = true ∧
      (∀ j, R.hasKey j = true ↔ ∃ Q ∈ Qs, Q.hasKey j = true) := by
  have hTkeys : ∀ j, T.hasKey j = false := by
    intro j
    cases T with
    | mk t fs =>
      cases fs with
      | none => rfl
      | some m =>
        cases m with
        | nil => rfl
        | cons e m =>
          simp only [Struct.typeMeta] at hT
          subst hT
          simp [Struct.IsUndefinedOrEmpty, Struct.IsUndefined, Struct.fields, Struct.typeMeta,
            Struct.fieldsLen] at hTu
  have hTflat : FlatOver lib r T := by
    refine ⟨hT, ?_⟩
    intro e he
    have := hTkeys e.1
    rw [← Bool.not_eq_true] at this
    exact absurd ((fieldLookup_isSome_iff _ e.1).mpr (List.mem_map.mpr ⟨e, he, rfl⟩)) this
  -- the parse of the arguments
  have hparse : ∃ af, ParseStruct lib (fuel + 2) (typeArgOfStruct lib (some r))
        (Qs.map Arg.struct) = .ret (af, none) ∧ FlatOver lib r af ∧
      (∀ j, af.hasKey j = true ↔ ∃ Q ∈ Qs, Q.hasKey j = true) := by
    by_cases h1 : Qs.length = 1
    · obtain ⟨Q, rfl⟩ := List.length_eq_one.mp h1
      obtain ⟨Q', hQ', j, hj⟩ := hpop
      rw [List.mem_singleton] at hQ'
      subst hQ'
      have hflat := hQs Q' (List.mem_singleton_self _)
      have hdef : Q'.IsUndefined = false := by
        cases hu : Q'.IsUndefined with
        | false => rfl
        | true =>
          rw [Struct.hasKey_of_undefined Q' r hflat.1 hu j] at hj
          cases hj
      refine ⟨Q', ?_, hflat, by simp⟩
      simp only [ParseStruct, parseStructBody, typeArgOfStruct, List.map_cons, List.map_nil,
        List.length_singleton, parseStructLoop, hdef, Bool.false_eq_true, if_false,
        Option.isSome_none, hflat.1, ne_eq, not_true_eq_false, if_true]
      simp
    · have h0 : ¬ (Qs.map Arg.struct).length = 0 := by
        obtain ⟨Q, hQ, _⟩ := hpop
        rw [List.length_map]
        have := List.length_pos_of_mem hQ
        omega
      obtain ⟨af, haf, hflat, hkeys⟩ := parseStructLoop_flat lib fuel r
        (fun fi structTypeMeta =>
          (Unstructured.toStruct lib (fuel + 1) fi structTypeMeta []).bind (fun r => .ret r.1))
        (Qs.map Arg.struct).length (by rw [List.length_map]; exact h1) Qs hQs
        (.mk (some r) none) ⟨rfl, fun e he => by cases he⟩
      refine ⟨af, ?_, hflat, ?_⟩
      · simp only [ParseStruct, parseStructBody, typeArgOfStruct, if_neg h0]
        exact haf
      · intro j
        rw [hkeys j]
        simp [Struct.hasKey, Struct.fields, fieldLookup]
  obtain ⟨af, haf, hafflat, hafkeys⟩ := hparse
  have hafpop : ∃ j, af.hasKey j = true := by
    obtain ⟨Q, hQ, j, hj⟩ := hpop
    exact ⟨j, (hafkeys j).mpr ⟨Q, hQ, hj⟩⟩
  have hafdef : af.fields.isSome = true := by
    obtain ⟨j, hj⟩ := hafpop
    cases h : af.fields with
    | some m => rfl
    | none => simp [Struct.hasKey, h, fieldLookup] at hj
  obtain ⟨R, hR, hRflat, hRkeys, hRsome, _⟩ := Struct.assign_flat_spec lib (fuel + 1) r T af
    hTflat hafflat hafdef
  refine ⟨R, ?_, hRflat, hRsome hafpop, ?_⟩
  · simp only [Struct.Assign, assignvBody, hT, haf, Run.bind_ret]
    exact hR
  · intro j
    rw [hRkeys j, hTkeys j, hafkeys j]
    simp

/-- On a defined selection without nested selections `HasByIndex` is the
presence of the index in the map. -/
theorem FlatOver.HasByIndex_eq (lib : Library) (r : TypeRef) (R : Struct)
    (hR : FlatOver lib r R) (hdef : R.fields.isSome = true) (j : Int) :
    R.HasByIndex lib j = R.hasKey j := by
  cases R with
  | mk t fs =>
    have ht := hR.1
    simp only [Struct.typeMeta] at ht
    subst ht
    cases fs with
    | none => cases hdef
    | some m =>
      rw [Struct.HasByIndex_defined]
      cases hk : (Struct.mk (some r) (some m)).hasKey j with
      | false =>
        have : (fieldLookup m j).isSome = false := hk
        rw [this, Bool.and_false]
      | true =>
        have : (fieldLookup m j).isSome = true := hk
        rw [this, FlatOver.field_of_hasKey lib r _ j hR hk]
        rfl

/-! ### The default expansion of `toStruct` -/

/-- The call `NewUnstructured().toStruct(...)` returns at once, with the
undefined tree of the type. -/
theorem toStruct_undefined (lib : Library) (fuel : Nat) (s : TypeRef) (circular : List TypeRef) :
    Unstructured.toStruct lib (fuel + 1) NewUnstructured (some s) circular
      = .ret ((.mk (some s) none, none), circular) := rfl

/-- The iteration of the default expansion returns: it leaves the table and
the error as they are, and every entry it adds has a tree with the nil
map. -/
theorem toStructDefaults_returns (lib : Library) (fuel : Nat) (has : Bool)
    (fields : List FieldMeta) :
    ∀ (acc : IndexMap) (err : Option String) (circular : List TypeRef),
      ∃ m, toStructDefaults has (Unstructured.toStruct lib (fuel + 1)) fields acc err circular
          = .ret ((m, err), circular) ∧
        ∀ e ∈ m, e ∈ acc ∨ e.2.Fragment.fields = none := by
  induction fields with
  | nil => intro acc err circular; exact ⟨acc, rfl, fun e he => Or.inl he⟩
  | cons sf rest ih =>
    intro acc err circular
    simp only [toStructDefaults]
    split
    · exact ih acc err circular
    · cases hs : structOfField sf with
      | none =>
        obtain ⟨m, hm, hall⟩ := ih (fieldSet acc sf.Index (.mk sf (.mk none none))) err circular
        refine ⟨m, hm, ?_⟩
        intro e he
        rcases hall e he with h | h
        · rcases mem_fieldSet acc _ _ e h with h | h
          · exact Or.inl h
          · right; rw [h]; rfl
        · exact Or.inr h
      | some s =>
        obtain ⟨m, hm, hall⟩ := ih (fieldSet acc sf.Index (.mk sf (.mk (some s) none))) err
          circular
        refine ⟨m, ?_, ?_⟩
        · simp only [toStruct_undefined, Run.bind_ret]
          exact hm
        · intro e he
          rcases hall e he with h | h
          · rcases mem_fieldSet acc _ _ e h with h | h
            · exact Or.inl h
            · right; rw [h]; rfl
          · exact Or.inr h

/-! ### The parts returned by `splitFragment` -/

theorem scanDepth_snoc_left (d : Nat) (inner : List Char) (k : Nat)
    (h : scanDepth d inner = some k) :
    scanDepth d (inner ++ [leftBrace]) = some (k + 1) := by
  rw [scanDepth_append, h]
  simp [scanDepth]

theorem scanDepth_snoc_right (d : Nat) (inner : List Char) (k : Nat)
    (h : scanDepth d inner = some (k + 1)) :
    scanDepth d (inner ++ [rightBrace]) = some k := by
  rw [scanDepth_append, h]
  simp [scanDepth, leftBrace_ne_rightBrace.symm]

theorem scanDepth_snoc_other (d : Nat) (inner : List Char) (k : Nat) (c : Char)
    (hl : c ≠ leftBrace) (hr : c ≠ rightBrace) (h : scanDepth d inner = some k) :
    scanDepth d (inner ++ [c]) = some k := by
  rw [scanDepth_append, h]
  simp [scanDepth, hl, hr]

/-- The state of the loop of `splitFragment`: the parts found so far are
well formed; at depth 0 the current part holds no brace, and inside a block
it is the opening brace followed by runes that reach the depth before the
current one. -/
def ScanState (parts : List (List Char)) (cur : List Char) (d : Nat) : Prop :=
  (∀ p ∈ parts, GoodPart p) ∧
    (d = 0 → ∀ c ∈ cur, c ≠ leftBrace ∧ c ≠ rightBrace) ∧
    (d ≠ 0 → ∃ inner, cur = leftBrace :: inner ∧ scanDepth 0 inner = some (d - 1))

theorem goodPart_of_plain (cur : List Char) (hne : cur ≠ [])
    (h : ∀ c ∈ cur, c ≠ leftBrace ∧ c ≠ rightBrace) : GoodPart cur := by
  refine ⟨hne, ?_⟩
  intro hh
  cases cur with
  | nil => exact absurd rfl hne
  | cons c cs =>
    simp only [List.head?_cons, Option.some.injEq] at hh
    exact absurd hh (h c (List.mem_cons_self _ _)).1

theorem goodPart_block (inner : List Char) (h : scanDepth 0 inner = some 0) :
    GoodPart (leftBrace :: inner ++ [rightBrace]) :=
  ⟨by simp, fun _ => ⟨inner, rfl, h⟩⟩

theorem braceScan_parts (whole : List Char) (rest : List Char) :
    ∀ (i : Nat) (parts : List (List Char)) (cur : List Char) (d : Nat) (out : List (List Char)),
      rest ≠ [] → ScanState parts cur d →
      braceScan whole rest i parts cur d = .ret (out, none) →
      (∀ p ∈ out, GoodPart p) ∧ out.flatten = parts.flatten ++ cur ++ rest := by
  induction rest with
  | nil => intro i parts cur d out h; exact absurd rfl h
  | cons c r ih =>
    intro i parts cur d out _ hst hres
    obtain ⟨hparts, hzero, hpos⟩ := hst
    by_cases hr : r = []
    · subst hr
      simp only [braceScan] at hres
      by_cases hl : c = leftBrace
      · simp only [if_pos hl] at hres
        by_cases hd : d = 0
        · simp [hd] at hres
        · simp [hd] at hres
      · simp only [if_neg hl] at hres
        by_cases hrb : c = rightBrace
        · simp only [if_pos hrb] at hres
          by_cases hd : d = 0
          · simp [hd] at hres
          · simp only [if_neg hd] at hres
            by_cases hd1 : d - 1 = 0
            · simp only [hd1, ne_eq, not_true_eq_false, if_false, if_true, Run.ret.injEq,
                Prod.mk.injEq, and_true] at hres
              subst hres
              obtain ⟨inner, hcur, hin⟩ := hpos hd
              rw [hd1] at hin
              refine ⟨?_, by simp⟩
              intro p hp
              rcases List.mem_append.1 hp with h | h
              · exact hparts p h
              · rw [List.mem_singleton] at h
                rw [h, hcur, hrb]
                exact goodPart_block inner hin
            · simp [hd1] at hres
        · simp only [if_neg hrb, if_true] at hres
          by_cases hd : d = 0
          · simp only [hd, ne_eq, not_true_eq_false, if_false, Run.ret.injEq,
              Prod.mk.injEq, and_true] at hres
            subst hres
            refine ⟨?_, by simp⟩
            intro p hp
            rcases List.mem_append.1 hp with h | h
            · exact hparts p h
            · rw [List.mem_singleton] at h
              rw [h]
              refine goodPart_of_plain _ (by simp) ?_
              intro x hx
              rcases List.mem_append.1 hx with h' | h'
              · exact hzero hd x h'
              · rw [List.mem_singleton] at h'
                rw [h']; exact ⟨hl, hrb⟩
          · simp [hd] at hres
    · simp only [braceScan] at hres
      by_cases hl : c = leftBrace
      · simp only [if_pos hl] at hres
        by_cases hd : d = 0
        · simp only [if_pos hd] at hres
          have hst' : ScanState (if cur.length ≠ 0 then parts ++ [cur] else parts) [c] (d + 1) := by
            refine ⟨?_, fun h => absurd h (Nat.succ_ne_zero _), fun _ => ⟨[], by rw [hl], ?_⟩⟩
            · intro p hp
              by_cases hc : cur.length ≠ 0
              · rw [if_pos hc] at hp
                rcases List.mem_append.1 hp with h | h
                · exact hparts p h
                · rw [List.mem_singleton] at h
                  rw [h]
                  exact goodPart_of_plain cur (fun hh => hc (by rw [hh]; rfl)) (hzero hd)
              · rw [if_neg hc] at hp
                exact hparts p hp
            · rw [hd]; rfl
          obtain ⟨h1, h2⟩ := ih _ _ _ _ out hr hst' hres
          refine ⟨h1, ?_⟩
          rw [h2]
          by_cases hc : cur.length ≠ 0
          · rw [if_pos hc]; simp
          · rw [if_neg hc]
            have : cur = [] := List.length_eq_zero.1 (not_not.1 hc)
            rw [this]; simp
        · simp only [if_neg hd] at hres
          obtain ⟨inner, hcur, hin⟩ := hpos hd
          have hst' : ScanState parts (cur ++ [c]) (d + 1) := by
            refine ⟨hparts, fun h => absurd h (Nat.succ_ne_zero _),
              fun _ => ⟨inner ++ [leftBrace], by rw [hcur, hl]; rfl, ?_⟩⟩
            have := scanDepth_snoc_left 0 inner (d - 1) hin
            rw [this]
            congr 1
            omega
          obtain ⟨h1, h2⟩ := ih _ _ _ _ out hr hst' hres
          exact ⟨h1, by rw [h2]; simp⟩
      · simp only [if_neg hl] at hres
        by_cases hrb : c = rightBrace
        · simp only [if_pos hrb] at hres
          by_cases hd : d = 0
          · simp [hd] at hres
          · simp only [if_neg hd] at hres
            obtain ⟨inner, hcur, hin⟩ := hpos hd
            by_cases hd1 : d - 1 = 0
            · simp only [if_pos hd1] at hres
              have hst' : ScanState (parts ++ [cur ++ [c]]) [] (d - 1) := by
                refine ⟨?_, fun _ x hx => absurd hx (List.not_mem_nil _), fun h => absurd hd1 h⟩
                intro p hp
                rcases List.mem_append.1 hp with h | h
                · exact hparts p h
                · rw [List.mem_singleton] at h
                  rw [h, hcur, hrb]
                  rw [hd1] at hin
                  exact goodPart_block inner hin
              obtain ⟨h1, h2⟩ := ih _ _ _ _ out hr hst' hres
              exact ⟨h1, by rw [h2]; simp⟩
            · simp only [if_neg hd1] at hres
              have hst' : ScanState parts (cur ++ [c]) (d - 1) := by
                refine ⟨hparts, fun h => absurd h hd1,
                  fun _ => ⟨inner ++ [rightBrace], by rw [hcur, hrb]; rfl, ?_⟩⟩
                have hin' : scanDepth 0 inner = some ((d - 1 - 1) + 1) := by
                  rw [hin]; congr 1; omega
                exact scanDepth_snoc_right 0 inner _ hin'
              obtain ⟨h1, h2⟩ := ih _ _ _ _ out hr hst' hres
              exact ⟨h1, by rw [h2]; simp⟩
        · simp only [if_neg hrb, if_neg hr] at hres
          have hst' : ScanState parts (cur ++ [c]) d := by
            refine ⟨hparts, ?_, ?_⟩
            · intro hd x hx
              rcases List.mem_append.1 hx with h' | h'
              · exact hzero hd x h'
              · rw [List.mem_singleton] at h'
                rw [h']; exact ⟨hl, hrb⟩
            · intro hd
              obtain ⟨inner, hcur, hin⟩ := hpos hd
              exact ⟨inner ++ [c], by rw [hcur]; rfl, scanDepth_snoc_other 0 inner _ c hl hrb hin⟩
          obtain ⟨h1, h2⟩ := ih _ _ _ _ out hr hst' hres
          exact ⟨h1, by rw [h2]; simp⟩

/-- Whenever `splitFragment` returns without error, the parts concatenated
are the input and every part is well formed. -/
theorem splitFragment_parts (chars : List Char) (out : List (List Char))
    (h : splitFragment chars chars.length = .ret (out, none)) :
    out.flatten = chars ∧ ∀ p ∈ out, GoodPart p := by
  rw [splitFragment_eq] at h
  cases chars with
  | nil =>
    simp only [braceScan, ne_eq, not_true_eq_false, if_false, Run.ret.injEq, Prod.mk.injEq,
      and_true] at h
    subst h
    exact ⟨rfl, fun p hp => absurd hp (List.not_mem_nil _)⟩
  | cons c cs =>
    have hst : ScanState [] [] 0 :=
      ⟨fun p hp => absurd hp (List.not_mem_nil _), fun _ x hx => absurd hx (List.not_mem_nil _),
        fun h => absurd rfl h⟩
    obtain ⟨h1, h2⟩ := braceScan_parts (c :: cs) (c :: cs) 0 [] [] 0 out (List.cons_ne_nil _ _)
      hst h
    exact ⟨by simpa using h2, h1⟩

/-- The default expansion of the type `Node`, which has a field of its own
type and a field of a type that refers back to it, returns a tree with the
three fields of `Node`. -/
theorem toStruct_cyclic_example :
    ∃ m, NewEmptyUnstructured.ToStruct cyclicLibrary 2 (some "Node")
        = .ret (.mk (some "Node") (some m), none) ∧ m.length = 3 :=
  ⟨_, rfl, rfl⟩

/-! ### Paths -/

/-- The loop of the source `ToFragment` of an untyped path returns, whatever
the names and the tail tree. -/
theorem UnstructuredPath.toFragmentLoop_returns (ip : UnstructuredPath) (maxIndex : Int)
    (names : List String) :
    ∀ (i : Int) (current : Unstructured),
      ∃ last, UnstructuredPath.toFragmentLoop ip maxIndex names i current = .ret last := by
  induction names with
  | nil => intro i current; exact ⟨current, rfl⟩
  | cons key rest ih =>
    intro i current
    simp only [UnstructuredPath.toFragmentLoop]
    by_cases hi : i = maxIndex
    · rw [if_pos hi]
      cases htail : ip.tailFragment with
      | none => exact ih _ _
      | some tail =>
        cases hu : tail.IsUndefined with
        | true =>
          simp only [hu, Bool.not_true, Bool.false_eq_true, if_false]
          exact ih _ _
        | false =>
          simp only [hu, Bool.not_false, if_true, Unstructured.Set, Run.bind_ret]
          exact ih _ _
    · rw [if_neg hi]
      simp only [Unstructured.Set, Run.bind_ret, Unstructured.Field, Unstructured.fields,
        mapLookup_mapSet, if_true, Option.getD_some]
      exact ih _ _

/-- The source `ToFragment` of an untyped path with a non-nil slice of names
returns the undefined tree. -/
theorem UnstructuredPath.ToFragment_undefined (names : List String)
    (tail : Option Unstructured) :
    (UnstructuredPath.mk (some names) tail).ToFragment = .ret (some NewUnstructured) := by
  obtain ⟨last, h⟩ := UnstructuredPath.toFragmentLoop_returns (UnstructuredPath.mk (some names) tail)
    ((names.length : Int) - 1) names 0 NewUnstructured
  simp only [UnstructuredPath.ToFragment, UnstructuredPath.FieldNames, h, Run.bind_ret]

/-- A tree is not one of the children it stores. -/
theorem Struct.ne_of_child (t : Option TypeRef) (m : IndexMap) (i : Int) (sf : FieldMeta)
    (child : Struct) (h : fieldLookup m i = some (.mk sf child)) :
    child ≠ Struct.mk t (some m) := by
  intro heq
  have hmem := fieldLookup_mem m i _ h
  have h1 : sizeOf (i, StructField.mk sf child) < sizeOf m := List.sizeOf_lt_of_mem hmem
  have h2 : sizeOf child < sizeOf (i, StructField.mk sf child) := by
    simp only [Prod.mk.sizeOf_spec, StructField.mk.sizeOf_spec]
    omega
  have h3 : sizeOf m < sizeOf (Struct.mk t (some m)) := by
    simp only [Struct.mk.sizeOf_spec, Option.some.sizeOf_spec]
    omega
  have h4 : sizeOf child = sizeOf (Struct.mk t (some m)) := congrArg sizeOf heq
  omega

theorem splitDotsLoop_ne_nil (l : List Char) : ∀ cur, splitDotsLoop l cur ≠ [] := by
  induction l with
  | nil => intro cur; simp [splitDotsLoop]
  | cons c rest ih =>
    intro cur
    simp only [splitDotsLoop]
    split
    · exact List.cons_ne_nil _ _
    · exact ih _

theorem splitDots_ne_nil (s : String) : splitDots s ≠ [] := by
  simp only [splitDots, ne_eq, List.map_eq_nil_iff]
  exact splitDotsLoop_ne_nil _ _

/-- The source `FragmentAt` returns its argument whenever it returns. -/
theorem StructPath.FragmentAt_eq (lib : Library) (sp : StructPath) (T R : Struct)
    (h : sp.FragmentAt lib T = .ret R) : R = T := by
  simp only [StructPath.FragmentAt] at h
  cases hl : StructPath.fragmentAtLoop lib (sp.FieldIndices.getD []) T with
  | ret x =>
    rw [hl] at h
    simp only [Run.bind_ret, Run.ret.injEq] at h
    exact h.symm
  | panic msg => rw [hl] at h; cases h
  | outOfFuel => rw [hl] at h; cases h

/-! ### Typed paths -/

theorem nest_cons (lib : Library) (r : TypeRef) (i : Int) (rest : List Int) (sf : FieldMeta)
    (h : (lib.decl r).Field i = some sf) :
    nest lib (some r) (i :: rest)
      = .mk (some r) (some [(i, .mk sf (nest lib (structOfField sf) rest))]) := by
  simp only [nest, h]

theorem walk_cons (lib : Library) (r : TypeRef) (i : Int) (rest : List Int) (sf : FieldMeta)
    (h : (lib.decl r).Field i = some sf) :
    walk lib (some r) (i :: rest) = walk lib (structOfField sf) rest := by
  simp only [walk, h]

theorem walk_nil (lib : Library) (t : Option TypeRef) : walk lib t [] = t := by
  cases t <;> rfl

/-- The tree `nest` of indices that resolve has one level for every index. -/
theorem nestedLevels_nest (lib : Library) (indices : List Int) :
    ∀ t, Resolves lib t indices → NestedLevels lib t indices (nest lib t indices) := by
  induction indices with
  | nil => intro t _; cases t <;> rfl
  | cons i rest ih =>
    intro t h
    cases t with
    | none => exact absurd h (by simp [Resolves])
    | some r =>
      simp only [Resolves] at h
      obtain ⟨sf, hsf, hrest⟩ := h
      exact ⟨r, sf, _, rfl, hsf, nest_cons lib r i rest sf hsf, ih _ hrest⟩

/-- Names that resolve give indices that resolve, as many as the names. -/
theorem resolves_of_names (lib : Library) (names : List String) :
    ∀ t indices, NamesResolve lib t names indices →
      Resolves lib t indices ∧ indices.length = names.length := by
  induction names with
  | nil =>
    intro t indices h
    have : indices = [] := by cases t <;> simpa [NamesResolve] using h
    subst this
    exact ⟨by cases t <;> simp [Resolves], rfl⟩
  | cons n names ih =>
    intro t indices h
    cases t with
    | none => exact absurd h (by simp [NamesResolve])
    | some r =>
      simp only [NamesResolve] at h
      obtain ⟨sf, rest, hsf, hidx, hrest⟩ := h
      subst hidx
      obtain ⟨h1, h2⟩ := ih _ _ hrest
      refine ⟨?_, by simp [h2]⟩
      simp only [Resolves]
      exact ⟨sf, StructDecl.FieldByName_field _ _ _ hsf, h1⟩

/-- The loop over the names of the source `NewStructPath` returns the
indices appended, when the names resolve. -/
theorem structPathNames_resolved (lib : Library) (names : List String) :
    ∀ t indices acc, NamesResolve lib t names indices →
      ∃ last, structPathNames lib names acc t = .ret (acc ++ indices, last) := by
  induction names with
  | nil =>
    intro t indices acc h
    have : indices = [] := by cases t <;> simpa [NamesResolve] using h
    subst this
    exact ⟨t, by simp [structPathNames]⟩
  | cons n names ih =>
    intro t indices acc h
    cases t with
    | none => exact absurd h (by simp [NamesResolve])
    | some r =>
      simp only [NamesResolve] at h
      obtain ⟨sf, rest, hsf, hidx, hrest⟩ := h
      subst hidx
      obtain ⟨last, hl⟩ := ih _ _ (acc ++ [sf.Index]) hrest
      refine ⟨last, ?_⟩
      simp only [structPathNames, StructDecl.EnsureFieldByName, hsf, Run.bind_ret, hl,
        List.append_assoc, List.singleton_append]

theorem NewStruct_returns (lib : Library) (t : TypeArg) :
    NewStruct lib t = .ret (.mk t.structOf none) := rfl

theorem StructDecl.Field_typeMeta (d : StructDecl) (i : Int) (sf : FieldMeta)
    (h : d.Field i = some sf) : ∃ ta, sf.TypeMeta = some ta := by
  unfold StructDecl.Field at h
  split at h
  · cases h
  · rw [Option.map_eq_some'] at h
    obtain ⟨fd, _, hfd⟩ := h
    rw [← hfd]
    exact ⟨fd.TypeMeta, rfl⟩

theorem ParseStruct_undefined_tree (lib : Library) (fuel : Nat) (t : TypeArg) (cur : Struct)
    (h : cur.IsUndefined = true) :
    ParseStruct lib (fuel + 1) t [.struct cur] = .ret (.mk t.structOf none, none) := by
  show parseStructBody lib _ _ t [.struct cur] = _
  simp only [parseStructBody, List.length_singleton, one_ne_zero, if_false, parseStructLoop, h,
    if_true]

theorem ParseStruct_defined_tree (lib : Library) (fuel : Nat) (t : TypeArg) (cur : Struct)
    (h : cur.IsUndefined = false) (ht : cur.typeMeta = t.structOf) :
    ParseStruct lib (fuel + 1) t [.struct cur] = .ret (cur, none) := by
  show parseStructBody lib _ _ t [.struct cur] = _
  have hs : t.structOf.isSome = true := by
    rw [← ht]
    simp only [Struct.IsUndefined, Bool.or_eq_false_iff] at h
    cases hc : cur.typeMeta with
    | none => rw [hc] at h; simp at h
    | some _ => rfl
  obtain ⟨s, hs'⟩ := Option.isSome_iff_exists.1 hs
  simp only [parseStructBody, List.length_singleton, one_ne_zero, if_false, parseStructLoop, h,
    Bool.false_eq_true, hs', Option.isSome_none, ht, ne_eq, not_true_eq_false, if_true]

/-- The source `Set` on the undefined tree of a type, with a field of the
type and a tree that is undefined or of the struct type of the field: the
result has the one entry of the field. -/
theorem Struct.Set_level (lib : Library) (fuel : Nat) (s : TypeRef) (i : Int) (sf : FieldMeta)
    (cur : Struct) (hsf : (lib.decl s).Field i = some sf)
    (hcur : cur.IsUndefined = true ∨ cur.typeMeta = structOfField sf) :
    Struct.Set lib (fuel + 2) (.mk (some s) none) i (.struct cur)
      = .ret (.mk (some s) (some [(i, .mk sf
          (if cur.IsUndefined then .mk (structOfField sf) none else cur))])) := by
  obtain ⟨ta, hta⟩ := StructDecl.Field_typeMeta _ _ _ hsf
  have hso : structOfField sf = ta.structOf := by simp [structOfField, hta]
  show setBody lib (ParseStruct lib (fuel + 1)) (Struct.mk (some s) none) i (.struct cur) = _
  simp only [setBody, Struct.typeMeta, StructDecl.EnsureField, hsf, Run.bind_ret, hta,
    typeArgOfField]
  cases hu : cur.IsUndefined with
  | true =>
    rw [ParseStruct_undefined_tree lib fuel ta cur hu]
    simp only [Run.bind_ret, Struct.definedOrEmptyCopy, Struct.fields, Option.getD_some,
      fieldLookup, Struct.typeMeta, fieldSet, if_true, hso]
  | false =>
    have ht : cur.typeMeta = ta.structOf := by
      rcases hcur with h | h
      · rw [hu] at h; cases h
      · rw [h, hso]
    rw [ParseStruct_defined_tree lib fuel ta cur hu ht]
    simp only [Run.bind_ret, Struct.definedOrEmptyCopy, Struct.fields, Option.getD_some,
      fieldLookup, Struct.typeMeta, fieldSet, Bool.false_eq_true, if_false]

/-- The source `Add` of one index on the undefined tree of a type. -/
theorem Struct.Add_level (lib : Library) (s : TypeRef) (i : Int) (sf : FieldMeta)
    (hsf : (lib.decl s).Field i = some sf) :
    (Struct.mk (some s) none).Add lib [i]
      = .ret (.mk (some s) (some [(i, .mk sf (.mk (structOfField sf) none))])) := by
  simp only [Struct.Add, List.length_singleton, one_ne_zero, if_false, Struct.typeMeta,
    Struct.definedOrEmptyCopy, Struct.fields, Option.getD_some, Struct.addLoop, fieldLookup,
    StructDecl.EnsureField, hsf, Run.bind_ret, fieldSet, newStructField]

/-- What the index at position `k` of indices that resolve reaches. -/
theorem resolves_at (lib : Library) (indices : List Int) :
    ∀ (t : Option TypeRef) (k : Nat), Resolves lib t indices → k < indices.length →
      ∃ s sf i, walk lib t (indices.take k) = some s ∧ indices[k]? = some i ∧
        (lib.decl s).Field i = some sf ∧
        walk lib t (indices.take (k + 1)) = structOfField sf ∧
        ensureStructFieldAt lib t (indices.take (k + 1)) = .ret sf ∧
        indices.drop k = i :: indices.drop (k + 1) ∧
        (k + 1 < indices.length → ∃ s', structOfField sf = some s') := by
  induction indices with
  | nil => intro t k _ hk; exact absurd hk (Nat.not_lt_zero _)
  | cons i0 rest ih =>
    intro t k hres hk
    cases t with
    | none => exact absurd hres (by simp [Resolves])
    | some r =>
      simp only [Resolves] at hres
      obtain ⟨sf0, hsf0, hrest⟩ := hres
      cases k with
      | zero =>
        refine ⟨r, sf0, i0, rfl, by simp, hsf0, ?_, ?_, rfl, ?_⟩
        · simp only [zero_add, List.take_succ_cons, List.take_zero, walk_cons lib r i0 [] sf0 hsf0,
            walk_nil]
        · simp only [zero_add, List.take_succ_cons, List.take_zero, ensureStructFieldAt,
            StructDecl.EnsureField, hsf0]
        · intro h1
          cases rest with
          | nil => simp at h1
          | cons j rest' =>
            cases hs : structOfField sf0 with
            | none => rw [hs] at hrest; exact absurd hrest (by simp [Resolves])
            | some s' => exact ⟨s', rfl⟩
      | succ k' =>
        have hk' : k' < rest.length := by simpa using hk
        obtain ⟨s, sf, i, h1, h2, h3, h4, h5, h6, h7⟩ := ih (structOfField sf0) k' hrest hk'
        refine ⟨s, sf, i, ?_, ?_, h3, ?_, ?_, ?_, ?_⟩
        · rw [List.take_succ_cons, walk_cons lib r i0 _ sf0 hsf0, h1]
        · simpa using h2
        · rw [List.take_succ_cons, walk_cons lib r i0 _ sf0 hsf0, h4]
        · rw [List.take_succ_cons]
          cases rest with
          | nil => simp at hk'
          | cons j rest' =>
            rw [List.take_succ_cons] at h5 ⊢
            simp only [ensureStructFieldAt, StructDecl.EnsureField, hsf0, Run.bind_ret]
            exact h5
        · simpa using h6
        · intro hlen
          exact h7 (by simpa using hlen)

/-- The loop of the source `ToStructFragment` on indices that resolve: from
the tree of the levels below position `k + 1`, or from an undefined tree at
the last position, it returns the tree of the levels below position 1, or
the undefined tree it started from when there is one index only. -/
theorem StructPath.toStructFragmentLoop_spec (lib : Library) (fuel : Nat) (sp : StructPath)
    (indices : List Int) (hres : Resolves lib sp.typeMeta indices) :
    ∀ (k : Nat) (cur : Struct), k < indices.length →
      ((k + 1 = indices.length ∧ cur.IsUndefined = true) ∨
        (k + 1 < indices.length ∧
          cur = nest lib (walk lib sp.typeMeta (indices.take (k + 1))) (indices.drop (k + 1)))) →
      ∃ last, StructPath.toStructFragmentLoop lib (fuel + 2) sp indices k cur = .ret last ∧
        ((1 = indices.length ∧ last.IsUndefined = true) ∨
          (1 < indices.length ∧
            last = nest lib (walk lib sp.typeMeta (indices.take 1)) (indices.drop 1))) := by
  intro k
  induction k with
  | zero => intro cur _ hcur; exact ⟨cur, rfl, hcur⟩
  | succ k ih =>
    intro cur hk hcur
    obtain ⟨s0, sf0, i0, _, _, _, a4, a5, _, a7⟩ := resolves_at lib indices sp.typeMeta k hres
      (by omega)
    obtain ⟨s, hs⟩ := a7 hk
    obtain ⟨s1, sf, i, b1, b2, b3, b4, _, b6, _⟩ := resolves_at lib indices sp.typeMeta (k + 1)
      hres hk
    have hs1 : s1 = s := by
      rw [a4, hs] at b1
      exact (Option.some.inj b1).symm
    subst hs1
    obtain ⟨ta, hta⟩ : ∃ ta, sf0.TypeMeta = some ta := by
      cases h : sf0.TypeMeta with
      | none => simp [structOfField, h] at hs
      | some ta => exact ⟨ta, rfl⟩
    have hso : ta.structOf = some s1 := by simpa [structOfField, hta] using hs
    have hnew : nest lib (walk lib sp.typeMeta (indices.take (k + 1))) (indices.drop (k + 1))
        = .mk (some s1) (some [(i, .mk sf
            (nest lib (walk lib sp.typeMeta (indices.take (k + 1 + 1)))
              (indices.drop (k + 1 + 1))))]) := by
      rw [b1, b6, nest_cons lib s1 i _ sf b3, b4]
    have hok : (k + 1 = indices.length ∧
          (nest lib (walk lib sp.typeMeta (indices.take (k + 1)))
            (indices.drop (k + 1))).IsUndefined = true) ∨
        (k + 1 < indices.length ∧
          nest lib (walk lib sp.typeMeta (indices.take (k + 1))) (indices.drop (k + 1))
            = nest lib (walk lib sp.typeMeta (indices.take (k + 1))) (indices.drop (k + 1))) :=
      Or.inr ⟨hk, rfl⟩
    obtain ⟨last, hl1, hl2⟩ := ih _ (by omega) hok
    refine ⟨last, ?_, hl2⟩
    rw [← hl1]
    simp only [StructPath.toStructFragmentLoop, a5, Run.bind_ret, hta, typeArgOfField,
      NewStruct_returns, hso, Struct.IsValid, Struct.typeMeta, Option.isSome_some, Bool.not_true,
      Bool.false_eq_true, if_false, b2]
    rcases hcur with ⟨hlen, hu⟩ | ⟨hlen, hc⟩
    · rw [if_pos hu, Struct.Add_level lib s1 i sf b3, Run.bind_ret, hnew]
      have hd : indices.drop (k + 1 + 1) = [] := List.drop_eq_nil_of_le (by omega)
      rw [hd, b4]
      cases structOfField sf <;> rfl
    · obtain ⟨s2, sf2, i2, c1, _, c3, _, _, c6, _⟩ := resolves_at lib indices sp.typeMeta
        (k + 1 + 1) hres hlen
      have hcur' : cur = .mk (some s2) (some [(i2, .mk sf2
          (nest lib (structOfField sf2) (indices.drop (k + 1 + 1 + 1))))]) := by
        rw [hc, c1, c6, nest_cons lib s2 i2 _ sf2 c3]
      have hu : cur.IsUndefined = false := by rw [hcur']; rfl
      have htm : cur.typeMeta = structOfField sf := by rw [hcur', ← b4, c1]; rfl
      rw [if_neg (by rw [hu]; simp), Struct.Set_level lib fuel s1 i sf cur b3 (Or.inr htm),
        Run.bind_ret, hnew, hu, ← hc]
      rfl

/-- The tree `nest` of a type and of indices that resolve and are not empty
is a defined tree of the type. -/
theorem nest_defined (lib : Library) (t : Option TypeRef) (i : Int) (rest : List Int)
    (h : Resolves lib t (i :: rest)) :
    (nest lib t (i :: rest)).IsUndefined = false ∧ (nest lib t (i :: rest)).typeMeta = t := by
  cases t with
  | none => exact absurd h (by simp [Resolves])
  | some r =>
    simp only [Resolves] at h
    obtain ⟨sf, hsf, _⟩ := h
    rw [nest_cons lib r i rest sf hsf]
    exact ⟨rfl, rfl⟩

/-- The source `ToStructFragment` of a path whose indices resolve, with an
undefined tail tree, returns the tree with one level for every index. -/
theorem StructPath.ToStructFragment_resolved (lib : Library) (fuel : Nat) (r : TypeRef)
    (indices : List Int) (tail : Struct) (hne : indices ≠ [])
    (hres : Resolves lib (some r) indices) (htail : tail.IsUndefined = true) :
    (StructPath.mk (some r) (some indices) tail).ToStructFragment lib (fuel + 2)
      = .ret (nest lib (some r) indices) := by
  cases indices with
  | nil => exact absurd rfl hne
  | cons i0 rest =>
    have hres' := hres
    simp only [Resolves] at hres'
    obtain ⟨sf0, hsf0, hrest⟩ := hres'
    obtain ⟨last, hl1, hl2⟩ := StructPath.toStructFragmentLoop_spec lib fuel
      (StructPath.mk (some r) (some (i0 :: rest)) tail) (i0 :: rest) hres rest.length tail
      (by simp) (Or.inl ⟨by simp, htail⟩)
    have hlen : (i0 :: rest).length - 1 = rest.length := by simp
    simp only [StructPath.ToStructFragment, StructPath.FieldIndices, hlen, hl1, Run.bind_ret,
      NewStruct_returns, typeArgOfStruct, List.getElem?_cons_zero]
    rcases hl2 with ⟨h1, hu⟩ | ⟨h1, hlast⟩
    · have hr : rest = [] := by
        cases rest with
        | nil => rfl
        | cons _ _ => simp at h1
      subst hr
      rw [Struct.Set_level lib fuel r i0 sf0 last hsf0 (Or.inl hu), hu,
        nest_cons lib r i0 [] sf0 hsf0]
      simp only [if_true]
      cases structOfField sf0 <;> rfl
    · cases rest with
      | nil => simp at h1
      | cons j rest' =>
        have hw : walk lib (some r) ((i0 :: j :: rest').take 1) = structOfField sf0 := by
          simp only [List.take_succ_cons, List.take_zero, walk_cons lib r i0 [] sf0 hsf0, walk_nil]
        have hlast' : last = nest lib (structOfField sf0) (j :: rest') := by
          rw [hlast]
          show nest lib (walk lib (some r) ((i0 :: j :: rest').take 1)) _ = _
          rw [hw]
          rfl
        obtain ⟨hd, ht⟩ := nest_defined lib (structOfField sf0) j rest' hrest
        rw [← hlast'] at hd ht
        rw [Struct.Set_level lib fuel r i0 sf0 last hsf0 (Or.inr ht), hd,
          nest_cons lib r i0 _ sf0 hsf0, ← hlast']
        rfl

/-- The loop of the source `FieldNames` returns one name for every index
that resolves. -/
theorem StructPath.fieldNamesLoop_length (lib : Library) (indices : List Int) :
    ∀ (t : Option TypeRef) (acc : List String), Resolves lib t indices →
      ∃ fieldNames, StructPath.fieldNamesLoop lib indices t acc = .ret fieldNames ∧
        fieldNames.length = acc.length + indices.length := by
  induction indices with
  | nil => intro t acc _; exact ⟨acc, rfl, rfl⟩
  | cons i rest ih =>
    intro t acc h
    cases t with
    | none => exact absurd h (by simp [Resolves])
    | some r =>
      simp only [Resolves] at h
      obtain ⟨sf, hsf, hrest⟩ := h
      obtain ⟨fieldNames, h1, h2⟩ := ih (structOfField sf) (acc ++ [sf.Name]) hrest
      refine ⟨fieldNames, ?_, ?_⟩
      · simp only [StructPath.fieldNamesLoop, StructDecl.EnsureField, hsf, Run.bind_ret, h1]
      · rw [h2]; simp; omega

/-! ### Values -/

theorem Run.bind_eq_ret {α β : Type} (x : Run α) (f : α → Run β) (b : β)
    (h : x.bind f = .ret b) : ∃ a, x = .ret a ∧ f a = .ret b := by
  cases x with
  | ret a => exact ⟨a, rfl, h⟩
  | panic msg => cases h
  | outOfFuel => cases h

/-- The loop of `IsZero` returns true exactly when `IsZero` returns true
for every value of the list. -/
theorem GoValue.allZero_eq_true (l : List GoValue) :
    GoValue.allZero l = .ret true ↔ ∀ v ∈ l, v.IsZero = .ret true := by
  induction l with
  | nil => simp [GoValue.allZero]
  | cons v rest ih =>
    simp only [GoValue.allZero, List.mem_cons, forall_eq_or_imp]
    constructor
    · intro h
      obtain ⟨z, hz, hrest⟩ := Run.bind_eq_ret _ _ _ h
      cases z with
      | false => simp at hrest
      | true => exact ⟨hz, ih.1 (by simpa using hrest)⟩
    · intro h
      rw [h.1]
      simpa [Run.bind_ret] using ih.2 h.2

/-- The loop of `IsValueJSONNull` over the elements of a slice returns true
when `IsValueJSONNull` returns true for every element. -/
theorem allJSONNull_of_all (l : List GoValue) (h : ∀ v ∈ l, IsValueJSONNull v = .ret true) :
    allJSONNull l = .ret true := by
  induction l with
  | nil => rfl
  | cons v rest ih =>
    simp only [allJSONNull, h v (List.mem_cons_self _ _), Run.bind_ret, Bool.not_true,
      Bool.false_eq_true, if_false]
    exact ih (fun w hw => h w (List.mem_cons_of_mem _ hw))

/-- The loop of `IsValueJSONNull` over the values of a map returns true
when `IsValueJSONNull` returns true for every value. -/
theorem allJSONNullEntries_of_all (l : List (String × GoValue))
    (h : ∀ e ∈ l, IsValueJSONNull e.2 = .ret true) : allJSONNullEntries l = .ret true := by
  induction l with
  | nil => rfl
  | cons e rest ih =>
    obtain ⟨k, v⟩ := e
    have hv : IsValueJSONNull v = .ret true := h (k, v) (List.mem_cons_self _ _)
    simp only [allJSONNullEntries, hv, Run.bind_ret, Bool.not_true, Bool.false_eq_true, if_false]
    exact ih (fun w hw => h w (List.mem_cons_of_mem _ hw))

/-- The source `IsValueJSONNull` on the kinds other than arrays: true for
the nil pointer, what it is for the pointee for another pointer, true for
the empty string and for the zero `Value`, true for nil and for empty
slices and maps and for those whose elements are all null, false for bools
and integers. -/
theorem IsValueJSONNull_other_kinds :
    IsValueJSONNull (.ptr none) = .ret true ∧
    (∀ v, IsValueJSONNull (.ptr (some v)) = IsValueJSONNull v) ∧
    IsValueJSONNull (.string "") = .ret true ∧
    IsValueJSONNull .invalid = .ret true ∧
    IsValueJSONNull (.slice none) = .ret true ∧
    IsValueJSONNull (.map none) = .ret true ∧
    (∀ items, (∀ v ∈ items, IsValueJSONNull v = .ret true) →
      IsValueJSONNull (.slice (some items)) = .ret true) ∧
    (∀ entries, (∀ e ∈ entries, IsValueJSONNull e.2 = .ret true) →
      IsValueJSONNull (.map (some entries)) = .ret true) ∧
    (∀ b, IsValueJSONNull (.bool b) = .ret false) ∧
    (∀ n, IsValueJSONNull (.int n) = .ret false) ∧
    (∀ n, IsValueJSONNull (.uint n) = .ret false) := by
  refine ⟨rfl, fun _ => ?_, rfl, rfl, rfl, rfl, ?_, ?_, fun _ => rfl, fun _ => rfl,
    fun _ => rfl⟩
  · simp only [IsValueJSONNull]
  · intro items h
    simp only [IsValueJSONNull, GoValue.IsNil, Option.isSome_some, Option.isNone_some,
      Run.bind_ret, Bool.false_eq_true, if_false]
    exact allJSONNull_of_all items h
  · intro entries h
    simp only [IsValueJSONNull, GoValue.IsNil, Option.isNone_some, Run.bind_ret,
      Bool.false_eq_true, if_false]
    exact allJSONNullEntries_of_all entries h

/-- The loop of `pickJSON` over the elements of a list, when the projection
of every element returns without error: one entry for every element. -/
theorem pickJSONSlice_spec (pickRec : GoValue → Run (GoValue × Option ErrorArg))
    (items : List GoValue) :
    ∀ (outs acc : List GoValue),
      List.Forall₂ (fun element out => pickRec element = .ret (out, none)) items outs →
      pickJSONSlice pickRec items acc = .ret (.slice (some (acc ++ outs.map boxJSON)), none) := by
  induction items with
  | nil =>
    intro outs acc h
    cases h
    simp [pickJSONSlice]
  | cons element rest ih =>
    intro outs acc h
    cases h with
    | cons h1 h2 =>
      rename_i out outs'
      simp only [pickJSONSlice, h1, Run.bind_ret]
      cases out <;>
        simp only [GoValue.IsValid, Bool.not_true, Bool.not_false, Bool.false_eq_true, if_true,
          if_false, GoValue.Interface, Run.bind_ret, ih _ _ h2, List.map_cons, boxJSON,
          List.append_assoc, List.singleton_append]

theorem mem_valuesSet (m : List (String × GoValue)) (key : String) (v : GoValue) :
    ∀ k ∈ (valuesSet m key v).map Prod.fst, k ∈ m.map Prod.fst ∨ k = key := by
  induction m with
  | nil =>
    intro k hk
    simp only [valuesSet, List.map_cons, List.map_nil, List.mem_singleton] at hk
    exact Or.inr hk
  | cons e rest ih =>
    obtain ⟨k0, w⟩ := e
    intro k hk
    simp only [valuesSet] at hk
    split at hk
    · exact Or.inl (by simpa using hk)
    · simp only [List.map_cons, List.mem_cons] at hk ⊢
      rcases hk with h | h
      · exact Or.inl (Or.inl h)
      · rcases ih k h with h' | h'
        · exact Or.inl (Or.inr h')
        · exact Or.inr h'

/-- The field that the source `Field` returns from a tree whose map is
keyed by the fields of the type is the field of the type. -/
theorem Struct.Field_meta (lib : Library) (r : TypeRef) (f : Struct) (index : Int)
    (field : StructField) (sf : FieldMeta) (ht : f.typeMeta = some r)
    (hk : Struct.Keyed lib r f) (hsf : (lib.decl r).Field index = some sf)
    (hf : f.Field lib index = .ret field) : field.field = sf := by
  simp only [Struct.Field, ht] at hf
  cases hl : fieldLookup (f.fields.getD []) index with
  | some stored =>
    rw [hl] at hf
    simp only [Run.ret.injEq] at hf
    subst hf
    have := hk _ (fieldLookup_mem _ _ _ hl)
    rw [hsf] at this
    exact (Option.some.inj this).symm
  | none =>
    rw [hl] at hf
    simp only [StructDecl.EnsureField, hsf, Run.bind_ret, Run.ret.injEq] at hf
    rw [← hf]
    rfl

/-- The keys of the map that the loop of `pickJSON` over the fields of a
struct returns are keys it started with, or serialized names, not empty, of
fields that the tree has. -/
theorem pickJSONFields_keys (lib : Library) (jl : JSONLibrary)
    (pickRec : Struct → GoValue → Run (GoValue × Option ErrorArg)) (T : Struct) (r : TypeRef)
    (ht : T.typeMeta = some r) (hk : Struct.Keyed lib r T) (fields : List GoValue) :
    ∀ (index : Int) (values entries : List (String × GoValue)),
      (∀ k ∈ values.map Prod.fst, SelectedName lib r T k) →
      pickJSONFields lib jl pickRec T r fields index values = .ret (.map (some entries), none) →
      ∀ k ∈ entries.map Prod.fst, SelectedName lib r T k := by
  induction fields with
  | nil =>
    intro index values entries hv h
    simp only [pickJSONFields, Run.ret.injEq, Prod.mk.injEq, GoValue.map.injEq,
      Option.some.injEq, and_true] at h
    subst h
    exact hv
  | cons v rest ih =>
    intro index values entries hv h
    rw [pickJSONFields] at h
    cases hhas : T.HasByIndex lib index with
    | false =>
      simp only [hhas, Bool.not_false, if_true] at h
      exact ih _ _ _ hv h
    | true =>
      simp only [hhas, Bool.not_true, Bool.false_eq_true, if_false] at h
      obtain ⟨sf, hens, h⟩ := Run.bind_eq_ret _ _ _ h
      have hsf : (lib.decl r).Field index = some sf := by
        simp only [StructDecl.EnsureField] at hens
        cases hf : (lib.decl r).Field index with
        | none => rw [hf] at hens; cases hens
        | some sf' =>
          rw [hf] at hens
          simp only [Run.ret.injEq] at hens
          rw [hens]
      by_cases hname : sf.JSONName = ""
      · rw [if_pos hname] at h
        exact ih _ _ _ hv h
      · rw [if_neg hname] at h
        obtain ⟨field, hfield, h⟩ := Run.bind_eq_ret _ _ _ h
        have hmeta := Struct.Field_meta lib r T index field sf ht hk hsf hfield
        have hsel : SelectedName lib r T sf.JSONName := ⟨index, sf, hhas, hsf, rfl, hname⟩
        have hset : ∀ x, ∀ k ∈ (valuesSet values sf.JSONName x).map Prod.fst,
            SelectedName lib r T k := by
          intro x k hkm
          rcases mem_valuesSet values _ x k hkm with h' | h'
          · exact hv k h'
          · rw [h']; exact hsel
        obtain ⟨null, _, h⟩ := Run.bind_eq_ret _ _ _ h
        cases null with
        | true =>
          simp only [if_true] at h
          split at h
          · rw [hmeta] at h
            exact ih _ _ _ (hset _) h
          · exact ih _ _ _ hv h
        | false =>
          simp only [Bool.false_eq_true, if_false] at h
          obtain ⟨field', hfield', h⟩ := Run.bind_eq_ret _ _ _ h
          have hname' : field'.field.JSONName = sf.JSONName := by
            split at hfield'
            · obtain ⟨created, _, hc⟩ := Run.bind_eq_ret _ _ _ hfield'
              simp only [Run.ret.injEq] at hc
              rw [← hc]
              rfl
            · simp only [Run.ret.injEq] at hfield'
              rw [← hfield', hmeta]
          rw [hname'] at h
          split at h
          · obtain ⟨picked, _, h⟩ := Run.bind_eq_ret _ _ _ h
            obtain ⟨fieldValue, err⟩ := picked
            cases err with
            | some e =>
              simp only at h
              obtain ⟨e', _, h⟩ := Run.bind_eq_ret _ _ _ h
              simp at h
            | none =>
              simp only at h
              obtain ⟨null2, _, h⟩ := Run.bind_eq_ret _ _ _ h
              cases null2 with
              | true =>
                simp only [if_true] at h
                split at h
                · exact ih _ _ _ (hset _) h
                · exact ih _ _ _ hv h
              | false =>
                simp only [Bool.false_eq_true, if_false] at h
                obtain ⟨boxed, _, h⟩ := Run.bind_eq_ret _ _ _ h
                exact ih _ _ _ (hset _) h
          · obtain ⟨boxed, _, h⟩ := Run.bind_eq_ret _ _ _ h
            exact ih _ _ _ (hset _) h

/-- The source `pickJSON` with a typed tree of a struct type that is not
primitive, on a struct value of this type, is the loop over the fields. -/
theorem pickJSON_struct (lib : Library) (jl : JSONLibrary) (fuel : Nat) (T : Struct)
    (r : TypeRef) (fields : List GoValue) (ht : T.typeMeta = some r)
    (hprim : jl.structPrimitive r = false) :
    pickJSON lib jl (fuel + 1) (.struct T) (.struct r fields)
      = pickJSONFields lib jl (fun f v => pickJSON lib jl fuel (.struct f) v) T r fields 0 [] := by
  show pickJSONBody lib jl (pickJSON lib jl fuel) (.struct T) (.struct r fields) = _
  simp only [pickJSONBody, unwrapInterface, nonPtrValue, pickJSONValue, pickJSONStruct, ht,
    hprim, Bool.false_eq_true, if_false, ne_eq, not_true_eq_false]

/-- The source `Field` returns for an index of a field of the type. -/
theorem Struct.Field_of_decl (lib : Library) (r : TypeRef) (f : Struct) (index : Int)
    (sf : FieldMeta) (ht : f.typeMeta = some r) (hsf : (lib.decl r).Field index = some sf) :
    ∃ field, f.Field lib index = .ret field := by
  simp only [Struct.Field, ht]
  cases fieldLookup (f.fields.getD []) index with
  | some stored => exact ⟨stored, rfl⟩
  | none =>
    refine ⟨.mk sf (.mk (structOfField sf) none), ?_⟩
    simp only [StructDecl.EnsureField, hsf, Run.bind_ret]

/-- The first step of the loop of `pickJSON` over the fields of a struct,
for a field that the tree has, with a serialized name, whose value is an
array: a panic. -/
theorem pickJSONFields_array (lib : Library) (jl : JSONLibrary)
    (pickRec : Struct → GoValue → Run (GoValue × Option ErrorArg)) (T : Struct) (r : TypeRef)
    (index : Int) (sf : FieldMeta) (items rest : List GoValue)
    (values : List (String × GoValue)) (ht : T.typeMeta = some r)
    (hhas : T.HasByIndex lib index = true) (hsf : (lib.decl r).Field index = some sf)
    (hname : sf.JSONName ≠ "") :
    pickJSONFields lib jl pickRec T r (.array items :: rest) index values
      = .panic "reflect: call of reflect.Value.IsNil on array Value" := by
  obtain ⟨field, hfield⟩ := Struct.Field_of_decl lib r T index sf ht hsf
  rw [pickJSONFields]
  simp only [hhas, Bool.not_true, Bool.false_eq_true, if_false, StructDecl.EnsureField, hsf,
    Run.bind_ret, hname, hfield, IsFieldValueJSONNull]
  rfl

/-- The first step of the loop of `pickJSON` over the fields of a struct,
for a field that the tree has, with a serialized name, whose value
`IsFieldValueJSONNull` takes for null: the name is mapped to nil when the
tree is defined, and nothing is stored when it is undefined. -/
theorem pickJSONFields_null (lib : Library) (jl : JSONLibrary)
    (pickRec : Struct → GoValue → Run (GoValue × Option ErrorArg)) (T : Struct) (r : TypeRef)
    (index : Int) (sf : FieldMeta) (v : GoValue) (rest : List GoValue)
    (values : List (String × GoValue)) (ht : T.typeMeta = some r)
    (hk : Struct.Keyed lib r T)
    (hhas : T.HasByIndex lib index = true) (hsf : (lib.decl r).Field index = some sf)
    (hname : sf.JSONName ≠ "") (hnull : IsFieldValueJSONNull jl (some sf) v = .ret true) :
    pickJSONFields lib jl pickRec T r (v :: rest) index values
      = pickJSONFields lib jl pickRec T r rest (index + 1)
          (if T.IsUndefined then values else valuesSet values sf.JSONName (.iface none)) := by
  obtain ⟨field, hfield⟩ := Struct.Field_of_decl lib r T index sf ht hsf
  have hmeta := Struct.Field_meta lib r T index field sf ht hk hsf hfield
  rw [pickJSONFields]
  simp only [hhas, Bool.not_true, Bool.false_eq_true, if_false, StructDecl.EnsureField, hsf,
    Run.bind_ret, hname, hfield, hnull, if_true, hmeta]
  cases T.IsUndefined <;> rfl

/-- The source `IsFieldValueJSONNull` returns true for the zero values of
the kinds other than arrays, for a field tagged `omitempty`: false, the
integer 0, a zero float, the empty string, a struct whose fields are all
zero, and the nil slice, map and interface. -/
theorem IsFieldValueJSONNull_zero (jl : JSONLibrary) (sf : FieldMeta)
    (homit : jl.JSONOmitEmpty sf = true) :
    IsFieldValueJSONNull jl (some sf) (.bool false) = .ret true ∧
    IsFieldValueJSONNull jl (some sf) (.int 0) = .ret true ∧
    IsFieldValueJSONNull jl (some sf) (.uint 0) = .ret true ∧
    IsFieldValueJSONNull jl (some sf) (.float true) = .ret true ∧
    IsFieldValueJSONNull jl (some sf) (.string "") = .ret true ∧
    (∀ t fields, (∀ f ∈ fields, f.IsZero = .ret true) →
      IsFieldValueJSONNull jl (some sf) (.struct t fields) = .ret true) ∧
    IsFieldValueJSONNull jl (some sf) (.slice none) = .ret true ∧
    IsFieldValueJSONNull jl (some sf) (.map none) = .ret true ∧
    IsFieldValueJSONNull jl (some sf) (.iface none) = .ret true := by
  refine ⟨?_, ?_, ?_, ?_, rfl, ?_, rfl, rfl, rfl⟩
  · simp only [IsFieldValueJSONNull, IsValueJSONNull, Run.bind_ret, Bool.false_eq_true, if_false,
      homit, if_true]
    rfl
  · simp only [IsFieldValueJSONNull, IsValueJSONNull, Run.bind_ret, Bool.false_eq_true, if_false,
      homit, if_true]
    rfl
  · simp only [IsFieldValueJSONNull, IsValueJSONNull, Run.bind_ret, Bool.false_eq_true, if_false,
      homit, if_true]
    rfl
  · simp only [IsFieldValueJSONNull, IsValueJSONNull, Run.bind_ret, Bool.false_eq_true, if_false,
      homit, if_true]
    rfl
  · intro t fields h
    have hz : GoValue.allZero fields = .ret true := (GoValue.allZero_eq_true fields).2 h
    simp only [IsFieldValueJSONNull, IsValueJSONNull, GoValue.IsZero, hz, Run.bind_ret, if_true]

/-- The projection null rule for a record with one field whose value
`IsFieldValueJSONNull` takes for null: a defined tree that has the field
gives the map from the serialized name to nil, an undefined tree that has
the field gives the empty map. -/
theorem pickJSON_null_rule (lib : Library) (jl : JSONLibrary) (fuel : Nat) (T : Struct)
    (r : TypeRef) (sf : FieldMeta) (v : GoValue) (ht : T.typeMeta = some r)
    (hprim : jl.structPrimitive r = false) (hk : Struct.Keyed lib r T)
    (hhas : T.HasByIndex lib 0 = true) (hsf : (lib.decl r).Field 0 = some sf)
    (hname : sf.JSONName ≠ "") (hnull : IsFieldValueJSONNull jl (some sf) v = .ret true) :
    pickJSON lib jl (fuel + 1) (.struct T) (.struct r [v])
      = .ret (.map (some (if T.IsUndefined then [] else [(sf.JSONName, .iface none)])), none) := by
  rw [pickJSON_struct lib jl fuel T r [v] ht hprim,
    pickJSONFields_null lib jl _ T r 0 sf v [] [] ht hk hhas hsf hname hnull]
  cases T.IsUndefined <;> rfl

/-! ## The expression parser: results on the claims C1 to C10 -/

/-- C1: `ParseUnstructured("{}")` returns without error the empty tree
(`IsUndefined` false, `FieldsLen` 0, `IsEmpty` true), `ParseUnstructured("")`
returns without error the undefined tree (`IsUndefined` true), and the two
trees differ. -/
theorem C1_empty_braces_vs_empty_string :
    ∃ emptyTree undefinedTree : Unstructured,
      ParseUnstructured "\x7b\x7d" = .ret (emptyTree, none) ∧
      emptyTree.IsUndefined = false ∧ emptyTree.FieldsLen = 0 ∧ emptyTree.IsEmpty = true ∧
      ParseUnstructured "" = .ret (undefinedTree, none) ∧
      undefinedTree.IsUndefined = true ∧
      emptyTree ≠ undefinedTree := by
  refine ⟨NewEmptyUnstructured, NewUnstructured, rfl, rfl, rfl, rfl, rfl, rfl, ?_⟩
  intro h
  cases h

/-- C2 (the code aborts): every non-empty string made of white space only
makes `ParseUnstructured` panic with an index out of range, in
`trimFragmentChars`. -/
theorem C2_whitespace_only_panics (e : String) (hne : e.toList ≠ [])
    (hsp : ∀ c ∈ e.toList, isSpace c = true) :
    ParseUnstructured e = .panic "runtime error: index out of range [-1]" := by
  unfold ParseUnstructured
  rw [trimFragmentChars_allSpace e.toList hne hsp]

/-- Instances of C2: a blank string, a blank part between two commas and a
brace block that holds only a blank all make `ParseUnstructured` panic. -/
theorem C2_whitespace_only_panics_witness :
    ParseUnstructured " " = .panic "runtime error: index out of range [-1]" ∧
    ParseUnstructured "a, ,b" = .panic "runtime error: index out of range [-1]" ∧
    ParseUnstructured "a \x7b \x7d" = .panic "runtime error: index out of range [-1]" :=
  ⟨C2_whitespace_only_panics " " (by decide) (by decide), rfl, rfl⟩

/-- C3: when the braces of the input do not balance (some prefix has more
closing than opening braces, or there are more opening than closing braces in
all), `ParseUnstructured` returns an error. -/
theorem C3_unbalanced_braces_error (e : String) (h : Unbalanced e.toList) :
    ∃ t msg, ParseUnstructured e = .ret (t, some msg) := by
  have hs := scanDepth_ne_of_unbalanced e.toList h
  have hex : ∃ c ∈ e.toList, isSpace c = false := by
    by_contra hno
    push_neg at hno
    exact hs (scanDepth_spaces e.toList (fun c hc => by simpa using hno c hc) 0)
  obtain ⟨w1, t, w2, ht, hchars, hw1, hw2, _, _, htrim⟩ :=
    trimFragmentChars_of_nonspace e.toList hex
  have hst : scanDepth 0 t ≠ some 0 := by
    intro h0
    apply hs
    rw [hchars, scanDepth_append, scanDepth_append, scanDepth_spaces w1 hw1]
    rw [Option.some_bind, h0, Option.some_bind]
    exact scanDepth_spaces w2 hw2 0
  unfold ParseUnstructured
  rw [htrim]
  simp only []
  have hbody : ∀ (fuel : Nat) (cs : List Char), cs ≠ [] → scanDepth 0 cs ≠ some 0 →
      ∃ msg, parseBody fuel cs = .ret (NewUnstructured, some msg) := by
    intro fuel cs hne hcs
    obtain ⟨parts, msg, hscan⟩ := commaScan_error cs cs 0 [] [] 0 hcs
    refine ⟨msg, ?_⟩
    unfold parseBody
    have hl : cs.length ≠ 0 := by
      have := List.length_pos.mpr hne; omega
    rw [if_neg hl, splitFragmentByComma_eq, hscan]
  cases hwr : isWrapped t with
  | true =>
    obtain ⟨body, hb⟩ := (isWrapped_iff t).mp hwr
    rw [hb, parseString_wrapped]
    have hbs : scanDepth 0 body ≠ some 0 := by
      intro h0
      apply hst
      rw [hb]
      exact scanDepth_wrap body h0
    have hbne : body ≠ [] := by
      intro hb0
      apply hbs
      rw [hb0]
      rfl
    rw [if_neg hbne]
    obtain ⟨msg, hm⟩ := hbody _ body hbne hbs
    exact ⟨_, msg, hm⟩
  | false =>
    rw [parseString_plain _ _ hwr]
    obtain ⟨msg, hm⟩ := hbody _ t ht hst
    exact ⟨_, msg, hm⟩

/-- Instances of C3: the expressions `fieldA {` and `{` are unbalanced and
yield the error "missing closing brace". -/
theorem C3_unbalanced_braces_error_witness :
    (Unbalanced "fieldA \x7b".toList ∧
      ∃ t msg, ParseUnstructured "fieldA \x7b" = .ret (t, some msg)) ∧
    (Unbalanced "\x7b".toList ∧ ∃ t msg, ParseUnstructured "\x7b" = .ret (t, some msg)) ∧
    ParseUnstructured "fieldA \x7b" =
      .ret (NewUnstructured, some "missing closing brace in \"fieldA \x7b\"") ∧
    ParseUnstructured "\x7b" = .ret (NewUnstructured, some "missing closing brace in \"\x7b\"") :=
  ⟨⟨Or.inr (by decide), C3_unbalanced_braces_error _ (Or.inr (by decide))⟩,
   ⟨Or.inr (by decide), C3_unbalanced_braces_error _ (Or.inr (by decide))⟩, rfl, rfl⟩

/-- C4 (the code breaks the round trip): `ParseUnstructured("fieldA,")`
succeeds with the single field named `fieldA,`, `Expr` renders that tree as
`{ fieldA, }`, and parsing the rendered text panics instead of returning an
equal tree. -/
theorem C4_roundtrip_fails_after_trailing_comma :
    ∃ t, ParseUnstructured "fieldA," = .ret (t, none) ∧
      t = .mk (some [("fieldA,", none)]) ∧
      t.Expr = "\x7b fieldA, \x7d" ∧
      ParseUnstructured t.Expr = .panic "runtime error: index out of range [-1]" :=
  ⟨_, rfl, rfl, rfl, rfl⟩

/-- C7 (the code keeps a comma or braces in a field name): a comma in the
last position of the input stays in the field name, and a field part that
starts with a brace block makes that block the field name. -/
theorem C7_field_name_with_comma_or_brace :
    ParseUnstructured "fieldA," = .ret (.mk (some [("fieldA,", none)]), none) ∧
    comma ∈ "fieldA,".toList ∧
    ParseUnstructured "\x7ba\x7d,b" = .ret (.mk (some [("\x7ba\x7d", none), ("b", none)]), none) ∧
    leftBrace ∈ "\x7ba\x7d".toList ∧ rightBrace ∈ "\x7ba\x7d".toList :=
  ⟨rfl, by decide, rfl, by decide, by decide⟩

/-- C8 as stated fails: the map parsed from `fieldA,fieldB{fieldC}`, visited
with `fieldB` first, is rendered by `Expr` as `{ fieldB { fieldC }, fieldA }`
and not as `{ fieldA, fieldB { fieldC } }`. -/
theorem C8_expr_follows_visiting_order :
    ∃ (t t' : Unstructured) (m m' : FieldMap),
      ParseUnstructured "fieldA,fieldB\x7bfieldC\x7d" = .ret (t, none) ∧
      t.fields = some m ∧ t'.fields = some m' ∧ m'.Perm m ∧ structEq t t' = true ∧
      t'.Expr = "\x7b fieldB \x7b fieldC \x7d, fieldA \x7d" ∧
      t'.Expr ≠ "\x7b fieldA, fieldB \x7b fieldC \x7d \x7d" :=
  ⟨.mk (some [("fieldA", none), ("fieldB", some (.mk (some [("fieldC", none)])))]),
   .mk (some [("fieldB", some (.mk (some [("fieldC", none)]))), ("fieldA", none)]),
   _, _, rfl, rfl, rfl, List.Perm.swap _ _ _, rfl, rfl, by decide⟩

/-- C8 as amended: `Expr` of the undefined tree is the empty string; `Expr` of
a defined tree with non-empty field names is `{}` when it has no field and
otherwise `{ `, the fields in the order in which the map is visited joined by
`, `, and ` }`, where a field with a non-undefined child is its name, a blank
and the child's `Expr`, and any other field is its name.  For the tree parsed
from `fieldA,fieldB{fieldC}` the result is `{ fieldA, fieldB { fieldC } }`
when `fieldA` is visited first and `{ fieldB { fieldC }, fieldA }` when
`fieldB` is. -/
theorem C8_expr_closed_form :
    (Unstructured.mk none).Expr = "" ∧
    (∀ m : FieldMap, (∀ e ∈ m, e.1 ≠ "") →
      (Unstructured.mk (some m)).Expr =
        if m.length = 0 then "\x7b\x7d"
        else "\x7b " ++ ", ".intercalate (m.map renderField) ++ " \x7d") ∧
    (∃ eA eB : String × Option Unstructured,
      ParseUnstructured "fieldA,fieldB\x7bfieldC\x7d" = .ret (.mk (some [eA, eB]), none) ∧
      (Unstructured.mk (some [eA, eB])).Expr = "\x7b fieldA, fieldB \x7b fieldC \x7d \x7d" ∧
      (Unstructured.mk (some [eB, eA])).Expr = "\x7b fieldB \x7b fieldC \x7d, fieldA \x7d" ∧
      ∀ m' : FieldMap, m'.Perm [eA, eB] →
        (Unstructured.mk (some m')).Expr = "\x7b fieldA, fieldB \x7b fieldC \x7d \x7d" ∨
        (Unstructured.mk (some m')).Expr = "\x7b fieldB \x7b fieldC \x7d, fieldA \x7d") := by
  refine ⟨rfl, ?_, ?_⟩
  · intro m hm
    apply Expr_defined_eq
    intro e he
    exact hm e (List.mem_of_mem_head? he)
  · refine ⟨("fieldA", none), ("fieldB", some (.mk (some [("fieldC", none)]))),
      rfl, rfl, rfl, ?_⟩
    intro m' hp
    rcases perm_pair_cases _ _ m' hp with h | h
    · left; rw [h]; rfl
    · right; rw [h]; rfl

/-- C9 as stated fails: the part `field A B C` has four tokens separated by
blanks, and `ParseUnstructured` returns no error but the tree with the single
field named `field A B C`. -/
theorem C9_blank_separated_tokens_are_one_name :
    ParseUnstructured "field A B C" = .ret (.mk (some [("field A B C", none)]), none) :=
  rfl

/-- C9 as amended: a field part is cut at brace boundaries of depth 0, not at
blanks.  An expression made of a text `name` without brace or comma, a
balanced brace block and a further text `post` without brace or comma (the
whole starting and ending with a non-space rune) is cut into three pieces, and
`ParseUnstructured` returns the syntax error "contains more than one
space". -/
theorem C9_name_block_more_is_error (name body post : List Char)
    (hname : name ≠ []) (hpost : post ≠ [])
    (hn : ∀ c ∈ name, c ≠ leftBrace ∧ c ≠ rightBrace ∧ c ≠ comma)
    (hp : ∀ c ∈ post, c ≠ leftBrace ∧ c ≠ rightBrace ∧ c ≠ comma)
    (hbody : scanDepth 0 body = some 0)
    (h0 : isSpace (name.head hname) = false) (h1 : isSpace (post.getLast hpost) = false) :
    ParseUnstructured (String.mk (name ++ leftBrace :: (body ++ rightBrace :: post))) =
      .ret (NewUnstructured, some ("failed parsing \"" ++
        String.mk (name ++ leftBrace :: (body ++ rightBrace :: post)) ++
        "\": contains more than one space")) := by
  generalize hchars : name ++ leftBrace :: (body ++ rightBrace :: post) = chars
  have hne : chars ≠ [] := by rw [← hchars]; simp [hname]
  have hhead : chars.head hne = name.head hname := by
    subst hchars
    rw [List.head_append_of_ne_nil hname]
  have hlast : chars.getLast hne = post.getLast hpost := by
    subst hchars
    rw [List.getLast_append_of_ne_nil (by simp), List.getLast_cons (by simp),
      List.getLast_append_of_ne_nil (by simp), List.getLast_cons hpost]
  have htrim : trimFragmentChars chars = .ret chars :=
    trimFragmentChars_id chars hne (by rw [hhead]; exact h0) (by rw [hlast]; exact h1)
  have hwr : isWrapped chars = false :=
    isWrapped_false_of_getLast chars hne
      (by rw [hlast]; exact (hp _ (List.getLast_mem hpost)).2.1)
  have hfield : scanField 0 chars = some 0 := by
    have e : chars = name ++ ((leftBrace :: (body ++ [rightBrace])) ++ post) := by
      rw [← hchars]; simp
    rw [e, scanField_append, scanField_plain name hn, Option.some_bind, scanField_append,
      scanField_block body hbody, Option.some_bind]
    exact scanField_plain post hp 0
  have hsplit : splitFragment chars chars.length =
      .ret ([name, leftBrace :: (body ++ [rightBrace]), post], none) := by
    rw [← hchars]
    exact splitFragment_name_block_more name body post hname hpost
      (fun c hc => ⟨(hn c hc).1, (hn c hc).2.1⟩) (fun c hc => ⟨(hp c hc).1, (hp c hc).2.1⟩) hbody
  have hl : chars.length ≠ 0 := by
    have := List.length_pos.mpr hne; omega
  unfold ParseUnstructured
  show (match trimFragmentChars chars with
    | .panic msg => Run.panic msg
    | .outOfFuel => Run.outOfFuel
    | .ret chars => parseString (chars.length + 1) chars) = _
  rw [htrim]
  simp only []
  rw [parseString_plain _ _ hwr]
  unfold parseBody
  rw [if_neg hl, splitFragmentByComma_eq, commaScan_last_field chars chars hne hfield]
  simp only [List.nil_append]
  exact parseFieldParts_more_than_two _ chars chars [] _ NewUnstructured htrim hsplit (by simp)

/-- Instance of C9 as amended: `a {b} c` is the text `a `, the block `{b}`
and the text ` c`, and parsing it returns the error. -/
theorem C9_name_block_more_is_error_witness :
    ParseUnstructured "a \x7bb\x7d c" =
      .ret (NewUnstructured, some "failed parsing \"a \x7bb\x7d c\": contains more than one space") :=
  C9_name_block_more_is_error "a ".toList "b".toList " c".toList (by decide) (by decide)
    (by decide) (by decide) (by decide) (by decide) (by decide)

/-- C10: for every string without a brace in which every non-empty
comma-separated part has a non-space rune, `ParseUnstructured` returns a tree
and no error. -/
theorem C10_brace_free_input_succeeds (e : String)
    (hb : ∀ c ∈ e.toList, c ≠ leftBrace ∧ c ≠ rightBrace)
    (hp : ∀ p ∈ e.toList.splitOn comma, p ≠ [] → ∃ c ∈ p, isSpace c = false) :
    ∃ t, ParseUnstructured e = .ret (t, none) := by
  generalize hch : e.toList = chars at hb hp
  unfold ParseUnstructured
  rw [hch]
  by_cases hnil : chars = []
  · subst hnil
    exact ⟨NewUnstructured, rfl⟩
  · have hgood : GoodParts [] chars := by
      obtain ⟨h, tl, hs⟩ := splitOn_comma_exists chars
      unfold GoodParts
      rw [hs] at hp ⊢
      simpa using hp
    have hns : ∃ c ∈ chars, isSpace c = false := by
      by_cases hcm : comma ∈ chars
      · exact ⟨comma, hcm, by decide⟩
      · have hsingle : chars.splitOn comma = [chars] := by
          unfold List.splitOn
          apply List.splitOnP_eq_single
          intro x hx
          simp only [beq_iff_eq]
          intro hxc
          exact hcm (hxc ▸ hx)
        exact hp chars (by rw [hsingle]; simp) hnil
    obtain ⟨w1, t, w2, ht, hdec, hw1, hw2, h0, _, htrim⟩ :=
      trimFragmentChars_of_nonspace chars hns
    have htb : ∀ c ∈ t, c ≠ leftBrace ∧ c ≠ rightBrace := by
      intro c hc
      apply hb
      rw [hdec]
      exact List.mem_append_left _ (List.mem_append_right _ hc)
    have hgt : GoodParts [] t := by
      rw [hdec, List.append_assoc] at hgood
      have h1 := goodParts_leading w1 hw1 [] (t ++ w2) hgood
      have h2 := goodParts_drop_cur w1 (t ++ w2) hw1 (by simpa using h1)
      exact goodParts_trailing w2 hw2 t [] h2
    have hwr : isWrapped t = false :=
      isWrapped_false_of_head t ht (htb _ (List.head_mem ht)).1
    have hl : t.length ≠ 0 := by
      have := List.length_pos.mpr ht; omega
    rw [htrim]
    simp only []
    rw [parseString_plain _ _ hwr]
    unfold parseBody
    rw [if_neg hl, splitFragmentByComma_eq]
    obtain ⟨parts, hscan, hparts⟩ :=
      commaScan_plain t t 0 [] [] htb (by simp) (by simp) hgt
    rw [hscan]
    exact parseFieldParts_plain _ parts NewUnstructured hparts

/-- Instances of C10: the four expressions of the repository's test that
meet the condition parse without error by the theorem, and so does the fifth,
`fieldA, `, whose blank last part is removed by the first trim. -/
theorem C10_brace_free_input_succeeds_witness :
    (∃ t, ParseUnstructured "field A B C" = .ret (t, none)) ∧
    (∃ t, ParseUnstructured "fieldA," = .ret (t, none)) ∧
    (∃ t, ParseUnstructured "field, A, B, C" = .ret (t, none)) ∧
    (∃ t, ParseUnstructured "fieldC.fieldD.fieldE.fieldF" = .ret (t, none)) ∧
    (∃ t, ParseUnstructured "fieldA, " = .ret (t, none)) :=
  ⟨C10_brace_free_input_succeeds "field A B C" (by decide) (by decide),
   C10_brace_free_input_succeeds "fieldA," (by decide) (by decide),
   C10_brace_free_input_succeeds "field, A, B, C" (by decide) (by decide),
   C10_brace_free_input_succeeds "fieldC.fieldD.fieldE.fieldF" (by decide) (by decide),
   ⟨_, rfl⟩⟩

/-- C5 as stated fails: `x {a{b}c}` is one field followed by a balanced brace
block, and `ParseUnstructured` returns an error, with a tree that has no
field. -/
theorem C5_balanced_block_that_fails :
    scanDepth 0 "a\x7bb\x7dc".toList = some 0 ∧
    ParseUnstructured "x \x7ba\x7bb\x7dc\x7d" = .ret (NewUnstructured,
      some "\"x\": failed parsing \"a\x7bb\x7dc\": contains more than one space") ∧
    NewUnstructured.FieldsLen ≠ 1 :=
  ⟨by decide, rfl, by decide⟩

/-- C5 as amended: an expression made of `n` well-formed fields joined by
commas (each a name, optionally followed by a balanced brace block that parses
without error by itself), with pairwise different names and any white space
around names and blocks, parses without error to a tree whose keys are the
`n` names, so `FieldsLen` is `n`.  A comma inside a block does not separate
fields.  White space before the first field and after the last is `w1` and
`w2`. -/
theorem C5_fields_joined_by_commas (w1 w2 : List Char) (fields : List FieldText)
    (hw1 : ∀ c ∈ w1, isSpace c = true) (hw2 : ∀ c ∈ w2, isSpace c = true)
    (hne : fields ≠ [])
    (hwf : ∀ f ∈ fields, f.WellFormed)
    (hfirst : ∀ f, fields.head? = some f → f.pre = [])
    (hlast : ∀ f, fields.getLast? = some f → f.post = [])
    (hnames : (fields.map (fun f => String.mk f.name)).Nodup) :
    ∃ tree, ParseUnstructured (String.mk (w1 ++ joinComma (fields.map FieldText.text) ++ w2))
        = .ret (tree, none) ∧
      keysOf tree = fields.map (fun f => String.mk f.name) ∧
      tree.FieldsLen = fields.length := by
  generalize hJ : joinComma (fields.map FieldText.text) = J
  have htexts : ∀ t ∈ fields.map FieldText.text, t ≠ [] ∧ scanField 0 t = some 0 := by
    intro t ht
    obtain ⟨f, hf, rfl⟩ := List.mem_map.mp ht
    exact ⟨f.text_ne_nil (hwf f hf), f.scanField_text (hwf f hf)⟩
  have hmapne : fields.map FieldText.text ≠ [] := by simpa using hne
  -- the first and the last rune of the joined texts
  obtain ⟨f1, rest, hfields⟩ := List.exists_cons_of_ne_nil hne
  have hf1 : f1 ∈ fields := by rw [hfields]; exact List.mem_cons_self _ _
  have hhead : ∃ c, J.head? = some c ∧ isSpace c = false ∧ c ≠ leftBrace := by
    obtain ⟨c, hc, hsp, hlb⟩ := f1.core_head? (hwf f1 hf1)
    refine ⟨c, ?_, hsp, hlb⟩
    have hpre : f1.pre = [] := hfirst f1 (by rw [hfields]; rfl)
    rw [← hJ, hfields, List.map_cons, joinComma_head? _ _ (f1.text_ne_nil (hwf f1 hf1))]
    unfold FieldText.text
    rw [hpre, List.nil_append, List.head?_append_of_ne_nil _ (f1.core_ne_nil (hwf f1 hf1))]
    exact hc
  have hlastc : ∃ c, J.getLast? = some c ∧ isSpace c = false := by
    have hfn : fields.getLast hne ∈ fields := List.getLast_mem hne
    obtain ⟨c, hc, hsp⟩ := (fields.getLast hne).core_getLast? (hwf _ hfn)
    refine ⟨c, ?_, hsp⟩
    have hpost : (fields.getLast hne).post = [] :=
      hlast _ (List.getLast?_eq_getLast _ hne)
    have hlm : (fields.map FieldText.text).getLast hmapne = (fields.getLast hne).text := by
      rw [List.getLast_map]
    rw [← hJ, joinComma_getLast? _ hmapne (by rw [hlm]; exact FieldText.text_ne_nil _ (hwf _ hfn)),
      hlm]
    unfold FieldText.text
    rw [hpost, List.append_nil,
      List.getLast?_append_of_ne_nil _ (FieldText.core_ne_nil _ (hwf _ hfn))]
    exact hc
  obtain ⟨c0, hc0, hsp0, hlb0⟩ := hhead
  obtain ⟨c1, hc1, hsp1⟩ := hlastc
  have hJne : J ≠ [] := by
    intro h; rw [h] at hc0; cases hc0
  have hJl : J.length ≠ 0 := by
    have := List.length_pos.mpr hJne; omega
  have htrim : trimFragmentChars (w1 ++ J ++ w2) = .ret J :=
    trimFragmentChars_append_of_head? w1 J w2 hw1 hw2 c0 c1 hc0 hc1 hsp0 hsp1
  have hwr : isWrapped J = false := by
    apply isWrapped_false_of_head J hJne
    rw [List.head?_eq_head hJne] at hc0
    rw [Option.some.inj hc0]
    exact hlb0
  have hfuel : ∀ f ∈ fields, ∀ mid body, f.block = some (mid, body) →
      (braceBlock body).length + 1 ≤ J.length := by
    intro f hf mid body hb
    have h1 := length_le_joinComma (fields.map FieldText.text) f.text
      (List.mem_map.mpr ⟨f, hf, rfl⟩)
    rw [hJ] at h1
    obtain ⟨_, _, ⟨hn, _, _⟩, _, _⟩ := hwf f hf
    have hnl := List.length_pos.mpr hn
    have h2 : f.text.length = f.pre.length + (f.name.length + mid.length
        + (braceBlock body).length) + f.post.length := by
      unfold FieldText.text FieldText.core
      rw [hb]
      simp only [List.length_append]
    omega
  obtain ⟨tree, htree, hkeys⟩ := parseFieldParts_fields J.length fields NewUnstructured hwf hfuel
    (by simpa [keysOf, NewUnstructured, Unstructured.fields] using hnames)
  refine ⟨tree, ?_, ?_, ?_⟩
  · unfold ParseUnstructured
    simp only [String.toList]
    rw [htrim]
    simp only []
    rw [parseString_plain _ _ hwr]
    unfold parseBody
    rw [if_neg hJl, splitFragmentByComma_eq]
    conv_lhs => rw [← hJ]
    rw [commaScan_joinComma _ _ hmapne htexts]
    simp only [List.nil_append]
    rw [hJ]
    exact htree
  · rw [hkeys]
    simp [keysOf, NewUnstructured, Unstructured.fields]
  · rw [FieldsLen_eq_keysOf_length, hkeys]
    simp [keysOf, NewUnstructured, Unstructured.fields]

/-- Instance of C5: `a, b, c { d, f, g }, h` is four well-formed fields; it
parses to the four top-level fields `a`, `b`, `c`, `h`, and the child of `c`
holds exactly `d`, `f`, `g`. -/
theorem C5_fields_joined_by_commas_witness :
    ParseUnstructured "a, b, c \x7b d, f, g \x7d, h" = .ret (.mk
      (some [("a", none), ("b", none),
        ("c", some (.mk (some [("d", none), ("f", none), ("g", none)]))),
        ("h", none)]), none) ∧
    ∃ tree, ParseUnstructured "a, b, c \x7b d, f, g \x7d, h" = .ret (tree, none) ∧
      keysOf tree = ["a", "b", "c", "h"] ∧ tree.FieldsLen = 4 :=
  ⟨rfl,
   C5_fields_joined_by_commas [] []
    [⟨[], "a".toList, none, []⟩, ⟨" ".toList, "b".toList, none, []⟩,
     ⟨" ".toList, "c".toList, some (" ".toList, " d, f, g ".toList), []⟩,
     ⟨" ".toList, "h".toList, none, []⟩]
    (by decide) (by decide) (by simp)
    (by
      intro f hf
      simp only [List.mem_cons, List.mem_singleton, List.not_mem_nil, or_false] at hf
      rcases hf with rfl | rfl | rfl | rfl
      · exact ⟨by decide, by decide, ⟨by decide, by decide, by decide⟩, by decide,
          fun _ _ h => by cases h⟩
      · exact ⟨by decide, by decide, ⟨by decide, by decide, by decide⟩, by decide,
          fun _ _ h => by cases h⟩
      · refine ⟨by decide, by decide, ⟨by decide, by decide, by decide⟩, by decide, ?_⟩
        intro mid body h
        cases h
        exact ⟨by decide, by decide, _, rfl⟩
      · exact ⟨by decide, by decide, ⟨by decide, by decide, by decide⟩, by decide,
          fun _ _ h => by cases h⟩)
    (by intro f h; cases h; rfl)
    (by intro f h; cases h; rfl)
    (by decide)⟩

/-- C6 as stated fails: `{a}` parses to the tree with the field `a`, but
`{{a}}` is unwrapped once only and parses to the tree with the field `{a}`;
the two trees are not structurally equal. -/
theorem C6_wrapped_expression_wrapped_again :
    ∃ t t' : Unstructured,
      ParseUnstructured "\x7ba\x7d" = .ret (t, none) ∧
      ParseUnstructured ("\x7b" ++ "\x7ba\x7d" ++ "\x7d") = .ret (t', none) ∧
      t = .mk (some [("a", none)]) ∧ t' = .mk (some [("\x7ba\x7d", none)]) ∧
      structEq t t' = false :=
  ⟨_, _, rfl, rfl, rfl, rfl, rfl⟩

/-- C6 as amended: let `e` be a non-empty expression whose trimmed form `t`
is not itself wrapped in braces and neither starts nor ends with a comma.  If
`ParseUnstructured(e)` succeeds with a tree, then
`ParseUnstructured("{" + e + "}")` succeeds with the same tree. -/
theorem C6_unwrapped_once (e : String) (t : List Char) (tree : Unstructured)
    (hne : e.toList ≠ [])
    (htrim : trimFragmentChars e.toList = .ret t)
    (hwr : isWrapped t = false)
    (hhead : t.head? ≠ some comma) (hlast : t.getLast? ≠ some comma)
    (hparse : ParseUnstructured e = .ret (tree, none)) :
    ParseUnstructured ("\x7b" ++ e ++ "\x7d") = .ret (tree, none) := by
  generalize hch : e.toList = chars at hne htrim
  have hns : ∃ c ∈ chars, isSpace c = false := by
    by_contra hno
    have hall : ∀ c ∈ chars, isSpace c = true := by
      intro c hc
      by_contra hcs
      exact hno ⟨c, hc, by simpa using hcs⟩
    rw [trimFragmentChars_allSpace chars hne hall] at htrim
    cases htrim
  obtain ⟨w1, t', w2, ht, hdec, hw1, hw2, _, _, htrim'⟩ := trimFragmentChars_of_nonspace chars hns
  have htt : t' = t := by
    rw [htrim'] at htrim
    exact Run.ret.inj htrim
  subst htt
  have hl : t'.length ≠ 0 := by
    have := List.length_pos.mpr ht; omega
  -- the parse of `e`
  unfold ParseUnstructured at hparse
  rw [hch, htrim'] at hparse
  simp only [] at hparse
  rw [parseString_plain _ _ hwr] at hparse
  unfold parseBody at hparse
  rw [if_neg hl, splitFragmentByComma_eq] at hparse
  cases hscan : commaScan t' t' 0 [] [] 0 with
  | panic m => rw [hscan] at hparse; cases hparse
  | outOfFuel => rw [hscan] at hparse; cases hparse
  | ret res =>
    obtain ⟨parts, err⟩ := res
    cases err with
    | some msg => rw [hscan] at hparse; simp at hparse
    | none =>
      rw [hscan] at hparse
      simp only [] at hparse
      -- the parse of the wrapped expression
      have hlist : ("\x7b" ++ e ++ "\x7d").toList = leftBrace :: (chars ++ [rightBrace]) := by
        simp only [String.toList, String.data_append] at hch ⊢
        rw [hch]
        rfl
      have htrimw : trimFragmentChars (leftBrace :: (chars ++ [rightBrace]))
          = .ret (leftBrace :: (chars ++ [rightBrace])) := by
        apply trimFragmentChars_id _ (by simp)
        · rfl
        · rw [List.getLast_cons (by simp), List.getLast_append_of_ne_nil (by simp)]
          rfl
      unfold ParseUnstructured
      rw [hlist, htrimw]
      simp only []
      rw [parseString_wrapped, if_neg hne]
      unfold parseBody
      have hcl : chars.length ≠ 0 := by
        have := List.length_pos.mpr hne; omega
      rw [if_neg hcl, splitFragmentByComma_eq]
      have hpass : commaScan chars chars 0 [] [] 0
          = commaScan chars (t' ++ w2) (0 + w1.length) [] ([] ++ w1) 0 := by
        have e1 : chars = w1 ++ (t' ++ w2) := by rw [hdec]; simp
        conv_lhs => rw [e1]
        rw [← e1]
        have := commaScan_field chars (t' ++ w2) (by simp [ht]) w1 0 0
          (scanField_plain w1 (fun x hx => ⟨isSpace_ne_leftBrace x (hw1 x hx),
            isSpace_ne_rightBrace x (hw1 x hx), isSpace_ne_comma x (hw1 x hx)⟩) 0) 0 [] []
        rw [← e1] at this
        exact this
      obtain ⟨out', hout, hpad⟩ := commaScan_padded t' chars w2 hw2 t' ht hlast 0 (0 + w1.length)
        [] [] [] w1 0 parts List.Forall₂.nil hw1 (fun _ => Or.inr hhead) hscan
      rw [hpass]
      simp only [List.nil_append, List.append_nil] at hout ⊢
      rw [hout]
      simp only []
      rw [parseFieldParts_padded _ parts out' hpad]
      rw [parseFieldParts_mono (parseString t'.length) _ _ parts NewUnstructured
        (by rw [hparse]; exact fun hh => by cases hh)]
      · exact hparse
      · intro y hy
        apply parseString_mono _ _ _ y hy
        rw [hdec]
        simp only [List.length_cons, List.length_append, List.length_singleton]
        omega

/-- Instance of C6 as amended: ` a, b ` parses to the fields `a` and `b`, and
so does `{ a, b }`. -/
theorem C6_unwrapped_once_witness :
    ParseUnstructured " a, b " = .ret (.mk (some [("a", none), ("b", none)]), none) ∧
    ParseUnstructured ("\x7b" ++ " a, b " ++ "\x7d")
      = .ret (.mk (some [("a", none), ("b", none)]), none) :=
  ⟨rfl, C6_unwrapped_once " a, b " "a, b".toList _ (by decide) (by rfl) (by rfl) (by decide)
    (by decide) rfl⟩

/-! ## The untyped tree: results on the claims C11 to C20 -/

/-- C11 (the code aborts): a field whose brace block holds only white space,
as in `a { }`, does not become a bare inclusion: `ParseUnstructured` panics
with an index out of range when it trims the content of the block. -/
theorem C11_blank_block_panics (name mid w : List Char) (hn : name ≠ [])
    (hname : ∀ c ∈ name, c ≠ leftBrace ∧ c ≠ rightBrace ∧ c ≠ comma)
    (h0 : isSpace (name.head hn) = false) (h1 : isSpace (name.getLast hn) = false)
    (hmid : ∀ c ∈ mid, isSpace c = true)
    (hw : w ≠ []) (hws : ∀ c ∈ w, isSpace c = true) :
    ParseUnstructured (String.mk ((name ++ mid) ++ braceBlock w))
      = .panic "runtime error: index out of range [-1]" := by
  generalize hchars : (name ++ mid) ++ braceBlock w = chars
  have hpre : name ++ mid ≠ [] := by simp [hn]
  have hne : chars ≠ [] := by rw [← hchars]; simp [hn]
  have hhead : chars.head hne = name.head hn := by
    subst hchars
    rw [List.head_append_of_ne_nil hpre, List.head_append_of_ne_nil hn]
  have hhead? : chars.head? = some (name.head hn) := by
    rw [List.head?_eq_head hne, hhead]
  have hlast? : chars.getLast? = some rightBrace := by
    rw [← hchars, List.getLast?_append_of_ne_nil _ (braceBlock_ne_nil w),
      List.getLast?_eq_getLast _ (braceBlock_ne_nil w), braceBlock_getLast]
  have htrim : trimFragmentChars chars = .ret chars := by
    have := trimFragmentChars_append_of_head? [] chars [] (by simp) (by simp) _ _ hhead? hlast?
      h0 (by decide)
    simpa using this
  have hwr : isWrapped chars = false :=
    isWrapped_false_of_head chars hne (by rw [hhead]; exact (hname _ (List.head_mem hn)).1)
  have hbody : scanDepth 0 w = some 0 := scanDepth_spaces w hws 0
  have hfield : scanField 0 chars = some 0 := by
    rw [← hchars, scanField_append, scanField_append, scanField_plain name hname,
      Option.some_bind, scanField_plain mid (spaces_plain mid hmid), Option.some_bind]
    exact scanField_block w hbody
  have hsplit : splitFragment chars chars.length = .ret ([name ++ mid, braceBlock w], none) := by
    rw [← hchars]
    exact splitFragment_name_block (name ++ mid) w hpre
      (by
        intro c hc
        rcases List.mem_append.mp hc with hc | hc
        · exact ⟨(hname c hc).1, (hname c hc).2.1⟩
        · exact ⟨isSpace_ne_leftBrace c (hmid c hc), isSpace_ne_rightBrace c (hmid c hc)⟩)
      hbody
  have htrimname : trimFragmentChars (name ++ mid) = .ret name := by
    have := trimFragmentChars_append [] name mid (by simp) hmid hn h0 h1
    simpa using this
  have hl : chars.length ≠ 0 := by
    have := List.length_pos.mpr hne; omega
  obtain ⟨k, hk⟩ : ∃ k, chars.length = k + 1 := ⟨chars.length - 1, by omega⟩
  have hwl : w.length ≠ 0 := by
    have := List.length_pos.mpr hw; omega
  have hnested : parseString (k + 1) (braceBlock w)
      = .panic "runtime error: index out of range [-1]" := by
    unfold braceBlock
    rw [parseString_wrapped, if_neg hw]
    unfold parseBody
    rw [if_neg hwl, splitFragmentByComma_eq,
      commaScan_last_field w w hw (scanField_plain w (spaces_plain w hws) 0)]
    simp only [List.nil_append]
    rw [parseFieldParts, trimFragmentChars_allSpace w hw hws]
  unfold ParseUnstructured
  show (match trimFragmentChars chars with
    | .panic msg => Run.panic msg
    | .outOfFuel => Run.outOfFuel
    | .ret chars => parseString (chars.length + 1) chars) = _
  rw [htrim]
  simp only []
  rw [parseString_plain _ _ hwr]
  unfold parseBody
  rw [if_neg hl, splitFragmentByComma_eq, commaScan_last_field chars chars hne hfield]
  simp only [List.nil_append]
  rw [parseFieldParts, htrim]
  simp only [hsplit, List.length_cons, List.length_nil, show ¬ (0 + 1 + 1 > 2) by omega, if_false,
    List.getElem?_cons_zero, htrimname, show ¬ (0 + 1 + 1 = 1) by omega, if_true,
    List.getD_cons_succ, List.getD_cons_zero]
  rw [hk, hnested]

/-- Instance of C11: `a { }` makes `ParseUnstructured` panic. -/
theorem C11_blank_block_panics_witness :
    ParseUnstructured "a \x7b \x7d" = .panic "runtime error: index out of range [-1]" :=
  C11_blank_block_panics "a".toList " ".toList " ".toList (by decide) (by decide) (by decide)
    (by decide) (by decide) (by decide) (by decide)

/-- C12: for a tree `T` (with pairwise different keys at every level, as
every Go map has) and names `ns`, `Add(T, ns)` is not undefined, has every
name of `ns`, keeps every key of `T` with its child, gives every name that
was not a key a nil child, and adding the same names again changes nothing, so
the result is structurally equal. -/
theorem C12_add (T : Unstructured) (ns : List String) (hT : T.valid = true) :
    (T.Add ns).IsUndefined = false ∧
    (∀ n ∈ ns, (T.Add ns).HasByName n = true) ∧
    (∀ k c, mapLookup (T.fields.getD []) k = some c →
      mapLookup ((T.Add ns).fields.getD []) k = some c) ∧
    (∀ n ∈ ns, n ∉ keysOf T →
      mapLookup ((T.Add ns).fields.getD []) n = some none ∧ (T.Add ns).Field n = none) ∧
    (T.Add ns).Add ns = T.Add ns ∧
    structEq ((T.Add ns).Add ns) (T.Add ns) = true := by
  have hkeys : keysOf T = (T.fields.getD []).map Prod.fst := by
    cases T with
    | mk fs => cases fs <;> rfl
  have hidem : (T.Add ns).Add ns = T.Add ns := by
    rw [Add_eq _ ns (Add_valid T ns hT), Add_eq T ns hT]
    simp only [Unstructured.fields, Option.getD_some]
    rw [addFold_of_all_mem]
    intro n hn
    exact addFold_has ns _ n (Or.inl hn)
  refine ⟨?_, ?_, ?_, ?_, hidem, ?_⟩
  · rw [Add_eq T ns hT]; rfl
  · intro n hn
    rw [Add_eq T ns hT]
    simp only [Unstructured.HasByName, Unstructured.fields]
    exact (mapLookup_isSome_iff _ n).mpr (addFold_has ns _ n (Or.inl hn))
  · intro k c h
    rw [Add_eq T ns hT]
    simp only [Unstructured.fields, Option.getD_some]
    exact addFold_lookup_old ns _ k c h
  · intro n hn hk
    rw [hkeys] at hk
    have := addFold_lookup_new ns (T.fields.getD []) n hn hk
    rw [Add_eq T ns hT]
    refine ⟨this, ?_⟩
    show (mapLookup (List.foldl addStep (T.fields.getD []) ns) n).getD none = none
    rw [this]
    rfl
  · rw [hidem]
    exact structEq_refl _ (Add_valid T ns hT)

/-- Instance of C12, the repository's test "constructs with fields":
`NewUnstructured().Add("fieldA", "fieldB", "fieldD")` has the three names and
not `fieldC`. -/
theorem C12_add_witness :
    (NewUnstructured.Add ["fieldA", "fieldB", "fieldD"]).HasByName "fieldA" = true ∧
    (NewUnstructured.Add ["fieldA", "fieldB", "fieldD"]).HasByName "fieldB" = true ∧
    (NewUnstructured.Add ["fieldA", "fieldB", "fieldD"]).HasByName "fieldD" = true ∧
    (NewUnstructured.Add ["fieldA", "fieldB", "fieldD"]).HasByName "fieldC" = false ∧
    (NewUnstructured.Add ["fieldA", "fieldB", "fieldD"]).IsUndefined = false ∧
    structEq ((NewUnstructured.Add ["fieldA"]).Add ["fieldA"]) (NewUnstructured.Add ["fieldA"])
      = true :=
  ⟨(C12_add NewUnstructured ["fieldA", "fieldB", "fieldD"] rfl).2.1 "fieldA" (by decide),
   (C12_add NewUnstructured ["fieldA", "fieldB", "fieldD"] rfl).2.1 "fieldB" (by decide),
   (C12_add NewUnstructured ["fieldA", "fieldB", "fieldD"] rfl).2.1 "fieldD" (by decide),
   rfl,
   (C12_add NewUnstructured ["fieldA", "fieldB", "fieldD"] rfl).1,
   (C12_add NewUnstructured ["fieldA"] rfl).2.2.2.2.2⟩

/-- C13: for a tree `T` (with pairwise different keys at every level) and a
non-empty list of names `ns`, `Remove(T, ns)` is not undefined, has none of
the names of `ns`, and keeps every key of `T` that is not in `ns` with its
child; when every key of `T` is in `ns` the result is the empty tree, which
has no name at all. -/
theorem C13_remove (T : Unstructured) (ns : List String) (hns : ns ≠ [])
    (hT : T.valid = true) :
    (T.Remove ns).IsUndefined = false ∧
    (∀ n ∈ ns, (T.Remove ns).HasByName n = false) ∧
    (∀ k c, k ∉ ns → mapLookup (T.fields.getD []) k = some c →
      mapLookup ((T.Remove ns).fields.getD []) k = some c) ∧
    ((∀ k ∈ keysOf T, k ∈ ns) →
      (T.Remove ns).IsEmpty = true ∧ ∀ n, (T.Remove ns).HasByName n = false) := by
  have hkeys : keysOf T = (T.fields.getD []).map Prod.fst := by
    cases T with
    | mk fs => cases fs <;> rfl
  rw [Remove_eq_of_valid T ns hns hT]
  have hlookup := mapLookup_filter_key (T.fields.getD []) (fun k => decide (k ∉ ns))
  refine ⟨rfl, ?_, ?_, ?_⟩
  · intro n hn
    show (mapLookup ((T.fields.getD []).filter (fun e => decide (e.1 ∉ ns))) n).isSome = false
    rw [hlookup n]
    simp [hn]
  · intro k c hk h
    show mapLookup ((T.fields.getD []).filter (fun e => decide (e.1 ∉ ns))) k = some c
    rw [hlookup k]
    simp [hk, h]
  · intro hall
    have hnil : (T.fields.getD []).filter (fun e => decide (e.1 ∉ ns)) = [] := by
      apply List.filter_eq_nil_iff.mpr
      intro e he
      simp only [decide_eq_true_eq, not_not]
      apply hall
      rw [hkeys]
      exact List.mem_map.mpr ⟨e, he, rfl⟩
    rw [hnil]
    exact ⟨rfl, fun n => rfl⟩

/-- Instance of C13, the repository's test "adds and removes unstructured
fields": after `Add("fieldA")` and `Remove("fieldA")` the tree is not
undefined and has neither `fieldA` nor `fieldB`. -/
theorem C13_remove_witness :
    ((NewUnstructured.Add ["fieldA"]).Remove ["fieldA"]).IsUndefined = false ∧
    ((NewUnstructured.Add ["fieldA"]).Remove ["fieldA"]).HasByName "fieldA" = false ∧
    ((NewUnstructured.Add ["fieldA"]).Remove ["fieldA"]).IsEmpty = true ∧
    ((NewUnstructured.Add ["fieldA"]).Remove ["fieldA"]).HasByName "fieldB" = false :=
  ⟨(C13_remove (NewUnstructured.Add ["fieldA"]) ["fieldA"] (by decide) rfl).1,
   (C13_remove (NewUnstructured.Add ["fieldA"]) ["fieldA"] (by decide) rfl).2.1 "fieldA"
     (by decide),
   ((C13_remove (NewUnstructured.Add ["fieldA"]) ["fieldA"] (by decide) rfl).2.2.2
     (by decide)).1,
   ((C13_remove (NewUnstructured.Add ["fieldA"]) ["fieldA"] (by decide) rfl).2.2.2
     (by decide)).2 "fieldB"⟩

/-- C14: an undefined tree answers true to `HasByName` for every name and to
`Has` for every list of arguments, its `Expr` is the empty string and its
`FieldsLen` is 0. -/
theorem C14_undefined_tree (typeName : Value → String) (fuel : Nat) (T : Unstructured)
    (hT : T.IsUndefined = true) :
    (∀ name, T.HasByName name = true) ∧
    (∀ v, T.Has typeName (fuel + 1) v = .ret true) ∧
    T.Expr = "" ∧ T.FieldsLen = 0 := by
  cases T with
  | mk fs =>
    cases fs with
    | some m => simp [Unstructured.IsUndefined, Unstructured.fields] at hT
    | none => exact ⟨fun _ => rfl, fun v => Has_undefined typeName fuel v, rfl, rfl⟩

/-- Instance of C14, the repository's test "undefined behaviour", on the
zero value of `Unstructured`. -/
theorem C14_undefined_tree_witness :
    NewUnstructured.HasByName "fieldB" = true ∧
    NewUnstructured.Has (fun _ => "[]interface {}") 1 [.string "fieldB"] = .ret true ∧
    NewUnstructured.Expr = "" ∧ NewUnstructured.FieldsLen = 0 :=
  ⟨(C14_undefined_tree (fun _ => "[]interface {}") 0 NewUnstructured rfl).1 "fieldB",
   (C14_undefined_tree (fun _ => "[]interface {}") 0 NewUnstructured rfl).2.1 _,
   (C14_undefined_tree (fun _ => "[]interface {}") 0 NewUnstructured rfl).2.2.1,
   (C14_undefined_tree (fun _ => "[]interface {}") 0 NewUnstructured rfl).2.2.2⟩

/-- C15 (the code answers false): on every defined tree `Has` returns false,
whatever it is asked, because it passes the whole variadic slice to
`ParseUnstructured`, which has no case for it and returns an error. -/
theorem C15_has_is_false_on_defined (typeName : Value → String) (fuel : Nat)
    (T : Unstructured) (v : List Value) (hT : T.IsUndefined = false) :
    T.Has typeName (fuel + 1) v = .ret false := by
  cases T with
  | mk fs =>
    cases fs with
    | none => simp [Unstructured.IsUndefined, Unstructured.fields] at hT
    | some m => exact Has_defined typeName fuel m v

/-- Instance of C15: the tree built by `Add("fieldA")` has the key `fieldA`,
and `Has("fieldA")` returns false on it. -/
theorem C15_has_is_false_on_defined_witness :
    (NewUnstructured.Add ["fieldA"]).HasByName "fieldA" = true ∧
    (NewUnstructured.Add ["fieldA"]).Has (fun _ => "[]interface {}") 1 [.string "fieldA"]
      = .ret false :=
  ⟨rfl, C15_has_is_false_on_defined _ 0 _ _ rfl⟩

/-- C16 (the code drops every field): on a defined receiver `pick` returns a
tree without any key, because `Has` answers false for every field of the
query and the field is put on the list of fields to remove. -/
theorem C16_pick_on_defined_has_no_key (typeName : Value → String) (fuel : Nat)
    (T Q : Unstructured) (hT : T.IsUndefined = false) (hQ : Q.valid = true) :
    ∃ R, T.pick typeName (fuel + 1) Q = .ret R ∧ keysOf R = [] := by
  cases T with
  | mk fs =>
    cases fs with
    | none => simp [Unstructured.IsUndefined, Unstructured.fields] at hT
    | some m =>
      exact ⟨_, pick_defined typeName fuel m Q, keysOf_Remove_all Q hQ⟩

/-- Instance of C16: picking the field `a` from the tree with the field `a`
gives the empty tree, where the key sets intersect in `a`. -/
theorem C16_pick_on_defined_has_no_key_witness :
    "a" ∈ keysOf (NewUnstructured.Add ["a"]) ∧
    (NewUnstructured.Add ["a"]).pick (fun _ => "[]interface {}") 1 (NewUnstructured.Add ["a"])
      = .ret NewEmptyUnstructured ∧
    ∃ R, (NewUnstructured.Add ["a"]).pick (fun _ => "[]interface {}") 1
        (NewUnstructured.Add ["a"]) = .ret R ∧ keysOf R = [] :=
  ⟨by decide, rfl, C16_pick_on_defined_has_no_key _ 0 _ _ rfl rfl⟩

/-- C17 (the code is not idempotent): picking a query `Q` that has fields,
none with a defined child, from the undefined tree gives `Q`; picking `Q`
from that result gives the empty tree, which is not structurally equal to
`Q`. -/
theorem C17_pick_twice_differs (typeName : Value → String) (fuel fuel' : Nat)
    (Q : Unstructured) (q : FieldMap) (hQ : Q.fields = some q) (hq : q ≠ [])
    (hv : Q.valid = true) (hflat : ∀ e ∈ q, childUndefined e.2 = true) :
    ∃ P P', NewUnstructured.pick typeName (fuel + 1) Q = .ret P ∧
      P.pick typeName (fuel' + 1) Q = .ret P' ∧ P = Q ∧ keysOf P' = [] ∧
      structEq P' P = false := by
  have hQmk : Q = .mk (some q) := by
    cases Q with
    | mk fs => simp only [Unstructured.fields] at hQ; rw [hQ]
  subst hQmk
  have hkeys : keysOf (Unstructured.mk (some q)) ≠ [] := by
    simpa [keysOf, Unstructured.fields] using hq
  have hrem : (Unstructured.mk (some q)).Remove (keysOf (Unstructured.mk (some q)))
      = .mk (some []) := by
    rw [Remove_eq_of_valid _ _ hkeys hv]
    simp only [keysOf, Unstructured.fields, Option.getD_some]
    rw [keysOf_filter_all q]
  refine ⟨.mk (some q), .mk (some []), ?_, ?_, rfl, rfl, ?_⟩
  · exact pick_undefined_flat typeName fuel _ (by simpa [Unstructured.fields] using hflat)
  · rw [pick_defined, hrem]
  · have hl : ¬ (0 = q.length) := by
      have := List.length_pos.mpr hq; omega
    simp [structEq, hl]

/-- Instance of C17: with `T` undefined and `Q` the tree with the field `a`,
`pick(T, Q)` is `Q` and `pick(pick(T, Q), Q)` is the empty tree. -/
theorem C17_pick_twice_differs_witness :
    NewUnstructured.pick (fun _ => "[]interface {}") 1 (NewUnstructured.Add ["a"])
      = .ret (NewUnstructured.Add ["a"]) ∧
    (NewUnstructured.Add ["a"]).pick (fun _ => "[]interface {}") 1 (NewUnstructured.Add ["a"])
      = .ret NewEmptyUnstructured ∧
    structEq NewEmptyUnstructured (NewUnstructured.Add ["a"]) = false ∧
    ∃ P P', NewUnstructured.pick (fun _ => "[]interface {}") 1 (NewUnstructured.Add ["a"])
        = .ret P ∧
      P.pick (fun _ => "[]interface {}") 1 (NewUnstructured.Add ["a"]) = .ret P' ∧
      P = NewUnstructured.Add ["a"] ∧ keysOf P' = [] ∧ structEq P' P = false :=
  ⟨rfl, rfl, rfl,
   C17_pick_twice_differs _ 0 0 (NewUnstructured.Add ["a"]) [("a", none)] rfl
     (List.cons_ne_nil _ _) rfl (by decide)⟩

/-- C18 (the code loses the picked keys): for a defined tree `T` and a query
`Q` that has fields, none with a defined child, `pick(T, Q)` has no key and
`omit(T, Q)` has no key of `Q`; so a key of `Q`, which by assumption is a key
of `T`, is in neither of the two results. -/
theorem C18_pick_and_omit_miss_keys (typeName : Value → String) (fuel fuel' : Nat)
    (T Q : Unstructured) (q : FieldMap) (hT : T.IsUndefined = false)
    (hQ : Q.fields = some q) (hq : q ≠ [])
    (hvT : T.valid = true) (hvQ : Q.valid = true)
    (hflat : ∀ e ∈ q, childUndefined e.2 = true)
    (hsub : ∀ k ∈ keysOf Q, k ∈ keysOf T) :
    ∃ P O, T.pick typeName (fuel + 1) Q = .ret P ∧
      T.omitTree typeName (fuel' + 1) Q = .ret O ∧
      keysOf P = [] ∧
      (∀ k ∈ keysOf Q, k ∈ keysOf T ∧ k ∉ keysOf P ∧ k ∉ keysOf O) ∧
      ∃ k, k ∈ keysOf T ∧ k ∉ keysOf P ++ keysOf O := by
  have hQmk : Q = .mk (some q) := by
    cases Q with
    | mk fs => simp only [Unstructured.fields] at hQ; rw [hQ]
  subst hQmk
  obtain ⟨P, hP, hPk⟩ := pick_defined_keys typeName fuel T _ hT hvQ
  have hqk : q.map Prod.fst ≠ [] := by simpa using hq
  have hO : T.omitTree typeName (fuel' + 1) (.mk (some q)) = .ret (T.Remove (q.map Prod.fst)) :=
    omit_flat typeName fuel' T q hq hflat
  have hOk : ∀ k ∈ q.map Prod.fst, k ∉ keysOf (T.Remove (q.map Prod.fst)) := by
    intro k hk hmem
    rw [Remove_eq_of_valid T _ hqk hvT] at hmem
    simp only [keysOf, Unstructured.fields] at hmem
    obtain ⟨e, he, hek⟩ := List.mem_map.mp hmem
    have := (List.mem_filter.mp he).2
    simp only [decide_eq_true_eq] at this
    exact this (hek ▸ hk)
  have hall : ∀ k ∈ keysOf (Unstructured.mk (some q)),
      k ∈ keysOf T ∧ k ∉ keysOf P ∧ k ∉ keysOf (T.Remove (q.map Prod.fst)) := by
    intro k hk
    refine ⟨hsub k hk, by rw [hPk]; simp, hOk k ?_⟩
    simpa [keysOf, Unstructured.fields] using hk
  refine ⟨P, _, hP, hO, hPk, hall, ?_⟩
  obtain ⟨e, rest, hqe⟩ := List.exists_cons_of_ne_nil hq
  have hk : e.1 ∈ keysOf (Unstructured.mk (some q)) := by
    simp [keysOf, Unstructured.fields, hqe]
  obtain ⟨h1, h2, h3⟩ := hall e.1 hk
  exact ⟨e.1, h1, by simp [h2, h3]⟩

/-- Instance of C18: for `T` with the fields `a`, `b` and `Q` with the field
`a`, `pick(T, Q)` is the empty tree and `omit(T, Q)` has the field `b`: the
key `a` of `T` is in neither. -/
theorem C18_pick_and_omit_miss_keys_witness :
    (NewUnstructured.Add ["a", "b"]).pick (fun _ => "[]interface {}") 1
      (NewUnstructured.Add ["a"]) = .ret NewEmptyUnstructured ∧
    (NewUnstructured.Add ["a", "b"]).omitTree (fun _ => "[]interface {}") 1
      (NewUnstructured.Add ["a"]) = .ret (NewUnstructured.Add ["b"]) ∧
    ∃ P O, (NewUnstructured.Add ["a", "b"]).pick (fun _ => "[]interface {}") 1
        (NewUnstructured.Add ["a"]) = .ret P ∧
      (NewUnstructured.Add ["a", "b"]).omitTree (fun _ => "[]interface {}") 1
        (NewUnstructured.Add ["a"]) = .ret O ∧
      keysOf P = [] ∧
      (∀ k ∈ keysOf (NewUnstructured.Add ["a"]),
        k ∈ keysOf (NewUnstructured.Add ["a", "b"]) ∧ k ∉ keysOf P ∧ k ∉ keysOf O) ∧
      ∃ k, k ∈ keysOf (NewUnstructured.Add ["a", "b"]) ∧ k ∉ keysOf P ++ keysOf O :=
  ⟨rfl, rfl,
   C18_pick_and_omit_miss_keys _ 0 0 (NewUnstructured.Add ["a", "b"]) (NewUnstructured.Add ["a"])
     [("a", none)] rfl rfl (List.cons_ne_nil _ _) rfl rfl (by decide) (by decide)⟩

/-- C19 (the code aborts): when the query has a field with a defined child,
`omit` panics: it calls `omitv` on that child, and `omitv` passes its
variadic slice to `ParseUnstructured`, which returns an error. -/
theorem C19_omit_nested_panics (typeName : Value → String) (fuel : Nat)
    (T Q : Unstructured) (q : FieldMap) (hQ : Q.fields = some q) (hv : Q.valid = true)
    (hnested : ∃ e ∈ q, childUndefined e.2 = false) :
    ∃ msg, T.omitTree typeName (fuel + 1) Q = .panic msg := by
  have hQmk : Q = .mk (some q) := by
    cases Q with
    | mk fs => simp only [Unstructured.fields] at hQ; rw [hQ]
  subst hQmk
  have hq : q ≠ [] := by
    obtain ⟨e, he, _⟩ := hnested
    exact List.ne_nil_of_mem he
  have hl : q.length ≠ 0 := by
    have := List.length_pos.mpr hq; omega
  simp only [Unstructured.valid] at hv
  obtain ⟨msg, hmsg⟩ := omitLoop_nested_panics typeName (Unstructured.omitTree typeName fuel) q
    (validEntries_nodup q hv) q T [] (fun e he => he) hnested
  refine ⟨msg, ?_⟩
  rw [Unstructured.omitTree]
  simp only [Unstructured.IsUndefinedOrEmpty, Unstructured.IsUndefined, Unstructured.fields,
    Unstructured.fieldsLen, Option.isNone_some, Bool.false_or, beq_iff_eq, hl, if_false,
    Option.getD_some, hmsg]

/-- Instance of C19: with `T` parsed from `a { b, c }` and `Q` parsed from
`a { b }`, `omit(T, Q)` panics and does not return the tree of `a { c }`. -/
theorem C19_omit_nested_panics_witness :
    ∃ T Q, ParseUnstructured "a \x7b b, c \x7d" = .ret (T, none) ∧
      ParseUnstructured "a \x7b b \x7d" = .ret (Q, none) ∧
      ∃ msg, T.omitTree (fun _ => "[]interface {}") 1 Q = .panic msg :=
  ⟨_, _, rfl, rfl,
   C19_omit_nested_panics _ 0 _ (.mk (some [("a", some (.mk (some [("b", none)])))])) _ rfl rfl
     ⟨_, List.mem_cons_self _ _, rfl⟩⟩

/-- C20 (the code answers false): when `Q` has a field and `Assign(T, Q)`
returns the tree `R`, `Has(R, Q)` is false, as `Has` is on every defined
tree. -/
theorem C20_has_after_assign_is_false (typeName : Value → String) (fuel fuel' : Nat)
    (T Q R : Unstructured) (q : FieldMap) (hQ : Q.fields = some q) (hq : q ≠ [])
    (hA : T.Assign typeName fuel [.unstructured Q] = .ret R) :
    R.Has typeName (fuel' + 1) [.unstructured Q] = .ret false := by
  have hR := Assign_defined typeName fuel T Q R q hQ hq hA
  cases R with
  | mk fs =>
    cases fs with
    | none => simp [Unstructured.IsUndefined, Unstructured.fields] at hR
    | some m => exact Has_defined typeName fuel' m _

/-- Instance of C20: assigning the tree with the field `a` to itself returns
that tree, and `Has` of the same query on the result is false. -/
theorem C20_has_after_assign_is_false_witness :
    (NewUnstructured.Add ["a"]).Assign (fun _ => "[]interface {}") 1
      [.unstructured (NewUnstructured.Add ["a"])] = .ret (NewUnstructured.Add ["a"]) ∧
    (NewUnstructured.Add ["a"]).Has (fun _ => "[]interface {}") 1
      [.unstructured (NewUnstructured.Add ["a"])] = .ret false :=
  ⟨rfl, C20_has_after_assign_is_false _ 1 0 (NewUnstructured.Add ["a"]) (NewUnstructured.Add ["a"])
    _ [("a", none)] rfl (List.cons_ne_nil _ _) rfl⟩

/-! ## `Assign` of the untyped tree and the typed tree: results on the claims C21 to C30 -/

/-- C21: for trees `T` and `Q` (with pairwise different keys at every level)
and `Q` defined, `Assign(T, Q)` returns, when the bound on the recursion
exceeds the height of `Q`, a tree whose keys are the keys of `T` and the keys
of `Q`; a field of `Q` that is not a key of `T` has the child it has in `Q`;
a field of `Q` under which `T` has a child gets the recursive `Assign` of the
two children to a new tree, whose keys are the keys of both children. -/
theorem C21_assign_merges_keys (typeName : Value → String) (fuel : Nat) (T Q : Unstructured)
    (q : FieldMap) (hQ : Q.fields = some q) (hT : T.valid = true) (hQv : Q.valid = true)
    (hfuel : height Q < fuel) :
    ∃ R, T.Assign typeName fuel [.unstructured Q] = .ret R ∧
      (∀ k, k ∈ keysOf R ↔ k ∈ keysOf T ∨ k ∈ keysOf Q) ∧
      (∀ k c, (k, c) ∈ q → k ∉ keysOf T → mapLookup (R.fields.getD []) k = some c) ∧
      (∀ k c ct, (k, c) ∈ q → T.Field k = some ct →
        ∃ M, NewUnstructured.Assign typeName (fuel - 1)
            [fragmentValue (some ct), fragmentValue c] = .ret M ∧
          mapLookup (R.fields.getD []) k = some (some M) ∧
          (∀ j, j ∈ keysOf M ↔ j ∈ keysOf ct ∨ j ∈ keysOfChild c)) := by
  have hqmk : Q = .mk (some q) := by
    cases Q with
    | mk fs => simp only [Unstructured.fields] at hQ; rw [hQ]
  have hh : heightEntries q + 2 ≤ fuel := by
    rw [hqmk] at hfuel
    simp only [height] at hfuel
    omega
  obtain ⟨n, rfl⟩ : ∃ n, fuel = n + 2 := ⟨fuel - 2, by omega⟩
  obtain ⟨R, hR, hk, h2, h3⟩ := Assign_tree typeName n T Q q hQ hT hQv (by omega)
  refine ⟨R, hR, hk, ?_, h3⟩
  intro k c hmem hnot
  apply h2 k c hmem
  rw [Field_eq]
  have : (mapLookup (T.fields.getD []) k).isSome ≠ true := fun h =>
    hnot ((mem_keysOf_iff T k).mpr h)
  cases hl : mapLookup (T.fields.getD []) k with
  | none => rfl
  | some v => rw [hl] at this; exact absurd rfl this

/-- Instance of C21: assigning the tree of `a { y }, b` to the tree of
`a { x }` gives the keys `a` and `b`, with the keys `x` and `y` under `a`. -/
theorem C21_assign_merges_keys_witness :
    (Unstructured.mk (some [("a", some (.mk (some [("x", none)])))])).Assign
        (fun _ => "[]interface \x7b\x7d") 3
        [.unstructured (.mk (some [("a", some (.mk (some [("y", none)]))), ("b", none)]))]
      = .ret (.mk (some [("a", some (.mk (some [("x", none), ("y", none)]))), ("b", none)])) ∧
    ∃ R, (Unstructured.mk (some [("a", some (.mk (some [("x", none)])))])).Assign
        (fun _ => "[]interface \x7b\x7d") 3
        [.unstructured (.mk (some [("a", some (.mk (some [("y", none)]))), ("b", none)]))]
        = .ret R ∧
      (∀ k, k ∈ keysOf R ↔
        k ∈ keysOf (Unstructured.mk (some [("a", some (.mk (some [("x", none)])))])) ∨
        k ∈ keysOf (Unstructured.mk
          (some [("a", some (.mk (some [("y", none)]))), ("b", none)]))) :=
  ⟨rfl, by
    obtain ⟨R, hR, hk, _⟩ := C21_assign_merges_keys (fun _ => "[]interface \x7b\x7d") 3
      (.mk (some [("a", some (.mk (some [("x", none)])))]))
      (.mk (some [("a", some (.mk (some [("y", none)]))), ("b", none)]))
      [("a", some (.mk (some [("y", none)]))), ("b", none)] rfl rfl rfl (by decide)
    exact ⟨R, hR, hk⟩⟩

/-- C22 (the code writes to the map of its receiver): `assignv` on a defined
receiver stores the fields of the assigned tree in the map object that the
receiver refers to, so a name of `Q` that `T` did not have is a name of `T`
after the call.  Stated for an assigned map with pairwise different names
under which the receiver has no child. -/
theorem C22_assign_writes_to_receiver (fuel : Nat) (s : Store) (a b : Nat) (k : String)
    (_hab : a ≠ b) (ha : a < s.length)
    (hnd : ((s.object b).map Prod.fst).Nodup)
    (hno : ∀ e ∈ s.object b, (objectLookup (s.object a) e.1).getD none = none)
    (hk : k ∈ (s.object b).map Prod.fst)
    (_hkT : HasByNameStore s ⟨some a⟩ k = false) :
    ∃ s1, assignvStore (fuel + 1) s ⟨some a⟩ [some ⟨some b⟩] = .ret (s1, ⟨some a⟩) ∧
      HasByNameStore s1 ⟨some a⟩ k = true := by
  obtain ⟨s1, hs1, _, h1, _⟩ := assignFieldsStore_writes (assignvStore fuel) a (s.object b) hnd s
    ha hno
  refine ⟨s1, ?_, h1 k hk⟩
  simp only [assignvStore, assignArgsStore, hs1]

/-- Instance of C22: with `T` the tree with the field `a` and `Q` the tree
with the field `b`, `T` does not have `b` before `T.Assign(Q)` and has it
after the call. -/
theorem C22_assign_writes_to_receiver_witness :
    HasByNameStore [[("a", none)], [("b", none)]] ⟨some 0⟩ "b" = false ∧
    assignvStore 1 [[("a", none)], [("b", none)]] ⟨some 0⟩ [some ⟨some 1⟩]
      = .ret ([[("a", none), ("b", none)], [("b", none)]], ⟨some 0⟩) ∧
    ∃ s1, assignvStore 1 [[("a", none)], [("b", none)]] ⟨some 0⟩ [some ⟨some 1⟩]
        = .ret (s1, ⟨some 0⟩) ∧
      HasByNameStore s1 ⟨some 0⟩ "b" = true :=
  ⟨rfl, rfl, C22_assign_writes_to_receiver 0 [[("a", none)], [("b", none)]] 0 1 "b"
    (by decide) (by decide) (by decide) (by decide) (by decide) rfl⟩

/-- C23: an undefined typed tree over a type of which a field carries the
include-by-default marker has, by index and by name, exactly the fields that
carry the marker; over a type without such a field it has every field of the
type. -/
theorem C23_default_inclusion (lib : Library) (T : Struct) (r : TypeRef)
    (hT : T.typeMeta = some r) (hU : T.IsUndefined = true) :
    ((∃ sf ∈ (lib.decl r).allFields, includeDefault sf = true) →
      (∀ i, T.HasByIndex lib i = true ↔
        ∃ sf, (lib.decl r).Field i = some sf ∧ includeDefault sf = true) ∧
      (∀ n, T.HasByName lib n = true ↔
        ∃ sf, (lib.decl r).FieldByName n = some sf ∧ includeDefault sf = true)) ∧
    ((∀ sf ∈ (lib.decl r).allFields, includeDefault sf = false) →
      (∀ i, T.HasByIndex lib i = true ↔ ((lib.decl r).Field i).isSome = true) ∧
      (∀ n, T.HasByName lib n = true ↔ ((lib.decl r).FieldByName n).isSome = true)) := by
  rw [Struct.eq_of_undefined T r hT hU]
  constructor
  · intro hex
    have hhas := (typeHasIncludeDefaults_iff lib r).mpr hex
    have hidx : ∀ i, (Struct.mk (some r) none).HasByIndex lib i = true ↔
        ∃ sf, (lib.decl r).Field i = some sf ∧ includeDefault sf = true := by
      intro i
      rw [Struct.HasByIndex_undefined]
      cases (lib.decl r).Field i with
      | none => simp
      | some sf => simp [hhas]
    refine ⟨hidx, ?_⟩
    intro n
    rw [Struct.HasByName_eq]
    cases hn : (lib.decl r).FieldByName n with
    | none => simp
    | some sf =>
      simp only [hidx, StructDecl.FieldByName_field _ n sf hn, Option.some.injEq]
  · intro hno
    have hhas := typeHasIncludeDefaults_eq_false lib r hno
    have hidx : ∀ i, (Struct.mk (some r) none).HasByIndex lib i = true ↔
        ((lib.decl r).Field i).isSome = true := by
      intro i
      rw [Struct.HasByIndex_undefined]
      cases (lib.decl r).Field i with
      | none => simp
      | some sf => simp [hhas]
    refine ⟨hidx, ?_⟩
    intro n
    rw [Struct.HasByName_eq]
    cases hn : (lib.decl r).FieldByName n with
    | none => simp
    | some sf => simp [hidx, StructDecl.FieldByName_field _ n sf hn]

/-- Instance of C23, the repository's test "includedefault checks": the
undefined tree of `StructB` has `Date`, which carries the marker, and does
not have `StructA`. -/
theorem C23_default_inclusion_witness :
    NewStruct testLibrary (structType "StructB") = .ret (.mk (some "StructB") none) ∧
    (Struct.mk (some "StructB") none).HasByName testLibrary "StructA" = false ∧
    (Struct.mk (some "StructB") none).HasByName testLibrary "Date" = true ∧
    (∀ n, (Struct.mk (some "StructB") none).HasByName testLibrary n = true ↔
      ∃ sf, (testLibrary.decl "StructB").FieldByName n = some sf ∧ includeDefault sf = true) :=
  ⟨rfl, rfl, rfl,
   ((C23_default_inclusion testLibrary (.mk (some "StructB") none) "StructB" rfl rfl).1
     ⟨fieldMetaOf 1 (FieldDecl.mk "Date" "time" (some "includedefault") "Date"
        (plainType "time.Time")), by decide, rfl⟩).2⟩

/-- C24, counterexample: `StructA` is a field name of the type `StructB`, the
tree is undefined, and `HasByName("StructA")` is false, because another field
of the type carries the include-by-default marker. -/
theorem C24_unmarked_name_of_undefined_tree :
    (Struct.mk (some "StructB") none).IsValid = true ∧
    (Struct.mk (some "StructB") none).IsUndefined = true ∧
    ((testLibrary.decl "StructB").FieldByName "StructA").isSome = true ∧
    (Struct.mk (some "StructB") none).HasByName testLibrary "StructA" = false :=
  ⟨rfl, rfl, rfl, rfl⟩

/-- C24, amended: for an undefined typed tree over a type none of whose
fields carries the include-by-default marker, `HasByName` is true for every
field name of the type; for a name that is not a field name of the type it is
false. -/
theorem C24_has_by_name_of_undefined (lib : Library) (T : Struct) (r : TypeRef)
    (hT : T.typeMeta = some r) (hU : T.IsUndefined = true)
    (hno : ∀ sf ∈ (lib.decl r).allFields, includeDefault sf = false) :
    (∀ n, ((lib.decl r).FieldByName n).isSome = true → T.HasByName lib n = true) ∧
    (∀ n, (lib.decl r).FieldByName n = none → T.HasByName lib n = false) := by
  rw [Struct.eq_of_undefined T r hT hU]
  have hhas := typeHasIncludeDefaults_eq_false lib r hno
  constructor
  · intro n hn
    rw [Struct.HasByName_eq]
    cases hf : (lib.decl r).FieldByName n with
    | none => rw [hf] at hn; cases hn
    | some sf =>
      simp only [Struct.HasByIndex_undefined, StructDecl.FieldByName_field _ n sf hf, hhas]
      rfl
  · intro n hn
    rw [Struct.HasByName_eq, hn]

/-- Instance of C24, the repository's test "check included immediate
fields": the undefined tree of `StructA` has `Name`, `Age` and `Info`, and no
field `Other`. -/
theorem C24_has_by_name_of_undefined_witness :
    (Struct.mk (some "StructA") none).HasByName testLibrary "Name" = true ∧
    (Struct.mk (some "StructA") none).HasByName testLibrary "Age" = true ∧
    (Struct.mk (some "StructA") none).HasByName testLibrary "Info" = true ∧
    (Struct.mk (some "StructA") none).HasByName testLibrary "Other" = false :=
  ⟨(C24_has_by_name_of_undefined testLibrary (.mk (some "StructA") none) "StructA" rfl rfl
      (by decide)).1 "Name" rfl,
   (C24_has_by_name_of_undefined testLibrary (.mk (some "StructA") none) "StructA" rfl rfl
      (by decide)).1 "Age" rfl,
   (C24_has_by_name_of_undefined testLibrary (.mk (some "StructA") none) "StructA" rfl rfl
      (by decide)).1 "Info" rfl,
   (C24_has_by_name_of_undefined testLibrary (.mk (some "StructA") none) "StructA" rfl rfl
      (by decide)).2 "Other" rfl⟩

/-- C25, counterexample: `AddByName` without names returns the undefined tree
it was given, which has the field `Age` although no name was added. -/
theorem C25_no_names_keeps_undefined_tree :
    (Struct.mk (some "StructA") none).AddByName testLibrary []
      = .ret (.mk (some "StructA") none) ∧
    (Struct.mk (some "StructA") none).HasByName testLibrary "Age" = true :=
  ⟨rfl, rfl⟩

/-- C25, amended: for a typed tree `T` that is undefined or empty and a
non-empty list `ns` of field names of its type, `AddByName(T, ns)` returns a
tree that has exactly the fields named in `ns`: `HasByName` is true for every
name of `ns` and false for every name of another field of the type, and
`HasByIndex` is true exactly for the indices of the names of `ns`. -/
theorem C25_add_by_name (lib : Library) (T : Struct) (r : TypeRef) (ns : List String)
    (hT : T.typeMeta = some r) (hU : T.IsUndefinedOrEmpty = true) (hns : ns ≠ [])
    (hdecl : ∀ n ∈ ns, ((lib.decl r).FieldByName n).isSome = true) :
    ∃ R, T.AddByName lib ns = .ret R ∧
      (∀ n ∈ ns, R.HasByName lib n = true) ∧
      (∀ m, (∀ n ∈ ns, (lib.decl r).FieldIndexByName n ≠ (lib.decl r).FieldIndexByName m) →
        R.HasByName lib m = false) ∧
      (∀ j, R.HasByIndex lib j = true ↔ ∃ n ∈ ns, (lib.decl r).FieldIndexByName n = j) := by
  obtain ⟨m, hR, hm⟩ := Struct.AddByName_spec lib T r ns hT hU hns hdecl
  have hidx : ∀ j, (Struct.mk (some r) (some m)).HasByIndex lib j = true ↔
      ∃ n ∈ ns, (lib.decl r).FieldIndexByName n = j := by
    intro j
    rw [Struct.HasByIndex_defined, Bool.and_eq_true, hm j]
    constructor
    · exact fun h => h.2
    · rintro ⟨n, hn, rfl⟩
      refine ⟨?_, n, hn, rfl⟩
      cases hf : (lib.decl r).FieldByName n with
      | none =>
        have := hdecl n hn
        rw [hf] at this
        cases this
      | some sf =>
        rw [(StructDecl.FieldIndexByName_some _ n sf hf).1,
          StructDecl.FieldByName_field _ n sf hf]
        rfl
  refine ⟨_, hR, ?_, ?_, hidx⟩
  · intro n hn
    rw [Struct.HasByName_eq]
    cases hf : (lib.decl r).FieldByName n with
    | none =>
      have := hdecl n hn
      rw [hf] at this
      cases this
    | some sf =>
      exact (hidx sf.Index).mpr ⟨n, hn, (StructDecl.FieldIndexByName_some _ n sf hf).1⟩
  · intro n' hne
    rw [Struct.HasByName_eq]
    cases hf : (lib.decl r).FieldByName n' with
    | none => rfl
    | some sf =>
      rw [← Bool.not_eq_true, hidx sf.Index]
      rintro ⟨n, hn, h⟩
      exact hne n hn (h.trans (StructDecl.FieldIndexByName_some _ n' sf hf).1.symm)

/-- Instance of C25, the repository's tests "check included immediate fields"
and "includedefault checks": after `AddByName("Name")` the undefined tree of
`StructA` has `Name` and not `Age`; after `AddByName("StructA")` the undefined
tree of `StructB` has `StructA` and not `Date`. -/
theorem C25_add_by_name_witness :
    (∃ R, (Struct.mk (some "StructA") none).AddByName testLibrary ["Name"] = .ret R ∧
      R.HasByName testLibrary "Name" = true ∧ R.HasByName testLibrary "Age" = false) ∧
    (∃ R, (Struct.mk (some "StructB") none).AddByName testLibrary ["StructA"] = .ret R ∧
      R.HasByName testLibrary "StructA" = true ∧ R.HasByName testLibrary "Date" = false) := by
  constructor
  · obtain ⟨R, hR, h1, h2, _⟩ := C25_add_by_name testLibrary (.mk (some "StructA") none)
      "StructA" ["Name"] rfl rfl (by decide) (by decide)
    exact ⟨R, hR, h1 "Name" (by decide), h2 "Age" (by decide)⟩
  · obtain ⟨R, hR, h1, h2, _⟩ := C25_add_by_name testLibrary (.mk (some "StructB") none)
      "StructB" ["StructA"] rfl rfl (by decide) (by decide)
    exact ⟨R, hR, h1 "StructA" (by decide), h2 "Date" (by decide)⟩

/-- C26 (the code drops the fields included by default): on an undefined
tree over a type with a field that carries the include-by-default marker,
`AddExcluded` of a field without the marker returns a tree that no longer
has the marked field, which the undefined tree had. -/
theorem C26_add_excluded_drops_defaults (lib : Library) (r : TypeRef) (i j : Int)
    (si sj : FieldMeta) (hi : (lib.decl r).Field i = some si)
    (hj : (lib.decl r).Field j = some sj) (hij : i ≠ j)
    (hmi : includeDefault si = false) (hmj : includeDefault sj = true) :
    (Struct.mk (some r) none).HasByIndex lib j = true ∧
    ∃ R, (Struct.mk (some r) none).AddExcluded lib [i] = .ret R ∧
      R.HasByIndex lib j = false := by
  have hidx := (StructDecl.Field_index _ i si hi).1
  have hany : typeHasIncludeDefaults lib (some r) = true :=
    (typeHasIncludeDefaults_iff lib r).mpr
      ⟨sj, (StructDecl.mem_allFields_iff _ sj).mpr ⟨j, hj⟩, hmj⟩
  constructor
  · rw [Struct.HasByIndex_undefined, hj]
    simp [hmj]
  · refine ⟨.mk (some r) (some [(i, newStructField si)]), ?_, ?_⟩
    · have hhas : (Struct.mk (some r) none).HasByIndex lib i = false := by
        rw [Struct.HasByIndex_undefined, hi]
        simp [hany, hmi]
      simp only [Struct.AddExcluded, List.length_singleton, Struct.typeMeta,
        Struct.addExcludedLoop, StructDecl.EnsureField, hi, Run.bind_ret, hidx, hhas]
      rfl
    · rw [Struct.HasByIndex_defined, hj]
      simp [fieldLookup, hij]

/-- Instance of C26: the undefined tree of `StructB` has `Date` by default;
after `AddExcluded` of the index of `StructA` it does not. -/
theorem C26_add_excluded_drops_defaults_witness :
    (Struct.mk (some "StructB") none).HasByName testLibrary "Date" = true ∧
    (Struct.mk (some "StructB") none).HasByIndex testLibrary 1 = true ∧
    ∃ R, (Struct.mk (some "StructB") none).AddExcluded testLibrary [0] = .ret R ∧
      R.HasByIndex testLibrary 1 = false :=
  ⟨rfl, C26_add_excluded_drops_defaults testLibrary "StructB" 0 1 _ _ rfl rfl (by decide) rfl
    rfl⟩

/-- C28 (the code returns the query): the typed `pick` computes the fields to
remove, calls `pf.Remove(remove...)` without using its value, and returns
`pf`; for a query whose fields have no defined tree the result is the query
itself, whatever the receiver has. -/
theorem C28_pick_returns_query (lib : Library) (fuel : Nat) (T Q : Struct) (r : TypeRef)
    (hT : T.typeMeta = some r) (hQ : Q.typeMeta = some r)
    (hflat : ∀ field ∈ Q.iterated lib false, field.Fragment.IsUndefined = true) :
    T.pick lib (fuel + 1) Q = .ret Q :=
  Struct.pick_flat lib fuel T Q r hT hQ hflat

/-- Instance of C28: picking the tree with the field `Name` from the empty
tree of `StructA` returns the tree with the field `Name`, a field that the
empty tree does not have. -/
theorem C28_pick_returns_query_witness :
    NewEmptyStruct testLibrary (structType "StructA") = .ret (.mk (some "StructA") (some [])) ∧
    (Struct.mk (some "StructA") none).AddByName testLibrary ["Name"]
      = .ret (.mk (some "StructA") (some [(0, newStructField
          (fieldMetaOf 0 (FieldDecl.mk "Name" "name" none "Name" (plainType "string"))))])) ∧
    (Struct.mk (some "StructA") (some [])).HasByIndex testLibrary 0 = false ∧
    (Struct.mk (some "StructA") (some [])).pick testLibrary 1
        (.mk (some "StructA") (some [(0, newStructField
          (fieldMetaOf 0 (FieldDecl.mk "Name" "name" none "Name" (plainType "string"))))]))
      = .ret (.mk (some "StructA") (some [(0, newStructField
          (fieldMetaOf 0 (FieldDecl.mk "Name" "name" none "Name" (plainType "string"))))])) ∧
    (Struct.mk (some "StructA") (some [(0, newStructField
      (fieldMetaOf 0 (FieldDecl.mk "Name" "name" none "Name" (plainType "string"))))])).HasByIndex
        testLibrary 0 = true :=
  ⟨rfl, rfl, rfl,
   C28_pick_returns_query testLibrary 0 _ _ "StructA" rfl rfl (by decide), rfl⟩

/-- C29, counterexample: `Set` of the field `StructA` of a tree of `StructB`
to a defined tree that is bound to `StructB` panics; no error value is
returned. -/
theorem C29_set_with_tree_of_other_type_panics :
    (Struct.mk (some "StructB") none).Set testLibrary 2 0
        (.struct (.mk (some "StructB") (some [])))
      = .panic ("Invalid fragment for field \"StructB.StructA\": type mismatch between "
          ++ "passed struct fragment and struct type meta: StructB vs. StructA") ∧
    (Struct.mk (some "StructB") none).AssignToField testLibrary 1 0
        (.struct (.mk (some "StructB") (some [])))
      = .panic ("Invalid fragment for field \"StructB.StructA\": type mismatch between "
          ++ "passed struct fragment and struct type meta: StructB vs. StructA") :=
  ⟨rfl, rfl⟩

/-- C29, amended: `Set` and `AssignToField` check the type of a defined
child tree against the struct type of the field, and on a mismatch they
panic with a message that names the field and the two types. -/
theorem C29_set_checks_type_and_panics (lib : Library) (fuel : Nat) (T child : Struct)
    (r s s' : TypeRef) (i : Int) (sf : FieldMeta)
    (hT : T.typeMeta = some r) (hf : (lib.decl r).Field i = some sf)
    (hs : structOfField sf = some s) (hc : child.IsUndefined = false)
    (hct : child.typeMeta = some s') (hne : s' ≠ s) :
    T.Set lib (fuel + 2) i (.struct child)
      = .panic ("Invalid fragment for field \"" ++ (lib.decl r).name ++ "." ++ sf.text ++ "\": "
          ++ ("type mismatch between passed struct fragment and struct type meta: "
            ++ (lib.decl s').text ++ " vs. " ++ (lib.decl s).text)) ∧
    T.AssignToField lib (fuel + 1) i (.struct child)
      = .panic ("Invalid fragment for field \"" ++ (lib.decl r).name ++ "." ++ sf.text ++ "\": "
          ++ ("type mismatch between passed struct fragment and struct type meta: "
            ++ (lib.decl s').text ++ " vs. " ++ (lib.decl s).text)) := by
  obtain ⟨t, ht, hts⟩ : ∃ t, sf.TypeMeta = some t ∧ t.structOf = some s := by
    unfold structOfField at hs
    cases h : sf.TypeMeta with
    | none => rw [h] at hs; cases hs
    | some t => rw [h] at hs; exact ⟨t, rfl, hs⟩
  have hparse := ParseStruct_type_mismatch lib fuel t s s' child hts hc hct hne
  cases T with
  | mk tm fs =>
    simp only [Struct.typeMeta] at hT
    subst hT
    constructor
    · simp only [Struct.Set, setBody, Struct.typeMeta, StructDecl.EnsureField, hf, Run.bind_ret,
        ht, typeArgOfField, hparse]
    · simp only [Struct.AssignToField, assignToFieldBody, Struct.typeMeta, StructDecl.EnsureField,
        hf, Run.bind_ret, ht, typeArgOfField, hparse]

/-- Instance of C29 on the type `StructB` of the tests. -/
theorem C29_set_checks_type_and_panics_witness :
    (Struct.mk (some "StructB") none).Set testLibrary 2 0
        (.struct (.mk (some "StructB") (some [])))
      = .panic ("Invalid fragment for field \"" ++ (testLibrary.decl "StructB").name ++ "."
          ++ "StructA" ++ "\": "
          ++ ("type mismatch between passed struct fragment and struct type meta: "
            ++ (testLibrary.decl "StructB").text ++ " vs. "
            ++ (testLibrary.decl "StructA").text)) :=
  (C29_set_checks_type_and_panics testLibrary 0 (.mk (some "StructB") none)
    (.mk (some "StructB") (some [])) "StructB" "StructA" "StructB" 0
    (fieldMetaOf 0 (FieldDecl.mk "StructA" "a" none "StructA" (structType "StructA")))
    rfl rfl rfl rfl rfl (by decide)).1

/-- C27, counterexample: assigning the empty tree of `StructA`, a selection
that names no field, to the undefined tree of `StructA` returns the undefined
tree, which has the field `Name`. -/
theorem C27_assign_of_empty_selection :
    (Struct.mk (some "StructA") (some [])).hasKey 0 = false ∧
    (Struct.mk (some "StructA") none).Assign testLibrary 2
        [.struct (.mk (some "StructA") (some []))] = .ret (.mk (some "StructA") none) ∧
    (Struct.mk (some "StructA") none).HasByName testLibrary "Name" = true :=
  ⟨rfl, rfl, rfl⟩

/-- C27, amended: for a receiver that is undefined or empty and selections
`Q1..Qn` over its type without nested selections, of which at least one names
a field, `Assign(T, Q1..Qn)` returns a tree that has, by index and by name,
exactly the fields that some `Qi` names. -/
theorem C27_assign_is_union (lib : Library) (fuel : Nat) (r : TypeRef) (T : Struct)
    (Qs : List Struct) (hT : T.typeMeta = some r) (hTu : T.IsUndefinedOrEmpty = true)
    (hQs : ∀ Q ∈ Qs, FlatOver lib r Q) (hpop : ∃ Q ∈ Qs, ∃ j, Q.hasKey j = true) :
    ∃ R, T.Assign lib (fuel + 2) (Qs.map Arg.struct) = .ret R ∧
      (∀ j, R.HasByIndex lib j = true ↔ ∃ Q ∈ Qs, Q.hasKey j = true) ∧
      (∀ n, R.HasByName lib n = true ↔
        ∃ sf, (lib.decl r).FieldByName n = some sf ∧ ∃ Q ∈ Qs, Q.hasKey sf.Index = true) := by
  obtain ⟨R, hR, hflat, hdef, hkeys⟩ := Struct.Assign_of_flat_selections lib fuel r T Qs hT hTu hQs hpop
  have hidx : ∀ j, R.HasByIndex lib j = true ↔ ∃ Q ∈ Qs, Q.hasKey j = true := by
    intro j
    rw [FlatOver.HasByIndex_eq lib r R hflat hdef j, hkeys j]
  refine ⟨R, hR, hidx, ?_⟩
  intro n
  have hRt := hflat.1
  cases R with
  | mk t fs =>
    simp only [Struct.typeMeta] at hRt
    subst hRt
    rw [Struct.HasByName_eq]
    cases hf : (lib.decl r).FieldByName n with
    | none => simp
    | some sf =>
      simp only [hidx sf.Index, Option.some.injEq, exists_eq_left']

/-- Instance of C27, the repository's tests "assigns" and "copies used in
multiple goroutines": assigning the tree with `Name` and the tree with `Info`
to the undefined tree of `StructA` gives a tree with `Name` and `Info` and
without `Age`; assigning `"Age, Info"` to the empty tree gives a tree with
`Age` and `Info` and without `Name`. -/
theorem C27_assign_is_union_witness :
    (∃ R, (Struct.mk (some "StructA") none).Assign testLibrary 2
        [.struct (.mk (some "StructA") (some [(0, newStructField
          (fieldMetaOf 0 (FieldDecl.mk "Name" "name" none "Name" (plainType "string"))))])),
         .struct (.mk (some "StructA") (some [(2, newStructField
          (fieldMetaOf 2 (FieldDecl.mk "Info" "info" none "Info"
            (plainType "map[string]interface \x7b\x7d"))))]))] = .ret R ∧
      R.HasByName testLibrary "Name" = true ∧ R.HasByName testLibrary "Info" = true ∧
      R.HasByName testLibrary "Age" = false) ∧
    (∃ R, (Struct.mk (some "StructA") (some [])).Assign testLibrary 3
        [.value (.string "Age, Info")] = .ret R ∧
      R.HasByName testLibrary "Name" = false ∧ R.HasByName testLibrary "Age" = true ∧
      R.HasByName testLibrary "Info" = true) := by
  constructor
  · obtain ⟨R, hR, _, hn⟩ := C27_assign_is_union testLibrary 0 "StructA"
      (.mk (some "StructA") none)
      [.mk (some "StructA") (some [(0, newStructField
          (fieldMetaOf 0 (FieldDecl.mk "Name" "name" none "Name" (plainType "string"))))]),
       .mk (some "StructA") (some [(2, newStructField
          (fieldMetaOf 2 (FieldDecl.mk "Info" "info" none "Info"
            (plainType "map[string]interface \x7b\x7d"))))])]
      rfl rfl
      (by
        intro Q hQ
        simp only [List.mem_cons, List.mem_singleton, List.not_mem_nil, or_false] at hQ
        rcases hQ with rfl | rfl
        · exact ⟨rfl, by decide⟩
        · exact ⟨rfl, by decide⟩)
      ⟨_, List.mem_cons_self _ _, 0, rfl⟩
    refine ⟨R, hR, ?_, ?_, ?_⟩
    · exact (hn "Name").mpr ⟨_, rfl, _, List.mem_cons_self _ _, rfl⟩
    · exact (hn "Info").mpr ⟨_, rfl, _, List.mem_cons_of_mem _ (List.mem_cons_self _ _), rfl⟩
    · rw [← Bool.not_eq_true, hn "Age"]
      rintro ⟨sf, hsf, Q, hQ, hk⟩
      have hsf' : sf = fieldMetaOf 1 (FieldDecl.mk "Age" "age" none "Age"
          (plainType "uint32")) := by
        have : (testLibrary.decl "StructA").FieldByName "Age" = some (fieldMetaOf 1
            (FieldDecl.mk "Age" "age" none "Age" (plainType "uint32"))) := rfl
        rw [this] at hsf
        exact (Option.some.inj hsf).symm
      subst hsf'
      simp only [List.mem_cons, List.mem_singleton, List.not_mem_nil, or_false] at hQ
      rcases hQ with rfl | rfl
      · exact absurd hk (by decide)
      · exact absurd hk (by decide)
  · exact ⟨_, rfl, rfl, rfl, rfl⟩

/-- C30 (the code aborts on an empty field name): binding a tree with fields,
none with a defined child, one of whose names is the empty string, which the
type does not resolve, panics: `quotedStringInteraces` takes `str[0:1]` of
every unrecognized name.  Neither `ToStruct` nor `ParseStruct` returns an
error. -/
theorem C30_empty_field_name_panics (lib : Library) (fuel : Nat) (t : TypeArg) (r : TypeRef)
    (m : FieldMap) (ht : t.structOf = some r)
    (hflat : ∀ e ∈ m, childUndefined e.2 = true) (hmem : "" ∈ m.map Prod.fst)
    (hres : (lib.decl r).FieldByName "" = none) :
    (Unstructured.mk (some m)).ToStruct lib (fuel + 1) (some r)
      = .panic "runtime error: slice bounds out of range [:1] with length 0" ∧
    ParseStruct lib (fuel + 2) t [.value (.unstructured (.mk (some m)))]
      = .panic "runtime error: slice bounds out of range [:1] with length 0" := by
  have hm : m ≠ [] := by
    intro h
    rw [h] at hmem
    cases hmem
  obtain ⟨fields, _, h2⟩ := ToStruct_flat lib fuel r m hm hflat
  have hin : "" ∈ unrecognizedNames (lib.decl r) (m.map Prod.fst) := by
    simp only [unrecognizedNames, List.mem_filter, hmem, hres, true_and]
    decide
  have hpos : (unrecognizedNames (lib.decl r) (m.map Prod.fst)).length > 0 :=
    List.length_pos_of_mem hin
  have hto : (Unstructured.mk (some m)).ToStruct lib (fuel + 1) (some r)
      = .panic "runtime error: slice bounds out of range [:1] with length 0" := by
    rw [h2, if_pos hpos, quotedStringInteraces_panics _ hin]
    rfl
  refine ⟨hto, ?_⟩
  rw [ParseStruct_tree lib (fuel + 1) t r m ht, hto]
  rfl

/-- Instance of C30: binding the tree built by `Add("")` to `StructA`
panics. -/
theorem C30_empty_field_name_panics_witness :
    NewUnstructured.Add [""] = .mk (some [("", none)]) ∧
    (NewUnstructured.Add [""]).ToStruct testLibrary 1 (some "StructA")
      = .panic "runtime error: slice bounds out of range [:1] with length 0" ∧
    ParseStruct testLibrary 2 (structType "StructA")
        [.value (.unstructured (NewUnstructured.Add [""]))]
      = .panic "runtime error: slice bounds out of range [:1] with length 0" :=
  ⟨rfl, C30_empty_field_name_panics testLibrary 0 (structType "StructA") "StructA"
    [("", none)] rfl (by decide) (by decide) rfl⟩

/-! ## Claims C31 to C40 -/

/-- C31: `NewStructPath` without segments gives a path whose tree is the
empty tree of the type.  For a dotted string whose segments resolve one
after another from the type, `NewStructPath` returns the path with the
indices of the segments, `FieldNames` and `FieldIndices` have one entry for
every segment, and `ToStructFragment` returns a tree with one level for
every segment, each level a defined tree with exactly one field, the field
of that segment. -/
theorem C31_path_nests_single_fields (lib : Library) (fuel : Nat) (t : TypeArg) (r : TypeRef)
    (vstr : String) (indices : List Int) (ht : t.structOf = some r)
    (hres : NamesResolve lib (some r) (splitDots vstr) indices) :
    (∃ sp empty, NewStructPath lib fuel t [] = .ret sp ∧
      sp.ToStructFragment lib fuel = .ret empty ∧ empty.IsEmpty = true) ∧
    ∃ sp fieldNames R,
      NewStructPath lib fuel t [.string vstr] = .ret sp ∧
      sp.FieldIndices = some indices ∧ indices.length = (splitDots vstr).length ∧
      sp.FieldNames lib = .ret (some fieldNames) ∧
      fieldNames.length = (splitDots vstr).length ∧
      sp.ToStructFragment lib (fuel + 2) = .ret R ∧
      NestedLevels lib (some r) indices R := by
  constructor
  · refine ⟨StructPath.mk (some r) none (.mk none none), .mk (some r) (some []), ?_, rfl, rfl⟩
    simp only [NewStructPath, ht, newStructPathLoop, Run.bind_ret, Option.getD_some,
      List.length_nil, if_true]
  · obtain ⟨hr, hlen⟩ := resolves_of_names lib (splitDots vstr) (some r) indices hres
    have hne : indices ≠ [] := by
      intro h
      rw [h] at hlen
      exact splitDots_ne_nil vstr (List.length_eq_zero.1 hlen.symm)
    obtain ⟨last, hl⟩ := structPathNames_resolved lib (splitDots vstr) (some r) indices [] hres
    obtain ⟨fieldNames, hf1, hf2⟩ := StructPath.fieldNamesLoop_length lib indices (some r) [] hr
    refine ⟨StructPath.mk (some r) (some indices) (.mk none none), fieldNames,
      nest lib (some r) indices, ?_, rfl, hlen, ?_, ?_,
      StructPath.ToStructFragment_resolved lib fuel r indices _ hne hr rfl,
      nestedLevels_nest lib indices (some r) hr⟩
    · have hpos : ¬ indices.length = 0 := fun h => hne (List.length_eq_zero.1 h)
      simp only [NewStructPath, ht, newStructPathLoop, Option.getD_some, hl, Run.bind_ret,
        List.nil_append, StructPath.withIndices, hpos, if_false]
    · simp only [StructPath.FieldNames, StructPath.FieldIndices, hf1, Run.bind_ret]
    · rw [hf2, hlen]; simp

/-- Instance of C31: the paths `B.Age` and `B.A.Name` from the type
`StructC` of `structpath_test.go`, and the expressions of their trees. -/
theorem C31_path_nests_single_fields_witness :
    (NamesResolve pathLibrary (some "StructC") (splitDots "B.Age") [0, 0] ∧
      ((∃ sp empty, NewStructPath pathLibrary 0 (structType "StructC") [] = .ret sp ∧
        sp.ToStructFragment pathLibrary 0 = .ret empty ∧ empty.IsEmpty = true) ∧
      ∃ sp fieldNames R,
        NewStructPath pathLibrary 0 (structType "StructC") [.string "B.Age"] = .ret sp ∧
        sp.FieldIndices = some [0, 0] ∧ [(0 : Int), 0].length = (splitDots "B.Age").length ∧
        sp.FieldNames pathLibrary = .ret (some fieldNames) ∧
        fieldNames.length = (splitDots "B.Age").length ∧
        sp.ToStructFragment pathLibrary (0 + 2) = .ret R ∧
        NestedLevels pathLibrary (some "StructC") [0, 0] R)) ∧
    ((NewStructPath pathLibrary 0 (structType "StructC") [.string "B.Age"]).bind (fun sp =>
      (sp.ToStructFragment pathLibrary 2).bind (fun f => f.Expr pathLibrary 3))
        = .ret "\x7b B \x7b Age \x7d \x7d") ∧
    ((NewStructPath pathLibrary 0 (structType "StructC") [.string "B.A.Name"]).bind (fun sp =>
      (sp.ToStructFragment pathLibrary 2).bind (fun f => f.Expr pathLibrary 4))
        = .ret "\x7b B \x7b A \x7b Name \x7d \x7d \x7d") :=
  have h : NamesResolve pathLibrary (some "StructC") (splitDots "B.Age") [0, 0] :=
    ⟨_, _, rfl, rfl, _, _, rfl, rfl, rfl⟩
  ⟨⟨h, C31_path_nests_single_fields pathLibrary 0 (structType "StructC") "StructC" "B.Age"
    [0, 0] rfl h⟩, rfl, rfl⟩

/-- C32: for every untyped path with a non-nil slice of names, whatever the
names and the tail tree, `ToFragment` returns the undefined tree: the loop
works on the variable `current`, and the variable `root` that is returned
is never assigned.  The path of `a.b` has the names `a` and `b`, and the
expression of its tree is the empty string. -/
theorem C32_untyped_path_compiles_to_undefined (names : List String)
    (tail : Option Unstructured) :
    (UnstructuredPath.mk (some names) tail).ToFragment = .ret (some NewUnstructured) ∧
    NewUnstructuedPath [.string "a.b"] = .ret (UnstructuredPath.mk (some ["a", "b"]) none) ∧
    (UnstructuredPath.mk (some ["a", "b"]) none).ToFragment = .ret (some NewUnstructured) ∧
    NewUnstructured.Expr = "" ∧
    NewUnstructured.IsUndefined = true :=
  ⟨UnstructuredPath.ToFragment_undefined names tail, rfl,
    UnstructuredPath.ToFragment_undefined _ _, rfl, rfl⟩

/-- C33: for a path of one index whose field has a child in the map of the
tree `T`, `FieldFragment` of the index returns the child, and `FragmentAt`
returns `T` itself, which is not the child: the loop assigns to the
variable `fragment`, and the result is the variable `currentFragment`. -/
theorem C33_fragment_at_returns_whole_tree (lib : Library) (r : TypeRef) (m : IndexMap)
    (i : Int) (sf : FieldMeta) (child tail : Struct)
    (hchild : fieldLookup m i = some (.mk sf child)) :
    (Struct.mk (some r) (some m)).FieldFragment lib i = .ret child ∧
    (StructPath.mk (some r) (some [i]) tail).FragmentAt lib (.mk (some r) (some m))
      = .ret (.mk (some r) (some m)) ∧
    child ≠ .mk (some r) (some m) := by
  have hf : (Struct.mk (some r) (some m)).FieldFragment lib i = .ret child := by
    simp only [Struct.FieldFragment, Struct.Field, Struct.typeMeta, Struct.fields,
      Option.getD_some, hchild, Run.bind_ret, StructField.Fragment]
  refine ⟨hf, ?_, Struct.ne_of_child (some r) m i sf child hchild⟩
  simp only [StructPath.FragmentAt, StructPath.FieldIndices, Option.getD_some,
    StructPath.fragmentAtLoop, hf, Run.bind_ret]

/-- Instance of C33: the tree of `StructB` with the field `StructA` and the
child `{ Name }`, and the path of the field `StructA`. -/
theorem C33_fragment_at_returns_whole_tree_witness :
    fieldLookup [(0, StructField.mk fieldStructA treeName)] 0
      = some (.mk fieldStructA treeName) ∧
    ((Struct.mk (some "StructB") (some [(0, StructField.mk fieldStructA treeName)])).FieldFragment
        testLibrary 0 = .ret treeName ∧
      (StructPath.mk (some "StructB") (some [0]) (.mk none none)).FragmentAt testLibrary
          (.mk (some "StructB") (some [(0, StructField.mk fieldStructA treeName)]))
        = .ret (.mk (some "StructB") (some [(0, StructField.mk fieldStructA treeName)])) ∧
      treeName ≠ .mk (some "StructB") (some [(0, StructField.mk fieldStructA treeName)])) :=
  ⟨rfl, C33_fragment_at_returns_whole_tree testLibrary "StructB"
    [(0, StructField.mk fieldStructA treeName)] 0 fieldStructA treeName (.mk none none) rfl⟩

/-- C34: `IsValueUndefined` returns true for the nil pointer and for the
zero `Value`; for a bool, a signed or unsigned integer and a string that is
not behind a pointer it returns true exactly when the value is false, 0 or
the empty string; for a struct that is not behind a pointer it is `IsZero`,
which returns true exactly when `IsZero` returns true for every field; and
it returns false for every pointer that is not nil to a bool, an integer, a
float, a string or a struct, whatever the pointee.  The numbers are the
kinds that the source lists: the signed and unsigned integers and the
floats. -/
theorem C34_value_undefined :
    IsValueUndefined (.ptr none) = .ret true ∧
    IsValueUndefined .invalid = .ret true ∧
    (∀ b, IsValueUndefined (.bool b) = .ret (decide (b = false))) ∧
    (∀ n, IsValueUndefined (.int n) = .ret (decide (n = 0))) ∧
    (∀ n, IsValueUndefined (.uint n) = .ret (decide (n = 0))) ∧
    (∀ s, IsValueUndefined (.string s) = .ret (decide (s = ""))) ∧
    (∀ t fields, IsValueUndefined (.struct t fields) = (GoValue.struct t fields).IsZero ∧
      (IsValueUndefined (.struct t fields) = .ret true ↔
        ∀ v ∈ fields, v.IsZero = .ret true)) ∧
    (∀ b, IsValueUndefined (.ptr (some (.bool b))) = .ret false) ∧
    (∀ n, IsValueUndefined (.ptr (some (.int n))) = .ret false) ∧
    (∀ n, IsValueUndefined (.ptr (some (.uint n))) = .ret false) ∧
    (∀ z, IsValueUndefined (.ptr (some (.float z))) = .ret false) ∧
    (∀ s, IsValueUndefined (.ptr (some (.string s))) = .ret false) ∧
    (∀ t fields, IsValueUndefined (.ptr (some (.struct t fields))) = .ret false) := by
  refine ⟨rfl, rfl, ?_, ?_, ?_, ?_, ?_, fun _ => rfl, fun _ => rfl, fun _ => rfl,
    fun _ => rfl, fun _ => rfl, fun _ _ => rfl⟩
  · intro b; cases b <;> rfl
  · intro n
    simp only [IsValueUndefined, isValueUndefined, Bool.false_eq_true, if_false, GoValue.IsZero]
    congr 1
  · intro n
    simp only [IsValueUndefined, isValueUndefined, Bool.false_eq_true, if_false, GoValue.IsZero]
    congr 1
  · intro s
    simp only [IsValueUndefined, isValueUndefined, Bool.false_eq_true, if_false, GoValue.IsZero]
    congr 1
  · intro t fields
    have h : IsValueUndefined (.struct t fields) = (GoValue.struct t fields).IsZero := by
      simp only [IsValueUndefined, isValueUndefined, Bool.false_eq_true, if_false]
    refine ⟨h, ?_⟩
    rw [h]
    simp only [GoValue.IsZero]
    exact GoValue.allZero_eq_true fields

/-- C35: `IsValueJSONNull` of an array panics, whatever its elements, and
so does `IsValueJSONNull` of a pointer to an array: the source asks
`v.IsNil()` of slices and of arrays, and `reflect.Value.IsNil` panics for
the kind array.  The array of two empty strings is an instance. -/
theorem C35_json_null_panics_on_arrays (items : List GoValue) :
    IsValueJSONNull (.array items)
      = .panic "reflect: call of reflect.Value.IsNil on array Value" ∧
    IsValueJSONNull (.ptr (some (.array items)))
      = .panic "reflect: call of reflect.Value.IsNil on array Value" ∧
    IsValueJSONNull (.array [.string "", .string ""])
      = .panic "reflect: call of reflect.Value.IsNil on array Value" ∧
    IsValueJSONNull (.slice (some [.string "", .string ""])) = .ret true :=
  ⟨rfl, rfl, rfl, rfl⟩

/-- C36: for a struct value whose first field is an array, for a tree of
the type of the value that has this field, when the field has a serialized
name and the struct type is not primitive, `pickJSON` and `PickJSON` panic:
`IsFieldValueJSONNull` asks `IsValueJSONNull` of the array, which asks
`v.IsNil()`.  The tree may be defined, with the field selected, or
undefined; the array may be the zero value. -/
theorem C36_projection_panics_on_array_field (lib : Library) (jl : JSONLibrary) (fuel : Nat)
    (T : Struct) (r : TypeRef) (sf : FieldMeta) (items rest : List GoValue)
    (ht : T.typeMeta = some r) (hprim : jl.structPrimitive r = false)
    (hhas : T.HasByIndex lib 0 = true) (hsf : (lib.decl r).Field 0 = some sf)
    (hname : sf.JSONName ≠ "") :
    pickJSON lib jl (fuel + 1) (.struct T) (.struct r (.array items :: rest))
      = .panic "reflect: call of reflect.Value.IsNil on array Value" ∧
    PickJSON lib jl (fuel + 1) (.struct T) (some (.struct r (.array items :: rest)))
      = .panic "reflect: call of reflect.Value.IsNil on array Value" := by
  have h : pickJSON lib jl (fuel + 1) (.struct T) (.struct r (.array items :: rest))
      = .panic "reflect: call of reflect.Value.IsNil on array Value" := by
    rw [pickJSON_struct lib jl fuel T r _ ht hprim]
    exact pickJSONFields_array lib jl _ T r 0 sf items rest [] ht hhas hsf hname
  refine ⟨h, ?_⟩
  simp only [PickJSON, GoValue.ValueOf, h]
  rfl

/-- Instance of C36: the record of type `Record` with the zero values of
its fields, the first of type `[2]string` and tagged `omitempty`, with the
tree that selects the first field and with the undefined tree; and the
record of type `Counter` with the zero value of its field of type `int`,
for which the first tree gives the map from `count` to nil and the second
the empty map. -/
theorem C36_projection_panics_on_array_field_witness :
    ((nest recordLibrary (some "Record") [0]).typeMeta = some "Record" ∧
      (nest recordLibrary (some "Record") [0]).IsUndefined = false ∧
      (nest recordLibrary (some "Record") [0]).HasByIndex recordLibrary 0 = true ∧
      (pickJSON recordLibrary recordJSON (0 + 1) (.struct (nest recordLibrary (some "Record") [0]))
          (.struct "Record" (.array [.string "", .string ""] :: [.int 0, .string ""]))
        = .panic "reflect: call of reflect.Value.IsNil on array Value" ∧
      PickJSON recordLibrary recordJSON (0 + 1)
          (.struct (nest recordLibrary (some "Record") [0]))
          (some (.struct "Record" (.array [.string "", .string ""] :: [.int 0, .string ""])))
        = .panic "reflect: call of reflect.Value.IsNil on array Value")) ∧
    ((Struct.mk (some "Record") none).HasByIndex recordLibrary 0 = true ∧
      (pickJSON recordLibrary recordJSON (0 + 1) (.struct (.mk (some "Record") none))
          (.struct "Record" (.array [.string "", .string ""] :: [.int 0, .string ""]))
        = .panic "reflect: call of reflect.Value.IsNil on array Value" ∧
      PickJSON recordLibrary recordJSON (0 + 1) (.struct (.mk (some "Record") none))
          (some (.struct "Record" (.array [.string "", .string ""] :: [.int 0, .string ""])))
        = .panic "reflect: call of reflect.Value.IsNil on array Value")) ∧
    PickJSON recordLibrary recordJSON 1 (.struct (nest recordLibrary (some "Counter") [0]))
        (some (.struct "Counter" [.int 0]))
      = .ret (some (.map (some [("count", .iface none)])), none) ∧
    PickJSON recordLibrary recordJSON 1 (.struct (.mk (some "Counter") none))
        (some (.struct "Counter" [.int 0]))
      = .ret (some (.map (some [])), none) :=
  ⟨⟨rfl, rfl, rfl, C36_projection_panics_on_array_field recordLibrary recordJSON 0
      (nest recordLibrary (some "Record") [0]) "Record"
      ((declRecord.Field 0).getD FieldMeta.zero) [.string "", .string ""] [.int 0, .string ""]
      rfl rfl rfl rfl (by decide)⟩,
    ⟨rfl, C36_projection_panics_on_array_field recordLibrary recordJSON 0
      (.mk (some "Record") none) "Record"
      ((declRecord.Field 0).getD FieldMeta.zero) [.string "", .string ""] [.int 0, .string ""]
      rfl rfl rfl rfl (by decide)⟩, rfl, rfl⟩

/-- C37: with a tree that is not nil, when `pickJSON` returns without error
for every element of a list, `pickJSON` of the slice and of the array of
these elements returns the slice with one entry for every element, in
order: the nil interface value where the projection is the zero `Value`,
as it is for a nil pointer, and the projection otherwise.  When `pickJSON`
with a typed tree, whose map is keyed by the fields of its type, returns a
map for a struct value, every key of the map is the serialized name, not
empty, of a field for which `HasByIndex` is true. -/
theorem C37_lists_elementwise_and_selected_keys (lib : Library) (jl : JSONLibrary) (fuel : Nat)
    (fragment : FragmentArg) (items outs : List GoValue) (T : Struct) (r : TypeRef)
    (fields : List GoValue) (entries : List (String × GoValue))
    (hfrag : fragment ≠ .nil)
    (hproj : List.Forall₂
      (fun element out => pickJSON lib jl fuel fragment element = .ret (out, none)) items outs)
    (ht : T.typeMeta = some r) (hk : Struct.Keyed lib r T)
    (hres : pickJSON lib jl (fuel + 1) (.struct T) (.struct r fields)
      = .ret (.map (some entries), none)) :
    pickJSON lib jl (fuel + 1) fragment (.slice (some items))
      = .ret (.slice (some (outs.map boxJSON)), none) ∧
    pickJSON lib jl (fuel + 1) fragment (.array items)
      = .ret (.slice (some (outs.map boxJSON)), none) ∧
    (outs.map boxJSON).length = items.length ∧
    pickJSON lib jl (fuel + 1) fragment (.ptr none) = .ret (.invalid, none) ∧
    boxJSON .invalid = .iface none ∧
    ∀ k ∈ entries.map Prod.fst, SelectedName lib r T k := by
  have hs := pickJSONSlice_spec (pickJSON lib jl fuel fragment) items outs [] hproj
  simp only [List.nil_append] at hs
  refine ⟨?_, ?_, ?_, ?_, rfl, ?_⟩
  · show pickJSONBody lib jl (pickJSON lib jl fuel) fragment (.slice (some items)) = _
    cases fragment with
    | nil => exact absurd rfl hfrag
    | struct f =>
      simp only [pickJSONBody, unwrapInterface, nonPtrValue, pickJSONValue, Option.getD_some, hs]
    | unstructured f =>
      simp only [pickJSONBody, unwrapInterface, nonPtrValue, pickJSONValue, Option.getD_some, hs]
  · show pickJSONBody lib jl (pickJSON lib jl fuel) fragment (.array items) = _
    cases fragment with
    | nil => exact absurd rfl hfrag
    | struct f => simp only [pickJSONBody, unwrapInterface, nonPtrValue, pickJSONValue, hs]
    | unstructured f => simp only [pickJSONBody, unwrapInterface, nonPtrValue, pickJSONValue, hs]
  · rw [List.length_map]
    exact hproj.length_eq.symm
  · show pickJSONBody lib jl (pickJSON lib jl fuel) fragment (.ptr none) = _
    cases fragment with
    | nil => exact absurd rfl hfrag
    | struct f => rfl
    | unstructured f => rfl
  · have hprim : jl.structPrimitive r = false := by
      cases hp : jl.structPrimitive r with
      | false => rfl
      | true =>
        have : pickJSON lib jl (fuel + 1) (.struct T) (.struct r fields)
            = .ret (.struct r fields, none) := by
          show pickJSONBody lib jl (pickJSON lib jl fuel) (.struct T) (.struct r fields) = _
          simp only [pickJSONBody, unwrapInterface, nonPtrValue, pickJSONValue, pickJSONStruct,
            ht, hp, if_true]
        rw [this] at hres
        cases hres
    rw [pickJSON_struct lib jl fuel T r fields ht hprim] at hres
    exact pickJSONFields_keys lib jl _ T r ht hk fields 0 [] entries
      (fun k hk' => absurd hk' (List.not_mem_nil _)) hres

/-- Instance of C37: the tree `{ Name }` of `StructA`, a list of a record
and a nil pointer, and the map of the record. -/
theorem C37_lists_elementwise_and_selected_keys_witness :
    (FragmentArg.struct treeName ≠ .nil ∧
      List.Forall₂
        (fun element out =>
          pickJSON testLibrary testJSON 1 (.struct treeName) element = .ret (out, none))
        [.struct "StructA" [.string "a", .uint 1, .map none], .ptr none]
        [.map (some [("name", .iface (some (.string "a")))]), .invalid] ∧
      treeName.typeMeta = some "StructA" ∧ Struct.Keyed testLibrary "StructA" treeName ∧
      pickJSON testLibrary testJSON (1 + 1) (.struct treeName)
          (.struct "StructA" [.string "a", .uint 1, .map none])
        = .ret (.map (some [("name", .iface (some (.string "a")))]), none)) ∧
    (pickJSON testLibrary testJSON (1 + 1) (.struct treeName)
        (.slice (some [.struct "StructA" [.string "a", .uint 1, .map none], .ptr none]))
      = .ret (.slice (some ([GoValue.map (some [("name", .iface (some (.string "a")))]),
          .invalid].map boxJSON)), none) ∧
    pickJSON testLibrary testJSON (1 + 1) (.struct treeName)
        (.array [.struct "StructA" [.string "a", .uint 1, .map none], .ptr none])
      = .ret (.slice (some ([GoValue.map (some [("name", .iface (some (.string "a")))]),
          .invalid].map boxJSON)), none) ∧
    ([GoValue.map (some [("name", .iface (some (.string "a")))]), .invalid].map boxJSON).length
      = [GoValue.struct "StructA" [.string "a", .uint 1, .map none], .ptr none].length ∧
    pickJSON testLibrary testJSON (1 + 1) (.struct treeName) (.ptr none) = .ret (.invalid, none) ∧
    boxJSON .invalid = .iface none ∧
    ∀ k ∈ [("name", GoValue.iface (some (.string "a")))].map Prod.fst,
      SelectedName testLibrary "StructA" treeName k) :=
  have hk : Struct.Keyed testLibrary "StructA" treeName := by
    intro e he
    have he' : e ∈ [((0 : Int), StructField.mk ((declStructA.Field 0).getD FieldMeta.zero)
        (.mk none none))] := he
    rw [List.mem_singleton] at he'
    subst he'
    rfl
  have hp : List.Forall₂
      (fun element out =>
        pickJSON testLibrary testJSON 1 (.struct treeName) element = .ret (out, none))
      [.struct "StructA" [.string "a", .uint 1, .map none], .ptr none]
      [.map (some [("name", .iface (some (.string "a")))]), .invalid] :=
    List.Forall₂.cons rfl (List.Forall₂.cons rfl List.Forall₂.nil)
  ⟨⟨(fun h => by cases h), hp, rfl, hk, rfl⟩,
    C37_lists_elementwise_and_selected_keys testLibrary testJSON 1 (.struct treeName)
      [.struct "StructA" [.string "a", .uint 1, .map none], .ptr none]
      [.map (some [("name", .iface (some (.string "a")))]), .invalid]
      treeName "StructA" [.string "a", .uint 1, .map none]
      [("name", .iface (some (.string "a")))] (fun h => by cases h) hp rfl hk rfl⟩

/-- C38: `Register(p)` on an error without a path sets the path to `p`, and
on an error whose path is `q` sets it to `p` followed by `q`; an error
wrapped with an inner field name and then with an outer one has the outer
name first, also through `NewError`, which hands a fragment error back as
it is; `Error()` is the message followed by the path joined with dots in
parentheses, and the message alone when no path is set. -/
theorem C38_register_composes_innermost_first (msg : String) :
    (∀ p, (Error.mk none msg).Register p = Error.mk p msg) ∧
    (∀ p q, (Error.mk (some q) msg).Register (some p) = Error.mk (some (p ++ q)) msg) ∧
    (∀ p q, ((Error.mk (some q) msg).Register p).Path.getD [] = p.getD [] ++ q) ∧
    (∀ inner outer,
      (NewError (.error msg)).bind (fun e =>
        (NewError (.fragmentError (e.Register (some [inner])))).bind (fun e =>
          .ret (e.Register (some [outer]))))
        = .ret (Error.mk (some [outer, inner]) msg)) ∧
    (Error.mk none msg).Error = msg ∧
    (∀ path, (Error.mk (some path) msg).Error
      = msg ++ " (" ++ String.intercalate "." path ++ ")") := by
  refine ⟨fun _ => rfl, fun _ _ => rfl, ?_, fun _ _ => rfl, rfl, fun _ => rfl⟩
  intro p q
  cases p with
  | none => cases q <;> rfl
  | some p => rfl

/-- C39: binding the empty untyped tree to any struct type, with any
library of types and so also with types that refer back to themselves,
returns without error once the fuel covers the two levels of calls: the
result is a defined tree whose fields all carry a tree with the nil map.  A
type that is already in the table of expanded types is answered with the
tree without fields. -/
theorem C39_default_expansion_terminates (lib : Library) (fuel : Nat) (r : TypeRef)
    (circular : List TypeRef) (hmem : r ∈ circular) :
    (∃ m, NewEmptyUnstructured.ToStruct lib (fuel + 2) (some r)
        = .ret (.mk (some r) (some m), none) ∧
      ∀ e ∈ m, e.2.Fragment.fields = none) ∧
    NewEmptyUnstructured.toStruct lib (fuel + 1) (some r) circular
      = .ret ((.mk (some r) none, none), circular) := by
  constructor
  · obtain ⟨m, hm, hall⟩ := toStructDefaults_returns lib fuel
      (typeHasIncludeDefaults lib (some r)) (lib.decl r).allFields [] none [r]
    refine ⟨m, ?_, ?_⟩
    · show ((toStructBody lib (ParseStruct lib (fuel + 1)) (Unstructured.toStruct lib (fuel + 1))
        NewEmptyUnstructured (some r) []).bind (fun r => .ret r.1)) = _
      simp only [toStructBody, NewEmptyUnstructured, Unstructured.fields, List.length_nil,
        gt_iff_lt, lt_self_iff_false, if_false, List.contains_nil, Bool.false_eq_true, hm,
        Run.bind_ret]
    · intro e he
      rcases hall e he with h | h
      · cases h
      · exact h
  · show toStructBody lib (ParseStruct lib fuel) (Unstructured.toStruct lib fuel)
      NewEmptyUnstructured (some r) circular = _
    have hc : circular.contains r = true := by simpa using hmem
    simp only [toStructBody, NewEmptyUnstructured, Unstructured.fields, List.length_nil,
      gt_iff_lt, lt_self_iff_false, if_false, hc, if_true]

/-- Instance of C39: the type `Node`, which has a field of its own type and
a field of a type that refers back to it. -/
theorem C39_default_expansion_terminates_witness :
    "Node" ∈ ["Node"] ∧
    ((∃ m, NewEmptyUnstructured.ToStruct cyclicLibrary (0 + 2) (some "Node")
        = .ret (.mk (some "Node") (some m), none) ∧
      ∀ e ∈ m, e.2.Fragment.fields = none) ∧
    NewEmptyUnstructured.toStruct cyclicLibrary (0 + 1) (some "Node") ["Node"]
      = .ret ((.mk (some "Node") none, none), ["Node"])) :=
  ⟨by decide, C39_default_expansion_terminates cyclicLibrary 0 "Node" ["Node"] (by decide)⟩

/-- C40: whenever `splitFragment` returns without error, the returned parts
concatenated in order are the input, no part is empty, and every part that
starts with an opening brace is an opening brace, runes whose braces
balance, and a closing brace. -/
theorem C40_split_parts_invariant (chars : List Char) (parts : List (List Char))
    (h : splitFragment chars chars.length = .ret (parts, none)) :
    parts.flatten = chars ∧
    ∀ p ∈ parts, p ≠ [] ∧
      (p.head? = some leftBrace →
        ∃ body, p = leftBrace :: (body ++ [rightBrace]) ∧ scanDepth 0 body = some 0) :=
  splitFragment_parts chars parts h

/-- Instance of C40: the expression of the test "parses fragment layers"
and its four parts. -/
theorem C40_split_parts_invariant_witness :
    splitFragment "ab,c,d\x7bf,g\x7d, h \x7bi,j\x7d".toList 20
      = .ret (["ab,c,d".toList, "\x7bf,g\x7d".toList, ", h ".toList, "\x7bi,j\x7d".toList], none) ∧
    (["ab,c,d".toList, "\x7bf,g\x7d".toList, ", h ".toList, "\x7bi,j\x7d".toList].flatten
        = "ab,c,d\x7bf,g\x7d, h \x7bi,j\x7d".toList ∧
      ∀ p ∈ ["ab,c,d".toList, "\x7bf,g\x7d".toList, ", h ".toList, "\x7bi,j\x7d".toList],
        p ≠ [] ∧
        (p.head? = some leftBrace →
          ∃ body, p = leftBrace :: (body ++ [rightBrace]) ∧ scanDepth 0 body = some 0)) :=
  ⟨by decide, C40_split_parts_invariant "ab,c,d\x7bf,g\x7d, h \x7bi,j\x7d".toList _ (by decide)⟩

end Fragment
